import Mathlib

/-!
# BadgerDB storage engine (buffer manager, B+-tree index): a shallow embedding

Source files embedded here:

* `BufferManager/src/buffer.cpp`  (class `BufMgr`)
* `BufferManager/src/main.cpp`    (the test scenarios that fix the expected behaviour)
* `BplusTreeIndexManager/src/btree.cpp`  (class `BTreeIndex`)

The headers (`buffer.h`, `bufHashTbl.h`, `file.h`, `page.h`, `btree.h`) are not part of the
repository sources at hand; what the methods of `BufMgr` use from them is modelled from
the design document, each such definition saying so in its comment.

Conventions of the embedding.

* A `File*` is a natural number (the identity of the handle); `NULL` is `none`.
* The arrays `bufDescTable` and `bufPool` are lists of length `numBufs`.
* A `Page*` handed to the caller is the index of the frame it points into.
* Every operation returns its outcome (`Except`) together with the state it
  leaves behind, because a C++ exception does not undo the writes made before
  the `throw`.
* Unsigned 32-bit arithmetic is written with an explicit `% 2 ^ 32` at the places
  where it can wrap (the constructor's `bufs - 1`, the loop bound `2 * numBufs`).
  Counters (`pinCnt`, the statistics) are natural numbers.
-/

namespace badgerdb

/-! ## Finite maps as association lists -/

/-- First binding of the key `k`, if any. -/
def amLookup {κ ν : Type} [DecidableEq κ] : List (κ × ν) → κ → Option ν
  | [], _ => none
  | (k1, v) :: t, k => if k1 = k then some v else amLookup t k

/-- Drop every binding of the key `k`. -/
def amRemove {κ ν : Type} [DecidableEq κ] (m : List (κ × ν)) (k : κ) : List (κ × ν) :=
  m.filter (fun e => decide (e.1 ≠ k))

/-- Bind `k` to `v`, replacing what was there. -/
def amInsert {κ ν : Type} [DecidableEq κ] (m : List (κ × ν)) (k : κ) (v : ν) : List (κ × ν) :=
  (k, v) :: amRemove m k

/-! ## Pages, files, exceptions -/

abbrev FileId := Nat
abbrev PageId := Nat
abbrev FrameId := Nat

/-- Modelled from the spec: a page (class `Page`, whose source is not in the repository
sources) is its page number, as returned by `page_number()`, together with its bytes. -/
structure Page where
  page_number : PageId
  data : List Nat
deriving DecidableEq

instance : Inhabited Page := ⟨⟨0, []⟩⟩

deriving instance DecidableEq for Except

/-- The exceptions that cross the buffer manager's boundary.  `FrameUnset` is not a C++
exception: it stands for the undefined behaviour of using the out-parameter `frame`
of `allocBuf` when the loop of `allocBuf` ended without assigning it. -/
inductive Exn where
  | BufferExceededException
  | PageNotPinnedException
  | PagePinnedException
  | BadBufferException
  | InvalidPageException
  | FrameUnset
deriving DecidableEq

/-- Calls received by the paged files, most recent first. -/
inductive FileCall where
  | allocatePage (file : FileId) (pageNo : PageId)
  | readPage (file : FileId) (pageNo : PageId)
  | writePage (file : FileId) (pageNo : PageId)
  | deletePage (file : FileId) (pageNo : PageId)
deriving DecidableEq

/-- Modelled from the spec: the paged files (class `File`, whose source is not in the
repository sources).  Section 6 of the design gives the contract: `allocate_page`
assigns a new page id (monotonically, 1-based) and persists a zero-initialised page,
`read_page`, `write_page` and `delete_page` act on one page by id.  `pages` maps
(file, page id) to the persisted page, `nextPageNo` is the next id each file hands
out (1 when the file has no binding), `calls` records the calls made. -/
structure Disk where
  pages : List ((FileId × PageId) × Page)
  nextPageNo : List (FileId × PageId)
  calls : List FileCall
deriving DecidableEq

/-- Next page id the file will assign. -/
def Disk.next (d : Disk) (file : FileId) : PageId :=
  (amLookup d.nextPageNo file).getD 1

/-- Modelled from the spec: `File::allocatePage`. -/
def Disk.allocatePage (d : Disk) (file : FileId) : Page × Disk :=
  let n := d.next file
  let pg : Page := { page_number := n, data := [] }
  (pg, { pages := amInsert d.pages (file, n) pg
         nextPageNo := amInsert d.nextPageNo file (n + 1)
         calls := FileCall.allocatePage file n :: d.calls })

/-- Modelled from the spec: `File::readPage`; a page that the file does not hold gives
`InvalidPageException` (this is what `test3` of `main.cpp` expects). -/
def Disk.readPage (d : Disk) (file : FileId) (pageNo : PageId) : Except Exn Page × Disk :=
  match amLookup d.pages (file, pageNo) with
  | none => (.error .InvalidPageException, d)
  | some pg => (.ok pg, { d with calls := FileCall.readPage file pageNo :: d.calls })

/-- Modelled from the spec: `File::writePage`; the page is stored under its own
`page_number()`. -/
def Disk.writePage (d : Disk) (file : FileId) (pg : Page) : Disk :=
  { d with pages := amInsert d.pages (file, pg.page_number) pg
           calls := FileCall.writePage file pg.page_number :: d.calls }

/-- Modelled from the spec: `File::deletePage`. -/
def Disk.deletePage (d : Disk) (file : FileId) (pageNo : PageId) : Disk :=
  { d with pages := amRemove d.pages (file, pageNo)
           calls := FileCall.deletePage file pageNo :: d.calls }

/-! ## Frame descriptors -/

/-- Descriptor of one frame (class `BufDesc` of `buffer.h`). -/
structure BufDesc where
  file : Option FileId
  pageNo : PageId
  frameNo : FrameId
  pinCnt : Nat
  dirty : Bool
  valid : Bool
  refbit : Bool
deriving DecidableEq

/-- Modelled from the spec: `BufDesc::Clear` (declared in `buffer.h`, which is not in the
repository sources) "clears the frame": no file, no page, not valid, not dirty, pin
count 0, reference bit off; the frame keeps its number. -/
def BufDesc.Clear (d : BufDesc) : BufDesc :=
  { file := none, pageNo := 0, frameNo := d.frameNo, pinCnt := 0,
    dirty := false, valid := false, refbit := false }

/-- Modelled from the spec: `BufDesc::Set` (declared in `buffer.h`, which is not in the
repository sources) "initializes the frame (valid, dirty=false, pin=1, ref=false)". -/
def BufDesc.Set (d : BufDesc) (file : FileId) (pageNo : PageId) : BufDesc :=
  { file := some file, pageNo := pageNo, frameNo := d.frameNo, pinCnt := 1,
    dirty := false, valid := true, refbit := false }

/-- Descriptor of frame `i` right after construction. -/
def BufDesc.fresh (i : FrameId) : BufDesc :=
  { file := none, pageNo := 0, frameNo := i, pinCnt := 0,
    dirty := false, valid := false, refbit := false }

instance : Inhabited BufDesc := ⟨BufDesc.fresh 0⟩

/-- Statistics kept by the manager (`BufStats`). -/
structure BufStats where
  accesses : Nat
  diskreads : Nat
  diskwrites : Nat
deriving DecidableEq

/-! ## The buffer manager -/

/-- State of a `BufMgr` together with the files its frames refer to.
Modelled from the spec: `hashTable` (class `BufHashTbl`, not in the repository sources)
is a map from (file, page id) to frame number; `lookup` is `amLookup` (a miss is the
`HashNotFoundException` that `readPage`, `unPinPage` and `disposePage` catch), `insert`
is `amInsert`, `remove` is `amRemove`. -/
structure BufMgr where
  numBufs : Nat
  bufDescTable : List BufDesc
  bufPool : List Page
  hashTable : List ((FileId × PageId) × FrameId)
  clockHand : FrameId
  bufStats : BufStats
  disk : Disk
deriving DecidableEq

/-- Read `bufDescTable[i]`. -/
def BufMgr.desc (s : BufMgr) (i : FrameId) : BufDesc := s.bufDescTable.getD i default

/-- Read `bufPool[i]`. -/
def BufMgr.page (s : BufMgr) (i : FrameId) : Page := s.bufPool.getD i default

/-- Write `bufDescTable[i]`. -/
def BufMgr.setDesc (s : BufMgr) (i : FrameId) (d : BufDesc) : BufMgr :=
  { s with bufDescTable := s.bufDescTable.set i d }

/-- Write `bufPool[i]`. -/
def BufMgr.setPage (s : BufMgr) (i : FrameId) (p : Page) : BufMgr :=
  { s with bufPool := s.bufPool.set i p }

/-- Constructor `BufMgr::BufMgr(bufs)`, over the given files. -/
def BufMgr.new (bufs : Nat) (disk : Disk) : BufMgr :=
  { numBufs := bufs
    bufDescTable := (List.range bufs).map BufDesc.fresh
    bufPool := List.replicate bufs default
    hashTable := []
    clockHand := (bufs + 2 ^ 32 - 1) % 2 ^ 32
    bufStats := ⟨0, 0, 0⟩
    disk := disk }

/-- Method `BufMgr::advanceClock`. -/
def advanceClock (s : BufMgr) : BufMgr :=
  { s with clockHand := (s.clockHand + 1) % s.numBufs }

/-- Bump `bufStats.accesses`. -/
def BufMgr.countAccess (s : BufMgr) : BufMgr :=
  { s with bufStats := { s.bufStats with accesses := s.bufStats.accesses + 1 } }

/-- Bump `bufStats.diskwrites`. -/
def BufMgr.countWrite (s : BufMgr) : BufMgr :=
  { s with bufStats := { s.bufStats with diskwrites := s.bufStats.diskwrites + 1 } }

/-- Bump `bufStats.diskreads`. -/
def BufMgr.countRead (s : BufMgr) : BufMgr :=
  { s with bufStats := { s.bufStats with diskreads := s.bufStats.diskreads + 1 } }

/-- The write-back of frame `i` in `allocBuf` and `flushFile`: when the frame is dirty,
`file->writePage(bufPool[src])`, `dirty = false`, `diskwrites++`.  (A dirty frame whose
`file` is `NULL` does not occur in a pool satisfying `BufMgr.WF`; the C++ would
dereference `NULL` there, the embedding makes no file call.) -/
def BufMgr.writeBack (s : BufMgr) (i src : FrameId) : BufMgr :=
  if (s.desc i).dirty then
    match (s.desc i).file with
    | some f =>
      ({ s with disk := s.disk.writePage f (s.page src) }.setDesc i
          { s.desc i with dirty := false }).countWrite
    | none => (s.setDesc i { s.desc i with dirty := false }).countWrite
  else s

/-- Removal of the frame's own entry: `hashTable->remove(desc.file, desc.pageNo)`; no
entry is keyed by the `NULL` file. -/
def BufMgr.removeEntry (s : BufMgr) (i : FrameId) : BufMgr :=
  match (s.desc i).file with
  | some f => { s with hashTable := amRemove s.hashTable (f, (s.desc i).pageNo) }
  | none => s

/-- The tail of the loop body of `allocBuf`, reached for a valid frame under the clock
hand with reference bit off and pin count 0: write the page back when it is dirty,
remove its entry from the hash table, `Clear()` the descriptor. -/
def BufMgr.evict (s : BufMgr) : BufMgr :=
  let s1 := s.writeBack s.clockHand s.clockHand
  let s2 := s1.removeEntry s1.clockHand
  s2.setDesc s2.clockHand (s2.desc s2.clockHand).Clear

/-- The body of the `for` loop of `BufMgr::allocBuf`, run for at most `fuel` iterations
with the loop's local variables `pinNum` and `lastPin`.  The result is `ok (some i)`
when frame `i` is assigned to the out-parameter, `ok none` when the loop ends without
assigning it, and `error BufferExceededException` when the loop throws. -/
def allocBufLoop : Nat → Nat → Bool → BufMgr → Except Exn (Option FrameId) × BufMgr
  | 0, _, _, s => (.ok none, s)
  | fuel + 1, pinNum, lastPin, s0 =>
    let s := advanceClock s0
    if pinNum = s.numBufs then (.error .BufferExceededException, s)
    else if !(s.desc s.clockHand).valid then (.ok (some s.clockHand), s.countAccess)
    else if (s.desc s.clockHand).refbit then
      allocBufLoop fuel pinNum lastPin
        (s.setDesc s.clockHand { s.desc s.clockHand with refbit := false })
    else if 0 < (s.desc s.clockHand).pinCnt then
      allocBufLoop fuel (if lastPin then pinNum + 1 else 1) true s
    else (.ok (some s.clockHand), s.evict.countAccess)

/-- Method `BufMgr::allocBuf`: the loop runs for `i = 0, …, 2 * numBufs` in unsigned
32-bit arithmetic. -/
def allocBuf (s : BufMgr) : Except Exn (Option FrameId) × BufMgr :=
  allocBufLoop ((2 * s.numBufs) % 2 ^ 32 + 1) 0 false s

/-- The three statements shared by `readPage` and `allocPage` once a frame has been
obtained: `bufPool[frameNo] = pg`, `hashTable->insert(file, pageNo, frameNo)`,
`bufDescTable[frameNo].Set(file, pageNo)`. -/
def BufMgr.install (s : BufMgr) (frameNo : FrameId) (file : FileId) (pageNo : PageId)
    (pg : Page) : BufMgr :=
  let s2 := s.setPage frameNo pg
  let s3 := { s2 with hashTable := amInsert s2.hashTable (file, pageNo) frameNo }
  s3.setDesc frameNo ((s3.desc frameNo).Set file pageNo)

/-- Method `BufMgr::readPage`; the result is the frame whose buffer `page` points to. -/
def readPage (s : BufMgr) (file : FileId) (pageNo : PageId) : Except Exn FrameId × BufMgr :=
  match amLookup s.hashTable (file, pageNo) with
  | some frameNo =>
    let d := s.desc frameNo
    (.ok frameNo,
      (s.setDesc frameNo { d with refbit := true, pinCnt := d.pinCnt + 1 }).countAccess)
  | none =>
    match allocBuf s with
    | (.error e, s1) => (.error e, s1)
    | (.ok none, s1) => (.error .FrameUnset, s1)
    | (.ok (some frameNo), s1) =>
      match s1.disk.readPage file pageNo with
      | (.error e, d1) => (.error e, { s1 with disk := d1 })
      | (.ok pageTmp, d1) =>
        let s2 := ({ s1 with disk := d1 } : BufMgr).install frameNo file pageNo pageTmp
        (.ok frameNo, s2.countRead.countAccess)

/-- Method `BufMgr::unPinPage`. -/
def unPinPage (s : BufMgr) (file : FileId) (pageNo : PageId) (dirty : Bool) :
    Except Exn Unit × BufMgr :=
  match amLookup s.hashTable (file, pageNo) with
  | some frameNum =>
    let d := s.desc frameNum
    if d.pinCnt ≤ 0 then (.error .PageNotPinnedException, s)
    else
      let d1 := { d with pinCnt := d.pinCnt - 1 }
      let d2 := if dirty then { d1 with dirty := true } else d1
      (.ok (), (s.setDesc frameNum d2).countAccess)
  | none => (.ok (), s)

/-- The `for` loop of `BufMgr::flushFile` over the frames `i, i + 1, …` (`n` of them). -/
def flushFileLoop (file : FileId) : Nat → FrameId → BufMgr → Except Exn Unit × BufMgr
  | 0, _, s => (.ok (), s)
  | n + 1, i, s0 =>
    let s := s0.countAccess
    if (s.desc i).file = some file then
      if !(s.desc i).valid then (.error .BadBufferException, s)
      else if 0 < (s.desc i).pinCnt then (.error .PagePinnedException, s)
      else
        let s1 := s.writeBack i (s.desc i).frameNo
        let s2 := { s1 with hashTable := amRemove s1.hashTable (file, (s1.desc i).pageNo) }
        let s3 := s2.setDesc i (s2.desc i).Clear
        flushFileLoop file n (i + 1) s3
    else flushFileLoop file n (i + 1) s

/-- Method `BufMgr::flushFile`. -/
def flushFile (s : BufMgr) (file : FileId) : Except Exn Unit × BufMgr :=
  flushFileLoop file s.numBufs 0 s

/-- Method `BufMgr::allocPage`; the result is the new page number and the frame whose
buffer `page` points to. -/
def allocPage (s : BufMgr) (file : FileId) : Except Exn (PageId × FrameId) × BufMgr :=
  let (temp, d1) := s.disk.allocatePage file
  let pageNo := temp.page_number
  match allocBuf { s with disk := d1 } with
  | (.error e, s1) => (.error e, s1)
  | (.ok none, s1) => (.error .FrameUnset, s1)
  | (.ok (some frameNum), s1) =>
    let s2 := s1.install frameNum file pageNo temp
    (.ok (pageNo, frameNum), s2.countAccess)

/-- Method `BufMgr::disposePage`. -/
def disposePage (s : BufMgr) (file : FileId) (PageNo : PageId) : Except Exn Unit × BufMgr :=
  let s1 :=
    match amLookup s.hashTable (file, PageNo) with
    | some frameId =>
      let s0 := { s with hashTable := amRemove s.hashTable (file, PageNo) }
      s0.setDesc frameId (s0.desc frameId).Clear
    | none => s
  (.ok (), { s1 with disk := s1.disk.deletePage file PageNo })

/-- A client writing bytes through the `Page*` it was handed (as `page->insertRecord`
does in `main.cpp`): the bytes of the frame change, its page number does not. -/
def writeFrame (s : BufMgr) (frameNo : FrameId) (data : List Nat) : BufMgr :=
  s.setPage frameNo { s.page frameNo with data := data }

/-! ## Operations as data, runs, and the invariants of the pool -/

/-- One call made by a client of the buffer manager. -/
inductive Op where
  | read (file : FileId) (pageNo : PageId)
  | alloc (file : FileId)
  | unpin (file : FileId) (pageNo : PageId) (dirty : Bool)
  | dispose (file : FileId) (pageNo : PageId)
  | flush (file : FileId)
  | write (frameNo : FrameId) (data : List Nat)
deriving DecidableEq

/-- State left behind by one call, whether it returned or threw. -/
def Op.apply (s : BufMgr) : Op → BufMgr
  | .read f p => (readPage s f p).2
  | .alloc f => (allocPage s f).2
  | .unpin f p d => (unPinPage s f p d).2
  | .dispose f p => (disposePage s f p).2
  | .flush f => (flushFile s f).2
  | .write i data => writeFrame s i data

/-- State left behind by a sequence of calls. -/
def runOps (s : BufMgr) (ops : List Op) : BufMgr := ops.foldl Op.apply s

/-- Frame `i` is valid and holds page `p` of file `f`. -/
def BufMgr.holds (s : BufMgr) (i : FrameId) (f : FileId) (p : PageId) : Prop :=
  i < s.numBufs ∧ (s.desc i).valid = true ∧ (s.desc i).file = some f ∧ (s.desc i).pageNo = p

/-- Residency consistency (property P6 of the design): the page table maps (f, p) to
frame i exactly when frame i is valid and holds (f, p). -/
def Residency (s : BufMgr) : Prop :=
  ∀ f p i, amLookup s.hashTable (f, p) = some i ↔ s.holds i f p

/-- No two valid frames hold the same (file, page). -/
def NoSharedPage (s : BufMgr) : Prop :=
  ∀ i j f p, s.holds i f p → s.holds j f p → i = j

/-- The files are well formed: a page a file holds has an id that the file has already
handed out, and is stored under its own page number. -/
def Disk.WF (d : Disk) : Prop :=
  ∀ f p pg, amLookup d.pages (f, p) = some pg → p < d.next f ∧ pg.page_number = p

/-- The invariant carried through every operation: the two arrays have `numBufs`
entries, each descriptor knows its own frame number, a frame is valid exactly when it
is bound to a file, residency consistency holds,
the page in a valid frame carries the page number of its descriptor and an id its file
has already handed out, and the files are well formed. -/
structure BufMgr.WF (s : BufMgr) : Prop where
  descLen : s.bufDescTable.length = s.numBufs
  poolLen : s.bufPool.length = s.numBufs
  frameNo : ∀ i, i < s.numBufs → (s.desc i).frameNo = i
  fileIff : ∀ i, i < s.numBufs → ((s.desc i).valid = true ↔ (s.desc i).file ≠ none)
  resident : Residency s
  pageNo : ∀ i f p, s.holds i f p → (s.page i).page_number = p ∧ p < s.disk.next f
  diskWF : s.disk.WF

/-! ## Auxiliary relations used by the proofs -/

/-- `t` is `s` after a stretch of the clock sweep. -/
def SweptFrom (s t : BufMgr) : Prop :=
  t.numBufs = s.numBufs ∧ t.bufPool = s.bufPool ∧ t.hashTable = s.hashTable ∧
  t.disk = s.disk ∧ t.bufStats = s.bufStats ∧
  t.bufDescTable.length = s.bufDescTable.length ∧
  ∀ j, t.desc j = s.desc j ∨
    ((s.desc j).valid = true ∧ t.desc j = { s.desc j with refbit := false })

/-- What one run of the loop of `allocBuf` can do: sweep (move the hand, clear
reference bits), then throw, or fall out of the loop, or take an invalid frame, or
evict a valid frame whose reference bit is off and whose pin count is 0. -/
def AllocResult (s : BufMgr) (r : Except Exn (Option FrameId)) (s1 : BufMgr) : Prop :=
  ∃ t, SweptFrom s t ∧
    ((r = .error .BufferExceededException ∧ s1 = t) ∨
     (r = .ok none ∧ s1 = t) ∨
     (r = .ok (some t.clockHand) ∧ (0 < s.numBufs → t.clockHand < s.numBufs) ∧
        (t.desc t.clockHand).valid = false ∧ s1 = t.countAccess) ∨
     (r = .ok (some t.clockHand) ∧ (0 < s.numBufs → t.clockHand < s.numBufs) ∧
        (t.desc t.clockHand).valid = true ∧ (t.desc t.clockHand).refbit = false ∧
        (t.desc t.clockHand).pinCnt = 0 ∧ s1 = t.evict.countAccess))

/-- The frames of `t` hold the same pages as those of `s`: only pin counts, dirty bits,
reference bits, page bytes, the clock hand and the statistics may differ. -/
def FrameEquiv (s t : BufMgr) : Prop :=
  t.numBufs = s.numBufs ∧ t.bufDescTable.length = s.bufDescTable.length ∧
  t.bufPool.length = s.bufPool.length ∧ t.hashTable = s.hashTable ∧
  (∀ j, (t.page j).page_number = (s.page j).page_number) ∧
  ∀ j, (t.desc j).valid = (s.desc j).valid ∧ (t.desc j).file = (s.desc j).file ∧
    (t.desc j).pageNo = (s.desc j).pageNo ∧ (t.desc j).frameNo = (s.desc j).frameNo

/-- The state after the entry of (f, p) is removed and frame `i` is cleared. -/
def BufMgr.release (s : BufMgr) (i : FrameId) (f : FileId) (p : PageId) : BufMgr :=
  ({ s with hashTable := amRemove s.hashTable (f, p) } : BufMgr).setDesc i (s.desc i).Clear

/-! ## Concrete pools used to exercise the theorems -/

/-- A file (handle 7) holding pages 1, 2 and 3. -/
def exampleDisk : Disk :=
  { pages := [((7, 1), ⟨1, [10]⟩), ((7, 2), ⟨2, [20]⟩), ((7, 3), ⟨3, [30]⟩)]
    nextPageNo := [(7, 4)]
    calls := [] }

/-- A pool of two frames: page 1 of file 7 is read and stays pinned, page 2 is read
twice and unpinned twice.  Frame 0 is then pinned with its reference bit off, frame 1
is unpinned with its reference bit on, and the clock hand is on frame 1. -/
def examplePool : BufMgr :=
  runOps (BufMgr.new 2 exampleDisk)
    [.read 7 1, .read 7 2, .read 7 2, .unpin 7 2 false, .unpin 7 2 false]

/-- A pool of two frames: page 1 of file 7 is read and stays pinned (frame 0), page 2 is
read, rewritten by the client and unpinned dirty (frame 1).  The next `allocBuf`
evicts frame 1 and writes page 2 back. -/
def evictPool : BufMgr :=
  runOps (BufMgr.new 2 exampleDisk) [.read 7 1, .read 7 2, .write 1 [21], .unpin 7 2 true]

/-- Number of frames whose reference bit is set. -/
def BufMgr.refCount (s : BufMgr) : Nat := s.bufDescTable.countP (fun d => d.refbit)

/-- Scenario 5 of the design: a pool of three frames holding three pinned pages. -/
def fullPool : BufMgr :=
  runOps (BufMgr.new 3 exampleDisk) [.read 7 1, .read 7 2, .read 7 3]

/-- The current contents of page (f, p) are `b`: either the page is resident in a frame
whose bytes are `b` and that is dirty or agrees with the file, or it is not resident and
the file holds `b`. -/
def Saved (s : BufMgr) (f : FileId) (p : PageId) (b : Page) : Prop :=
  (∃ i, s.holds i f p ∧ s.page i = b ∧
      ((s.desc i).dirty = true ∨ amLookup s.disk.pages (f, p) = some b)) ∨
  (amLookup s.hashTable (f, p) = none ∧ amLookup s.disk.pages (f, p) = some b)

/-- The call leaves the contents of page (f, p) alone: it is not a client write into
the frame that holds the page and it does not dispose of the page. -/
def Op.leaves (s : BufMgr) (f : FileId) (p : PageId) : Op → Prop
  | .write i _ => ¬ s.holds i f p
  | .dispose f1 p1 => (f1, p1) ≠ (f, p)
  | _ => True

/-- Every call of the sequence, run from `s`, leaves the contents of page (f, p) alone. -/
def Untouched (f : FileId) (p : PageId) : BufMgr → List Op → Prop
  | _, [] => True
  | s, op :: rest => op.leaves s f p ∧ Untouched f p (op.apply s) rest

/-- A pool of two frames: page 1 of file 7 is read and stays pinned (frame 0), page 2 is
read into frame 1 and rewritten by the client, who still holds its pin. -/
def writtenPool : BufMgr :=
  runOps (BufMgr.new 2 exampleDisk) [.read 7 1, .read 7 2, .write 1 [21]]

/-- The pool of `test8` of `main.cpp` in small: page 2 of file 7 is read into frame 1,
rewritten by the client, and unpinned with `dirty = false`; frame 0 stays pinned. -/
def cleanPool : BufMgr :=
  runOps (BufMgr.new 2 exampleDisk) [.read 7 1, .read 7 2, .write 1 [21], .unpin 7 2 false]

/-- A pool of two frames reached by public calls only: page 1 of file 7 is read and
stays pinned (frame 0); page 2 is read and unpinned; page 3 is read (it replaces page 2
in frame 1), read again, and unpinned twice.  Frame 0 is then pinned with its reference
bit off, frame 1 is unpinned with its reference bit on, the clock hand is on frame 1. -/
def starvedPool : BufMgr :=
  runOps (BufMgr.new 2 exampleDisk)
    [.read 7 1, .read 7 2, .unpin 7 2 false, .read 7 3, .read 7 3, .unpin 7 3 false,
     .unpin 7 3 false]

/-- Scenario 9 of the design: a pool of three frames in which page 1 of file 7 has been
read and is still pinned. -/
def pinnedPool : BufMgr := runOps (BufMgr.new 3 exampleDisk) [.read 7 1]

/-- Number of frames visited before frame `i` by a sweep over `n` frames whose first
visit is frame `h`. -/
def aheadOf (h n i : Nat) : Nat := if h ≤ i then i - h else i + n - h

/-- Number of frames the clock sweep visits before it reaches frame `i`, the first frame
visited being the one after the hand. -/
def BufMgr.ahead (s : BufMgr) (i : Nat) : Nat :=
  aheadOf ((s.clockHand + 1) % s.numBufs) s.numBufs i

/-- Frame `i` can be taken by the sweep as it stands: it is invalid, or its reference
bit is off and its pin count is 0. -/
@[reducible] def BufMgr.free (s : BufMgr) (i : Nat) : Prop :=
  (s.desc i).valid = false ∨ ((s.desc i).refbit = false ∧ (s.desc i).pinCnt = 0)

/-- The pool of `test11` of `main.cpp` in small: page 2 of file 7 is read into frame 0,
rewritten by the client and unpinned dirty; page 1 is read into frame 1 and unpinned
clean.  No page of file 7 is pinned, so `flushFile` succeeds. -/
def flushPool : BufMgr :=
  runOps (BufMgr.new 2 exampleDisk)
    [.read 7 2, .write 0 [21], .unpin 7 2 true, .read 7 1, .unpin 7 1 false]

/-- The call loads a page into a frame: it is a `readPage` or an `allocPage`. -/
def Op.isLoad : Op → Bool
  | .read _ _ => true
  | .alloc _ => true
  | _ => false

/-- The results (frame handed out, or exception) of the `readPage` and `allocPage`
calls of a sequence of calls run from `s`, in call order. -/
def loadFrames : BufMgr → List Op → List (Except Exn FrameId)
  | _, [] => []
  | s, .read f p :: r => (readPage s f p).1 :: loadFrames (readPage s f p).2 r
  | s, .alloc f :: r => (allocPage s f).1.map Prod.snd :: loadFrames (allocPage s f).2 r
  | s, .unpin f p d :: r => loadFrames (unPinPage s f p d).2 r
  | s, .dispose f p :: r => loadFrames (disposePage s f p).2 r
  | s, .flush f :: r => loadFrames (flushFile s f).2 r
  | s, .write i data :: r => loadFrames (writeFrame s i data) r

/-- The sequence of calls, run from `s`, consists of `allocPage` calls, `readPage` calls
for pages that are not resident at the time of the call and that their file holds, and
`unPinPage` calls; there is no `disposePage` and no `flushFile`. -/
def freshLoads : BufMgr → List Op → Bool
  | _, [] => true
  | s, .read f p :: r =>
    (amLookup s.hashTable (f, p)).isNone && (amLookup s.disk.pages (f, p)).isSome &&
      freshLoads (readPage s f p).2 r
  | s, .alloc f :: r => freshLoads (allocPage s f).2 r
  | s, .unpin f p d :: r => freshLoads (unPinPage s f p d).2 r
  | _, _ :: _ => false

/-! ## B+-tree index (`btree.cpp`): nodes and their layout in a page

The header `btree.h` is not part of the repository sources at hand.  The node
structures, the capacities `INTARRAYLEAFSIZE` (`L`) and `INTARRAYNONLEAFSIZE` (`M`),
the enumeration `Operator` and the members of `BTreeIndex` are modelled from the design
document; the methods are translated from `btree.cpp`.

Conventions of the embedding of the index.

* A page of the index file is a list of 32-bit words (`Page.data`); a word that the
  list does not hold reads as 0 (`allocate_page` hands out zero-initialised pages).
* A pointer to a node (`LeafNodeInt*`, `NonLeafNodeInt*`, `IndexMetaInfo*`) is the
  index of the frame whose buffer it points into; the node is read from the buffer
  at the moment the C++ dereferences the pointer.
* `int` values are integers; an array index outside its array, which is undefined
  behaviour in C++, ends the call with `UndefinedBehaviour`; a failed `assert` ends it
  with `AssertionFailed`.
* The recursive methods carry a bound on the depth of the recursion.
-/

/-- Modelled from the spec: `RecordId` ("Record Id: page_no, slot_no"). -/
structure RecordId where
  page_number : Nat
  slot_number : Nat
deriving DecidableEq

instance : Inhabited RecordId := ⟨⟨0, 0⟩⟩

/-- Modelled from the spec: `struct LeafNodeInt` ("Leaf Node: key_num, key_array[L],
rid_array[L], right_sib_page_no"). -/
structure LeafNodeInt where
  keyArray : List Int
  ridArray : List RecordId
  rightSibPageNo : PageId
  keyNum : Int
deriving DecidableEq

/-- Modelled from the spec: `struct NonLeafNodeInt` ("Non-Leaf Node: level (0 or 1),
key_num, key_array[M], page_no_array[M+1]"). -/
structure NonLeafNodeInt where
  level : Int
  keyNum : Int
  keyArray : List Int
  pageNoArray : List PageId
deriving DecidableEq

/-- Modelled from the spec: `enum Operator` of a scan bound. -/
inductive Operator where
  | LT
  | LTE
  | GTE
  | GT
deriving DecidableEq

/-- Outcomes that end a method of the index: an exception of the buffer manager or of
the file passing through, the exceptions that opening or creating the index file
raises, the exceptions of the index itself, and the three ways in which the embedding
stops where the C++ has no defined result. -/
inductive IndexExn where
  | buffer (e : Exn)
  | FileNotFoundException
  | FileExistsException
  | BadIndexInfoException
  | BadOpcodesException
  | BadScanrangeException
  | ScanNotInitializedException
  | IndexScanCompletedException
  | UndefinedBehaviour
  | AssertionFailed
  | OutOfFuel
deriving DecidableEq

/-- A signed 32-bit value as the word that stores it (two's complement). -/
def toWord (x : Int) : Nat := (x % 2 ^ 32).toNat

/-- The signed 32-bit value a word stores. -/
def ofWord (w : Nat) : Int :=
  if w % 2 ^ 32 < 2 ^ 31 then ((w % 2 ^ 32 : Nat) : Int) else ((w % 2 ^ 32 : Nat) : Int) - 2 ^ 32

/-- The words of an array of record ids: two words, `page_number` and `slot_number`
(with its padding), for each. -/
def ridWords : List RecordId → List Nat
  | [] => []
  | r :: t => r.page_number :: r.slot_number :: ridWords t

/-- Modelled from the spec: layout of a leaf page, "array of L 4-byte keys, array of L
8-byte rids, 4-byte right_sib_page_no, 4-byte key_num". -/
def LeafNodeInt.words (n : LeafNodeInt) : List Nat :=
  n.keyArray.map toWord ++ (ridWords n.ridArray ++ [n.rightSibPageNo, toWord n.keyNum])

/-- The leaf node that the words of a page hold, for leaf capacity `L`. -/
def LeafNodeInt.ofWords (L : Nat) (w : List Nat) : LeafNodeInt :=
  { keyArray := (List.range L).map (fun i => ofWord (w.getD i 0))
    ridArray := (List.range L).map
      (fun i => ⟨w.getD (L + 2 * i) 0, w.getD (L + 2 * i + 1) 0⟩)
    rightSibPageNo := w.getD (3 * L) 0
    keyNum := ofWord (w.getD (3 * L + 1) 0) }

/-- Modelled from the spec: layout of a non-leaf page, "4-byte level, 4-byte key_num,
array of M 4-byte keys, array of (M+1) 4-byte page ids". -/
def NonLeafNodeInt.words (n : NonLeafNodeInt) : List Nat :=
  toWord n.level :: toWord n.keyNum :: (n.keyArray.map toWord ++ n.pageNoArray)

/-- The non-leaf node that the words of a page hold, for non-leaf capacity `M`. -/
def NonLeafNodeInt.ofWords (M : Nat) (w : List Nat) : NonLeafNodeInt :=
  { level := ofWord (w.getD 0 0)
    keyNum := ofWord (w.getD 1 0)
    keyArray := (List.range M).map (fun i => ofWord (w.getD (2 + i) 0))
    pageNoArray := (List.range (M + 1)).map (fun i => w.getD (2 + M + i) 0) }

/-- Modelled from the spec: `struct IndexMetaInfo`, laid out as "20-byte relation name,
4-byte attr_byte_offset, 4-byte attr_type enum, 4-byte root_page_no, 4-byte
initial_root_page_no"; the relation name is five words. -/
structure IndexMetaInfo where
  relationName : List Nat
  attrByteOffset : Int
  attrType : Nat
  rootPageNo : PageId
  initialRootPageNum : PageId
deriving DecidableEq

/-- Words of a meta page. -/
def IndexMetaInfo.words (m : IndexMetaInfo) : List Nat :=
  (List.range 5).map (fun i => m.relationName.getD i 0) ++
    [toWord m.attrByteOffset, m.attrType, m.rootPageNo, m.initialRootPageNum]

/-- The meta information that the words of a page hold. -/
def IndexMetaInfo.ofWords (w : List Nat) : IndexMetaInfo :=
  { relationName := (List.range 5).map (fun i => w.getD i 0)
    attrByteOffset := ofWord (w.getD 5 0)
    attrType := w.getD 6 0
    rootPageNo := w.getD 7 0
    initialRootPageNum := w.getD 8 0 }

/-- The members of `BTreeIndex` together with the buffer manager it calls and the two
capacities.  `currentPageData`, a `Page*`, is a frame index, `none` for `NULL`. -/
structure BTreeIndex where
  bufMgr : BufMgr
  file : FileId
  L : Nat
  M : Nat
  headerPageNum : PageId
  rootPageNum : PageId
  initialRootPageNum : PageId
  attrByteOffset : Int
  attributeType : Nat
  leafOccupancy : Int
  nodeOccupancy : Int
  scanExecuting : Bool
  nextEntry : Int
  currentPageNum : PageId
  currentPageData : Option FrameId
  lowValInt : Int
  highValInt : Int
  lowOp : Operator
  highOp : Operator
deriving DecidableEq

/-- A method of `BTreeIndex`: from the state before the call to the outcome and the
state after it. -/
def IndexM (α : Type) : Type := BTreeIndex → Except IndexExn α × BTreeIndex

/-- Return a value. -/
def IndexM.pure {α : Type} (a : α) : IndexM α := fun t => (.ok a, t)

/-- Sequencing: an exception ends the method, keeping the state reached. -/
def IndexM.bind {α β : Type} (x : IndexM α) (f : α → IndexM β) : IndexM β := fun t =>
  match x t with
  | (.ok a, t1) => f a t1
  | (.error e, t1) => (.error e, t1)

instance : Monad IndexM where
  pure := IndexM.pure
  bind := IndexM.bind

/-- The statement `throw e`. -/
def raise {α : Type} (e : IndexExn) : IndexM α := fun t => (.error e, t)

/-- The members of `this`. -/
def readState : IndexM BTreeIndex := fun t => (.ok t, t)

/-- Assignment to members of `this`. -/
def modifyState (f : BTreeIndex → BTreeIndex) : IndexM Unit := fun t => (.ok (), f t)

/-- The statement `assert(c)`. -/
def assert (c : Bool) : IndexM Unit :=
  if c then IndexM.pure () else raise .AssertionFailed

/-- A call `bufMgr->op(...)`. -/
def callBuf {α : Type} (op : BufMgr → Except Exn α × BufMgr) : IndexM α := fun t =>
  match op t.bufMgr with
  | (.ok a, b) => (.ok a, { t with bufMgr := b })
  | (.error e, b) => (.error (.buffer e), { t with bufMgr := b })

/-- An element `a[i]` of a C array, read. -/
def arrayGet {α : Type} (a : List α) (i : Int) : IndexM α :=
  match (if 0 ≤ i then a.get? i.toNat else none) with
  | some x => IndexM.pure x
  | none => raise .UndefinedBehaviour

/-- Write the words `w` at the start of the buffer of frame `p`. -/
def BufMgr.putWords (b : BufMgr) (p : FrameId) (w : List Nat) : BufMgr :=
  writeFrame b p (w ++ (b.page p).data.drop w.length)

/-- The leaf node the pointer `p` points to. -/
def leafAt (t : BTreeIndex) (p : FrameId) : LeafNodeInt :=
  LeafNodeInt.ofWords t.L (t.bufMgr.page p).data

/-- The non-leaf node the pointer `p` points to. -/
def nonLeafAt (t : BTreeIndex) (p : FrameId) : NonLeafNodeInt :=
  NonLeafNodeInt.ofWords t.M (t.bufMgr.page p).data

/-- The meta information the pointer `p` points to. -/
def metaAt (t : BTreeIndex) (p : FrameId) : IndexMetaInfo :=
  IndexMetaInfo.ofWords (t.bufMgr.page p).data

/-- Read the fields of `*p`, a leaf node. -/
def getLeaf (p : FrameId) : IndexM LeafNodeInt := fun t => (.ok (leafAt t p), t)

/-- Store the fields of `*p`, a leaf node. -/
def setLeaf (p : FrameId) (n : LeafNodeInt) : IndexM Unit :=
  modifyState (fun t => { t with bufMgr := t.bufMgr.putWords p n.words })

/-- Read the fields of `*p`, a non-leaf node. -/
def getNonLeaf (p : FrameId) : IndexM NonLeafNodeInt := fun t => (.ok (nonLeafAt t p), t)

/-- Store the fields of `*p`, a non-leaf node. -/
def setNonLeaf (p : FrameId) (n : NonLeafNodeInt) : IndexM Unit :=
  modifyState (fun t => { t with bufMgr := t.bufMgr.putWords p n.words })

/-- Read the fields of `*p`, the meta information. -/
def getMeta (p : FrameId) : IndexM IndexMetaInfo := fun t => (.ok (metaAt t p), t)

/-- Store the fields of `*p`, the meta information. -/
def setMeta (p : FrameId) (m : IndexMetaInfo) : IndexM Unit :=
  modifyState (fun t => { t with bufMgr := t.bufMgr.putWords p m.words })

/-- The call `memmove(&a[dst], &a[src], len * sizeof(a[0]))` (also `memcpy` inside one
array), for ranges that lie inside the array. -/
def memmove {α : Type} (a : List α) (dst src len : Nat) : List α :=
  a.take dst ++ ((a.drop src).take len ++ a.drop (dst + len))

/-- The call `memcpy(a, &b[src], len * sizeof(a[0]))`, for ranges inside the arrays. -/
def memcpy {α : Type} (a b : List α) (src len : Nat) : List α :=
  (b.drop src).take len ++ a.drop len

/-- The call `memset(&a[dst], 0, len * sizeof(a[0]))`, for a range inside the array. -/
def memset {α : Type} (zero : α) (a : List α) (dst len : Nat) : List α :=
  a.take dst ++ (List.replicate len zero ++ a.drop (dst + len))

/-- Function `page_set(IndexMetaInfo*)`; `INTEGER` is the first value of `Datatype`. -/
def page_set_IndexMetaInfo (newNode : FrameId) : IndexM Unit :=
  setMeta newNode { relationName := List.replicate 5 0, attrByteOffset := 0, attrType := 0,
                    rootPageNo := 0, initialRootPageNum := 0 }

/-- Function `page_set(NonLeafNodeInt*)`. -/
def page_set_NonLeafNodeInt (newNode : FrameId) : IndexM Unit := do
  let t ← readState
  setNonLeaf newNode { level := 0, keyNum := 0, keyArray := List.replicate t.M 0,
                       pageNoArray := List.replicate (t.M + 1) 0 }

/-- Function `page_set(LeafNodeInt*)`. -/
def page_set_LeafNodeInt (newNode : FrameId) : IndexM Unit := do
  let t ← readState
  setLeaf newNode { keyArray := List.replicate t.L 0, ridArray := List.replicate t.L ⟨0, 0⟩,
                    rightSibPageNo := 0, keyNum := 0 }

/-- Method `BTreeIndex::allocNode<T>`, the overload of `page_set` for `T` being passed
in; the result is the new page id and the pointer to the node. -/
def allocNode (page_set : FrameId → IndexM Unit) : IndexM (PageId × FrameId) := do
  let t ← readState
  let (newPageId, dummy) ← callBuf (fun b => allocPage b t.file)
  page_set dummy
  pure (newPageId, dummy)

/-- Method `BTreeIndex::isLevelOneNode`. -/
def isLevelOneNode (page : NonLeafNodeInt) : Bool := decide (page.level = 1)

/-- The call `std::lower_bound(a, a + keyNum, key) - a` on a sorted range: the number
of leading elements smaller than `key`, which is the first position whose element
is not smaller than `key`. -/
def lower_bound (a : List Int) (keyNum : Int) (key : Int) : Nat :=
  ((a.take keyNum.toNat).takeWhile (fun x => decide (x < key))).length

/-- Method `BTreeIndex::findIndexInNonLeaf`; `M` is `INTARRAYNONLEAFSIZE`. -/
def findIndexInNonLeaf (M : Nat) (nonLeafNode : NonLeafNodeInt) (key : Int) : Int :=
  let loc := lower_bound nonLeafNode.keyArray nonLeafNode.keyNum key
  if loc > M then -1 else (loc : Int)

/-- Method `BTreeIndex::findIndexInLeaf`; `L` is `INTARRAYLEAFSIZE`. -/
def findIndexInLeaf (L : Nat) (leafNode : LeafNodeInt) (key : Int) : Int :=
  let loc := lower_bound leafNode.keyArray leafNode.keyNum key
  if loc > L then -1 else (loc : Int)

/-- The writes `insertToLeaf` makes to the node, for an index inside the arrays. -/
def LeafNodeInt.insertAt (L : Nat) (n : LeafNodeInt) (i : Nat) (key : Int) (rid : RecordId) :
    LeafNodeInt :=
  { n with keyArray := (memmove n.keyArray (i + 1) i (L - i - 1)).set i key
           ridArray := (memmove n.ridArray (i + 1) i (L - i - 1)).set i rid
           keyNum := n.keyNum + 1 }

/-- Method `BTreeIndex::insertToLeaf`.  For `index < 0` or `index >= L` the two
`memmove` calls and the stores `keyArray[index]`, `ridArray[index]` leave the arrays. -/
def insertToLeaf (leafNode : FrameId) (index : Int) (key : Int) (rid : RecordId) :
    IndexM Unit := do
  let t ← readState
  if index < 0 ∨ (t.L : Int) ≤ index then raise .UndefinedBehaviour
  else do
    let n ← getLeaf leafNode
    setLeaf leafNode (n.insertAt t.L index.toNat key rid)
    modifyState (fun t => { t with leafOccupancy := t.leafOccupancy + 1 })

/-- The writes `insertToNonLeaf` makes to the node, for an index inside the arrays. -/
def NonLeafNodeInt.insertAt (M : Nat) (n : NonLeafNodeInt) (i : Nat) (newIndex : Int)
    (newPageNo : PageId) : NonLeafNodeInt :=
  { n with keyArray := (memmove n.keyArray (i + 1) i (M - i - 1)).set i newIndex
           pageNoArray := (memmove n.pageNoArray (i + 2) (i + 1) (M - i - 1)).set (i + 1) newPageNo
           keyNum := n.keyNum + 1 }

/-- Method `BTreeIndex::insertToNonLeaf`. -/
def insertToNonLeaf (currNonLeafNode : FrameId) (index : Int) (newIndex : Int)
    (newPageNo : PageId) : IndexM Unit := do
  let t ← readState
  if index < 0 ∨ (t.M : Int) ≤ index then raise .UndefinedBehaviour
  else do
    let n ← getNonLeaf currNonLeafNode
    setNonLeaf currNonLeafNode (n.insertAt t.M index.toNat newIndex newPageNo)
    modifyState (fun t => { t with nodeOccupancy := t.nodeOccupancy + 1 })

/-- The writes `insertToNewNonLeaf` makes to the node, for an index inside the arrays. -/
def NonLeafNodeInt.insertAtNew (M : Nat) (n : NonLeafNodeInt) (i : Nat) (newIndex : Int)
    (newPageNo : PageId) : NonLeafNodeInt :=
  { n with keyArray := (memmove n.keyArray (i + 1) i (M - i - 1)).set i newIndex
           pageNoArray := (memmove n.pageNoArray (i + 1) i (M - i - 1)).set i newPageNo
           keyNum := n.keyNum + 1 }

/-- Method `BTreeIndex::insertToNewNonLeaf`. -/
def insertToNewNonLeaf (currNonLeafNode : FrameId) (index : Int) (newIndex : Int)
    (newPageNo : PageId) : IndexM Unit := do
  let t ← readState
  if index < 0 ∨ (t.M : Int) ≤ index then raise .UndefinedBehaviour
  else do
    let n ← getNonLeaf currNonLeafNode
    modifyState (fun t => { t with nodeOccupancy := t.nodeOccupancy + 1 })
    setNonLeaf currNonLeafNode (n.insertAtNew t.M index.toNat newIndex newPageNo)

/-- Method `BTreeIndex::deleteNewKeyNonLeaf`; the result is the key removed. -/
def deleteNewKeyNonLeaf (currNonLeafNode : FrameId) : IndexM Int := do
  let n ← getNonLeaf currNonLeafNode
  let keyNum := n.keyNum - 1
  modifyState (fun t => { t with nodeOccupancy := t.nodeOccupancy - 1 })
  let key ← arrayGet n.keyArray 0
  if keyNum < 0 ∨ (n.keyArray.length : Int) ≤ keyNum then raise .UndefinedBehaviour
  else do
    setNonLeaf currNonLeafNode
      { n with keyNum := keyNum
               keyArray := (memmove n.keyArray 0 1 keyNum.toNat).set keyNum.toNat 0 }
    pure key

/-- The writes `splitLeaf` makes to the two nodes: the result is (`node`, `newNode`). -/
def LeafNodeInt.split (L : Nat) (node newNode : LeafNodeInt) (newPageNo : PageId)
    (leftLen : Nat) : LeafNodeInt × LeafNodeInt :=
  let rightLen := L - leftLen
  ({ keyArray := memset 0 node.keyArray leftLen rightLen
     ridArray := memset ⟨0, 0⟩ node.ridArray leftLen rightLen
     rightSibPageNo := newPageNo
     keyNum := leftLen },
   { keyArray := memcpy newNode.keyArray node.keyArray leftLen rightLen
     ridArray := memcpy newNode.ridArray node.ridArray leftLen rightLen
     rightSibPageNo := node.rightSibPageNo
     keyNum := rightLen })

/-- Method `BTreeIndex::splitLeaf`; `leftLen` is `L / 2` or `L / 2 + 1` at its one call. -/
def splitLeaf (node newNode : FrameId) (newPageNo : PageId) (leftLen : Nat) : IndexM Unit := do
  let t ← readState
  if t.L < leftLen then raise .UndefinedBehaviour
  else do
    let n ← getLeaf node
    let m ← getLeaf newNode
    setLeaf node (LeafNodeInt.split t.L n m newPageNo leftLen).1
    setLeaf newNode (LeafNodeInt.split t.L n m newPageNo leftLen).2

/-- The writes `splitNonLeaf` makes to the two nodes: the result is (`node`, `newNode`). -/
def NonLeafNodeInt.split (M : Nat) (node newNode : NonLeafNodeInt) (leftLen : Nat) :
    NonLeafNodeInt × NonLeafNodeInt :=
  let rightLen := M - leftLen
  ({ node with keyNum := leftLen
               keyArray := memset 0 node.keyArray leftLen rightLen
               pageNoArray := memset 0 node.pageNoArray (leftLen + 1) rightLen },
   { level := if node.level = 1 then 1 else 0
     keyNum := rightLen
     keyArray := memcpy newNode.keyArray node.keyArray leftLen rightLen
     pageNoArray := memcpy newNode.pageNoArray node.pageNoArray (leftLen + 1) rightLen })

/-- Method `BTreeIndex::splitNonLeaf`; `leftLen` is `M / 2` or `M / 2 + 1` at its one
call. -/
def splitNonLeaf (node newNode : FrameId) (leftLen : Nat) : IndexM Unit := do
  let t ← readState
  if t.M < leftLen then raise .UndefinedBehaviour
  else do
    let n ← getNonLeaf node
    let m ← getNonLeaf newNode
    setNonLeaf node (NonLeafNodeInt.split t.M n m leftLen).1
    setNonLeaf newNode (NonLeafNodeInt.split t.M n m leftLen).2

/-- Method `BTreeIndex::splitRoot`. -/
def splitRoot (key : Int) (left right : PageId) : IndexM Unit := do
  let (newRootPageId, newRoot) ← allocNode page_set_NonLeafNodeInt
  let n ← getNonLeaf newRoot
  let t ← readState
  if t.M < 1 then raise .UndefinedBehaviour
  else do
    setNonLeaf newRoot
      { level := if t.rootPageNum = t.initialRootPageNum then 1 else 0
        keyNum := 1
        keyArray := n.keyArray.set 0 key
        pageNoArray := (n.pageNoArray.set 0 left).set 1 right }
    modifyState (fun t => { t with nodeOccupancy := t.nodeOccupancy + 1 })
    callBuf (fun b => unPinPage b t.file newRootPageId true)
    modifyState (fun t => { t with rootPageNum := newRootPageId })
    let page ← callBuf (fun b => readPage b t.file t.headerPageNum)
    let m ← getMeta page
    setMeta page { m with rootPageNo := newRootPageId }
    callBuf (fun b => unPinPage b t.file t.headerPageNum true)

/-- Method `BTreeIndex::handleLeafInsertion`; the result is the pair of the
out-parameters (`newPageNo`, `newIndex`). -/
def handleLeafInsertion (currPageNo : PageId) (key : Int) (rid : RecordId) :
    IndexM (PageId × Int) := do
  let t ← readState
  let page ← callBuf (fun b => readPage b t.file currPageNo)
  let currLeafNode ← getLeaf page
  let index := findIndexInLeaf t.L currLeafNode key
  if currLeafNode.keyNum < t.L then do
    assert (decide (index ≠ -1))
    insertToLeaf page index key rid
    callBuf (fun b => unPinPage b t.file currPageNo true)
    pure (0, -1)
  else do
    let (newPageNo, newNode) ← allocNode page_set_LeafNodeInt
    let middle := t.L / 2
    let insertToLeft := decide (index < middle)
    let leftLen := middle + (if insertToLeft then 0 else 1)
    splitLeaf page newNode newPageNo leftLen
    if insertToLeft then insertToLeaf page index key rid
    else insertToLeaf newNode (index - leftLen) key rid
    let c ← getLeaf page
    let n ← getLeaf newNode
    assert (decide (c.keyNum - n.keyNum ≤ 1 ∧ c.keyNum - n.keyNum ≥ -1))
    let newIndex ← arrayGet n.keyArray 0
    callBuf (fun b => unPinPage b t.file currPageNo true)
    callBuf (fun b => unPinPage b t.file newPageNo true)
    pure (newPageNo, newIndex)

/-- Method `BTreeIndex::recursiveInsert`, with a bound on the depth of the recursion;
the result is the pair of the out-parameters (`newPageNo`, `newIndex`). -/
def recursiveInsert : Nat → PageId → Int → RecordId → Bool → IndexM (PageId × Int)
  | 0, _, _, _, _ => raise .OutOfFuel
  | fuel + 1, currPageNo, key, rid, isLeaf =>
    if isLeaf then handleLeafInsertion currPageNo key rid
    else do
      let t ← readState
      let page ← callBuf (fun b => readPage b t.file currPageNo)
      let currNonLeafNode ← getNonLeaf page
      let childIndex := findIndexInNonLeaf t.M currNonLeafNode key
      let nodeBeInserted ← arrayGet currNonLeafNode.pageNoArray childIndex
      let (newPageNo, newIndex) ←
        recursiveInsert fuel nodeBeInserted key rid (isLevelOneNode currNonLeafNode)
      if newPageNo = 0 then do
        callBuf (fun b => unPinPage b t.file currPageNo true)
        pure (0, -1)
      else do
        let cur ← getNonLeaf page
        let index := findIndexInNonLeaf t.M cur newIndex
        if cur.keyNum < t.M then do
          assert (decide (index ≠ -1))
          insertToNonLeaf page index newIndex newPageNo
          callBuf (fun b => unPinPage b t.file currPageNo true)
          pure (0, -1)
        else do
          let (newNonLeafPage, newNode) ← allocNode page_set_NonLeafNodeInt
          let middle := t.M / 2
          let insertToLeft := decide (index < middle)
          let leftLen := middle + (if insertToLeft then 0 else 1)
          splitNonLeaf page newNode leftLen
          if insertToLeft then insertToNonLeaf page index newIndex newPageNo
          else insertToNewNonLeaf newNode (index - leftLen) newIndex newPageNo
          let c ← getNonLeaf page
          let n ← getNonLeaf newNode
          assert (decide (c.keyNum - n.keyNum ≤ 1 ∧ c.keyNum - n.keyNum ≥ -1))
          let newIndex2 ← deleteNewKeyNonLeaf newNode
          callBuf (fun b => unPinPage b t.file currPageNo true)
          callBuf (fun b => unPinPage b t.file newNonLeafPage true)
          pure (newNonLeafPage, newIndex2)

/-- Method `BTreeIndex::insertEntry`; `fuel` bounds the depth of the descent. -/
def insertEntry (fuel : Nat) (key : Int) (rid : RecordId) : IndexM Unit := do
  let t ← readState
  let (newPageNo, newIndex) ←
    recursiveInsert fuel t.rootPageNum key rid (decide (t.rootPageNum = t.initialRootPageNum))
  if newPageNo ≠ 0 then splitRoot newIndex t.rootPageNum newPageNo
  else pure ()

/-- The loop `for (i = 0; i < keyNum; i++) if (key < keyArray[i]) return i;` followed by
`return keyNum`, which `getLeafPage` and `getLevelOnePage` use to choose a child:
`n` iterations are left and the loop variable is `i`. -/
def scanChild (keyArray : List Int) (keyNum : Int) (key : Int) : Nat → Nat → Int
  | 0, _ => keyNum
  | n + 1, i => if key < keyArray.getD i 0 then (i : Int) else scanChild keyArray keyNum key n (i + 1)

/-- Method `BTreeIndex::getLevelOnePage`, with a bound on the depth of the recursion. -/
def getLevelOnePage : Nat → PageId → Int → IndexM PageId
  | 0, _, _ => raise .OutOfFuel
  | fuel + 1, prev, key => do
    let t ← readState
    let prevPage ← callBuf (fun b => readPage b t.file prev)
    let prevNode ← getNonLeaf prevPage
    if prevNode.level = 1 then do
      callBuf (fun b => unPinPage b t.file prev false)
      pure prev
    else do
      let next ← arrayGet prevNode.pageNoArray
        (scanChild prevNode.keyArray prevNode.keyNum key prevNode.keyNum.toNat 0)
      callBuf (fun b => unPinPage b t.file prev false)
      getLevelOnePage fuel next key

/-- Method `BTreeIndex::getLeafPage`. -/
def getLeafPage (fuel : Nat) (key : Int) : IndexM PageId := do
  let t ← readState
  let levelOnePageId ← getLevelOnePage fuel t.rootPageNum key
  let levelOnePage ← callBuf (fun b => readPage b t.file levelOnePageId)
  let node ← getNonLeaf levelOnePage
  assert (decide (node.level = 1))
  let leafId ← arrayGet node.pageNoArray
    (scanChild node.keyArray node.keyNum key node.keyNum.toNat 0)
  callBuf (fun b => unPinPage b t.file levelOnePageId false)
  pure leafId

/-- The loop of `getFirstIndex`: `n` iterations are left and the loop variable is `i`. -/
def firstIndexLoop (leafNode : LeafNodeInt) (lowOp : Operator) (lowValInt : Int) :
    Nat → Nat → Int
  | 0, _ => leafNode.keyNum
  | n + 1, i =>
    if lowOp = .GT then
      if lowValInt < leafNode.keyArray.getD i 0 then (i : Int)
      else firstIndexLoop leafNode lowOp lowValInt n (i + 1)
    else
      if lowValInt ≤ leafNode.keyArray.getD i 0 then (i : Int)
      else firstIndexLoop leafNode lowOp lowValInt n (i + 1)

/-- Dereference of the member `currentPageData`. -/
def currentPage : IndexM FrameId := do
  let t ← readState
  match t.currentPageData with
  | some p => pure p
  | none => raise .UndefinedBehaviour

/-- Method `BTreeIndex::getFirstIndex`. -/
def getFirstIndex : IndexM Int := do
  let t ← readState
  let p ← currentPage
  let leafNode ← getLeaf p
  pure (firstIndexLoop leafNode t.lowOp t.lowValInt leafNode.keyNum.toNat 0)

/-- Method `BTreeIndex::startScan`; `fuel` bounds the depth of the descent. -/
def startScan (fuel : Nat) (lowValParm : Int) (lowOpParm : Operator) (highValParm : Int)
    (highOpParm : Operator) : IndexM Unit := do
  if (lowOpParm ≠ .GT ∧ lowOpParm ≠ .GTE) ∨ (highOpParm ≠ .LT ∧ highOpParm ≠ .LTE) then
    raise .BadOpcodesException
  else do
    modifyState (fun t => { t with lowValInt := lowValParm, highValInt := highValParm,
                                   lowOp := lowOpParm, highOp := highOpParm })
    if lowValParm > highValParm then do
      modifyState (fun t => { t with lowValInt := 0, highValInt := 0 })
      raise .BadScanrangeException
    else do
      let leaf ← getLeafPage fuel lowValParm
      modifyState (fun t => { t with currentPageNum := leaf })
      let t ← readState
      let leafPage ← callBuf (fun b => readPage b t.file leaf)
      modifyState (fun t => { t with currentPageData := some leafPage })
      let i ← getFirstIndex
      modifyState (fun t => { t with nextEntry := i, scanExecuting := true })

/-- Method `BTreeIndex::scanNext`; the result is the out-parameter `outRid`.  The local
variable `leafNode` is set once, from `currentPageData` at entry, and every later
`leafNode->` reads the buffer of that frame. -/
def scanNext : IndexM RecordId := do
  let t ← readState
  if t.scanExecuting = false then raise .ScanNotInitializedException
  else do
    let leafNode ← currentPage
    let n ← getLeaf leafNode
    if t.nextEntry ≥ n.keyNum then do
      let rightNo := n.rightSibPageNo
      if rightNo = 0 then raise .IndexScanCompletedException
      else do
        callBuf (fun b => unPinPage b t.file t.currentPageNum false)
        modifyState (fun t => { t with currentPageNum := rightNo })
        let nextPage ← callBuf (fun b => readPage b t.file rightNo)
        modifyState (fun t => { t with currentPageData := some nextPage, nextEntry := 0 })
    else pure ()
    let t1 ← readState
    let n1 ← getLeaf leafNode
    let k ← arrayGet n1.keyArray t1.nextEntry
    if (if t1.highOp = .LT then decide (k ≥ t1.highValInt) else decide (k > t1.highValInt)) then
      raise .IndexScanCompletedException
    else do
      let outRid ← arrayGet n1.ridArray t1.nextEntry
      modifyState (fun t => { t with nextEntry := t.nextEntry + 1 })
      pure outRid

/-- Method `BTreeIndex::endScan`. -/
def endScan : IndexM Unit := do
  let t ← readState
  if t.scanExecuting = false then raise .ScanNotInitializedException
  else do
    callBuf (fun b => unPinPage b t.file t.currentPageNum false)
    modifyState (fun t => { t with nextEntry := 0, scanExecuting := false,
                                   currentPageData := none, currentPageNum := 0,
                                   lowValInt := 0, highValInt := 0 })

/-- The members of a `BTreeIndex` object at the start of its constructor, once
`bufMgr`, `attrByteOffset` and `attributeType` are assigned and `file` is the handle
of the index file; the other members are not yet assigned (they read as 0 here). -/
def BTreeIndex.fresh (bufMgr : BufMgr) (file : FileId) (L M : Nat) (attrByteOffset : Int)
    (attrType : Nat) : BTreeIndex :=
  { bufMgr := bufMgr, file := file, L := L, M := M, headerPageNum := 0, rootPageNum := 0,
    initialRootPageNum := 0, attrByteOffset := attrByteOffset, attributeType := attrType,
    leafOccupancy := 0, nodeOccupancy := 0, scanExecuting := false, nextEntry := 0,
    currentPageNum := 0, currentPageData := none, lowValInt := 0, highValInt := 0,
    lowOp := .GTE, highOp := .LTE }

/-- The loop of the constructor that scans the relation: one `insertEntry` for each
tuple the relation scanner yields, until `EndOfFileException`. -/
def insertAll (fuel : Nat) : List (Int × RecordId) → IndexM Unit
  | [] => pure ()
  | (key, rid) :: r => do
    insertEntry fuel key rid
    insertAll fuel r

/-- The `catch` branch of the constructor `BTreeIndex::BTreeIndex`, taken when the
index file does not exist yet: the file is created, the meta page and the initial
root leaf are allocated, and the tuples of the relation (`tuples`, the keys at
`attrByteOffset` with their record ids, in the order of the relation scanner) are
inserted. -/
def createIndex (fuel : Nat) (relationName : List Nat) (tuples : List (Int × RecordId)) :
    IndexM Unit := do
  let (headerPageNum, metaPtr) ← allocNode page_set_IndexMetaInfo
  modifyState (fun t => { t with headerPageNum := headerPageNum })
  let (rootPageNum, page) ← allocNode page_set_LeafNodeInt
  modifyState (fun t => { t with rootPageNum := rootPageNum, initialRootPageNum := rootPageNum,
                                 scanExecuting := false })
  let n ← getLeaf page
  setLeaf page { n with rightSibPageNo := 0 }
  let t ← readState
  setMeta metaPtr { relationName := (List.range 5).map (fun i => relationName.getD i 0)
                    attrByteOffset := t.attrByteOffset
                    attrType := t.attributeType
                    rootPageNo := rootPageNum
                    initialRootPageNum := rootPageNum }
  callBuf (fun b => unPinPage b t.file rootPageNum true)
  callBuf (fun b => unPinPage b t.file headerPageNum true)
  insertAll fuel tuples

/-- An empty store of paged files. -/
def indexDisk : Disk := { pages := [], nextPageNo := [], calls := [] }

/-- Record id used for the tuple with key `k` in the scenarios. -/
def ridOf (k : Int) : RecordId := ⟨k.toNat, 0⟩

/-- The index object at the start of its constructor, for leaf and non-leaf capacity 4,
over a pool of 10 frames and an index file (handle 7) that does not exist yet. -/
def index4 : BTreeIndex := BTreeIndex.fresh (BufMgr.new 10 indexDisk) 7 4 4 0 0

/-- The index built over a relation whose tuples carry the given keys, in this order. -/
def builtIndex (keys : List Int) : Except IndexExn Unit × BTreeIndex :=
  createIndex 10 [] (keys.map (fun k => (k, ridOf k))) index4

/-- The calls that building the index over a relation with the keys 1, 2, 4 (capacities
4, pool of 10 frames) makes to the buffer manager, client writes into the pinned
frames included. -/
def leafOps : List Op :=
  [.alloc 7, .write 0 [0, 0, 0, 0, 0, 0, 0, 0, 0],
   .alloc 7, .write 1 [0, 0, 0, 0, 0, 0, 0, 0, 0, 0, 0, 0, 0, 0],
   .write 1 [0, 0, 0, 0, 0, 0, 0, 0, 0, 0, 0, 0, 0, 0],
   .write 0 [0, 0, 0, 0, 0, 0, 0, 2, 2],
   .unpin 7 2 true, .unpin 7 1 true,
   .read 7 2, .write 1 [1, 0, 0, 0, 1, 0, 0, 0, 0, 0, 0, 0, 0, 1], .unpin 7 2 true,
   .read 7 2, .write 1 [1, 2, 0, 0, 1, 0, 2, 0, 0, 0, 0, 0, 0, 2], .unpin 7 2 true,
   .read 7 2, .write 1 [1, 2, 4, 0, 1, 0, 2, 0, 4, 0, 0, 0, 0, 3], .unpin 7 2 true]

/-- The outcomes of `n` successive calls of `scanNext`, in call order. -/
def scanNexts : Nat → BTreeIndex → List (Except IndexExn RecordId)
  | 0, _ => []
  | n + 1, t => (scanNext t).1 :: scanNexts n (scanNext t).2

/-! ## B+-tree index: the constructor and the probes used to state properties -/

/-- Modelled from the spec: the index file exists once it has been created or has
handed out a page ("if the backing file exists ... / does not exist: create it"). -/
def Disk.fileExists (d : Disk) (file : FileId) : Bool := (amLookup d.nextPageNo file).isSome

/-- Modelled from the spec: creation of an empty file; its first page will be page 1. -/
def Disk.createFile (d : Disk) (file : FileId) : Disk :=
  { d with nextPageNo := amInsert d.nextPageNo file 1 }

/-- The exceptions that `catch (BadgerDbException &e)` catches: every exception class of
the system derives from `BadgerDbException`; the three outcomes that stand for
undefined behaviour, a failed `assert` and an exhausted recursion bound are not
exceptions. -/
def IndexExn.isBadgerDbException : IndexExn → Bool
  | .buffer .FrameUnset => false
  | .UndefinedBehaviour => false
  | .AssertionFailed => false
  | .OutOfFuel => false
  | _ => true

/-- The `try` block of the constructor `BTreeIndex::BTreeIndex`.  `new BlobFile(name,
false)` throws `FileNotFoundException` when the file does not exist; `getFirstPageNo()`
is page 1, the first page the file handed out.  The relation name is compared as the
five words that the meta page stores. -/
def constructorTry (relationName : List Nat) : IndexM Unit := do
  let t ← readState
  if t.bufMgr.disk.fileExists t.file = false then raise .FileNotFoundException
  else do
    modifyState (fun t => { t with headerPageNum := 1 })
    let headerPage ← callBuf (fun b => readPage b t.file 1)
    let m ← getMeta headerPage
    if (List.range 5).map (fun i => relationName.getD i 0) ≠ m.relationName ∨
        t.attributeType ≠ m.attrType ∨ t.attrByteOffset ≠ m.attrByteOffset then
      raise .BadIndexInfoException
    else do
      modifyState (fun t => { t with rootPageNum := m.rootPageNo,
                                     initialRootPageNum := m.initialRootPageNum,
                                     scanExecuting := false })
      callBuf (fun b => unPinPage b t.file 1 false)

/-- The statement `file = new BlobFile(outIndexName, true)` of the `catch` block:
creating a file that exists throws `FileExistsException`. -/
def createBlobFile : IndexM Unit := do
  let t ← readState
  if t.bufMgr.disk.fileExists t.file then raise .FileExistsException
  else modifyState (fun t =>
    { t with bufMgr := { t.bufMgr with disk := t.bufMgr.disk.createFile t.file } })

/-- Constructor `BTreeIndex::BTreeIndex`, run on the object whose members `bufMgr`,
`attrByteOffset`, `attributeType` are assigned: the `try` block, and the `catch` block
when the `try` block ended with an exception. -/
def BTreeIndex.construct (fuel : Nat) (relationName : List Nat)
    (tuples : List (Int × RecordId)) : IndexM Unit := fun t =>
  match constructorTry relationName t with
  | (.ok u, t1) => (.ok u, t1)
  | (.error e, t1) =>
    if e.isBadgerDbException then
      (do createBlobFile
          createIndex fuel relationName tuples) t1
    else (.error e, t1)

/-- The words of page (file, pageNo) as `readPage` delivers them: the buffer of the
frame that holds the page when it is resident, what the file holds otherwise. -/
def BufMgr.pageData (b : BufMgr) (file : FileId) (pageNo : PageId) : List Nat :=
  match amLookup b.hashTable (file, pageNo) with
  | some i => (b.page i).data
  | none =>
    match amLookup b.disk.pages (file, pageNo) with
    | some pg => pg.data
    | none => []

/-- The leaf node in page `pageNo` of the index file. -/
def leafOf (t : BTreeIndex) (pageNo : PageId) : LeafNodeInt :=
  LeafNodeInt.ofWords t.L (t.bufMgr.pageData t.file pageNo)

/-- The non-leaf node in page `pageNo` of the index file. -/
def nonLeafOf (t : BTreeIndex) (pageNo : PageId) : NonLeafNodeInt :=
  NonLeafNodeInt.ofWords t.M (t.bufMgr.pageData t.file pageNo)

/-- The meta information in page `pageNo` of the index file. -/
def metaOf (t : BTreeIndex) (pageNo : PageId) : IndexMetaInfo :=
  IndexMetaInfo.ofWords (t.bufMgr.pageData t.file pageNo)

/-- The first `keyNum` entries of a leaf. -/
def LeafNodeInt.entries (n : LeafNodeInt) : List (Int × RecordId) :=
  (n.keyArray.zip n.ridArray).take n.keyNum.toNat

/-- The first `keyNum` keys of a non-leaf node. -/
def NonLeafNodeInt.keys (n : NonLeafNodeInt) : List Int := n.keyArray.take n.keyNum.toNat

/-- The first `keyNum + 1` children of a non-leaf node. -/
def NonLeafNodeInt.children (n : NonLeafNodeInt) : List PageId :=
  n.pageNoArray.take (n.keyNum.toNat + 1)

/-- The entries met by following `rightSibPageNo` from leaf page `pageNo` until the
page id 0, visiting at most `fuel` leaves (`none` when the chain is longer). -/
def leafChain (t : BTreeIndex) : Nat → PageId → Option (List (Int × RecordId))
  | 0, _ => none
  | fuel + 1, pageNo =>
    if pageNo = 0 then some []
    else (leafChain t fuel (leafOf t pageNo).rightSibPageNo).map
      (fun r => (leafOf t pageNo).entries ++ r)

/-- The keys 1, 2, ..., n. -/
def keysUpTo (n : Nat) : List Int := (List.range n).map (fun i => (i : Int) + 1)

/-- The keys 10, 20, ..., 140 followed by 95 and 96. -/
def middleKeys : List Int := (List.range 14).map (fun i => ((i : Int) + 1) * 10) ++ [95]

/-- Every exception with which the method `x` can end satisfies `P`. -/
def Raises {α : Type} (x : IndexM α) (P : IndexExn → Prop) : Prop :=
  ∀ t e, (x t).1 = .error e → P e

/-- The writes `deleteNewKeyNonLeaf` makes to the node. -/
def NonLeafNodeInt.deleteFirstKey (n : NonLeafNodeInt) : NonLeafNodeInt :=
  { n with keyNum := n.keyNum - 1
           keyArray := (memmove n.keyArray 0 1 (n.keyNum - 1).toNat).set (n.keyNum - 1).toNat 0 }

/-- The node fits a page for capacity `M`: its arrays have `M` keys and `M + 1` page
ids, and its `int` fields are 32-bit values. -/
def NonLeafNodeInt.Shaped (M : Nat) (n : NonLeafNodeInt) : Prop :=
  n.keyArray.length = M ∧ n.pageNoArray.length = M + 1 ∧
  (∀ x ∈ n.keyArray, -2 ^ 31 ≤ x ∧ x < 2 ^ 31) ∧
  (-2 ^ 31 ≤ n.level ∧ n.level < 2 ^ 31) ∧ (-2 ^ 31 ≤ n.keyNum ∧ n.keyNum < 2 ^ 31)

/-- The statements of `recursiveInsert` for a full non-leaf node, from the call of
`splitNonLeaf` to the call of `deleteNewKeyNonLeaf`: `page` points to the node,
`newNode` to the node just allocated, and `index` is the insertion index of the
incoming (`newIndex`, `newPageNo`).  The result is the key promoted to the parent. -/
def splitAndInsertNonLeaf (page newNode : FrameId) (index : Int) (newIndex : Int)
    (newPageNo : PageId) : IndexM Int := do
  let t ← readState
  let middle := t.M / 2
  let insertToLeft := decide (index < middle)
  let leftLen := middle + (if insertToLeft then 0 else 1)
  splitNonLeaf page newNode leftLen
  if insertToLeft then insertToNonLeaf page index newIndex newPageNo
  else insertToNewNonLeaf newNode (index - leftLen) newIndex newPageNo
  let c ← getNonLeaf page
  let n ← getNonLeaf newNode
  assert (decide (c.keyNum - n.keyNum ≤ 1 ∧ c.keyNum - n.keyNum ≥ -1))
  deleteNewKeyNonLeaf newNode

/-! ## Pin counts per page, and what the methods of the index leave alone -/

/-- Pin count of page (f, p): that of the frame the page table maps it to, 0 for a page
that is not resident. -/
def pinOf (b : BufMgr) (f : FileId) (p : PageId) : Nat :=
  match amLookup b.hashTable (f, p) with
  | some i => (b.desc i).pinCnt
  | none => 0

/-- Page (f, p) is resident and its frame is marked dirty. -/
def BufMgr.dirtyResident (b : BufMgr) (f : FileId) (p : PageId) : Prop :=
  ∃ i, b.holds i f p ∧ (b.desc i).dirty = true

/-- The frames of `c` are bound as those of `b`: only the bytes of the buffers may
differ, and each buffer keeps its page number. -/
def SameFrames (b c : BufMgr) : Prop :=
  c.numBufs = b.numBufs ∧ c.hashTable = b.hashTable ∧ c.bufDescTable = b.bufDescTable ∧
  c.disk = b.disk ∧ c.bufPool.length = b.bufPool.length ∧
  ∀ i, (c.page i).page_number = (b.page i).page_number

/-- The members of the index that only the constructor and `splitRoot` assign have the
same values in `u` as in `t`. -/
def Members (t u : BTreeIndex) : Prop :=
  u.file = t.file ∧ u.L = t.L ∧ u.M = t.M ∧ u.headerPageNum = t.headerPageNum ∧
  u.rootPageNum = t.rootPageNum ∧ u.initialRootPageNum = t.initialRootPageNum

/-- The state `x` ends in, whether it returns or throws, is related by `R` to the state
it starts from. -/
def Always {α : Type} (R : BTreeIndex → BTreeIndex → Prop) (x : IndexM α) : Prop :=
  ∀ t, R t (x t).2

/-- The buffer manager of `u` has its frames bound as that of `t`, and the members that
only the constructor and `splitRoot` assign are the same. -/
def SameBuf (t u : BTreeIndex) : Prop := SameFrames t.bufMgr u.bufMgr ∧ Members t u

/-- The invariant of the pool together with the fact that it has frames. -/
def BufMgr.Inv (b : BufMgr) : Prop := b.WF ∧ 0 < b.numBufs

/-! ## The length of the clock sweep -/

/-- Number of calls of `advanceClock` made by the loop of `allocBuf`: one at the start of
each iteration the loop runs, with the same branches as `allocBufLoop`. -/
def allocBufAdvances : Nat → Nat → Bool → BufMgr → Nat
  | 0, _, _, _ => 0
  | fuel + 1, pinNum, lastPin, s0 =>
    let s := advanceClock s0
    if pinNum = s.numBufs then 1
    else if !(s.desc s.clockHand).valid then 1
    else if (s.desc s.clockHand).refbit then
      1 + allocBufAdvances fuel pinNum lastPin
        (s.setDesc s.clockHand { s.desc s.clockHand with refbit := false })
    else if 0 < (s.desc s.clockHand).pinCnt then
      1 + allocBufAdvances fuel (if lastPin then pinNum + 1 else 1) true s
    else 1

/-- Number of times one call of `allocBuf` advances the clock hand. -/
def allocBufSteps (s : BufMgr) : Nat :=
  allocBufAdvances ((2 * s.numBufs) % 2 ^ 32 + 1) 0 false s

/-- A pool of two frames in which both pages are pinned and have been read twice, so
that both reference bits are set. -/
def busyPool : BufMgr :=
  runOps (BufMgr.new 2 exampleDisk) [.read 7 1, .read 7 2, .read 7 1, .read 7 2]

/-- The clock scenario of the design with N = 2: pages A = 1 and B = 2 of file 7 are
read and both are unpinned clean. -/
def clockPool : BufMgr :=
  runOps (BufMgr.new 2 exampleDisk)
    [.read 7 1, .read 7 2, .unpin 7 1 false, .unpin 7 2 false]

/-- A pool of two frames whose two pages are unpinned with their reference bits set:
each page has been read twice and unpinned twice. -/
def restedPool : BufMgr :=
  runOps busyPool [.unpin 7 1 false, .unpin 7 1 false, .unpin 7 2 false, .unpin 7 2 false]

/-- The state `u` differs from `t` in the buffer manager only. -/
def OnlyBuf (t u : BTreeIndex) : Prop := u = { t with bufMgr := u.bufMgr }

/-! ## The root of the tree across calls of `insertEntry` -/

/-- The pool of `u` satisfies the invariant if that of `t` does, and no file has given
back a page number: the next page number of each file has not decreased. -/
def Grows (t u : BTreeIndex) : Prop :=
  t.bufMgr.Inv → u.bufMgr.Inv ∧ ∀ g, t.bufMgr.disk.next g ≤ u.bufMgr.disk.next g

/-- The relation `Grows`, the members `file` and `initialRootPageNum` unchanged, and
`rootPageNum` either unchanged or equal to `id`. -/
def RootTo (id : PageId) (t u : BTreeIndex) : Prop :=
  Grows t u ∧ u.file = t.file ∧ u.initialRootPageNum = t.initialRootPageNum ∧
  (u.rootPageNum = t.rootPageNum ∨ u.rootPageNum = id)

/-- The call `insertEntry(key, rid)` in state `t` reaches `splitRoot`: the recursive
insert from the root returns and reports a split. -/
def splitsRoot (fuel : Nat) (key : Int) (rid : RecordId) (t : BTreeIndex) : Bool :=
  match (recursiveInsert fuel t.rootPageNum key rid
      (decide (t.rootPageNum = t.initialRootPageNum)) t).1 with
  | .ok (pn, _) => decide (pn ≠ 0)
  | .error _ => false

/-- The state after a client has called `insertEntry` for each entry of the list in
turn, whatever the outcome of each call. -/
def insertRun (fuel : Nat) : List (Int × RecordId) → BTreeIndex → BTreeIndex
  | [], t => t
  | (key, rid) :: r, t => insertRun fuel r (insertEntry fuel key rid t).2

/-- Some call of the run reaches `splitRoot`. -/
def rootSplitIn (fuel : Nat) : List (Int × RecordId) → BTreeIndex → Bool
  | [], _ => false
  | (key, rid) :: r, t =>
    splitsRoot fuel key rid t || rootSplitIn fuel r (insertEntry fuel key rid t).2

/-- Every call of the run returns normally. -/
def allReturn (fuel : Nat) : List (Int × RecordId) → BTreeIndex → Bool
  | [], _ => true
  | (key, rid) :: r, t =>
    decide ((insertEntry fuel key rid t).1 = .ok ()) &&
      allReturn fuel r (insertEntry fuel key rid t).2

/-! # Theorems -/

/-! ## Facts about association lists -/

section AssocMaps
variable {κ ν : Type} [DecidableEq κ]

theorem amLookup_remove (m : List (κ × ν)) (k k1 : κ) :
    amLookup (amRemove m k) k1 = if k1 = k then none else amLookup m k1 := by
  induction m with
  | nil => simp [amRemove, amLookup]
  | cons e t ih =>
    obtain ⟨a, b⟩ := e
    unfold amRemove at ih ⊢
    by_cases h : a = k
    · subst h
      simp only [List.filter, ne_eq, not_true_eq_false, decide_False]
      rw [ih]
      by_cases h1 : k1 = a
      · simp [h1]
      · have : ¬ a = k1 := fun e => h1 e.symm
        simp [h1, amLookup, this]
    · simp only [List.filter, ne_eq, h, not_false_eq_true, decide_True, amLookup]
      rw [ih]
      by_cases h1 : k1 = k
      · subst h1
        simp [h]
      · simp [h1]

theorem amLookup_insert (m : List (κ × ν)) (k k1 : κ) (v : ν) :
    amLookup (amInsert m k v) k1 = if k1 = k then some v else amLookup m k1 := by
  unfold amInsert
  by_cases h : k1 = k
  · subst h
    simp [amLookup]
  · have : ¬ k = k1 := fun e => h e.symm
    simp [amLookup, this, h, amLookup_remove]

end AssocMaps

/-! ## Reading the arrays after a write -/

theorem getD_set_eq {α : Type} (l : List α) (i j : Nat) (a d : α) :
    (l.set i a).getD j d = if j = i ∧ i < l.length then a else l.getD j d := by
  simp only [List.getD_eq_getElem?_getD, List.getElem?_set]
  by_cases h : i = j
  · subst h
    by_cases h2 : i < l.length
    · simp [h2]
    · simp [h2]
      have : l[i]? = none := by simp; omega
      simp [this]
  · have : ¬ j = i := fun e => h e.symm
    simp [h, this]

@[simp] theorem desc_setDesc (s : BufMgr) (i j : FrameId) (d : BufDesc) :
    (s.setDesc i d).desc j = if j = i ∧ i < s.bufDescTable.length then d else s.desc j := by
  exact getD_set_eq s.bufDescTable i j d default

@[simp] theorem page_setDesc (s : BufMgr) (i j : FrameId) (d : BufDesc) :
    (s.setDesc i d).page j = s.page j := rfl

@[simp] theorem page_setPage (s : BufMgr) (i j : FrameId) (p : Page) :
    (s.setPage i p).page j = if j = i ∧ i < s.bufPool.length then p else s.page j := by
  exact getD_set_eq s.bufPool i j p default

@[simp] theorem desc_setPage (s : BufMgr) (i j : FrameId) (p : Page) :
    (s.setPage i p).desc j = s.desc j := rfl

theorem SweptFrom.rfl_ (s : BufMgr) : SweptFrom s s :=
  ⟨rfl, rfl, rfl, rfl, rfl, rfl, fun _ => Or.inl rfl⟩

theorem SweptFrom.trans_swept {s t u : BufMgr} (h1 : SweptFrom s t) (h2 : SweptFrom t u) :
    SweptFrom s u := by
  obtain ⟨a1, a2, a3, a4, a5, a6, a7⟩ := h1
  obtain ⟨b1, b2, b3, b4, b5, b6, b7⟩ := h2
  refine ⟨b1.trans a1, b2.trans a2, b3.trans a3, b4.trans a4, b5.trans a5, b6.trans a6, ?_⟩
  intro j
  rcases a7 j with h | ⟨hv, h⟩ <;> rcases b7 j with k | ⟨kv, k⟩
  · exact Or.inl (k.trans h)
  · rw [h] at k kv
    exact Or.inr ⟨kv, k⟩
  · exact Or.inr ⟨hv, k.trans h⟩
  · refine Or.inr ⟨hv, ?_⟩
    rw [k, h]

theorem SweptFrom.advance (s : BufMgr) : SweptFrom s (advanceClock s) :=
  ⟨rfl, rfl, rfl, rfl, rfl, rfl, fun _ => Or.inl rfl⟩

theorem SweptFrom.clearRef (s : BufMgr) (i : FrameId) (hv : (s.desc i).valid = true) :
    SweptFrom s (s.setDesc i { s.desc i with refbit := false }) := by
  refine ⟨rfl, rfl, rfl, rfl, rfl, by simp [BufMgr.setDesc], ?_⟩
  intro j
  rw [desc_setDesc]
  by_cases h : j = i ∧ i < s.bufDescTable.length
  · rw [if_pos h]
    obtain ⟨rfl, _⟩ := h
    exact Or.inr ⟨hv, rfl⟩
  · rw [if_neg h]
    exact Or.inl rfl

theorem AllocResult.of_swept {s u : BufMgr} {r : Except Exn (Option FrameId)} {s1 : BufMgr}
    (h : SweptFrom s u) (h2 : AllocResult u r s1) : AllocResult s r s1 := by
  obtain ⟨t, ht, hc⟩ := h2
  have hn : u.numBufs = s.numBufs := h.1
  rw [hn] at hc
  exact ⟨t, h.trans_swept ht, hc⟩

theorem allocBufLoop_result (fuel pinNum : Nat) (lastPin : Bool) (s : BufMgr) :
    AllocResult s (allocBufLoop fuel pinNum lastPin s).1 (allocBufLoop fuel pinNum lastPin s).2 := by
  induction fuel generalizing pinNum lastPin s with
  | zero => exact ⟨s, SweptFrom.rfl_ s, Or.inr (Or.inl ⟨rfl, rfl⟩)⟩
  | succ n ih =>
    unfold allocBufLoop
    simp only
    have hh : 0 < s.numBufs → (advanceClock s).clockHand < s.numBufs := by
      intro h
      exact Nat.mod_lt _ h
    split_ifs with h1 h2 h3 h4 h5
    · exact ⟨advanceClock s, SweptFrom.advance s, Or.inl ⟨rfl, rfl⟩⟩
    · refine ⟨advanceClock s, SweptFrom.advance s, Or.inr (Or.inr (Or.inl ⟨rfl, hh, ?_, rfl⟩))⟩
      simpa using h2
    · have hv : ((advanceClock s).desc (advanceClock s).clockHand).valid = true := by
        simpa using h2
      exact AllocResult.of_swept
        ((SweptFrom.advance s).trans_swept (SweptFrom.clearRef _ _ hv)) (ih _ _ _)
    · exact AllocResult.of_swept (SweptFrom.advance s) (ih _ _ _)
    · exact AllocResult.of_swept (SweptFrom.advance s) (ih _ _ _)
    · refine ⟨advanceClock s, SweptFrom.advance s,
        Or.inr (Or.inr (Or.inr ⟨rfl, hh, ?_, ?_, ?_, rfl⟩))⟩
      · simpa using h2
      · simpa using h3
      · omega

theorem allocBuf_result (s : BufMgr) : AllocResult s (allocBuf s).1 (allocBuf s).2 :=
  allocBufLoop_result _ _ _ s

theorem FrameEquiv.holds_iff {s t : BufMgr} (h : FrameEquiv s t) (i : FrameId) (f : FileId)
    (p : PageId) : t.holds i f p ↔ s.holds i f p := by
  obtain ⟨h1, _, _, _, _, h6⟩ := h
  obtain ⟨a, b, c, _⟩ := h6 i
  unfold BufMgr.holds
  rw [h1, a, b, c]

theorem BufMgr.WF.of_frameEquiv {s t : BufMgr} (w : s.WF) (h : FrameEquiv s t)
    (hd : t.disk = s.disk) : t.WF := by
  have hi := h.holds_iff
  obtain ⟨h1, h2, h3, h4, h5, h6⟩ := h
  refine ⟨by rw [h2, h1]; exact w.descLen, by rw [h3, h1]; exact w.poolLen, ?_, ?_, ?_, ?_, ?_⟩
  · intro i hlt
    rw [(h6 i).2.2.2]
    exact w.frameNo i (h1 ▸ hlt)
  · intro i hlt
    rw [(h6 i).1, (h6 i).2.1]
    exact w.fileIff i (h1 ▸ hlt)
  · intro f p i
    rw [h4, hi]
    exact w.resident f p i
  · intro i f p hh
    rw [h5, hd]
    exact w.pageNo i f p ((hi i f p).1 hh)
  · rw [hd]
    exact w.diskWF

theorem SweptFrom.frameEquiv {s t : BufMgr} (h : SweptFrom s t) : FrameEquiv s t := by
  obtain ⟨a1, a2, a3, a4, a5, a6, a7⟩ := h
  refine ⟨a1, a6, by rw [a2], a3, ?_, ?_⟩
  · intro j
    unfold BufMgr.page
    rw [a2]
  · intro j
    rcases a7 j with h | ⟨_, h⟩ <;> rw [h] <;> exact ⟨rfl, rfl, rfl, rfl⟩

theorem FrameEquiv.countAccess (s : BufMgr) : FrameEquiv s s.countAccess :=
  ⟨rfl, rfl, rfl, rfl, fun _ => rfl, fun _ => ⟨rfl, rfl, rfl, rfl⟩⟩

theorem FrameEquiv.countRead (s : BufMgr) : FrameEquiv s s.countRead :=
  ⟨rfl, rfl, rfl, rfl, fun _ => rfl, fun _ => ⟨rfl, rfl, rfl, rfl⟩⟩

theorem FrameEquiv.countWrite (s : BufMgr) : FrameEquiv s s.countWrite :=
  ⟨rfl, rfl, rfl, rfl, fun _ => rfl, fun _ => ⟨rfl, rfl, rfl, rfl⟩⟩

theorem FrameEquiv.trans_equiv {s t u : BufMgr} (h1 : FrameEquiv s t) (h2 : FrameEquiv t u) :
    FrameEquiv s u := by
  obtain ⟨a1, a2, a3, a4, a5, a6⟩ := h1
  obtain ⟨b1, b2, b3, b4, b5, b6⟩ := h2
  refine ⟨b1.trans a1, b2.trans a2, b3.trans a3, b4.trans a4, fun j => (b5 j).trans (a5 j), ?_⟩
  intro j
  obtain ⟨c1, c2, c3, c4⟩ := a6 j
  obtain ⟨d1, d2, d3, d4⟩ := b6 j
  exact ⟨d1.trans c1, d2.trans c2, d3.trans c3, d4.trans c4⟩

/-- Rewriting a descriptor without touching what it holds keeps the frames equivalent. -/
theorem FrameEquiv.setDesc (s : BufMgr) (i : FrameId) (d : BufDesc)
    (hv : d.valid = (s.desc i).valid) (hf : d.file = (s.desc i).file)
    (hp : d.pageNo = (s.desc i).pageNo) (hn : d.frameNo = (s.desc i).frameNo) :
    FrameEquiv s (s.setDesc i d) := by
  refine ⟨rfl, by simp [BufMgr.setDesc], rfl, rfl, fun _ => rfl, ?_⟩
  intro j
  rw [desc_setDesc]
  by_cases h : j = i ∧ i < s.bufDescTable.length
  · rw [if_pos h]
    obtain ⟨rfl, _⟩ := h
    exact ⟨hv, hf, hp, hn⟩
  · rw [if_neg h]
    exact ⟨rfl, rfl, rfl, rfl⟩

/-- Changing the files keeps the invariant when the new files are well formed and no
file has gone back on the ids it handed out. -/
theorem BufMgr.WF.withDisk {s : BufMgr} (w : s.WF) (d : Disk) (hd : d.WF)
    (hn : ∀ f, s.disk.next f ≤ d.next f) : ({ s with disk := d } : BufMgr).WF := by
  refine ⟨w.descLen, w.poolLen, w.frameNo, w.fileIff, w.resident, ?_, hd⟩
  intro i f p hh
  obtain ⟨a, b⟩ := w.pageNo i f p hh
  exact ⟨a, lt_of_lt_of_le b (hn f)⟩

theorem Disk.WF.writePage {d : Disk} (hd : d.WF) (f : FileId) (pg : Page)
    (h : pg.page_number < d.next f) : (d.writePage f pg).WF := by
  intro f1 p1 pg1 hl
  have hn : (d.writePage f pg).next f1 = d.next f1 := rfl
  rw [hn]
  simp only [Disk.writePage, amLookup_insert] at hl
  by_cases hk : (f1, p1) = (f, pg.page_number)
  · rw [if_pos hk] at hl
    obtain ⟨rfl, rfl⟩ := Prod.mk.inj hk
    cases hl
    exact ⟨h, rfl⟩
  · rw [if_neg hk] at hl
    exact hd f1 p1 pg1 hl

theorem Disk.WF.deletePage {d : Disk} (hd : d.WF) (f : FileId) (p : PageId) :
    (d.deletePage f p).WF := by
  intro f1 p1 pg1 hl
  have hn : (d.deletePage f p).next f1 = d.next f1 := rfl
  rw [hn]
  simp only [Disk.deletePage, amLookup_remove] at hl
  by_cases hk : (f1, p1) = (f, p)
  · rw [if_pos hk] at hl
    cases hl
  · rw [if_neg hk] at hl
    exact hd f1 p1 pg1 hl

theorem Disk.next_allocatePage (d : Disk) (f g : FileId) :
    (d.allocatePage f).2.next g = if g = f then d.next f + 1 else d.next g := by
  simp only [Disk.allocatePage, Disk.next, amLookup_insert]
  by_cases h : g = f
  · simp [h]
  · simp [h]

theorem Disk.WF.allocatePage {d : Disk} (hd : d.WF) (f : FileId) :
    (d.allocatePage f).2.WF := by
  intro f1 p1 pg1 hl
  rw [Disk.next_allocatePage]
  simp only [Disk.allocatePage, amLookup_insert] at hl
  by_cases hk : (f1, p1) = (f, d.next f)
  · rw [if_pos hk] at hl
    obtain ⟨rfl, rfl⟩ := Prod.mk.inj hk
    cases hl
    simp
  · rw [if_neg hk] at hl
    obtain ⟨a, b⟩ := hd f1 p1 pg1 hl
    refine ⟨?_, b⟩
    by_cases h : f1 = f
    · rw [if_pos h]
      subst h
      exact Nat.lt_succ_of_lt a
    · rw [if_neg h]
      exact a

/-- Writing frame `i` back keeps the invariant and the frames. -/
theorem BufMgr.WF.writeBack {s : BufMgr} (w : s.WF) {i : FrameId} {f : FileId} {p : PageId}
    (hh : s.holds i f p) : (s.writeBack i i).WF ∧ FrameEquiv s (s.writeBack i i) := by
  unfold BufMgr.writeBack
  by_cases hdirty : (s.desc i).dirty = true
  · rw [if_pos hdirty, hh.2.2.1]
    simp only
    obtain ⟨hpn, hlt⟩ := w.pageNo i f p hh
    have w1 : ({ s with disk := s.disk.writePage f (s.page i) } : BufMgr).WF :=
      w.withDisk _ (w.diskWF.writePage f (s.page i) (by rw [hpn]; exact hlt)) (fun _ => le_rfl)
    have e1 : FrameEquiv ({ s with disk := s.disk.writePage f (s.page i) } : BufMgr)
        ((({ s with disk := s.disk.writePage f (s.page i) } : BufMgr).setDesc i
          { s.desc i with dirty := false }).countWrite) :=
      (FrameEquiv.setDesc _ i { s.desc i with dirty := false } rfl rfl rfl rfl).trans_equiv
        (FrameEquiv.countWrite _)
    refine ⟨w1.of_frameEquiv e1 rfl, ?_⟩
    have e0 : FrameEquiv s ({ s with disk := s.disk.writePage f (s.page i) } : BufMgr) :=
      ⟨rfl, rfl, rfl, rfl, fun _ => rfl, fun _ => ⟨rfl, rfl, rfl, rfl⟩⟩
    exact e0.trans_equiv e1
  · rw [if_neg hdirty]
    exact ⟨w, ⟨rfl, rfl, rfl, rfl, fun _ => rfl, fun _ => ⟨rfl, rfl, rfl, rfl⟩⟩⟩

theorem BufMgr.holds_release {s : BufMgr} (w : s.WF) {i : FrameId} (hi : i < s.numBufs)
    (f : FileId) (p : PageId) (j : FrameId) (f1 : FileId) (p1 : PageId) :
    (s.release i f p).holds j f1 p1 ↔ j ≠ i ∧ s.holds j f1 p1 := by
  have hlen : i < s.bufDescTable.length := by rw [w.descLen]; exact hi
  unfold BufMgr.holds BufMgr.release
  rw [desc_setDesc]
  by_cases h : j = i
  · subst h
    simp [hlen, BufDesc.Clear]
  · have : ¬ (j = i ∧ i < s.bufDescTable.length) := fun e => h e.1
    simp only [h, false_and, if_false, ne_eq, not_false_eq_true, true_and]
    rfl

theorem BufMgr.WF.release {s : BufMgr} (w : s.WF) {i : FrameId} {f : FileId} {p : PageId}
    (hh : s.holds i f p) : (s.release i f p).WF := by
  have hi : i < s.numBufs := hh.1
  have hlen : i < s.bufDescTable.length := by rw [w.descLen]; exact hi
  have hd : ∀ j, (s.release i f p).desc j = if j = i then (s.desc i).Clear else s.desc j := by
    intro j
    unfold BufMgr.release
    rw [desc_setDesc]
    by_cases h : j = i
    · simp [h, hlen]
    · simp [h]
      rfl
  refine ⟨?_, w.poolLen, ?_, ?_, ?_, ?_, w.diskWF⟩
  · show (s.bufDescTable.set i _).length = _
    rw [List.length_set]
    exact w.descLen
  · intro j hj
    rw [hd]
    by_cases h : j = i
    · rw [if_pos h, h]
      exact w.frameNo i hi
    · rw [if_neg h]
      exact w.frameNo j hj
  · intro j hj
    rw [hd]
    by_cases h : j = i
    · rw [if_pos h]
      simp [BufDesc.Clear]
    · rw [if_neg h]
      exact w.fileIff j hj
  · intro f1 p1 j
    rw [BufMgr.holds_release w hi]
    show amLookup (amRemove s.hashTable (f, p)) (f1, p1) = some j ↔ _
    rw [amLookup_remove]
    by_cases hk : (f1, p1) = (f, p)
    · rw [if_pos hk]
      obtain ⟨rfl, rfl⟩ := Prod.mk.inj hk
      constructor
      · intro h
        cases h
      · rintro ⟨hne, hj⟩
        have a := (w.resident f1 p1 j).2 hj
        have b := (w.resident f1 p1 i).2 hh
        rw [a] at b
        exact absurd (Option.some.inj b) hne
    · rw [if_neg hk, w.resident f1 p1 j]
      constructor
      · intro hj
        refine ⟨?_, hj⟩
        rintro rfl
        apply hk
        have e1 := hj.2.2.1
        rw [hh.2.2.1] at e1
        have e2 := hj.2.2.2
        rw [hh.2.2.2] at e2
        rw [Option.some.inj e1, e2]
      · exact fun h => h.2
  · intro j f1 p1 hj
    rw [BufMgr.holds_release w hi] at hj
    exact w.pageNo j f1 p1 hj.2

@[simp] theorem clockHand_writeBack (s : BufMgr) (i j : FrameId) :
    (s.writeBack i j).clockHand = s.clockHand := by
  unfold BufMgr.writeBack
  split
  · split <;> rfl
  · rfl

@[simp] theorem hashTable_writeBack (s : BufMgr) (i j : FrameId) :
    (s.writeBack i j).hashTable = s.hashTable := by
  unfold BufMgr.writeBack
  split
  · split <;> rfl
  · rfl

@[simp] theorem numBufs_writeBack (s : BufMgr) (i j : FrameId) :
    (s.writeBack i j).numBufs = s.numBufs := by
  unfold BufMgr.writeBack
  split
  · split <;> rfl
  · rfl

@[simp] theorem bufPool_writeBack (s : BufMgr) (i j : FrameId) :
    (s.writeBack i j).bufPool = s.bufPool := by
  unfold BufMgr.writeBack
  split
  · split <;> rfl
  · rfl

/-- A valid frame of a well-formed pool holds some page. -/
theorem BufMgr.WF.holds_of_valid {s : BufMgr} (w : s.WF) {i : FrameId} (hi : i < s.numBufs)
    (hv : (s.desc i).valid = true) : ∃ f, s.holds i f (s.desc i).pageNo := by
  have h := (w.fileIff i hi).1 hv
  cases hf : (s.desc i).file with
  | none => exact absurd hf h
  | some f => exact ⟨f, hi, hv, hf, rfl⟩

/-- Evicting the frame under the hand is a write-back followed by a release. -/
theorem BufMgr.evict_eq {s : BufMgr} (w : s.WF) {f : FileId} {p : PageId}
    (hh : s.holds s.clockHand f p) :
    s.evict = (s.writeBack s.clockHand s.clockHand).release s.clockHand f p := by
  obtain ⟨_, e⟩ := w.writeBack hh
  have hf := hh.2.2.1
  have hp := hh.2.2.2
  obtain ⟨_, e2, e3, _⟩ := e.2.2.2.2.2 s.clockHand
  rw [hf] at e2
  rw [hp] at e3
  unfold BufMgr.evict BufMgr.removeEntry BufMgr.release
  simp only [clockHand_writeBack, e2, e3]
  rfl

theorem BufMgr.WF.evict {s : BufMgr} (w : s.WF) (hi : s.clockHand < s.numBufs)
    (hv : (s.desc s.clockHand).valid = true) : s.evict.WF := by
  obtain ⟨f, hh⟩ := w.holds_of_valid hi hv
  rw [BufMgr.evict_eq w hh]
  obtain ⟨w1, e⟩ := w.writeBack hh
  exact w1.release ((e.holds_iff _ _ _).2 hh)

theorem BufMgr.holds_install {s : BufMgr} (w : s.WF) {i : FrameId} (hi : i < s.numBufs)
    (f : FileId) (p : PageId) (pg : Page) (j : FrameId) (f1 : FileId) (p1 : PageId) :
    (s.install i f p pg).holds j f1 p1 ↔
      (j = i ∧ f1 = f ∧ p1 = p) ∨ (j ≠ i ∧ s.holds j f1 p1) := by
  have hlen : i < s.bufDescTable.length := by rw [w.descLen]; exact hi
  unfold BufMgr.holds BufMgr.install
  simp only [desc_setDesc]
  by_cases h : j = i
  · subst h
    have : (s.setPage j pg).bufDescTable.length = s.bufDescTable.length := rfl
    simp only [BufMgr.setDesc, BufMgr.setPage]
    simp [hlen, BufDesc.Set]
    constructor
    · rintro ⟨_, a, b⟩
      exact ⟨a.symm, b.symm⟩
    · rintro ⟨a, b⟩
      exact ⟨hi, a.symm, b.symm⟩
  · simp only [h, false_and, if_false, ne_eq, not_false_eq_true, true_and, false_or]
    rfl

theorem BufMgr.WF.install {s : BufMgr} (w : s.WF) {i : FrameId} (hi : i < s.numBufs)
    (hv : (s.desc i).valid = false) (f : FileId) (p : PageId) (pg : Page)
    (hl : amLookup s.hashTable (f, p) = none) (hpg : pg.page_number = p)
    (hp : p < s.disk.next f) : (s.install i f p pg).WF := by
  have hlen : i < s.bufDescTable.length := by rw [w.descLen]; exact hi
  have hplen : i < s.bufPool.length := by rw [w.poolLen]; exact hi
  have hnot : ∀ f1 p1, ¬ s.holds i f1 p1 := by
    intro f1 p1 h
    rw [h.2.1] at hv
    cases hv
  have hd : ∀ j, (s.install i f p pg).desc j =
      if j = i then (s.desc i).Set f p else s.desc j := by
    intro j
    unfold BufMgr.install
    simp only [desc_setDesc]
    by_cases h : j = i
    · rw [if_pos h]
      have : i < (s.setPage i pg).bufDescTable.length := hlen
      simp only [h, true_and]
      rw [if_pos this]
      rfl
    · simp [h]
      rfl
  have hpage : ∀ j, (s.install i f p pg).page j = if j = i then pg else s.page j := by
    intro j
    show (s.setPage i pg).page j = _
    rw [page_setPage]
    by_cases h : j = i
    · simp [h, hplen]
    · simp [h]
  refine ⟨?_, ?_, ?_, ?_, ?_, ?_, w.diskWF⟩
  · show (s.bufDescTable.set i _).length = _
    rw [List.length_set]
    exact w.descLen
  · show (s.bufPool.set i _).length = _
    rw [List.length_set]
    exact w.poolLen
  · intro j hj
    rw [hd]
    by_cases h : j = i
    · rw [if_pos h, h]
      exact w.frameNo i hi
    · rw [if_neg h]
      exact w.frameNo j hj
  · intro j hj
    rw [hd]
    by_cases h : j = i
    · rw [if_pos h]
      simp [BufDesc.Set]
    · rw [if_neg h]
      exact w.fileIff j hj
  · intro f1 p1 j
    rw [BufMgr.holds_install w hi]
    show amLookup (amInsert _ (f, p) i) (f1, p1) = some j ↔ _
    rw [amLookup_insert]
    by_cases hk : (f1, p1) = (f, p)
    · rw [if_pos hk]
      obtain ⟨rfl, rfl⟩ := Prod.mk.inj hk
      constructor
      · intro h
        exact Or.inl ⟨(Option.some.inj h).symm, rfl, rfl⟩
      · rintro (⟨rfl, _, _⟩ | ⟨_, hj⟩)
        · rfl
        · have a := (w.resident f1 p1 j).2 hj
          rw [hl] at a
          cases a
    · rw [if_neg hk]
      rw [show (s.setPage i pg).hashTable = s.hashTable from rfl, w.resident f1 p1 j]
      constructor
      · intro hj
        refine Or.inr ⟨?_, hj⟩
        rintro rfl
        exact hnot f1 p1 hj
      · rintro (⟨_, rfl, rfl⟩ | ⟨_, hj⟩)
        · exact absurd rfl hk
        · exact hj
  · intro j f1 p1 hj
    rw [BufMgr.holds_install w hi] at hj
    rw [hpage]
    rcases hj with ⟨rfl, rfl, rfl⟩ | ⟨hne, hj⟩
    · rw [if_pos rfl]
      exact ⟨hpg, hp⟩
    · rw [if_neg hne]
      exact w.pageNo j f1 p1 hj

theorem desc_writeBack_ne (s : BufMgr) {i j : FrameId} (src : FrameId) (h : j ≠ i) :
    (s.writeBack i src).desc j = s.desc j := by
  unfold BufMgr.writeBack
  split
  · split
    · simp only [BufMgr.countWrite]
      show (BufMgr.setDesc _ i _).desc j = _
      rw [desc_setDesc]
      simp [h]
      rfl
    · simp only [BufMgr.countWrite]
      show (BufMgr.setDesc _ i _).desc j = _
      rw [desc_setDesc]
      simp [h]
  · rfl

theorem next_writeBack (s : BufMgr) (i src : FrameId) (f : FileId) :
    (s.writeBack i src).disk.next f = s.disk.next f := by
  unfold BufMgr.writeBack
  split
  · split <;> rfl
  · rfl

/-- What `allocBuf` guarantees on a well-formed pool with at least one frame. -/
theorem AllocResult.wf {s s1 : BufMgr} {r : Except Exn (Option FrameId)}
    (h : AllocResult s r s1) (w : s.WF) (hN : 0 < s.numBufs) :
    s1.WF ∧ s1.numBufs = s.numBufs ∧
    (∀ i, r = .ok (some i) → i < s.numBufs ∧ (s1.desc i).valid = false) ∧
    (∀ k, amLookup s.hashTable k = none → amLookup s1.hashTable k = none) ∧
    (∀ f, s1.disk.next f = s.disk.next f) := by
  obtain ⟨t, ht, hc⟩ := h
  have wt : t.WF := w.of_frameEquiv ht.frameEquiv ht.2.2.2.1
  have hn : t.numBufs = s.numBufs := ht.1
  have hht : t.hashTable = s.hashTable := ht.2.2.1
  have hdk : t.disk = s.disk := ht.2.2.2.1
  rcases hc with ⟨hr, rfl⟩ | ⟨hr, rfl⟩ | ⟨hr, hlt, hv, rfl⟩ | ⟨hr, hlt, hv, _, _, rfl⟩
  · refine ⟨wt, hn, ?_, ?_, ?_⟩
    · intro i hi
      rw [hr] at hi
      cases hi
    · intro k hk
      rw [hht]
      exact hk
    · intro f
      rw [hdk]
  · refine ⟨wt, hn, ?_, ?_, ?_⟩
    · intro i hi
      rw [hr] at hi
      cases hi
    · intro k hk
      rw [hht]
      exact hk
    · intro f
      rw [hdk]
  · refine ⟨wt.of_frameEquiv (FrameEquiv.countAccess t) rfl, hn, ?_, ?_, ?_⟩
    · intro i hi
      rw [hr] at hi
      cases hi
      exact ⟨hlt hN, hv⟩
    · intro k hk
      show amLookup t.hashTable k = none
      rw [hht]
      exact hk
    · intro f
      show t.disk.next f = _
      rw [hdk]
  · have hlt2 : t.clockHand < t.numBufs := by rw [hn]; exact hlt hN
    obtain ⟨f, hh⟩ := wt.holds_of_valid hlt2 hv
    have hev := BufMgr.evict_eq wt hh
    refine ⟨(wt.evict hlt2 hv).of_frameEquiv (FrameEquiv.countAccess _) rfl, ?_, ?_, ?_, ?_⟩
    · show t.evict.numBufs = _
      rw [hev]
      show (t.writeBack _ _).numBufs = _
      rw [numBufs_writeBack, hn]
    · intro i hi
      rw [hr] at hi
      cases hi
      refine ⟨hlt hN, ?_⟩
      show (t.evict.desc t.clockHand).valid = false
      rw [hev]
      unfold BufMgr.release
      rw [desc_setDesc]
      have : t.clockHand < ({ t.writeBack t.clockHand t.clockHand with
          hashTable := amRemove (t.writeBack t.clockHand t.clockHand).hashTable
            (f, (t.desc t.clockHand).pageNo) } : BufMgr).bufDescTable.length := by
        rw [(wt.writeBack hh).1.descLen, numBufs_writeBack]
        exact hlt2
      simp [this, BufDesc.Clear]
    · intro k hk
      show amLookup t.evict.hashTable k = none
      rw [hev]
      show amLookup (amRemove (t.writeBack _ _).hashTable _) k = none
      rw [amLookup_remove, hashTable_writeBack, hht, hk]
      simp
    · intro g
      show t.evict.disk.next g = _
      rw [hev]
      show (t.writeBack _ _).disk.next g = _
      rw [next_writeBack, hdk]

theorem wf_allocBuf {s : BufMgr} (w : s.WF) (hN : 0 < s.numBufs) :
    (allocBuf s).2.WF ∧ (allocBuf s).2.numBufs = s.numBufs ∧
    (∀ i, (allocBuf s).1 = .ok (some i) → i < s.numBufs ∧ ((allocBuf s).2.desc i).valid = false) ∧
    (∀ k, amLookup s.hashTable k = none → amLookup (allocBuf s).2.hashTable k = none) ∧
    (∀ f, (allocBuf s).2.disk.next f = s.disk.next f) :=
  (allocBuf_result s).wf w hN

/-! ### The five operations keep the invariant -/

theorem readPage_hit {s : BufMgr} {f : FileId} {p : PageId} {i : FrameId}
    (h : amLookup s.hashTable (f, p) = some i) :
    readPage s f p = (.ok i,
      (s.setDesc i { s.desc i with refbit := true, pinCnt := (s.desc i).pinCnt + 1 }).countAccess) := by
  unfold readPage
  rw [h]

theorem readPage_miss_fail {s s1 : BufMgr} {f : FileId} {p : PageId} {e : Exn}
    (h : amLookup s.hashTable (f, p) = none) (hA : allocBuf s = (.error e, s1)) :
    readPage s f p = (.error e, s1) := by
  unfold readPage
  rw [h]
  simp only [hA]

theorem readPage_miss_unset {s s1 : BufMgr} {f : FileId} {p : PageId}
    (h : amLookup s.hashTable (f, p) = none) (hA : allocBuf s = (.ok none, s1)) :
    readPage s f p = (.error .FrameUnset, s1) := by
  unfold readPage
  rw [h]
  simp only [hA]

theorem readPage_miss_invalid {s s1 : BufMgr} {f : FileId} {p : PageId} {i : FrameId}
    (h : amLookup s.hashTable (f, p) = none) (hA : allocBuf s = (.ok (some i), s1))
    (hR : amLookup s1.disk.pages (f, p) = none) :
    readPage s f p = (.error .InvalidPageException, s1) := by
  unfold readPage
  rw [h]
  simp only [hA, Disk.readPage, hR]

theorem readPage_miss_ok {s s1 : BufMgr} {f : FileId} {p : PageId} {i : FrameId} {pg : Page}
    (h : amLookup s.hashTable (f, p) = none) (hA : allocBuf s = (.ok (some i), s1))
    (hR : amLookup s1.disk.pages (f, p) = some pg) :
    readPage s f p = (.ok i,
      (({ s1 with disk := { s1.disk with calls := FileCall.readPage f p :: s1.disk.calls } }
          : BufMgr).install i f p pg).countRead.countAccess) := by
  unfold readPage
  rw [h]
  simp only [hA, Disk.readPage, hR]

/-- Rewriting a descriptor without touching what it holds, then counting an access,
keeps the invariant. -/
theorem BufMgr.WF.touch {s : BufMgr} (w : s.WF) (i : FrameId) (d : BufDesc)
    (hv : d.valid = (s.desc i).valid) (hf : d.file = (s.desc i).file)
    (hp : d.pageNo = (s.desc i).pageNo) (hn : d.frameNo = (s.desc i).frameNo) :
    ((s.setDesc i d).countAccess).WF :=
  w.of_frameEquiv ((FrameEquiv.setDesc s i d hv hf hp hn).trans_equiv (FrameEquiv.countAccess _)) rfl

theorem wf_readPage {s : BufMgr} (w : s.WF) (hN : 0 < s.numBufs) (f : FileId)
    (p : PageId) : (readPage s f p).2.WF ∧ (readPage s f p).2.numBufs = s.numBufs := by
  cases hl : amLookup s.hashTable (f, p) with
  | some i =>
    rw [readPage_hit hl]
    exact ⟨w.touch i _ rfl rfl rfl rfl, rfl⟩
  | none =>
    obtain ⟨w1, hn, hsel, hnone, hnext⟩ := wf_allocBuf w hN
    rcases hA : allocBuf s with ⟨r, s1⟩
    rw [hA] at w1 hn hsel hnone hnext
    simp only at w1 hn hsel hnone hnext
    match r, hA with
    | .error e, hA =>
      rw [readPage_miss_fail hl hA]
      exact ⟨w1, hn⟩
    | .ok none, hA =>
      rw [readPage_miss_unset hl hA]
      exact ⟨w1, hn⟩
    | .ok (some i), hA =>
      obtain ⟨hi, hv⟩ := hsel i rfl
      cases hR : amLookup s1.disk.pages (f, p) with
      | none =>
        rw [readPage_miss_invalid hl hA hR]
        exact ⟨w1, hn⟩
      | some pg =>
        rw [readPage_miss_ok hl hA hR]
        obtain ⟨hlt, hpn⟩ := w1.diskWF f p pg hR
        have w2 : ({ s1 with disk :=
            { s1.disk with calls := FileCall.readPage f p :: s1.disk.calls } } : BufMgr).WF :=
          w1.withDisk _ (fun f1 p1 pg1 h1 => w1.diskWF f1 p1 pg1 h1) (fun _ => le_rfl)
        have w3 := w2.install (by rw [hn]; exact hi) hv f p pg (hnone _ hl) hpn hlt
        exact ⟨w3.of_frameEquiv
          ((FrameEquiv.countRead _).trans_equiv (FrameEquiv.countAccess _)) rfl, hn⟩

theorem allocPage_eq (s : BufMgr) (f : FileId) :
    allocPage s f =
      match allocBuf { s with disk := (s.disk.allocatePage f).2 } with
      | (.error e, s1) => (.error e, s1)
      | (.ok none, s1) => (.error .FrameUnset, s1)
      | (.ok (some i), s1) =>
        (.ok ((s.disk.allocatePage f).1.page_number, i),
          (s1.install i f (s.disk.allocatePage f).1.page_number (s.disk.allocatePage f).1).countAccess) :=
  rfl

theorem wf_allocPage {s : BufMgr} (w : s.WF) (hN : 0 < s.numBufs) (f : FileId) :
    (allocPage s f).2.WF ∧ (allocPage s f).2.numBufs = s.numBufs := by
  have hnx : ∀ g, s.disk.next g ≤ (s.disk.allocatePage f).2.next g := by
    intro g
    rw [Disk.next_allocatePage]
    split
    · rename_i h
      rw [h]
      exact Nat.le_succ _
    · exact le_rfl
  have w0 : ({ s with disk := (s.disk.allocatePage f).2 } : BufMgr).WF :=
    w.withDisk _ (w.diskWF.allocatePage f) hnx
  have hfresh : amLookup s.hashTable (f, s.disk.next f) = none := by
    cases h : amLookup s.hashTable (f, s.disk.next f) with
    | none => rfl
    | some j =>
      have := (w.pageNo j f _ ((w.resident _ _ _).1 h)).2
      exact absurd this (lt_irrefl _)
  obtain ⟨w1, hn, hsel, hnone, hnext⟩ := wf_allocBuf w0 hN
  rw [allocPage_eq]
  rcases hA : allocBuf ({ s with disk := (s.disk.allocatePage f).2 } : BufMgr) with ⟨r, s1⟩
  rw [hA] at w1 hn hsel hnone hnext
  simp only at w1 hn hsel hnone hnext
  match r, hA with
  | .error e, hA => exact ⟨w1, hn⟩
  | .ok none, hA => exact ⟨w1, hn⟩
  | .ok (some i), hA =>
    obtain ⟨hi, hv⟩ := hsel i rfl
    have hp : (s.disk.allocatePage f).1.page_number = s.disk.next f := rfl
    have w3 := w1.install (by rw [hn]; exact hi) hv f (s.disk.next f)
      (s.disk.allocatePage f).1 (hnone _ hfresh) hp
      (by rw [hnext, Disk.next_allocatePage, if_pos rfl]; exact Nat.lt_succ_self _)
    exact ⟨w3.of_frameEquiv (FrameEquiv.countAccess _) rfl, hn⟩

theorem wf_unPinPage {s : BufMgr} (w : s.WF) (f : FileId) (p : PageId) (d : Bool) :
    (unPinPage s f p d).2.WF ∧ (unPinPage s f p d).2.numBufs = s.numBufs := by
  unfold unPinPage
  cases hl : amLookup s.hashTable (f, p) with
  | none => exact ⟨w, rfl⟩
  | some i =>
    simp only
    split_ifs with h1 h2
    · exact ⟨w, rfl⟩
    · exact ⟨w.touch i _ rfl rfl rfl rfl, rfl⟩
    · exact ⟨w.touch i _ rfl rfl rfl rfl, rfl⟩

theorem wf_disposePage {s : BufMgr} (w : s.WF) (f : FileId) (p : PageId) :
    (disposePage s f p).2.WF ∧ (disposePage s f p).2.numBufs = s.numBufs := by
  unfold disposePage
  cases hl : amLookup s.hashTable (f, p) with
  | none =>
    exact ⟨w.withDisk _ (w.diskWF.deletePage f p) (fun _ => le_rfl), rfl⟩
  | some i =>
    have hh := (w.resident f p i).1 hl
    have w1 := w.release hh
    exact ⟨w1.withDisk _ (w1.diskWF.deletePage f p) (fun _ => le_rfl), rfl⟩

theorem wf_writeFrame {s : BufMgr} (w : s.WF) (i : FrameId) (data : List Nat) :
    (writeFrame s i data).WF ∧ (writeFrame s i data).numBufs = s.numBufs := by
  refine ⟨w.of_frameEquiv ⟨rfl, rfl, ?_, rfl, ?_, fun _ => ⟨rfl, rfl, rfl, rfl⟩⟩ rfl, rfl⟩
  · show (s.bufPool.set i _).length = _
    rw [List.length_set]
  · intro j
    unfold writeFrame
    rw [page_setPage]
    split
    · rename_i h
      rw [h.1]
    · rfl

theorem wf_flushFileLoop (file : FileId) (n : Nat) (i : Nat) {s : BufMgr} (w : s.WF)
    (hin : i + n = s.numBufs) :
    (flushFileLoop file n i s).2.WF ∧ (flushFileLoop file n i s).2.numBufs = s.numBufs := by
  induction n generalizing i s with
  | zero => exact ⟨w, rfl⟩
  | succ n ih =>
    have w0 : s.countAccess.WF := w.of_frameEquiv (FrameEquiv.countAccess s) rfl
    have hi : i < s.countAccess.numBufs := by
      show i < s.numBufs
      omega
    unfold flushFileLoop
    simp only
    split_ifs with h1 h2 h3
    · exact ⟨w0, rfl⟩
    · exact ⟨w0, rfl⟩
    · have hv : (s.countAccess.desc i).valid = true := by simpa using h2
      have hh : s.countAccess.holds i file (s.countAccess.desc i).pageNo := ⟨hi, hv, h1, rfl⟩
      rw [w0.frameNo i hi]
      obtain ⟨w1, e⟩ := w0.writeBack hh
      have hh1 := (e.holds_iff _ _ _).2 hh
      have hp : ((s.countAccess.writeBack i i).desc i).pageNo = (s.countAccess.desc i).pageNo :=
        (e.2.2.2.2.2 i).2.2.1
      rw [← hp] at hh1
      have w3 := w1.release hh1
      have hn3 : ((s.countAccess.writeBack i i).release i file
          ((s.countAccess.writeBack i i).desc i).pageNo).numBufs = s.numBufs := by
        show (s.countAccess.writeBack i i).numBufs = _
        rw [numBufs_writeBack]
        rfl
      have := ih (i + 1) w3 (by rw [hn3]; omega)
      rw [hn3] at this
      exact this
    · have := ih (i + 1) w0 (by show i + 1 + n = s.numBufs; omega)
      exact this

theorem wf_flushFile {s : BufMgr} (w : s.WF) (f : FileId) :
    (flushFile s f).2.WF ∧ (flushFile s f).2.numBufs = s.numBufs :=
  wf_flushFileLoop f s.numBufs 0 w (Nat.zero_add _)

theorem desc_new_valid (bufs : Nat) (disk : Disk) (i : Nat) :
    ((BufMgr.new bufs disk).desc i).valid = false := by
  unfold BufMgr.desc BufMgr.new
  simp only [List.getD_eq_getElem?_getD, List.getElem?_map, List.getElem?_range]
  by_cases h : i < bufs
  · simp [h, BufDesc.fresh]
  · have : (List.range bufs)[i]? = none := by simp; omega
    simp [this]
    rfl

theorem desc_new (bufs : Nat) (disk : Disk) {i : FrameId} (h : i < bufs) :
    (BufMgr.new bufs disk).desc i = BufDesc.fresh i := by
  unfold BufMgr.desc BufMgr.new
  simp [List.getD_eq_getElem?_getD, h]

theorem wf_new (bufs : Nat) {disk : Disk} (hd : disk.WF) : (BufMgr.new bufs disk).WF := by
  have hnot : ∀ i f p, ¬ (BufMgr.new bufs disk).holds i f p := by
    intro i f p h
    have := h.2.1
    rw [desc_new_valid] at this
    cases this
  refine ⟨by simp [BufMgr.new], by simp [BufMgr.new], ?_, ?_, ?_, ?_, hd⟩
  · intro i hi
    rw [desc_new bufs disk hi]
    rfl
  · intro i hi
    rw [desc_new bufs disk hi]
    simp [BufDesc.fresh]
  · intro f p i
    constructor
    · intro h
      cases h
    · intro h
      exact absurd h (hnot i f p)
  · intro i f p h
    exact absurd h (hnot i f p)

theorem wf_apply {s : BufMgr} (w : s.WF) (hN : 0 < s.numBufs) (op : Op) :
    (op.apply s).WF ∧ (op.apply s).numBufs = s.numBufs := by
  cases op with
  | read f p => exact wf_readPage w hN f p
  | alloc f => exact wf_allocPage w hN f
  | unpin f p d => exact wf_unPinPage w f p d
  | dispose f p => exact wf_disposePage w f p
  | flush f => exact wf_flushFile w f
  | write i data => exact wf_writeFrame w i data

theorem wf_runOps (ops : List Op) {s : BufMgr} (w : s.WF) (hN : 0 < s.numBufs) :
    (runOps s ops).WF ∧ (runOps s ops).numBufs = s.numBufs := by
  induction ops generalizing s with
  | nil => exact ⟨w, rfl⟩
  | cons op rest ih =>
    obtain ⟨w1, h1⟩ := wf_apply w hN op
    have := ih w1 (by rw [h1]; exact hN)
    rw [h1] at this
    exact this

theorem Residency.noShared {s : BufMgr} (h : Residency s) : NoSharedPage s := by
  intro i j f p hi hj
  have a := (h f p i).2 hi
  have b := (h f p j).2 hj
  rw [a] at b
  exact Option.some.inj b

theorem exampleDisk_wf : exampleDisk.WF := by
  intro f p pg h
  simp only [exampleDisk, amLookup] at h
  split_ifs at h with h1 h2 h3
  · cases h
    cases h1
    exact ⟨by decide, rfl⟩
  · cases h
    cases h2
    exact ⟨by decide, rfl⟩
  · cases h
    cases h3
    exact ⟨by decide, rfl⟩

theorem examplePool_wf : examplePool.WF ∧ examplePool.numBufs = 2 :=
  wf_runOps _ (wf_new 2 exampleDisk_wf) (by decide)

/-- C1. Residency consistency is an invariant: in the pool reached from a freshly
constructed pool of at least one frame (over well-formed files) by any sequence of
readPage, allocPage, unPinPage, disposePage and flushFile calls and client writes,
whatever their outcome, the page table maps (f, p) to frame i exactly when frame i is
valid and holds (f, p), and no two valid frames hold the same page. -/
theorem residency_invariant (bufs : Nat) (hb : 1 ≤ bufs) (disk : Disk) (hd : disk.WF)
    (ops : List Op) :
    Residency (runOps (BufMgr.new bufs disk) ops) ∧
    NoSharedPage (runOps (BufMgr.new bufs disk) ops) := by
  have w := (wf_runOps ops (wf_new bufs hd) hb).1
  exact ⟨w.resident, w.resident.noShared⟩

theorem residency_invariant_witness :
    1 ≤ 2 ∧ exampleDisk.WF ∧ Residency examplePool ∧ NoSharedPage examplePool :=
  ⟨by decide, exampleDisk_wf,
    residency_invariant 2 (by decide) exampleDisk exampleDisk_wf
      [.read 7 1, .read 7 2, .read 7 2, .unpin 7 2 false, .unpin 7 2 false]⟩

theorem desc_removeEntry (s : BufMgr) (i j : FrameId) : (s.removeEntry i).desc j = s.desc j := by
  unfold BufMgr.removeEntry
  split <;> rfl

theorem bufPool_removeEntry (s : BufMgr) (i : FrameId) : (s.removeEntry i).bufPool = s.bufPool := by
  unfold BufMgr.removeEntry
  split <;> rfl

theorem clockHand_removeEntry (s : BufMgr) (i : FrameId) :
    (s.removeEntry i).clockHand = s.clockHand := by
  unfold BufMgr.removeEntry
  split <;> rfl

theorem desc_evict_ne (s : BufMgr) {j : FrameId} (h : j ≠ s.clockHand) :
    s.evict.desc j = s.desc j := by
  unfold BufMgr.evict
  simp only [clockHand_removeEntry, clockHand_writeBack]
  rw [desc_setDesc]
  simp only [h, false_and, if_false]
  rw [desc_removeEntry, desc_writeBack_ne s _ h]

theorem bufPool_evict (s : BufMgr) : s.evict.bufPool = s.bufPool := by
  unfold BufMgr.evict
  show (s.writeBack _ _ |>.removeEntry _).bufPool = _
  rw [bufPool_removeEntry, bufPool_writeBack]

theorem disk_writeBack (s : BufMgr) (i src : FrameId) {f : FileId}
    (hf : (s.desc i).file = some f) :
    (s.writeBack i src).disk =
      if (s.desc i).dirty = true then s.disk.writePage f (s.page src) else s.disk := by
  unfold BufMgr.writeBack
  rw [hf]
  split <;> rfl

/-- The effect of evicting the frame under the hand on the page table and on the files. -/
theorem BufMgr.evict_effect {s : BufMgr} (w : s.WF) {f : FileId} {p : PageId}
    (hh : s.holds s.clockHand f p) :
    s.evict.hashTable = amRemove s.hashTable (f, p) ∧
    s.evict.disk = (if (s.desc s.clockHand).dirty = true
      then s.disk.writePage f (s.page s.clockHand) else s.disk) ∧
    (s.evict.desc s.clockHand).valid = false := by
  rw [BufMgr.evict_eq w hh]
  refine ⟨?_, ?_, ?_⟩
  · show amRemove (s.writeBack _ _).hashTable _ = _
    rw [hashTable_writeBack]
  · show (s.writeBack _ _).disk = _
    exact disk_writeBack s _ _ hh.2.2.1
  · unfold BufMgr.release
    rw [desc_setDesc]
    have : s.clockHand < ({ s.writeBack s.clockHand s.clockHand with
        hashTable := amRemove (s.writeBack s.clockHand s.clockHand).hashTable (f, p) }
          : BufMgr).bufDescTable.length := by
      rw [(w.writeBack hh).1.descLen, numBufs_writeBack]
      exact hh.1
    simp [this, BufDesc.Clear]

theorem SweptFrom.desc_fields {s t : BufMgr} (h : SweptFrom s t) (j : FrameId) :
    (t.desc j).valid = (s.desc j).valid ∧ (t.desc j).pinCnt = (s.desc j).pinCnt ∧
    (t.desc j).dirty = (s.desc j).dirty ∧ (t.desc j).file = (s.desc j).file ∧
    (t.desc j).pageNo = (s.desc j).pageNo := by
  rcases h.2.2.2.2.2.2 j with e | ⟨_, e⟩ <;> rw [e] <;> exact ⟨rfl, rfl, rfl, rfl, rfl⟩

theorem SweptFrom.page_eq {s t : BufMgr} (h : SweptFrom s t) (j : FrameId) :
    t.page j = s.page j := by
  unfold BufMgr.page
  rw [h.2.1]

/-- Frames that `allocBuf` does not select keep their descriptor up to the reference
bit, and every frame keeps its bytes; the selected frame was invalid or unpinned. -/
theorem AllocResult.frames {s s1 : BufMgr} {r : Except Exn (Option FrameId)}
    (h : AllocResult s r s1) :
    (∀ i, r = .ok (some i) → (s.desc i).valid = false ∨
        ((s.desc i).valid = true ∧ (s.desc i).pinCnt = 0)) ∧
    (∀ j, r ≠ .ok (some j) →
        s1.desc j = s.desc j ∨ s1.desc j = { s.desc j with refbit := false }) ∧
    (∀ j, s1.page j = s.page j) := by
  obtain ⟨t, ht, hc⟩ := h
  have hsw : ∀ j, t.desc j = s.desc j ∨ t.desc j = { s.desc j with refbit := false } := by
    intro j
    rcases ht.2.2.2.2.2.2 j with e | ⟨_, e⟩
    · exact Or.inl e
    · exact Or.inr e
  rcases hc with ⟨hr, rfl⟩ | ⟨hr, rfl⟩ | ⟨hr, _, hv, rfl⟩ | ⟨hr, _, hv, _, hp, rfl⟩
  · refine ⟨?_, fun j _ => hsw j, ht.page_eq⟩
    intro i hi
    rw [hr] at hi
    cases hi
  · refine ⟨?_, fun j _ => hsw j, ht.page_eq⟩
    intro i hi
    rw [hr] at hi
    cases hi
  · refine ⟨?_, fun j _ => hsw j, ht.page_eq⟩
    intro i hi
    rw [hr] at hi
    cases hi
    left
    rw [← (ht.desc_fields _).1]
    exact hv
  · refine ⟨?_, ?_, ?_⟩
    · intro i hi
      rw [hr] at hi
      cases hi
      right
      rw [← (ht.desc_fields _).1, ← (ht.desc_fields _).2.1]
      exact ⟨hv, hp⟩
    · intro j hj
      have hne : j ≠ t.clockHand := by
        rintro rfl
        exact hj hr
      show t.evict.desc j = _ ∨ t.evict.desc j = _
      rw [desc_evict_ne t hne]
      exact hsw j
    · intro j
      show t.evict.page j = _
      unfold BufMgr.page
      rw [bufPool_evict]
      exact ht.page_eq j


/-- On a well-formed pool `allocBuf` either leaves the page table and the files alone,
or evicts one valid unpinned frame: it removes that frame's entry and, when the frame
is dirty, writes its page to its file. -/
theorem AllocResult.effect {s s1 : BufMgr} {r : Except Exn (Option FrameId)}
    (h : AllocResult s r s1) (w : s.WF) (hN : 0 < s.numBufs) :
    (s1.hashTable = s.hashTable ∧ s1.disk = s.disk ∧
      ∀ i, r = .ok (some i) → (s.desc i).valid = false) ∨
    ∃ i f p, r = .ok (some i) ∧ s.holds i f p ∧ (s.desc i).pinCnt = 0 ∧
      s1.hashTable = amRemove s.hashTable (f, p) ∧
      s1.disk = (if (s.desc i).dirty = true then s.disk.writePage f (s.page i) else s.disk) := by
  obtain ⟨t, ht, hc⟩ := h
  have wt : t.WF := w.of_frameEquiv ht.frameEquiv ht.2.2.2.1
  have hn : t.numBufs = s.numBufs := ht.1
  have hht : t.hashTable = s.hashTable := ht.2.2.1
  have hdk : t.disk = s.disk := ht.2.2.2.1
  rcases hc with ⟨hr, rfl⟩ | ⟨hr, rfl⟩ | ⟨hr, _, hv, rfl⟩ | ⟨hr, hlt, hv, _, hp, rfl⟩
  · refine Or.inl ⟨hht, hdk, ?_⟩
    intro i hi
    rw [hr] at hi
    cases hi
  · refine Or.inl ⟨hht, hdk, ?_⟩
    intro i hi
    rw [hr] at hi
    cases hi
  · refine Or.inl ⟨hht, hdk, ?_⟩
    intro i hi
    rw [hr] at hi
    cases hi
    rw [← (ht.desc_fields _).1]
    exact hv
  · right
    have hlt2 : t.clockHand < t.numBufs := by rw [hn]; exact hlt hN
    obtain ⟨f, hh⟩ := wt.holds_of_valid hlt2 hv
    obtain ⟨e1, e2, _⟩ := BufMgr.evict_effect wt hh
    obtain ⟨d1, d2, d3, _, _⟩ := ht.desc_fields t.clockHand
    refine ⟨t.clockHand, f, (t.desc t.clockHand).pageNo, hr,
      (ht.frameEquiv.holds_iff _ _ _).1 hh, by rw [← d2]; exact hp, ?_, ?_⟩
    · show t.evict.hashTable = _
      rw [e1, hht]
    · show t.evict.disk = _
      rw [e2, hdk, d3, ht.page_eq]

/-- C2. Eviction safety.  For every pool state the frame that allocBuf selects was
invalid or had pin count 0, and a valid frame with pin count > 0 is not selected and
keeps its descriptor (up to the reference bit the sweep clears) and its bytes.  On a
pool satisfying the invariant such a frame moreover keeps its page-table entry, its
page on disk is not touched, and the only file call allocBuf can make is one
writePage of another page. -/
theorem allocBuf_spares_pinned (s : BufMgr) :
    (∀ i, (allocBuf s).1 = .ok (some i) → (s.desc i).valid = false ∨ (s.desc i).pinCnt = 0) ∧
    (∀ j, (s.desc j).valid = true → 0 < (s.desc j).pinCnt →
      (allocBuf s).1 ≠ .ok (some j) ∧
      ((allocBuf s).2.desc j = s.desc j ∨
        (allocBuf s).2.desc j = { s.desc j with refbit := false }) ∧
      (allocBuf s).2.page j = s.page j) ∧
    (s.WF → 0 < s.numBufs → ∀ j f p, s.holds j f p → 0 < (s.desc j).pinCnt →
      amLookup (allocBuf s).2.hashTable (f, p) = some j ∧
      amLookup (allocBuf s).2.disk.pages (f, p) = amLookup s.disk.pages (f, p) ∧
      ((allocBuf s).2.disk.calls = s.disk.calls ∨
        ∃ f1 p1, (f1, p1) ≠ (f, p) ∧
          (allocBuf s).2.disk.calls = FileCall.writePage f1 p1 :: s.disk.calls)) := by
  have hr := allocBuf_result s
  obtain ⟨a1, a2, a3⟩ := hr.frames
  have hnot : ∀ j, (s.desc j).valid = true → 0 < (s.desc j).pinCnt →
      (allocBuf s).1 ≠ .ok (some j) := by
    intro j hv hp hsel
    rcases a1 j hsel with h | ⟨_, h⟩
    · rw [hv] at h
      cases h
    · rw [h] at hp
      exact absurd hp (lt_irrefl 0)
  refine ⟨?_, ?_, ?_⟩
  · intro i hi
    rcases a1 i hi with h | ⟨_, h⟩
    · exact Or.inl h
    · exact Or.inr h
  · intro j hv hp
    exact ⟨hnot j hv hp, a2 j (hnot j hv hp), a3 j⟩
  · intro w hN j f p hh hp
    have hl : amLookup s.hashTable (f, p) = some j := (w.resident f p j).2 hh
    rcases hr.effect w hN with ⟨e1, e2, _⟩ | ⟨i, f1, p1, hsel, hi, hpi, e1, e2⟩
    · rw [e1, e2]
      exact ⟨hl, rfl, Or.inl rfl⟩
    · have hne : (f, p) ≠ (f1, p1) := by
        intro e
        obtain ⟨rfl, rfl⟩ := Prod.mk.inj e
        have := w.resident.noShared j i f p hh hi
        subst this
        rw [hpi] at hp
        exact absurd hp (lt_irrefl 0)
      have hpn : (s.page i).page_number = p1 := (w.pageNo i f1 p1 hi).1
      rw [e1, e2, amLookup_remove, if_neg hne]
      refine ⟨hl, ?_, ?_⟩
      · split
        · simp only [Disk.writePage, amLookup_insert, hpn, if_neg hne]
        · rfl
      · split
        · right
          refine ⟨f1, p1, fun e => hne e.symm, ?_⟩
          simp only [Disk.writePage, hpn]
        · exact Or.inl rfl

theorem evictPool_wf : evictPool.WF ∧ evictPool.numBufs = 2 :=
  wf_runOps _ (wf_new 2 exampleDisk_wf) (by decide)

theorem allocBuf_spares_pinned_witness :
    (allocBuf evictPool).1 = .ok (some 1) ∧
    (evictPool.desc 0).valid = true ∧ 0 < (evictPool.desc 0).pinCnt ∧
    (allocBuf evictPool).1 ≠ .ok (some 0) ∧
    amLookup (allocBuf evictPool).2.hashTable (7, 1) = some 0 :=
  ⟨by decide, by decide, by decide,
    ((allocBuf_spares_pinned evictPool).2.1 0 (by decide) (by decide)).1,
    ((allocBuf_spares_pinned evictPool).2.2 evictPool_wf.1 (by decide) 0 7 1
      ⟨by decide, by decide, by decide, by decide⟩ (by decide)).1⟩

theorem countP_set_off {α : Type} (q : α → Bool) (l : List α) (i : Nat) (a d : α)
    (hi : i < l.length) (hq : q (l.getD i d) = true) (ha : q a = false) :
    List.countP q (l.set i a) + 1 = List.countP q l := by
  induction l generalizing i with
  | nil => simp at hi
  | cons x t ih =>
    cases i with
    | zero =>
      simp only [List.getD_cons_zero] at hq
      simp [List.countP_cons, hq, ha]
    | succ k =>
      simp only [List.getD_cons_succ] at hq
      simp only [List.set_cons_succ, List.countP_cons]
      have := ih k (by simpa using hi) hq
      omega

theorem refCount_clear (s : BufMgr) (i : Nat) (hi : i < s.bufDescTable.length)
    (hr : (s.desc i).refbit = true) :
    (s.setDesc i { s.desc i with refbit := false }).refCount + 1 = s.refCount := by
  unfold BufMgr.refCount BufMgr.setDesc
  exact countP_set_off (fun d => d.refbit) s.bufDescTable i
    { s.desc i with refbit := false } default hi hr rfl

/-- When every frame is valid and pinned, the loop of `allocBuf` throws as soon as it
has cleared the reference bits it meets and counted `numBufs` pinned frames. -/
theorem allocBufLoop_all_pinned (fuel pinNum : Nat) (lastPin : Bool) (s : BufMgr)
    (hN : 0 < s.numBufs) (hlen : s.bufDescTable.length = s.numBufs)
    (hall : ∀ i : Nat, i < s.numBufs → (s.desc i).valid = true ∧ 0 < (s.desc i).pinCnt)
    (hpn : pinNum ≤ s.numBufs) (hlp : lastPin = true ∨ pinNum = 0)
    (hfuel : s.refCount + (s.numBufs - pinNum) + 1 ≤ fuel) :
    (allocBufLoop fuel pinNum lastPin s).1 = .error .BufferExceededException := by
  induction fuel generalizing pinNum lastPin s with
  | zero => omega
  | succ n ih =>
    have hh : (advanceClock s).clockHand < s.numBufs := Nat.mod_lt _ hN
    obtain ⟨hv, hp⟩ := hall _ hh
    have hv2 : ((advanceClock s).desc (advanceClock s).clockHand).valid = true := hv
    have hp2 : 0 < ((advanceClock s).desc (advanceClock s).clockHand).pinCnt := hp
    unfold allocBufLoop
    simp only
    by_cases h1 : pinNum = (advanceClock s).numBufs
    · rw [if_pos h1]
    · rw [if_neg h1]
      have h1b : pinNum ≠ s.numBufs := h1
      have h2 : ¬ ((!((advanceClock s).desc (advanceClock s).clockHand).valid) = true) := by
        rw [hv2]
        decide
      rw [if_neg h2]
      by_cases h3 : ((advanceClock s).desc (advanceClock s).clockHand).refbit = true
      · rw [if_pos h3]
        have hcl := refCount_clear (advanceClock s) (advanceClock s).clockHand
          (by show _ < s.bufDescTable.length; rw [hlen]; exact hh) h3
        have hrc : (advanceClock s).refCount = s.refCount := rfl
        apply ih
        · exact hN
        · show (s.bufDescTable.set _ _).length = _
          rw [List.length_set]
          exact hlen
        · intro i hi
          rw [desc_setDesc]
          split
          · exact ⟨hv, hp⟩
          · exact hall i hi
        · exact hpn
        · exact hlp
        · have e : ∀ x : Nat, x + 1 = (advanceClock s).refCount →
              x + (s.numBufs - pinNum) + 1 ≤ n := by
            intro x hx
            omega
          exact e _ hcl
      · rw [if_neg h3, if_pos hp2]
        have hpn2 : (if lastPin = true then pinNum + 1 else 1) = pinNum + 1 := by
          rcases hlp with h | h
          · rw [if_pos h]
          · subst h
            split <;> rfl
        rw [hpn2]
        apply ih
        · exact hN
        · exact hlen
        · exact hall
        · show pinNum + 1 ≤ s.numBufs
          omega
        · exact Or.inl rfl
        · show s.refCount + (s.numBufs - (pinNum + 1)) + 1 ≤ n
          omega

theorem allocBuf_all_pinned_aux (s : BufMgr) (hN : 1 ≤ s.numBufs) (h31 : s.numBufs < 2 ^ 31)
    (hlen : s.bufDescTable.length = s.numBufs)
    (hall : ∀ i : Nat, i < s.numBufs → (s.desc i).valid = true ∧ 0 < (s.desc i).pinCnt) :
    (allocBuf s).1 = .error .BufferExceededException := by
  unfold allocBuf
  apply allocBufLoop_all_pinned _ _ _ s hN hlen hall (Nat.zero_le _) (Or.inr rfl)
  have hr : s.refCount ≤ s.numBufs := by
    rw [← hlen]
    exact List.countP_le_length _
  have : 2 * s.numBufs % 2 ^ 32 = 2 * s.numBufs := Nat.mod_eq_of_lt (by omega)
  omega

/-- C3. In a pool of N >= 1 frames (N < 2^31, so that the loop bound 2 * N does not wrap
in 32 bits) in which every frame is valid and pinned, whatever the reference bits and
the clock hand, allocBuf raises BufferExceeded and selects no frame; therefore so do
allocPage and a readPage of a page that is not resident. -/
theorem allocBuf_all_pinned (s : BufMgr) (hN : 1 ≤ s.numBufs) (h31 : s.numBufs < 2 ^ 31)
    (hlen : s.bufDescTable.length = s.numBufs)
    (hall : ∀ i : Nat, i < s.numBufs → (s.desc i).valid = true ∧ 0 < (s.desc i).pinCnt) :
    (allocBuf s).1 = .error .BufferExceededException ∧
    (∀ f, (allocPage s f).1 = .error .BufferExceededException) ∧
    (∀ f p, amLookup s.hashTable (f, p) = none →
      (readPage s f p).1 = .error .BufferExceededException) := by
  refine ⟨allocBuf_all_pinned_aux s hN h31 hlen hall, ?_, ?_⟩
  · intro f
    have h := allocBuf_all_pinned_aux ({ s with disk := (s.disk.allocatePage f).2 } : BufMgr)
      hN h31 hlen hall
    rw [allocPage_eq]
    rcases hA : allocBuf ({ s with disk := (s.disk.allocatePage f).2 } : BufMgr) with ⟨r, s1⟩
    rw [hA] at h
    simp only at h
    subst h
    rfl
  · intro f p hl
    have h := allocBuf_all_pinned_aux s hN h31 hlen hall
    rcases hA : allocBuf s with ⟨r, s1⟩
    rw [hA] at h
    simp only at h
    subst h
    rw [readPage_miss_fail hl hA]

theorem allocBuf_all_pinned_witness :
    (∀ i : Nat, i < fullPool.numBufs →
      (fullPool.desc i).valid = true ∧ 0 < (fullPool.desc i).pinCnt) ∧
    (allocBuf fullPool).1 = .error .BufferExceededException ∧
    (allocPage fullPool 7).1 = .error .BufferExceededException :=
  ⟨by decide,
    (allocBuf_all_pinned fullPool (by decide) (by decide) (by decide) (by decide)).1,
    (allocBuf_all_pinned fullPool (by decide) (by decide) (by decide) (by decide)).2.1 7⟩

/-- C4 (defect of the code). In `starvedPool` frame 1 is valid with pin count 0, yet
allocBuf raises BufferExceeded, and so do readPage of a non-resident page and allocPage:
the sweep counts pinned frame 0, clears the reference bit of frame 1 without resetting
the count, counts frame 0 a second time, and throws on reaching `numBufs` = 2 before it
looks at frame 1 again. -/
theorem allocBuf_exceeded_with_unpinned_frame :
    starvedPool.numBufs = 2 ∧
    (starvedPool.desc 0).valid = true ∧ (starvedPool.desc 0).pinCnt = 1 ∧
    (starvedPool.desc 1).valid = true ∧ (starvedPool.desc 1).pinCnt = 0 ∧
    amLookup starvedPool.hashTable (7, 2) = none ∧
    (allocBuf starvedPool).1 = .error .BufferExceededException ∧
    (readPage starvedPool 7 2).1 = .error .BufferExceededException ∧
    (allocPage starvedPool 7).1 = .error .BufferExceededException := by
  decide

theorem Saved.of_equiv {s t : BufMgr} {f : FileId} {p : PageId} {b : Page}
    (h : Saved s f p b) (e : FrameEquiv s t) (hd : t.disk.pages = s.disk.pages)
    (hpg : ∀ i, s.holds i f p → t.page i = s.page i)
    (hdirty : ∀ i, s.holds i f p → (s.desc i).dirty = true → (t.desc i).dirty = true) :
    Saved t f p b := by
  rcases h with ⟨i, hi, hb, hc⟩ | ⟨hl, hk⟩
  · left
    refine ⟨i, (e.holds_iff i f p).2 hi, by rw [hpg i hi]; exact hb, ?_⟩
    rcases hc with hc | hc
    · exact Or.inl (hdirty i hi hc)
    · right
      rw [hd]
      exact hc
  · right
    rw [e.2.2.2.1, hd]
    exact ⟨hl, hk⟩

theorem Saved.swept {s t : BufMgr} {f : FileId} {p : PageId} {b : Page}
    (h : Saved s f p b) (e : SweptFrom s t) : Saved t f p b := by
  apply h.of_equiv e.frameEquiv (by rw [e.2.2.2.1]) (fun i _ => e.page_eq i)
  intro i _ hd
  rw [(e.desc_fields i).2.2.1]
  exact hd

theorem Saved.count_access {s : BufMgr} {f : FileId} {p : PageId} {b : Page}
    (h : Saved s f p b) : Saved s.countAccess f p b :=
  h.of_equiv (FrameEquiv.countAccess s) rfl (fun _ _ => rfl) (fun _ _ hd => hd)

theorem Saved.count_read {s : BufMgr} {f : FileId} {p : PageId} {b : Page}
    (h : Saved s f p b) : Saved s.countRead f p b :=
  h.of_equiv (FrameEquiv.countRead s) rfl (fun _ _ => rfl) (fun _ _ hd => hd)

/-- Writing frame `i` back and releasing it keeps the contents of every page: the page
of frame `i` reaches the file when it is dirty, other pages are not concerned. -/
theorem Saved.flushed {s : BufMgr} (w : s.WF) {f : FileId} {p : PageId} {b : Page}
    (h : Saved s f p b) {i : FrameId} {f1 : FileId} {p1 : PageId} (hh : s.holds i f1 p1) :
    Saved ((s.writeBack i i).release i f1 p1) f p b := by
  obtain ⟨w1, e⟩ := w.writeBack hh
  have hpn : (s.page i).page_number = p1 := (w.pageNo i f1 p1 hh).1
  have hdisk := disk_writeBack s i i hh.2.2.1
  have hht : ((s.writeBack i i).release i f1 p1).hashTable = amRemove s.hashTable (f1, p1) := by
    show amRemove (s.writeBack i i).hashTable _ = _
    rw [hashTable_writeBack]
  have hdk : ((s.writeBack i i).release i f1 p1).disk = (s.writeBack i i).disk := rfl
  have hi1 : i < (s.writeBack i i).numBufs := by rw [numBufs_writeBack]; exact hh.1
  have hpage : ∀ j, ((s.writeBack i i).release i f1 p1).page j = s.page j := by
    intro j
    show (s.writeBack i i).page j = _
    unfold BufMgr.page
    rw [bufPool_writeBack]
  by_cases hk : (f, p) = (f1, p1)
  · obtain ⟨rfl, rfl⟩ := Prod.mk.inj hk
    right
    rw [hht, amLookup_remove, if_pos rfl, hdk, hdisk]
    refine ⟨rfl, ?_⟩
    rcases h with ⟨j, hj, hb, hc⟩ | ⟨hl, _⟩
    · have hji : j = i := w.resident.noShared j i f p hj hh
      subst hji
      by_cases hd : (s.desc j).dirty = true
      · rw [if_pos hd]
        simp only [Disk.writePage, amLookup_insert, hpn, if_true]
        rw [hb]
      · rw [if_neg hd]
        rcases hc with hc | hc
        · exact absurd hc hd
        · exact hc
    · have := (w.resident f p i).2 hh
      rw [hl] at this
      cases this
  · have hkeep : amLookup ((s.writeBack i i).release i f1 p1).disk.pages (f, p) =
        amLookup s.disk.pages (f, p) := by
      rw [hdk, hdisk]
      split
      · simp only [Disk.writePage, amLookup_insert, hpn, if_neg hk]
      · rfl
    rcases h with ⟨j, hj, hb, hc⟩ | ⟨hl, hd⟩
    · have hji : j ≠ i := by
        rintro rfl
        apply hk
        have e1 := hj.2.2.1
        rw [hh.2.2.1] at e1
        have e2 := hj.2.2.2
        rw [hh.2.2.2] at e2
        rw [Option.some.inj e1, e2]
      left
      refine ⟨j, (BufMgr.holds_release w1 hi1 f1 p1 j f p).2 ⟨hji, (e.holds_iff _ _ _).2 hj⟩,
        by rw [hpage]; exact hb, ?_⟩
      rw [hkeep]
      have hdj : (((s.writeBack i i).release i f1 p1).desc j) = s.desc j := by
        unfold BufMgr.release
        rw [desc_setDesc]
        simp only [hji, false_and, if_false]
        exact desc_writeBack_ne s i hji
      rw [hdj]
      exact hc
    · right
      rw [hht, amLookup_remove, if_neg hk, hkeep]
      exact ⟨hl, hd⟩

theorem Saved.after_allocBuf {s s1 : BufMgr} {r : Except Exn (Option FrameId)} {f : FileId}
    {p : PageId} {b : Page} (h : Saved s f p b) (w : s.WF) (hN : 0 < s.numBufs)
    (ha : AllocResult s r s1) : Saved s1 f p b := by
  obtain ⟨t, ht, hc⟩ := ha
  have wt : t.WF := w.of_frameEquiv ht.frameEquiv ht.2.2.2.1
  have hst := h.swept ht
  rcases hc with ⟨_, rfl⟩ | ⟨_, rfl⟩ | ⟨_, _, _, rfl⟩ | ⟨_, hlt, hv, _, _, rfl⟩
  · exact hst
  · exact hst
  · exact hst.count_access
  · have hlt2 : t.clockHand < t.numBufs := by rw [ht.1]; exact hlt hN
    obtain ⟨f1, hh⟩ := wt.holds_of_valid hlt2 hv
    apply Saved.count_access
    rw [BufMgr.evict_eq wt hh]
    exact hst.flushed wt hh


theorem Saved.with_disk {s : BufMgr} {f : FileId} {p : PageId} {b : Page}
    (h : Saved s f p b) (d : Disk)
    (hd : amLookup d.pages (f, p) = amLookup s.disk.pages (f, p)) :
    Saved ({ s with disk := d } : BufMgr) f p b := by
  rcases h with ⟨i, hi, hb, hc⟩ | ⟨hl, hk⟩
  · left
    refine ⟨i, hi, hb, ?_⟩
    rcases hc with hc | hc
    · exact Or.inl hc
    · right
      show amLookup d.pages (f, p) = _
      rw [hd]
      exact hc
  · right
    refine ⟨hl, ?_⟩
    show amLookup d.pages (f, p) = _
    rw [hd]
    exact hk

theorem page_install (s : BufMgr) (i : FrameId) (f : FileId) (p : PageId) (pg : Page)
    (j : FrameId) :
    (s.install i f p pg).page j = if j = i ∧ i < s.bufPool.length then pg else s.page j := by
  show (s.setPage i pg).page j = _
  rw [page_setPage]

theorem desc_install_ne (s : BufMgr) (i : FrameId) (f : FileId) (p : PageId) (pg : Page)
    {j : FrameId} (h : j ≠ i) : (s.install i f p pg).desc j = s.desc j := by
  unfold BufMgr.install
  simp only [desc_setDesc, h, false_and, if_false]
  rfl

theorem Saved.install_other {s : BufMgr} (w : s.WF) {f : FileId} {p : PageId} {b : Page}
    (h : Saved s f p b) {i : FrameId} (hi : i < s.numBufs) (hv : (s.desc i).valid = false)
    (f1 : FileId) (p1 : PageId) (pg : Page) (hk : (f, p) ≠ (f1, p1)) :
    Saved (s.install i f1 p1 pg) f p b := by
  rcases h with ⟨j, hj, hb, hc⟩ | ⟨hl, hd⟩
  · have hji : j ≠ i := by
      rintro rfl
      rw [hj.2.1] at hv
      cases hv
    left
    refine ⟨j, (BufMgr.holds_install w hi f1 p1 pg j f p).2 (Or.inr ⟨hji, hj⟩), ?_, ?_⟩
    · rw [page_install]
      simp only [hji, false_and, if_false]
      exact hb
    · rw [desc_install_ne s i f1 p1 pg hji]
      exact hc
  · right
    refine ⟨?_, hd⟩
    show amLookup (amInsert s.hashTable (f1, p1) i) (f, p) = none
    rw [amLookup_insert, if_neg hk]
    exact hl

theorem Saved.install_same {s : BufMgr} (w : s.WF) {f : FileId} {p : PageId} {b : Page}
    {i : FrameId} (hi : i < s.numBufs) (hd : amLookup s.disk.pages (f, p) = some b) :
    Saved (s.install i f p b) f p b := by
  left
  refine ⟨i, (BufMgr.holds_install w hi f p b i f p).2 (Or.inl ⟨rfl, rfl, rfl⟩), ?_, Or.inr hd⟩
  rw [page_install]
  have : i < s.bufPool.length := by rw [w.poolLen]; exact hi
  simp [this]

/-- Rewriting the pin count and the bits of a descriptor keeps the contents of a page,
as long as a dirty bit that is set stays set. -/
theorem Saved.touch_desc {s : BufMgr} {f : FileId} {p : PageId} {b : Page} (h : Saved s f p b)
    (i : FrameId) (d : BufDesc) (hv : d.valid = (s.desc i).valid)
    (hf : d.file = (s.desc i).file) (hp : d.pageNo = (s.desc i).pageNo)
    (hn : d.frameNo = (s.desc i).frameNo) (hd : (s.desc i).dirty = true → d.dirty = true) :
    Saved ((s.setDesc i d).countAccess) f p b := by
  apply h.of_equiv
    ((FrameEquiv.setDesc s i d hv hf hp hn).trans_equiv (FrameEquiv.countAccess _)) rfl
    (fun _ _ => rfl)
  intro j _ hdj
  show ((s.setDesc i d).desc j).dirty = true
  rw [desc_setDesc]
  split
  · rename_i hc
    rw [hc.1] at hdj
    exact hd hdj
  · exact hdj

/-- What a read of page (f, p) returns when its contents are `b`: the read does not
fail on the file, and the frame it returns holds `b`. -/
theorem Saved.readPage_same {s : BufMgr} (w : s.WF) (hN : 0 < s.numBufs) {f : FileId}
    {p : PageId} {b : Page} (h : Saved s f p b) :
    Saved (readPage s f p).2 f p b ∧
    (∀ j, (readPage s f p).1 = .ok j → (readPage s f p).2.page j = b) ∧
    (∀ j, amLookup s.hashTable (f, p) = none → (allocBuf s).1 = .ok (some j) →
      (readPage s f p).1 = .ok j) := by
  cases hl : amLookup s.hashTable (f, p) with
  | some i =>
    rw [readPage_hit hl]
    have hi := (w.resident f p i).1 hl
    refine ⟨h.touch_desc i _ rfl rfl rfl rfl (fun hd => hd), ?_, ?_⟩
    · intro j hj
      cases hj
      rcases h with ⟨i1, hi1, hb, _⟩ | ⟨hl2, _⟩
      · have := w.resident.noShared i i1 f p hi hi1
        subst this
        exact hb
      · rw [hl] at hl2
        cases hl2
    · intro j hj
      cases hj
  | none =>
    have hdk : amLookup s.disk.pages (f, p) = some b := by
      rcases h with ⟨i1, hi1, _, _⟩ | ⟨_, hd⟩
      · have := (w.resident f p i1).2 hi1
        rw [hl] at this
        cases this
      · exact hd
    have hres := allocBuf_result s
    obtain ⟨w1, hn, hsel, hnone, _⟩ := wf_allocBuf w hN
    have hs1 := h.after_allocBuf w hN hres
    rcases hA : allocBuf s with ⟨r, s1⟩
    rw [hA] at w1 hn hsel hnone hs1
    simp only at w1 hn hsel hnone hs1
    have hl1 := hnone _ hl
    have hdk1 : amLookup s1.disk.pages (f, p) = some b := by
      rcases hs1 with ⟨i1, hi1, _, _⟩ | ⟨_, hd⟩
      · have := (w1.resident f p i1).2 hi1
        rw [hl1] at this
        cases this
      · exact hd
    match r, hA with
    | .error e, hA =>
      rw [readPage_miss_fail hl hA]
      refine ⟨hs1, ?_, ?_⟩
      · intro j hj
        cases hj
      · intro j _ hj
        cases hj
    | .ok none, hA =>
      rw [readPage_miss_unset hl hA]
      refine ⟨hs1, ?_, ?_⟩
      · intro j hj
        cases hj
      · intro j _ hj
        cases hj
    | .ok (some i), hA =>
      obtain ⟨hi, hv⟩ := hsel i rfl
      rw [readPage_miss_ok hl hA hdk1]
      have w2 : ({ s1 with disk :=
          { s1.disk with calls := FileCall.readPage f p :: s1.disk.calls } } : BufMgr).WF :=
        w1.withDisk _ (fun f1 p1 pg1 h1 => w1.diskWF f1 p1 pg1 h1) (fun _ => le_rfl)
      have hi2 : i < s1.numBufs := by rw [hn]; exact hi
      have hsv := Saved.install_same w2 (f := f) (p := p) (b := b) (i := i) hi2 hdk1
      refine ⟨hsv.count_read.count_access, ?_, ?_⟩
      · intro j hj
        cases hj
        show (BufMgr.install _ i f p b).page i = b
        rw [page_install]
        have : i < s1.bufPool.length := by rw [w1.poolLen]; exact hi2
        simp only [true_and]
        exact if_pos this
      · intro j _ hj
        cases hj
        rfl


/-- A page whose contents are known has an id below the next id of its file. -/
theorem Saved.below_next {s : BufMgr} (w : s.WF) {f : FileId} {p : PageId} {b : Page}
    (h : Saved s f p b) : p < s.disk.next f := by
  rcases h with ⟨i, hi, _, _⟩ | ⟨_, hd⟩
  · exact (w.pageNo i f p hi).2
  · exact (w.diskWF f p b hd).1

theorem Saved.released {s : BufMgr} (w : s.WF) {f : FileId} {p : PageId} {b : Page}
    (h : Saved s f p b) {i : FrameId} {f1 : FileId} {p1 : PageId} (hh : s.holds i f1 p1)
    (hk : (f, p) ≠ (f1, p1)) : Saved (s.release i f1 p1) f p b := by
  rcases h with ⟨j, hj, hb, hc⟩ | ⟨hl, hd⟩
  · have hji : j ≠ i := by
      rintro rfl
      apply hk
      have e1 := hj.2.2.1
      rw [hh.2.2.1] at e1
      have e2 := hj.2.2.2
      rw [hh.2.2.2] at e2
      rw [Option.some.inj e1, e2]
    left
    refine ⟨j, (BufMgr.holds_release w hh.1 f1 p1 j f p).2 ⟨hji, hj⟩, hb, ?_⟩
    have hdj : (s.release i f1 p1).desc j = s.desc j := by
      unfold BufMgr.release
      rw [desc_setDesc]
      simp only [hji, false_and, if_false]
      rfl
    rw [hdj]
    exact hc
  · right
    refine ⟨?_, hd⟩
    show amLookup (amRemove s.hashTable (f1, p1)) (f, p) = none
    rw [amLookup_remove, if_neg hk]
    exact hl

theorem Saved.readPage_other {s : BufMgr} (w : s.WF) (hN : 0 < s.numBufs) {f : FileId}
    {p : PageId} {b : Page} (h : Saved s f p b) (f1 : FileId) (p1 : PageId)
    (hk : (f, p) ≠ (f1, p1)) : Saved (readPage s f1 p1).2 f p b := by
  cases hl : amLookup s.hashTable (f1, p1) with
  | some i =>
    rw [readPage_hit hl]
    exact h.touch_desc i _ rfl rfl rfl rfl (fun hd => hd)
  | none =>
    have hres := allocBuf_result s
    obtain ⟨w1, hn, hsel, _, _⟩ := wf_allocBuf w hN
    have hs1 := h.after_allocBuf w hN hres
    rcases hA : allocBuf s with ⟨r, s1⟩
    rw [hA] at w1 hn hsel hs1
    simp only at w1 hn hsel hs1
    match r, hA with
    | .error e, hA =>
      rw [readPage_miss_fail hl hA]
      exact hs1
    | .ok none, hA =>
      rw [readPage_miss_unset hl hA]
      exact hs1
    | .ok (some i), hA =>
      obtain ⟨hi, hv⟩ := hsel i rfl
      cases hR : amLookup s1.disk.pages (f1, p1) with
      | none =>
        rw [readPage_miss_invalid hl hA hR]
        exact hs1
      | some pg =>
        rw [readPage_miss_ok hl hA hR]
        have w2 : ({ s1 with disk :=
            { s1.disk with calls := FileCall.readPage f1 p1 :: s1.disk.calls } } : BufMgr).WF :=
          w1.withDisk _ (fun f2 p2 pg2 h2 => w1.diskWF f2 p2 pg2 h2) (fun _ => le_rfl)
        have hs2 := hs1.with_disk
          { s1.disk with calls := FileCall.readPage f1 p1 :: s1.disk.calls } rfl
        exact (hs2.install_other w2 (by rw [hn]; exact hi) hv f1 p1 pg hk).count_read.count_access

theorem Saved.after_allocPage {s : BufMgr} (w : s.WF) (hN : 0 < s.numBufs) {f : FileId}
    {p : PageId} {b : Page} (h : Saved s f p b) (f1 : FileId) :
    Saved (allocPage s f1).2 f p b := by
  have hlt := h.below_next w
  have hk : (f, p) ≠ (f1, s.disk.next f1) := by
    intro e
    obtain ⟨rfl, rfl⟩ := Prod.mk.inj e
    exact absurd hlt (lt_irrefl _)
  have hnx : ∀ g, s.disk.next g ≤ (s.disk.allocatePage f1).2.next g := by
    intro g
    rw [Disk.next_allocatePage]
    split
    · rename_i e
      rw [e]
      exact Nat.le_succ _
    · exact le_rfl
  have w0 : ({ s with disk := (s.disk.allocatePage f1).2 } : BufMgr).WF :=
    w.withDisk _ (w.diskWF.allocatePage f1) hnx
  have h0 : Saved ({ s with disk := (s.disk.allocatePage f1).2 } : BufMgr) f p b := by
    apply h.with_disk
    simp only [Disk.allocatePage, amLookup_insert, if_neg hk]
  have hres := allocBuf_result ({ s with disk := (s.disk.allocatePage f1).2 } : BufMgr)
  obtain ⟨w1, hn, hsel, _, _⟩ := wf_allocBuf w0 hN
  have hs1 := h0.after_allocBuf w0 hN hres
  rw [allocPage_eq]
  rcases hA : allocBuf ({ s with disk := (s.disk.allocatePage f1).2 } : BufMgr) with ⟨r, s1⟩
  rw [hA] at w1 hn hsel hs1
  simp only at w1 hn hsel hs1
  match r, hA with
  | .error e, hA => exact hs1
  | .ok none, hA => exact hs1
  | .ok (some i), hA =>
    obtain ⟨hi, hv⟩ := hsel i rfl
    exact (hs1.install_other w1 (by rw [hn]; exact hi) hv f1 _ _ hk).count_access

theorem Saved.after_unPinPage {s : BufMgr} {f : FileId} {p : PageId} {b : Page}
    (h : Saved s f p b) (f1 : FileId) (p1 : PageId) (d : Bool) :
    Saved (unPinPage s f1 p1 d).2 f p b := by
  unfold unPinPage
  cases hl : amLookup s.hashTable (f1, p1) with
  | none => exact h
  | some i =>
    simp only
    split_ifs with h1 h2
    · exact h
    · exact h.touch_desc i _ rfl rfl rfl rfl (fun _ => rfl)
    · exact h.touch_desc i _ rfl rfl rfl rfl (fun hd => hd)

theorem Saved.after_disposePage {s : BufMgr} (w : s.WF) {f : FileId} {p : PageId} {b : Page}
    (h : Saved s f p b) (f1 : FileId) (p1 : PageId) (hk : (f1, p1) ≠ (f, p)) :
    Saved (disposePage s f1 p1).2 f p b := by
  have hk2 : (f, p) ≠ (f1, p1) := fun e => hk e.symm
  unfold disposePage
  cases hl : amLookup s.hashTable (f1, p1) with
  | none =>
    apply h.with_disk
    simp only [Disk.deletePage, amLookup_remove, if_neg hk2]
  | some i =>
    have hh := (w.resident f1 p1 i).1 hl
    have h1 := h.released w hh hk2
    apply Saved.with_disk h1
    simp only [Disk.deletePage, amLookup_remove, if_neg hk2]
    rfl

theorem Saved.after_writeFrame {s : BufMgr} {f : FileId} {p : PageId} {b : Page}
    (h : Saved s f p b) (i : FrameId) (data : List Nat) (hi : ¬ s.holds i f p) :
    Saved (writeFrame s i data) f p b := by
  have e : FrameEquiv s (writeFrame s i data) := by
    refine ⟨rfl, rfl, ?_, rfl, ?_, fun _ => ⟨rfl, rfl, rfl, rfl⟩⟩
    · show (s.bufPool.set i _).length = _
      rw [List.length_set]
    · intro j
      unfold writeFrame
      rw [page_setPage]
      split
      · rename_i hc
        rw [hc.1]
      · rfl
  apply h.of_equiv e rfl _ (fun _ _ hd => hd)
  intro j hj
  unfold writeFrame
  rw [page_setPage]
  have : j ≠ i := by
    rintro rfl
    exact hi hj
  simp [this]

theorem Saved.after_flushFileLoop (file : FileId) (n : Nat) (i : Nat) {s : BufMgr} (w : s.WF)
    (hin : i + n = s.numBufs) {f : FileId} {p : PageId} {b : Page} (h : Saved s f p b) :
    Saved (flushFileLoop file n i s).2 f p b := by
  induction n generalizing i s with
  | zero => exact h
  | succ n ih =>
    have w0 : s.countAccess.WF := w.of_frameEquiv (FrameEquiv.countAccess s) rfl
    have h0 : Saved s.countAccess f p b := h.count_access
    have hi : i < s.countAccess.numBufs := by
      show i < s.numBufs
      omega
    unfold flushFileLoop
    simp only
    split_ifs with h1 h2 h3
    · exact h0
    · exact h0
    · have hv : (s.countAccess.desc i).valid = true := by simpa using h2
      have hh : s.countAccess.holds i file (s.countAccess.desc i).pageNo := ⟨hi, hv, h1, rfl⟩
      rw [w0.frameNo i hi]
      obtain ⟨w1, e⟩ := w0.writeBack hh
      have hh1 := (e.holds_iff _ _ _).2 hh
      have hp : ((s.countAccess.writeBack i i).desc i).pageNo = (s.countAccess.desc i).pageNo :=
        (e.2.2.2.2.2 i).2.2.1
      have hsv := h0.flushed w0 hh
      rw [← hp] at hh1 hsv
      have w3 := w1.release hh1
      have hn3 : ((s.countAccess.writeBack i i).release i file
          ((s.countAccess.writeBack i i).desc i).pageNo).numBufs = s.numBufs := by
        show (s.countAccess.writeBack i i).numBufs = _
        rw [numBufs_writeBack]
        rfl
      have hin3 : i + 1 + n = ((s.countAccess.writeBack i i).release i file
          ((s.countAccess.writeBack i i).desc i).pageNo).numBufs := by
        rw [hn3]
        omega
      exact ih (i + 1) w3 hin3 hsv
    · exact ih (i + 1) w0 (by show i + 1 + n = s.numBufs; omega) h0

theorem Saved.after_apply {s : BufMgr} (w : s.WF) (hN : 0 < s.numBufs) {f : FileId}
    {p : PageId} {b : Page} (h : Saved s f p b) (op : Op) (hop : op.leaves s f p) :
    Saved (op.apply s) f p b := by
  cases op with
  | read f1 p1 =>
    by_cases hk : (f, p) = (f1, p1)
    · obtain ⟨rfl, rfl⟩ := Prod.mk.inj hk
      exact (h.readPage_same w hN).1
    · exact h.readPage_other w hN f1 p1 hk
  | alloc f1 => exact h.after_allocPage w hN f1
  | unpin f1 p1 d => exact h.after_unPinPage f1 p1 d
  | dispose f1 p1 => exact h.after_disposePage w f1 p1 hop
  | flush f1 => exact Saved.after_flushFileLoop f1 s.numBufs 0 w (Nat.zero_add _) h
  | write i data => exact h.after_writeFrame i data hop

theorem Saved.after_runOps (ops : List Op) {s : BufMgr} (w : s.WF) (hN : 0 < s.numBufs)
    {f : FileId} {p : PageId} {b : Page} (h : Saved s f p b) (hu : Untouched f p s ops) :
    Saved (runOps s ops) f p b := by
  induction ops generalizing s with
  | nil => exact h
  | cons op rest ih =>
    obtain ⟨w1, h1⟩ := wf_apply w hN op
    exact ih w1 (by rw [h1]; exact hN) (h.after_apply w hN op hu.1) hu.2


theorem writtenPool_wf : writtenPool.WF ∧ writtenPool.numBufs = 2 :=
  wf_runOps _ (wf_new 2 exampleDisk_wf) (by decide)

theorem FrameEquiv.touch_equiv (s : BufMgr) (i : FrameId) (d : BufDesc)
    (hv : d.valid = (s.desc i).valid) (hf : d.file = (s.desc i).file)
    (hp : d.pageNo = (s.desc i).pageNo) (hn : d.frameNo = (s.desc i).frameNo) :
    FrameEquiv s ((s.setDesc i d).countAccess) :=
  (FrameEquiv.setDesc s i d hv hf hp hn).trans_equiv (FrameEquiv.countAccess _)

theorem unPinPage_pinned {s : BufMgr} {f : FileId} {p : PageId} {i : FrameId} (d : Bool)
    (hl : amLookup s.hashTable (f, p) = some i) (hp : 0 < (s.desc i).pinCnt) :
    unPinPage s f p d = (.ok (),
      (s.setDesc i { s.desc i with pinCnt := (s.desc i).pinCnt - 1,
                                   dirty := (d || (s.desc i).dirty) }).countAccess) := by
  unfold unPinPage
  rw [hl]
  simp only
  have : ¬ (s.desc i).pinCnt ≤ 0 := by omega
  rw [if_neg this]
  cases d <;> simp

/-- C5. Dirty round trip through eviction.  Page p of file f is resident in frame i with
contents b and is pinned; it is unpinned with dirty_flag = true; then any calls are made
that do not write into the frame of the page and do not dispose of it (reads, allocs and
unpins of other pages in particular), after which the page is no longer resident.  Then
the file holds b for page p, and a readPage(f, p), whenever allocBuf obtains a frame for
it, returns that frame with contents b. -/
theorem dirty_page_survives_eviction (s0 : BufMgr) (w : s0.WF) (hN : 0 < s0.numBufs)
    (i : FrameId) (f : FileId) (p : PageId) (hres : s0.holds i f p)
    (hpin : 0 < (s0.desc i).pinCnt) (ops : List Op)
    (hu : Untouched f p (unPinPage s0 f p true).2 ops)
    (hev : amLookup (runOps (unPinPage s0 f p true).2 ops).hashTable (f, p) = none)
    (j : FrameId)
    (hfr : (allocBuf (runOps (unPinPage s0 f p true).2 ops)).1 = .ok (some j)) :
    amLookup (runOps (unPinPage s0 f p true).2 ops).disk.pages (f, p) = some (s0.page i) ∧
    (readPage (runOps (unPinPage s0 f p true).2 ops) f p).1 = .ok j ∧
    (readPage (runOps (unPinPage s0 f p true).2 ops) f p).2.page j = s0.page i := by
  have hl : amLookup s0.hashTable (f, p) = some i := (w.resident f p i).2 hres
  obtain ⟨w1, hn1⟩ := wf_unPinPage w f p true
  have hsv : Saved (unPinPage s0 f p true).2 f p (s0.page i) := by
    rw [unPinPage_pinned true hl hpin]
    left
    have hlen : i < s0.bufDescTable.length := by rw [w.descLen]; exact hres.1
    refine ⟨i, ?_, rfl, Or.inl ?_⟩
    · apply (FrameEquiv.holds_iff _ i f p).2 hres
      exact FrameEquiv.touch_equiv s0 i _ rfl rfl rfl rfl
    · show ((s0.setDesc i _).desc i).dirty = true
      rw [desc_setDesc]
      simp [hlen]
  have hN1 : 0 < (unPinPage s0 f p true).2.numBufs := by rw [hn1]; exact hN
  obtain ⟨w2, hn2⟩ := wf_runOps ops w1 hN1
  have hsv2 := hsv.after_runOps ops w1 hN1 hu
  have hN2 : 0 < (runOps (unPinPage s0 f p true).2 ops).numBufs := by rw [hn2]; exact hN1
  obtain ⟨_, r2, r3⟩ := hsv2.readPage_same w2 hN2
  have hok := r3 j hev hfr
  refine ⟨?_, hok, r2 j hok⟩
  rcases hsv2 with ⟨i1, hi1, _, _⟩ | ⟨_, hd⟩
  · have := (w2.resident f p i1).2 hi1
    rw [hev] at this
    cases this
  · exact hd

theorem dirty_page_survives_eviction_witness :
    writtenPool.page 1 = ⟨2, [21]⟩ ∧
    amLookup exampleDisk.pages (7, 2) = some ⟨2, [20]⟩ ∧
    (readPage (runOps (unPinPage writtenPool 7 2 true).2 [.read 7 3, .unpin 7 3 false]) 7 2).1
      = .ok 1 ∧
    (readPage (runOps (unPinPage writtenPool 7 2 true).2 [.read 7 3, .unpin 7 3 false])
      7 2).2.page 1 = writtenPool.page 1 :=
  ⟨by decide, by decide,
    (dirty_page_survives_eviction writtenPool writtenPool_wf.1 (by decide) 1 7 2
      ⟨by decide, by decide, by decide, by decide⟩ (by decide)
      [.read 7 3, .unpin 7 3 false] ⟨trivial, trivial, trivial⟩ (by decide) 1 (by decide)).2⟩

theorem cleanPool_wf : cleanPool.WF ∧ cleanPool.numBufs = 2 :=
  wf_runOps _ (wf_new 2 exampleDisk_wf) (by decide)

/-- C6. A clean frame is not written back on eviction.  When page p of file f is
resident in frame i with dirty = false and allocBuf evicts frame i, allocBuf makes no
file call at all (the files, and the record of calls made to them, are unchanged) and
the page leaves the page table.  So if the file held pg0 for the page, then after any
further calls that do not write into a frame holding the page and do not dispose of it,
a readPage(f, p) of the still non-resident page, whenever allocBuf obtains a frame for
it, returns that frame with contents pg0, whatever bytes frame i held. -/
theorem clean_page_not_written_back (s : BufMgr) (w : s.WF) (hN : 0 < s.numBufs)
    (i : FrameId) (f : FileId) (p : PageId) (hres : s.holds i f p)
    (hclean : (s.desc i).dirty = false) (hsel : (allocBuf s).1 = .ok (some i)) :
    (allocBuf s).2.disk = s.disk ∧
    amLookup (allocBuf s).2.hashTable (f, p) = none ∧
    ∀ pg0, amLookup s.disk.pages (f, p) = some pg0 →
      ∀ ops, Untouched f p (allocBuf s).2 ops →
        amLookup (runOps (allocBuf s).2 ops).hashTable (f, p) = none →
        ∀ j, (allocBuf (runOps (allocBuf s).2 ops)).1 = .ok (some j) →
          (readPage (runOps (allocBuf s).2 ops) f p).1 = .ok j ∧
          (readPage (runOps (allocBuf s).2 ops) f p).2.page j = pg0 := by
  have hr := allocBuf_result s
  obtain ⟨w1, hn1, _, _, _⟩ := wf_allocBuf w hN
  have hdisk : (allocBuf s).2.disk = s.disk ∧
      amLookup (allocBuf s).2.hashTable (f, p) = none := by
    rcases hr.effect w hN with ⟨_, _, hinv⟩ | ⟨i1, f1, p1, hsel1, hi1, _, e1, e2⟩
    · have := hinv i hsel
      rw [hres.2.1] at this
      cases this
    · rw [hsel] at hsel1
      cases hsel1
      have e3 := hi1.2.2.1
      rw [hres.2.2.1] at e3
      have e4 := hi1.2.2.2
      rw [hres.2.2.2] at e4
      cases e3
      subst e4
      rw [e1, e2, amLookup_remove, if_pos rfl]
      refine ⟨?_, rfl⟩
      rw [hclean]
      rfl
  refine ⟨hdisk.1, hdisk.2, ?_⟩
  intro pg0 hpg ops hu hev j hfr
  have hsv : Saved (allocBuf s).2 f p pg0 := Or.inr ⟨hdisk.2, by rw [hdisk.1]; exact hpg⟩
  have hN1 : 0 < (allocBuf s).2.numBufs := by rw [hn1]; exact hN
  obtain ⟨w2, hn2⟩ := wf_runOps ops w1 hN1
  have hsv2 := hsv.after_runOps ops w1 hN1 hu
  have hN2 : 0 < (runOps (allocBuf s).2 ops).numBufs := by rw [hn2]; exact hN1
  obtain ⟨_, r2, r3⟩ := hsv2.readPage_same w2 hN2
  have hok := r3 j hev hfr
  exact ⟨hok, r2 j hok⟩

theorem clean_page_not_written_back_witness :
    cleanPool.page 1 = ⟨2, [21]⟩ ∧ (cleanPool.desc 1).dirty = false ∧
    (allocBuf cleanPool).1 = .ok (some 1) ∧
    (allocBuf cleanPool).2.disk = cleanPool.disk ∧
    (readPage (runOps (allocBuf cleanPool).2 []) 7 2).2.page 1 = ⟨2, [20]⟩ :=
  ⟨by decide, by decide, by decide,
    (clean_page_not_written_back cleanPool cleanPool_wf.1 (by decide) 1 7 2
      ⟨by decide, by decide, by decide, by decide⟩ (by decide) (by decide)).1,
    ((clean_page_not_written_back cleanPool cleanPool_wf.1 (by decide) 1 7 2
      ⟨by decide, by decide, by decide, by decide⟩ (by decide) (by decide)).2.2
        ⟨2, [20]⟩ (by decide) [] trivial (by decide) 1 (by decide)).2⟩

/-- C7. readPage of a page that the page table maps to frame i returns frame i (it does
not raise BufferExceeded, whatever the pin counts of the pool), adds exactly one to the
pin count of frame i, sets its reference bit and changes nothing else in its descriptor,
and leaves alone every other descriptor, every buffer, the page table, the clock hand,
the files and the count of disk reads (no read_page is made). -/
theorem readPage_resident (s : BufMgr) (f : FileId) (p : PageId) (i : FrameId)
    (hl : amLookup s.hashTable (f, p) = some i) (hi : i < s.bufDescTable.length) :
    (readPage s f p).1 = .ok i ∧
    (readPage s f p).2.desc i =
      { s.desc i with refbit := true, pinCnt := (s.desc i).pinCnt + 1 } ∧
    (∀ j, j ≠ i → (readPage s f p).2.desc j = s.desc j) ∧
    (readPage s f p).2.bufPool = s.bufPool ∧
    (readPage s f p).2.hashTable = s.hashTable ∧
    (readPage s f p).2.clockHand = s.clockHand ∧
    (readPage s f p).2.disk = s.disk ∧
    (readPage s f p).2.bufStats.diskreads = s.bufStats.diskreads := by
  rw [readPage_hit hl]
  refine ⟨rfl, ?_, ?_, rfl, rfl, rfl, rfl, rfl⟩
  · show (BufMgr.setDesc s i _).desc i = _
    rw [desc_setDesc]
    simp [hi]
  · intro j hj
    show (BufMgr.setDesc s i _).desc j = _
    rw [desc_setDesc]
    simp [hj]

theorem readPage_resident_witness :
    (∀ i : Nat, i < fullPool.numBufs → 0 < (fullPool.desc i).pinCnt) ∧
    (fullPool.desc 1).pinCnt = 1 ∧
    (readPage fullPool 7 2).1 = .ok 1 ∧
    ((readPage fullPool 7 2).2.desc 1).pinCnt = 2 ∧
    (readPage fullPool 7 2).2.disk = fullPool.disk :=
  ⟨by decide, by decide,
    (readPage_resident fullPool 7 2 1 (by decide) (by decide)).1,
    by rw [(readPage_resident fullPool 7 2 1 (by decide) (by decide)).2.1]; decide,
    (readPage_resident fullPool 7 2 1 (by decide) (by decide)).2.2.2.2.2.2.1⟩

/-- C8. When readPage(f, p) misses, allocBuf yields frame i and the file's read_page
returns pg, readPage returns frame i, the page table maps (f, p) to i, frame i is valid,
bound to (f, p), holds pg, has dirty = false, pin count 1 and reference bit off, and
exactly one read_page was made (the only other file call the operation can make is the
write-back of the evicted page).  When allocPage obtains frame i for the page number n
that the file assigned, it leaves frame i in the same state: bound to (f, n), holding
the new page, valid, clean, pin count 1, reference bit off. -/
theorem miss_installs_page (s : BufMgr) (w : s.WF) (hN : 0 < s.numBufs) (f : FileId) :
    (∀ p i s1 pg, amLookup s.hashTable (f, p) = none → allocBuf s = (.ok (some i), s1) →
      (s1.disk.readPage f p).1 = .ok pg →
      (readPage s f p).1 = .ok i ∧
      amLookup (readPage s f p).2.hashTable (f, p) = some i ∧
      (readPage s f p).2.page i = pg ∧
      ((readPage s f p).2.desc i).valid = true ∧
      ((readPage s f p).2.desc i).file = some f ∧
      ((readPage s f p).2.desc i).pageNo = p ∧
      ((readPage s f p).2.desc i).dirty = false ∧
      ((readPage s f p).2.desc i).pinCnt = 1 ∧
      ((readPage s f p).2.desc i).refbit = false ∧
      (readPage s f p).2.disk.calls = FileCall.readPage f p :: s1.disk.calls ∧
      (s1.disk.calls = s.disk.calls ∨
        ∃ f1 p1, s1.disk.calls = FileCall.writePage f1 p1 :: s.disk.calls) ∧
      (readPage s f p).2.bufStats.diskreads = s1.bufStats.diskreads + 1) ∧
    (∀ i s1, allocBuf ({ s with disk := (s.disk.allocatePage f).2 } : BufMgr)
        = (.ok (some i), s1) →
      (allocPage s f).1 = .ok (s.disk.next f, i) ∧
      amLookup (allocPage s f).2.hashTable (f, s.disk.next f) = some i ∧
      (allocPage s f).2.page i = (s.disk.allocatePage f).1 ∧
      ((allocPage s f).2.desc i).valid = true ∧
      ((allocPage s f).2.desc i).file = some f ∧
      ((allocPage s f).2.desc i).pageNo = s.disk.next f ∧
      ((allocPage s f).2.desc i).dirty = false ∧
      ((allocPage s f).2.desc i).pinCnt = 1 ∧
      ((allocPage s f).2.desc i).refbit = false) := by
  have hdesc : ∀ (t : BufMgr) (i : FrameId) (g : FileId) (q : PageId) (pg : Page),
      i < t.bufDescTable.length → (t.install i g q pg).desc i = (t.desc i).Set g q := by
    intro t i g q pg hlt
    unfold BufMgr.install
    simp only [desc_setDesc]
    have : i < (t.setPage i pg).bufDescTable.length := hlt
    simp only [true_and]
    rw [if_pos this]
    rfl
  have hpage : ∀ (t : BufMgr) (i : FrameId) (g : FileId) (q : PageId) (pg : Page),
      i < t.bufPool.length → (t.install i g q pg).page i = pg := by
    intro t i g q pg hlt
    rw [page_install]
    simp [hlt]
  constructor
  · intro p i s1 pg hl hA hR
    obtain ⟨w1, hn, hsel, _, _⟩ := wf_allocBuf w hN
    rw [hA] at w1 hn hsel
    simp only at w1 hn hsel
    obtain ⟨hi, _⟩ := hsel i rfl
    have hR2 : amLookup s1.disk.pages (f, p) = some pg := by
      unfold Disk.readPage at hR
      cases hq : amLookup s1.disk.pages (f, p) with
      | none =>
        rw [hq] at hR
        cases hR
      | some pg1 =>
        rw [hq] at hR
        cases hR
        rfl
    have hdl : i < s1.bufDescTable.length := by rw [w1.descLen, hn]; exact hi
    have hpl : i < s1.bufPool.length := by rw [w1.poolLen, hn]; exact hi
    rw [readPage_miss_ok hl hA hR2]
    have hd := hdesc ({ s1 with disk :=
      { s1.disk with calls := FileCall.readPage f p :: s1.disk.calls } } : BufMgr) i f p pg hdl
    have hd2 : ((({ s1 with disk :=
        { s1.disk with calls := FileCall.readPage f p :: s1.disk.calls } }
          : BufMgr).install i f p pg).countRead.countAccess).desc i = _ := hd
    have hcalls : s1.disk.calls = s.disk.calls ∨
        ∃ f1 p1, s1.disk.calls = FileCall.writePage f1 p1 :: s.disk.calls := by
      have hr := allocBuf_result s
      rw [hA] at hr
      rcases hr.effect w hN with ⟨_, e2, _⟩ | ⟨i1, f1, p1, _, _, _, _, e2⟩
      · left
        rw [e2]
      · simp only at e2
        rw [e2]
        split
        · exact Or.inr ⟨f1, _, rfl⟩
        · exact Or.inl rfl
    refine ⟨rfl, ?_, hpage _ i f p pg hpl, ?_, ?_, ?_, ?_, ?_, ?_, rfl, hcalls, rfl⟩
    · show amLookup (amInsert _ (f, p) i) (f, p) = some i
      rw [amLookup_insert, if_pos rfl]
    all_goals rw [hd2]; rfl
  · intro i s1 hA
    have hnx : ∀ g, s.disk.next g ≤ (s.disk.allocatePage f).2.next g := by
      intro g
      rw [Disk.next_allocatePage]
      split
      · rename_i e
        rw [e]
        exact Nat.le_succ _
      · exact le_rfl
    have w0 : ({ s with disk := (s.disk.allocatePage f).2 } : BufMgr).WF :=
      w.withDisk _ (w.diskWF.allocatePage f) hnx
    obtain ⟨w1, hn, hsel, _, _⟩ := wf_allocBuf w0 hN
    rw [hA] at w1 hn hsel
    simp only at w1 hn hsel
    obtain ⟨hi, _⟩ := hsel i rfl
    have hdl : i < s1.bufDescTable.length := by rw [w1.descLen, hn]; exact hi
    have hpl : i < s1.bufPool.length := by rw [w1.poolLen, hn]; exact hi
    rw [allocPage_eq, hA]
    simp only
    have hd := hdesc s1 i f (s.disk.allocatePage f).1.page_number (s.disk.allocatePage f).1 hdl
    have hd2 : ((s1.install i f (s.disk.allocatePage f).1.page_number
        (s.disk.allocatePage f).1).countAccess).desc i = _ := hd
    refine ⟨rfl, ?_, hpage s1 i f (s.disk.allocatePage f).1.page_number
      (s.disk.allocatePage f).1 hpl, ?_, ?_, ?_, ?_, ?_, ?_⟩
    · show amLookup (amInsert _ (f, _) i) (f, s.disk.next f) = some i
      rw [amLookup_insert]
      exact if_pos rfl
    all_goals rw [hd2]; rfl

theorem miss_installs_page_witness :
    amLookup evictPool.hashTable (7, 3) = none ∧
    (allocBuf evictPool).1 = .ok (some 1) ∧
    (readPage evictPool 7 3).1 = .ok 1 ∧
    (readPage evictPool 7 3).2.page 1 = ⟨3, [30]⟩ ∧
    ((readPage evictPool 7 3).2.desc 1).pinCnt = 1 ∧
    (allocPage evictPool 7).1 = .ok (4, 1) :=
  ⟨by decide, by decide,
    ((miss_installs_page evictPool evictPool_wf.1 (by decide) 7).1 3 1 (allocBuf evictPool).2
      ⟨3, [30]⟩ (by decide) (by decide) (by decide)).1,
    ((miss_installs_page evictPool evictPool_wf.1 (by decide) 7).1 3 1 (allocBuf evictPool).2
      ⟨3, [30]⟩ (by decide) (by decide) (by decide)).2.2.1,
    ((miss_installs_page evictPool evictPool_wf.1 (by decide) 7).1 3 1 (allocBuf evictPool).2
      ⟨3, [30]⟩ (by decide) (by decide) (by decide)).2.2.2.2.2.2.2.1,
    ((miss_installs_page evictPool evictPool_wf.1 (by decide) 7).2 1
      (allocBuf ({ evictPool with disk := (evictPool.disk.allocatePage 7).2 } : BufMgr)).2
      (by decide)).1⟩


/-- C9. unPinPage on a resident page whose pin count is 0 raises PageNotPinned for
either value of the dirty flag and leaves the whole state unchanged.  In particular,
after a readPage that brought a non-resident page into the pool, one unPinPage succeeds
and the next one raises PageNotPinned, leaving the state as the first unpin left it. -/
theorem unPinPage_not_pinned (s : BufMgr) (f : FileId) (p : PageId) (i : FrameId)
    (hl : amLookup s.hashTable (f, p) = some i) (hp : (s.desc i).pinCnt = 0) (d : Bool) :
    unPinPage s f p d = (.error .PageNotPinnedException, s) ∧
    (∀ s0 : BufMgr, s0.WF → 0 < s0.numBufs → ∀ g q k,
      amLookup s0.hashTable (g, q) = none → (readPage s0 g q).1 = .ok k → ∀ d1 d2,
        (unPinPage (readPage s0 g q).2 g q d1).1 = .ok () ∧
        unPinPage (unPinPage (readPage s0 g q).2 g q d1).2 g q d2 =
          (.error .PageNotPinnedException, (unPinPage (readPage s0 g q).2 g q d1).2)) := by
  have hgen : ∀ (t : BufMgr) (g : FileId) (q : PageId) (k : FrameId) (e : Bool),
      amLookup t.hashTable (g, q) = some k → (t.desc k).pinCnt = 0 →
      unPinPage t g q e = (.error .PageNotPinnedException, t) := by
    intro t g q k e h1 h2
    unfold unPinPage
    rw [h1]
    simp only
    rw [if_pos (by rw [h2])]
  refine ⟨hgen s f p i d hl hp, ?_⟩
  intro s0 w hN g q k hmiss hok d1 d2
  obtain ⟨w1, hn, hsel, _, _⟩ := wf_allocBuf w hN
  rcases hA : allocBuf s0 with ⟨r, s1⟩
  rw [hA] at w1 hn hsel
  simp only at w1 hn hsel
  match r, hA with
  | .error e, hA =>
    rw [readPage_miss_fail hmiss hA] at hok
    cases hok
  | .ok none, hA =>
    rw [readPage_miss_unset hmiss hA] at hok
    cases hok
  | .ok (some i1), hA =>
    obtain ⟨hi, _⟩ := hsel i1 rfl
    cases hR : amLookup s1.disk.pages (g, q) with
    | none =>
      rw [readPage_miss_invalid hmiss hA hR] at hok
      cases hok
    | some pg =>
      have hdl : i1 < s1.bufDescTable.length := by rw [w1.descLen, hn]; exact hi
      rw [readPage_miss_ok hmiss hA hR]
      simp only
      generalize hT : (({ s1 with disk :=
        { s1.disk with calls := FileCall.readPage g q :: s1.disk.calls } } : BufMgr).install
          i1 g q pg).countRead.countAccess = t
      have hlk : amLookup t.hashTable (g, q) = some i1 := by
        rw [← hT]
        show amLookup (amInsert _ (g, q) i1) (g, q) = some i1
        rw [amLookup_insert, if_pos rfl]
      have hpin : (t.desc i1).pinCnt = 1 := by
        rw [← hT]
        show ((BufMgr.install _ i1 g q pg).desc i1).pinCnt = 1
        unfold BufMgr.install
        simp only [desc_setDesc, true_and]
        have : i1 < (BufMgr.setPage ({ s1 with disk :=
          { s1.disk with calls := FileCall.readPage g q :: s1.disk.calls } } : BufMgr)
            i1 pg).bufDescTable.length := hdl
        rw [if_pos this]
        rfl
      have hlen : i1 < t.bufDescTable.length := by
        rw [← hT]
        show i1 < (List.set _ i1 _).length
        rw [List.length_set]
        exact hdl
      have h1 := unPinPage_pinned d1 hlk (by rw [hpin]; exact Nat.one_pos)
      rw [h1]
      refine ⟨rfl, ?_⟩
      simp only
      refine hgen _ g q i1 d2 ?_ ?_
      · exact hlk
      · show ((BufMgr.setDesc t i1 _).desc i1).pinCnt = 0
        rw [desc_setDesc]
        simp [hlen, hpin]

theorem unPinPage_not_pinned_witness :
    amLookup cleanPool.hashTable (7, 2) = some 1 ∧ (cleanPool.desc 1).pinCnt = 0 ∧
    unPinPage cleanPool 7 2 true = (.error .PageNotPinnedException, cleanPool) ∧
    unPinPage cleanPool 7 2 false = (.error .PageNotPinnedException, cleanPool) :=
  ⟨by decide, by decide,
    (unPinPage_not_pinned cleanPool 7 2 1 (by decide) (by decide) true).1,
    (unPinPage_not_pinned cleanPool 7 2 1 (by decide) (by decide) false).1⟩

/-- C10. unPinPage(f, p, d) on a resident page with pin count c > 0 returns normally,
leaves pin count c - 1 and dirty bit (old dirty OR d), so a dirty bit that is set
stays set when d = false; the rest of that descriptor, every other descriptor, the
buffers, the page table, the clock hand and the files are unchanged. -/
theorem unPinPage_decrements (s : BufMgr) (f : FileId) (p : PageId) (i : FrameId)
    (hl : amLookup s.hashTable (f, p) = some i) (hi : i < s.bufDescTable.length)
    (hp : 0 < (s.desc i).pinCnt) (d : Bool) :
    (unPinPage s f p d).1 = .ok () ∧
    (unPinPage s f p d).2.desc i =
      { s.desc i with pinCnt := (s.desc i).pinCnt - 1, dirty := (d || (s.desc i).dirty) } ∧
    ((s.desc i).dirty = true → ((unPinPage s f p d).2.desc i).dirty = true) ∧
    (∀ j, j ≠ i → (unPinPage s f p d).2.desc j = s.desc j) ∧
    (unPinPage s f p d).2.bufPool = s.bufPool ∧
    (unPinPage s f p d).2.hashTable = s.hashTable ∧
    (unPinPage s f p d).2.clockHand = s.clockHand ∧
    (unPinPage s f p d).2.disk = s.disk := by
  rw [unPinPage_pinned d hl hp]
  have hd : ((s.setDesc i
      { s.desc i with pinCnt := (s.desc i).pinCnt - 1, dirty := (d || (s.desc i).dirty) }
        ).countAccess).desc i =
      { s.desc i with pinCnt := (s.desc i).pinCnt - 1, dirty := (d || (s.desc i).dirty) } := by
    show (BufMgr.setDesc s i _).desc i = _
    rw [desc_setDesc]
    simp [hi]
  refine ⟨rfl, hd, ?_, ?_, rfl, rfl, rfl, rfl⟩
  · intro hdirty
    simp only
    rw [hd]
    simp [hdirty]
  · intro j hj
    show (BufMgr.setDesc s i _).desc j = _
    rw [desc_setDesc]
    simp [hj]

theorem unPinPage_decrements_witness :
    (evictPool.desc 1).dirty = true ∧
    (readPage evictPool 7 2).1 = .ok 1 ∧
    ((unPinPage (readPage evictPool 7 2).2 7 2 false).2.desc 1).dirty = true ∧
    ((unPinPage (readPage evictPool 7 2).2 7 2 false).2.desc 1).pinCnt = 0 :=
  ⟨by decide, by decide,
    (unPinPage_decrements (readPage evictPool 7 2).2 7 2 1 (by decide) (by decide)
      (by decide) false).2.2.1 (by decide),
    by rw [(unPinPage_decrements (readPage evictPool 7 2).2 7 2 1 (by decide) (by decide)
      (by decide) false).2.1]; decide⟩

/-! ## flushFile and disposePage -/

theorem desc_release (s : BufMgr) (i : FrameId) (f : FileId) (p : PageId) (j : FrameId) :
    (s.release i f p).desc j =
      if j = i ∧ i < s.bufDescTable.length then (s.desc i).Clear else s.desc j := by
  unfold BufMgr.release
  rw [desc_setDesc]
  rfl

theorem desc_writeBack (s : BufMgr) (i src j : FrameId) :
    (s.writeBack i src).desc j = s.desc j ∨
    (s.writeBack i src).desc j = { s.desc j with dirty := false } := by
  by_cases h : j = i
  · subst h
    unfold BufMgr.writeBack
    split
    · split
      · show (BufMgr.setDesc _ j _).desc j = _ ∨ (BufMgr.setDesc _ j _).desc j = _
        rw [desc_setDesc]
        split
        · exact Or.inr rfl
        · exact Or.inl rfl
      · show (BufMgr.setDesc _ j _).desc j = _ ∨ (BufMgr.setDesc _ j _).desc j = _
        rw [desc_setDesc]
        split
        · exact Or.inr rfl
        · exact Or.inl rfl
    · exact Or.inl rfl
  · rw [desc_writeBack_ne s src h]
    exact Or.inl rfl

theorem desc_writeBack_fields (s : BufMgr) (i src j : FrameId) :
    ((s.writeBack i src).desc j).valid = (s.desc j).valid ∧
    ((s.writeBack i src).desc j).file = (s.desc j).file ∧
    ((s.writeBack i src).desc j).pageNo = (s.desc j).pageNo ∧
    ((s.writeBack i src).desc j).frameNo = (s.desc j).frameNo ∧
    ((s.writeBack i src).desc j).pinCnt = (s.desc j).pinCnt ∧
    ((s.writeBack i src).desc j).refbit = (s.desc j).refbit := by
  rcases desc_writeBack s i src j with h | h <;> rw [h] <;> exact ⟨rfl, rfl, rfl, rfl, rfl, rfl⟩

theorem calls_writeBack (s : BufMgr) (i src : FrameId) {f : FileId}
    (hf : (s.desc i).file = some f) :
    (s.writeBack i src).disk.calls =
      (if (s.desc i).dirty = true then [FileCall.writePage f (s.page src).page_number]
        else []) ++ s.disk.calls := by
  rw [disk_writeBack s i src hf]
  split <;> rfl

/-- One round of the loop of `flushFile` on a frame bound to the file that is neither
invalid nor pinned: the state handed to the next round. -/
theorem flushFileLoop_step (file : FileId) (n : Nat) (i : Nat) (s : BufMgr)
    (h1 : (s.desc i).file = some file) (h2 : (s.desc i).valid = true)
    (h3 : (s.desc i).pinCnt = 0) :
    flushFileLoop file (n + 1) i s =
      flushFileLoop file n (i + 1)
        ((s.countAccess.writeBack i (s.desc i).frameNo).release i file
          ((s.countAccess.writeBack i (s.desc i).frameNo).desc i).pageNo) := by
  have e : s.countAccess.desc i = s.desc i := rfl
  conv => lhs; unfold flushFileLoop
  simp only [e, h1, h2, h3, if_true, Bool.not_true, Bool.false_eq_true, if_false,
    lt_irrefl]
  rfl

theorem flushFileLoop_skip (file : FileId) (n : Nat) (i : Nat) (s : BufMgr)
    (h1 : (s.desc i).file ≠ some file) :
    flushFileLoop file (n + 1) i s = flushFileLoop file n (i + 1) s.countAccess := by
  have e : s.countAccess.desc i = s.desc i := rfl
  conv => lhs; unfold flushFileLoop
  simp only [e, h1, if_false]

theorem flushFileLoop_pinned (file : FileId) (n : Nat) (i : Nat) (s : BufMgr)
    (h1 : (s.desc i).file = some file) (h2 : (s.desc i).valid = true)
    (h3 : 0 < (s.desc i).pinCnt) :
    flushFileLoop file (n + 1) i s = (.error .PagePinnedException, s.countAccess) := by
  have e : s.countAccess.desc i = s.desc i := rfl
  conv => lhs; unfold flushFileLoop
  simp only [e, h1, h2, h3, if_true, Bool.not_true, Bool.false_eq_true, if_false]


/-- The loop of `flushFile` over the frames `i, …, i + n - 1` of a well-formed pool: it
throws PagePinned exactly when one of these frames is bound to the file and pinned, and
otherwise returns; it never touches a buffer or the clock hand; when it returns, the
frames bound to the file are cleared, the other descriptors are unchanged, and the file
calls made are one writePage per dirty frame of the file, in frame order. -/
theorem flushFileLoop_spec (f : FileId) (n : Nat) (i : Nat) {s : BufMgr} (w : s.WF)
    (hin : i + n = s.numBufs) :
    ((flushFileLoop f n i s).1 = .error .PagePinnedException ↔
      ∃ j : Nat, i ≤ j ∧ j < i + n ∧ (s.desc j).file = some f ∧ 0 < (s.desc j).pinCnt) ∧
    ((flushFileLoop f n i s).1 = .ok () ∨
      (flushFileLoop f n i s).1 = .error .PagePinnedException) ∧
    (flushFileLoop f n i s).2.bufPool = s.bufPool ∧
    (flushFileLoop f n i s).2.clockHand = s.clockHand ∧
    ((flushFileLoop f n i s).1 = .ok () →
      (∀ j : Nat, i ≤ j → j < i + n → (s.desc j).file = some f →
        (flushFileLoop f n i s).2.desc j = (s.desc j).Clear) ∧
      (∀ j : Nat, ¬ (i ≤ j ∧ j < i + n ∧ (s.desc j).file = some f) →
        (flushFileLoop f n i s).2.desc j = s.desc j) ∧
      (flushFileLoop f n i s).2.disk.calls =
        (((List.range' i n).filter
            (fun j => decide ((s.desc j).file = some f) && (s.desc j).dirty)).map
          (fun j => FileCall.writePage f (s.desc j).pageNo)).reverse ++ s.disk.calls) := by
  induction n generalizing i s with
  | zero =>
    refine ⟨?_, Or.inl rfl, rfl, rfl, ?_⟩
    · constructor
      · intro h
        cases h
      · rintro ⟨j, h1, h2, _⟩
        omega
    · intro _
      refine ⟨?_, fun _ _ => rfl, rfl⟩
      intro j h1 h2
      omega
  | succ n ih =>
    have hi : i < s.numBufs := by omega
    have hlen : i < s.bufDescTable.length := by rw [w.descLen]; exact hi
    by_cases h1 : (s.desc i).file = some f
    · have hv : (s.desc i).valid = true := (w.fileIff i hi).2 (by rw [h1]; simp)
      by_cases h3 : 0 < (s.desc i).pinCnt
      · rw [flushFileLoop_pinned f n i s h1 hv h3]
        refine ⟨?_, Or.inr rfl, rfl, rfl, ?_⟩
        · constructor
          · intro _
            exact ⟨i, le_rfl, by omega, h1, h3⟩
          · intro _
            rfl
        · intro h
          cases h
      · have h3b : (s.desc i).pinCnt = 0 := by omega
        rw [flushFileLoop_step f n i s h1 hv h3b, w.frameNo i hi]
        have w0 : s.countAccess.WF := w.of_frameEquiv (FrameEquiv.countAccess s) rfl
        have hh : s.countAccess.holds i f (s.desc i).pageNo := ⟨hi, hv, h1, rfl⟩
        obtain ⟨w1, e⟩ := w0.writeBack hh
        have hp : ((s.countAccess.writeBack i i).desc i).pageNo = (s.desc i).pageNo :=
          (desc_writeBack_fields s.countAccess i i i).2.2.1
        rw [hp]
        have hh1 : (s.countAccess.writeBack i i).holds i f (s.desc i).pageNo :=
          (e.holds_iff _ _ _).2 hh
        have w3 := w1.release hh1
        generalize hT : (s.countAccess.writeBack i i).release i f (s.desc i).pageNo = t at w3
        have hlen1 : i < (s.countAccess.writeBack i i).bufDescTable.length := by
          rw [w1.descLen, numBufs_writeBack]
          exact hi
        have hdesc : ∀ j : Nat, t.desc j = if j = i then (s.desc i).Clear else s.desc j := by
          intro j
          rw [← hT, desc_release]
          by_cases hj : j = i
          · subst hj
            simp only [true_and, hlen1, if_true]
            show BufDesc.Clear _ = BufDesc.Clear _
            unfold BufDesc.Clear
            rw [(desc_writeBack_fields s.countAccess j j j).2.2.2.1]
            rfl
          · simp only [hj, false_and, if_false]
            rw [desc_writeBack_ne _ _ hj]
            rfl
        have hnum : t.numBufs = s.numBufs := by
          rw [← hT]
          show (s.countAccess.writeBack i i).numBufs = _
          rw [numBufs_writeBack]
          rfl
        have hpool : t.bufPool = s.bufPool := by
          rw [← hT]
          show (s.countAccess.writeBack i i).bufPool = _
          rw [bufPool_writeBack]
          rfl
        have hhand : t.clockHand = s.clockHand := by
          rw [← hT]
          show (s.countAccess.writeBack i i).clockHand = _
          rw [clockHand_writeBack]
          rfl
        have hcalls : t.disk.calls =
            (if (s.desc i).dirty = true then [FileCall.writePage f (s.desc i).pageNo]
              else []) ++ s.disk.calls := by
          rw [← hT]
          show (s.countAccess.writeBack i i).disk.calls = _
          rw [calls_writeBack s.countAccess i i (f := f) h1]
          have : (s.countAccess.page i).page_number = (s.desc i).pageNo :=
            (w0.pageNo i f _ hh).1
          rw [this]
          rfl
        obtain ⟨a1, a2, a3, a4, a5⟩ := ih (i + 1) w3 (by rw [hnum]; omega)
        refine ⟨?_, a2, by rw [a3, hpool], by rw [a4, hhand], ?_⟩
        · rw [a1]
          constructor
          · rintro ⟨j, b1, b2, b3, b4⟩
            have hj : j ≠ i := by omega
            rw [hdesc, if_neg hj] at b3 b4
            exact ⟨j, by omega, by omega, b3, b4⟩
          · rintro ⟨j, b1, b2, b3, b4⟩
            have hj : j ≠ i := by
              rintro rfl
              omega
            refine ⟨j, by omega, by omega, ?_, ?_⟩
            · rw [hdesc, if_neg hj]
              exact b3
            · rw [hdesc, if_neg hj]
              exact b4
        · intro hok
          obtain ⟨c1, c2, c3⟩ := a5 hok
          refine ⟨?_, ?_, ?_⟩
          · intro j b1 b2 b3
            by_cases hj : j = i
            · subst hj
              rw [c2 j (by omega), hdesc, if_pos rfl]
            · have := c1 j (by omega) (by omega) (by rw [hdesc, if_neg hj]; exact b3)
              rw [this, hdesc, if_neg hj]
          · intro j hnot
            have hj : j ≠ i := by
              rintro rfl
              exact hnot ⟨le_rfl, by omega, h1⟩
            rw [c2 j, hdesc, if_neg hj]
            rintro ⟨b1, b2, b3⟩
            rw [hdesc, if_neg hj] at b3
            exact hnot ⟨by omega, by omega, b3⟩
          · rw [c3, hcalls, List.range'_succ, List.filter_cons]
            have hfil : (List.range' (i + 1) n).filter
                (fun j => decide ((t.desc j).file = some f) && (t.desc j).dirty) =
                (List.range' (i + 1) n).filter
                (fun j => decide ((s.desc j).file = some f) && (s.desc j).dirty) := by
              apply List.filter_congr
              intro j hj
              have : j ≠ i := Nat.ne_of_gt (List.mem_range'_1.1 hj).1
              rw [hdesc, if_neg this]
            have hmap : ∀ l : List Nat, (∀ j ∈ l, j ≠ i) →
                l.map (fun j => FileCall.writePage f (t.desc j).pageNo) =
                l.map (fun j => FileCall.writePage f (s.desc j).pageNo) := by
              intro l hl
              apply List.map_congr_left
              intro j hj
              rw [hdesc, if_neg (hl j hj)]
            rw [hfil, hmap]
            · by_cases hd : (s.desc i).dirty = true
              · simp [h1, hd]
              · simp [h1, hd]
            · intro j hj
              exact Nat.ne_of_gt (List.mem_range'_1.1 (List.mem_of_mem_filter hj)).1
    · rw [flushFileLoop_skip f n i s h1]
      have w0 : s.countAccess.WF := w.of_frameEquiv (FrameEquiv.countAccess s) rfl
      obtain ⟨a1, a2, a3, a4, a5⟩ := ih (i + 1) w0 (by show i + 1 + n = s.numBufs; omega)
      have e : ∀ j, s.countAccess.desc j = s.desc j := fun _ => rfl
      simp only [e] at a1 a5
      refine ⟨?_, a2, a3, a4, ?_⟩
      · rw [a1]
        constructor
        · rintro ⟨j, b1, b2, b3, b4⟩
          exact ⟨j, by omega, by omega, b3, b4⟩
        · rintro ⟨j, b1, b2, b3, b4⟩
          have hj : j ≠ i := by
            rintro rfl
            exact h1 b3
          exact ⟨j, by omega, by omega, b3, b4⟩
      · intro hok
        obtain ⟨c1, c2, c3⟩ := a5 hok
        refine ⟨?_, ?_, ?_⟩
        · intro j b1 b2 b3
          have hj : j ≠ i := by
            rintro rfl
            exact h1 b3
          exact c1 j (by omega) (by omega) b3
        · intro j hnot
          apply c2 j
          rintro ⟨b1, b2, b3⟩
          exact hnot ⟨by omega, by omega, b3⟩
        · rw [c3, List.range'_succ, List.filter_cons]
          simp [h1]
          rfl

/-- A readPage that returns leaves the page in the frame it returns, pinned. -/
theorem readPage_ok_holds {s : BufMgr} (w : s.WF) (hN : 0 < s.numBufs) {f : FileId}
    {p : PageId} {i : FrameId} (hok : (readPage s f p).1 = .ok i) :
    (readPage s f p).2.holds i f p ∧ 0 < ((readPage s f p).2.desc i).pinCnt := by
  have w2 := (wf_readPage w hN f p).1
  cases hl : amLookup s.hashTable (f, p) with
  | some k =>
    rw [readPage_hit hl] at hok w2 ⊢
    have hki : i = k := (Except.ok.inj hok).symm
    subst hki
    have hh := (w.resident f p i).1 hl
    have hlen : i < s.bufDescTable.length := by rw [w.descLen]; exact hh.1
    refine ⟨(w2.resident f p i).1 hl, ?_⟩
    show 0 < ((BufMgr.setDesc s i _).desc i).pinCnt
    rw [desc_setDesc]
    simp [hlen]
  | none =>
    obtain ⟨w1, hn, hsel, _, _⟩ := wf_allocBuf w hN
    rcases hA : allocBuf s with ⟨r, s1⟩
    rw [hA] at w1 hn hsel
    simp only at w1 hn hsel
    match r, hA with
    | .error e, hA =>
      rw [readPage_miss_fail hl hA] at hok
      cases hok
    | .ok none, hA =>
      rw [readPage_miss_unset hl hA] at hok
      cases hok
    | .ok (some i1), hA =>
      obtain ⟨hi1, _⟩ := hsel i1 rfl
      cases hR : amLookup s1.disk.pages (f, p) with
      | none =>
        rw [readPage_miss_invalid hl hA hR] at hok
        cases hok
      | some pg =>
        rw [readPage_miss_ok hl hA hR] at hok w2 ⊢
        have hki : i = i1 := (Except.ok.inj hok).symm
        subst hki
        have hlk : amLookup (BufMgr.install ({ s1 with disk :=
            { s1.disk with calls := FileCall.readPage f p :: s1.disk.calls } } : BufMgr)
              i f p pg).countRead.countAccess.hashTable (f, p) = some i := by
          show amLookup (amInsert _ (f, p) i) (f, p) = some i
          rw [amLookup_insert, if_pos rfl]
        have hdl : i < s1.bufDescTable.length := by rw [w1.descLen, hn]; exact hi1
        refine ⟨(w2.resident f p i).1 hlk, ?_⟩
        show 0 < ((BufMgr.install _ i f p pg).desc i).pinCnt
        unfold BufMgr.install
        simp only [desc_setDesc, true_and]
        have : i < (BufMgr.setPage ({ s1 with disk :=
          { s1.disk with calls := FileCall.readPage f p :: s1.disk.calls } } : BufMgr)
            i pg).bufDescTable.length := hdl
        rw [if_pos this]
        exact Nat.one_pos

/-- C11. On a pool satisfying the invariant (residency consistency, with invalid frames
bound to no file), flushFile(f) raises PagePinned if and only if some valid frame holding
a page of f has pin count > 0, and returns normally if and only if every frame of f has
pin count 0; in particular, flushing the file of a page that readPage has just returned
raises PagePinned. -/
theorem flushFile_pagePinned_iff (s : BufMgr) (w : s.WF) (f : FileId) :
    ((flushFile s f).1 = .error .PagePinnedException ↔
      ∃ i : Nat, i < s.numBufs ∧ (s.desc i).valid = true ∧ (s.desc i).file = some f ∧
        0 < (s.desc i).pinCnt) ∧
    ((flushFile s f).1 = .ok () ↔
      ∀ i : Nat, i < s.numBufs → (s.desc i).file = some f → (s.desc i).pinCnt = 0) ∧
    (0 < s.numBufs → ∀ p i, (readPage s f p).1 = .ok i →
      (flushFile (readPage s f p).2 f).1 = .error .PagePinnedException) := by
  have key : ∀ t : BufMgr, t.WF →
      ((flushFile t f).1 = .error .PagePinnedException ↔
        ∃ i : Nat, i < t.numBufs ∧ (t.desc i).valid = true ∧ (t.desc i).file = some f ∧
          0 < (t.desc i).pinCnt) ∧
      ((flushFile t f).1 = .ok () ∨ (flushFile t f).1 = .error .PagePinnedException) := by
    intro t wt
    obtain ⟨a1, a2, _⟩ := flushFileLoop_spec f t.numBufs 0 wt (Nat.zero_add _)
    refine ⟨?_, a2⟩
    unfold flushFile
    rw [a1]
    constructor
    · rintro ⟨j, _, h2, h3, h4⟩
      have hj : j < t.numBufs := by omega
      exact ⟨j, hj, (wt.fileIff j hj).2 (by rw [h3]; simp), h3, h4⟩
    · rintro ⟨j, h1, _, h3, h4⟩
      exact ⟨j, Nat.zero_le _, by omega, h3, h4⟩
  obtain ⟨k1, k2⟩ := key s w
  refine ⟨k1, ?_, ?_⟩
  · constructor
    · intro hok i hi hf
      by_contra hne
      have : (flushFile s f).1 = .error .PagePinnedException :=
        k1.2 ⟨i, hi, (w.fileIff i hi).2 (by rw [hf]; simp), hf, by omega⟩
      rw [hok] at this
      cases this
    · intro hall
      rcases k2 with h | h
      · exact h
      · obtain ⟨i, hi, _, hf, hp⟩ := k1.1 h
        have := hall i hi hf
        omega
  · intro hN p i hok
    obtain ⟨hh, hp⟩ := readPage_ok_holds w hN hok
    exact ((key _ (wf_readPage w hN f p).1).1).2 ⟨i, hh.1, hh.2.1, hh.2.2.1, hp⟩

theorem pinnedPool_wf : pinnedPool.WF ∧ pinnedPool.numBufs = 3 :=
  wf_runOps _ (wf_new 3 exampleDisk_wf) (by decide)

theorem flushFile_pagePinned_iff_witness :
    (flushFile pinnedPool 7).1 = .error .PagePinnedException ∧
    (flushFile (unPinPage pinnedPool 7 1 false).2 7).1 = .ok () :=
  ⟨(flushFile_pagePinned_iff pinnedPool pinnedPool_wf.1 7).1.2
      ⟨0, by decide, by decide, by decide, by decide⟩,
    (flushFile_pagePinned_iff (unPinPage pinnedPool 7 1 false).2
      (wf_unPinPage pinnedPool_wf.1 7 1 false).1 7).2.1.2 (by decide)⟩

/-- C14. disposePage returns normally whatever the pin count and the dirty bit of the
page, and its only file call is the deletePage of the page (no writePage).  When the
page table maps the page to frame i, the entry is removed and frame i is cleared to
invalid, every other descriptor being unchanged; when the page is not resident, the
page table and every descriptor are unchanged.  No buffer and not the clock hand is
touched. -/
theorem disposePage_effect (s : BufMgr) (f : FileId) (p : PageId) :
    (disposePage s f p).1 = .ok () ∧
    (disposePage s f p).2.disk = s.disk.deletePage f p ∧
    (disposePage s f p).2.bufPool = s.bufPool ∧
    (disposePage s f p).2.clockHand = s.clockHand ∧
    (∀ i, amLookup s.hashTable (f, p) = some i → i < s.bufDescTable.length →
      (disposePage s f p).2.hashTable = amRemove s.hashTable (f, p) ∧
      amLookup (disposePage s f p).2.hashTable (f, p) = none ∧
      (disposePage s f p).2.desc i = (s.desc i).Clear ∧
      ((disposePage s f p).2.desc i).valid = false ∧
      ∀ j, j ≠ i → (disposePage s f p).2.desc j = s.desc j) ∧
    (amLookup s.hashTable (f, p) = none →
      (disposePage s f p).2.hashTable = s.hashTable ∧
      (disposePage s f p).2.bufDescTable = s.bufDescTable) := by
  unfold disposePage
  cases hl : amLookup s.hashTable (f, p) with
  | none =>
    refine ⟨rfl, rfl, rfl, rfl, ?_, fun _ => ⟨rfl, rfl⟩⟩
    intro i h
    cases h
  | some k =>
    refine ⟨rfl, rfl, rfl, rfl, ?_, ?_⟩
    · intro i h hlen
      have hki : i = k := (Option.some.inj h).symm
      subst hki
      have hd : ∀ j, (BufMgr.setDesc ({ s with hashTable := amRemove s.hashTable (f, p) }
          : BufMgr) i (s.desc i).Clear).desc j = if j = i then (s.desc i).Clear else s.desc j := by
        intro j
        rw [desc_setDesc]
        by_cases hj : j = i
        · simp [hj, hlen]
        · simp [hj]
          rfl
      refine ⟨rfl, ?_, ?_, ?_, ?_⟩
      · show amLookup (amRemove s.hashTable (f, p)) (f, p) = none
        rw [amLookup_remove, if_pos rfl]
      · exact (hd i).trans (if_pos rfl)
      · have := (hd i).trans (if_pos rfl)
        exact congrArg BufDesc.valid this
      · intro j hj
        exact (hd j).trans (if_neg hj)
    · intro h
      cases h

theorem disposePage_effect_witness :
    amLookup pinnedPool.hashTable (7, 1) = some 0 ∧ (pinnedPool.desc 0).pinCnt = 1 ∧
    (disposePage pinnedPool 7 1).1 = .ok () ∧
    ((disposePage pinnedPool 7 1).2.desc 0).valid = false ∧
    (disposePage pinnedPool 7 1).2.disk.calls = [FileCall.deletePage 7 1, FileCall.readPage 7 1] :=
  ⟨by decide, by decide, (disposePage_effect pinnedPool 7 1).1,
    ((disposePage_effect pinnedPool 7 1).2.2.2.2.1 0 (by decide) (by decide)).2.2.2.1,
    by rw [(disposePage_effect pinnedPool 7 1).2.1]; decide⟩

/-! ## Which frame the clock sweep selects -/

theorem succ_mod_of_lt {x n : Nat} (h : x < n) :
    (x + 1) % n = if x + 1 < n then x + 1 else 0 := by
  by_cases h1 : x + 1 < n
  · rw [if_pos h1, Nat.mod_eq_of_lt h1]
  · rw [if_neg h1]
    have : x + 1 = n := by omega
    rw [this, Nat.mod_self]

theorem aheadOf_step (h n i : Nat) (hh : h < n) (hi : i < n) :
    (i = h → aheadOf h n i = 0 ∧ aheadOf ((h + 1) % n) n i = n - 1) ∧
    (i ≠ h → aheadOf ((h + 1) % n) n i + 1 = aheadOf h n i) := by
  unfold aheadOf
  rw [succ_mod_of_lt hh]
  constructor
  · intro e
    subst e
    split_ifs <;> omega
  · intro e
    split_ifs <;> omega

/-- After one step of the hand every other frame is one visit closer, and the frame just
visited is the last one the sweep will come back to. -/
theorem ahead_advance (s : BufMgr) (hN : 0 < s.numBufs) (i : Nat) (hi : i < s.numBufs) :
    (i = (s.clockHand + 1) % s.numBufs → s.ahead i = 0 ∧
      (advanceClock s).ahead i = s.numBufs - 1) ∧
    (i ≠ (s.clockHand + 1) % s.numBufs → (advanceClock s).ahead i + 1 = s.ahead i) :=
  aheadOf_step ((s.clockHand + 1) % s.numBufs) s.numBufs i (Nat.mod_lt _ hN) hi

theorem aheadOf_lt (h n i : Nat) (hh : h < n) (hi : i < n) : aheadOf h n i < n := by
  unfold aheadOf
  split_ifs <;> omega

theorem aheadOf_eq_zero (h n i : Nat) (hh : h < n) (e : aheadOf h n i = 0) :
    i = h := by
  unfold aheadOf at e
  split_ifs at e <;> omega

theorem ahead_lt (s : BufMgr) (hN : 0 < s.numBufs) (i : Nat) (hi : i < s.numBufs) :
    s.ahead i < s.numBufs :=
  aheadOf_lt _ _ i (Nat.mod_lt _ hN) hi

theorem ahead_eq_zero (s : BufMgr) (hN : 0 < s.numBufs) (i : Nat)
    (h : s.ahead i = 0) : i = (s.clockHand + 1) % s.numBufs :=
  aheadOf_eq_zero _ _ i (Nat.mod_lt _ hN) h

/-- The loop of `allocBuf` selects the first frame, in the order of the sweep, that is
invalid or has its reference bit off and pin count 0, provided the count of pinned
frames cannot reach `numBufs` before the sweep gets there. -/
theorem allocBufLoop_first_free (fuel pinNum : Nat) (lastPin : Bool) (s : BufMgr) (u : Nat)
    (hN : 0 < s.numBufs) (hlen : s.bufDescTable.length = s.numBufs) (hu : u < s.numBufs)
    (hfree : s.free u)
    (hfirst : ∀ i : Nat, i < s.numBufs → s.ahead i < s.ahead u → ¬ s.free i)
    (hpn : pinNum + s.ahead u < s.numBufs) (hfuel : s.ahead u < fuel) :
    (allocBufLoop fuel pinNum lastPin s).1 = .ok (some u) := by
  induction fuel generalizing pinNum lastPin s with
  | zero => omega
  | succ n ih =>
    have hh : (advanceClock s).clockHand < s.numBufs := Nat.mod_lt _ hN
    have hhe : (advanceClock s).clockHand = (s.clockHand + 1) % s.numBufs := rfl
    have hd : ∀ j, (advanceClock s).desc j = s.desc j := fun _ => rfl
    have h1 : ¬ pinNum = (advanceClock s).numBufs := by
      show ¬ pinNum = s.numBufs
      omega
    unfold allocBufLoop
    simp only
    rw [if_neg h1]
    by_cases hcur : u = (s.clockHand + 1) % s.numBufs
    · -- the frame under the hand is the free one
      rw [hhe, ← hcur, hd]
      rcases hfree with hv | ⟨hr, hp⟩
      · rw [hv]
        simp
      · by_cases hv : (s.desc u).valid = true
        · rw [hv, hr, hp]
          simp
        · have : (s.desc u).valid = false := by simpa using hv
          rw [this]
          simp
    · -- the frame under the hand is not free: its bit is cleared or it is counted
      have hau : (advanceClock s).ahead u + 1 = s.ahead u := (ahead_advance s hN u hu).2 hcur
      have hcur0 : s.ahead ((s.clockHand + 1) % s.numBufs) = 0 :=
        ((ahead_advance s hN _ (Nat.mod_lt _ hN)).1 rfl).1
      have hnf : ¬ s.free ((s.clockHand + 1) % s.numBufs) :=
        hfirst _ (Nat.mod_lt _ hN) (by omega)
      have hv : (s.desc ((s.clockHand + 1) % s.numBufs)).valid = true := by
        by_contra hc
        exact hnf (Or.inl (by simpa using hc))
      have hfirst2 : ∀ t : BufMgr, t.numBufs = s.numBufs →
          t.clockHand = (s.clockHand + 1) % s.numBufs →
          (∀ j, j ≠ (s.clockHand + 1) % s.numBufs → t.desc j = s.desc j) →
          t.ahead u + 1 = s.ahead u ∧ t.free u ∧
          ∀ i : Nat, i < t.numBufs → t.ahead i < t.ahead u → ¬ t.free i := by
        intro t tn th td
        have ta : ∀ i, t.ahead i = (advanceClock s).ahead i := by
          intro i
          unfold BufMgr.ahead
          rw [tn, th]
          rfl
        refine ⟨by rw [ta]; exact hau, ?_, ?_⟩
        · unfold BufMgr.free
          rw [td u hcur]
          exact hfree
        · intro i hi hlt
          rw [ta, ta] at hlt
          rw [tn] at hi
          by_cases hic : i = (s.clockHand + 1) % s.numBufs
          · have := ((ahead_advance s hN i hi).1 hic).2
            have := ahead_lt s hN u hu
            omega
          · have := (ahead_advance s hN i hi).2 hic
            have hnfi := hfirst i hi (by omega)
            unfold BufMgr.free
            rw [td i hic]
            exact hnfi
      rw [hhe, hd]
      have h2 : ¬ ((!(s.desc ((s.clockHand + 1) % s.numBufs)).valid) = true) := by
        rw [hv]
        decide
      rw [if_neg h2]
      by_cases hr : (s.desc ((s.clockHand + 1) % s.numBufs)).refbit = true
      · rw [if_pos hr]
        obtain ⟨b1, b2, b3⟩ := hfirst2
          ((advanceClock s).setDesc ((s.clockHand + 1) % s.numBufs)
            { s.desc ((s.clockHand + 1) % s.numBufs) with refbit := false }) rfl rfl
          (by
            intro j hj
            rw [desc_setDesc]
            simp [hj]
            rfl)
        have e1 : ∀ x : Nat, x + 1 = s.ahead u → pinNum + x < s.numBufs := by
          intro x hx
          omega
        have e2 : ∀ x : Nat, x + 1 = s.ahead u → x < n := by
          intro x hx
          omega
        have hlen2 : (List.set s.bufDescTable ((s.clockHand + 1) % s.numBufs)
            { s.desc ((s.clockHand + 1) % s.numBufs) with refbit := false }).length
              = s.numBufs := by
          rw [List.length_set]
          exact hlen
        exact ih _ _ _ hN hlen2 hu b2 b3 (e1 _ b1) (e2 _ b1)
      · rw [if_neg hr]
        have hp : 0 < (s.desc ((s.clockHand + 1) % s.numBufs)).pinCnt := by
          by_contra hc
          exact hnf (Or.inr ⟨by simpa using hr, by omega⟩)
        rw [if_pos hp]
        obtain ⟨b1, b2, b3⟩ := hfirst2 (advanceClock s) rfl rfl (fun _ _ => rfl)
        have e1 : ∀ x : Nat, x + 1 = s.ahead u →
            (if lastPin = true then pinNum + 1 else 1) + x < s.numBufs := by
          intro x hx
          split <;> omega
        have e2 : ∀ x : Nat, x + 1 = s.ahead u → x < n := by
          intro x hx
          omega
        exact ih _ _ _ hN hlen hu b2 b3 (e1 _ b1) (e2 _ b1)


theorem allocBuf_first_free (s : BufMgr) (u : Nat) (hN : 0 < s.numBufs)
    (hlen : s.bufDescTable.length = s.numBufs) (hu : u < s.numBufs) (hfree : s.free u)
    (hfirst : ∀ i : Nat, i < s.numBufs → s.ahead i < s.ahead u → ¬ s.free i)
    (hfuel : s.ahead u < (2 * s.numBufs) % 2 ^ 32 + 1) :
    (allocBuf s).1 = .ok (some u) := by
  have := ahead_lt s hN u hu
  exact allocBufLoop_first_free _ 0 false s u hN hlen hu hfree hfirst (by omega) hfuel

/-- When some frame is invalid, or unpinned with its reference bit off, `allocBuf`
selects a frame. -/
theorem allocBuf_finds (s : BufMgr) (hN : 0 < s.numBufs) (h31 : s.numBufs < 2 ^ 31)
    (hlen : s.bufDescTable.length = s.numBufs)
    (hex : ∃ i : Nat, i < s.numBufs ∧ s.free i) :
    ∃ u : Nat, u < s.numBufs ∧ s.free u ∧ (allocBuf s).1 = .ok (some u) := by
  classical
  have hP : ∃ d : Nat, ∃ i : Nat, i < s.numBufs ∧ s.free i ∧ s.ahead i = d := by
    obtain ⟨i, hi, hf⟩ := hex
    exact ⟨_, i, hi, hf, rfl⟩
  obtain ⟨u, hu, hf, hd⟩ := Nat.find_spec hP
  refine ⟨u, hu, hf, ?_⟩
  apply allocBuf_first_free s u hN hlen hu hf
  · intro i hi hlt hfi
    rw [hd] at hlt
    exact Nat.find_min hP hlt ⟨i, hi, hfi, rfl⟩
  · have := ahead_lt s hN u hu
    have e : 2 * s.numBufs % 2 ^ 32 = 2 * s.numBufs := Nat.mod_eq_of_lt (by omega)
    omega

theorem clockHand_evict (s : BufMgr) : s.evict.clockHand = s.clockHand := by
  unfold BufMgr.evict
  show (BufMgr.removeEntry _ _).clockHand = _
  rw [clockHand_removeEntry, clockHand_writeBack]

/-- The frame that `allocBuf` selects is the one the hand is left on. -/
theorem AllocResult.hand {s s1 : BufMgr} {r : Except Exn (Option FrameId)}
    (h : AllocResult s r s1) {i : FrameId} (hr : r = .ok (some i)) : s1.clockHand = i := by
  obtain ⟨t, _, hc⟩ := h
  rcases hc with ⟨e, _⟩ | ⟨e, _⟩ | ⟨e, _, _, rfl⟩ | ⟨e, _, _, _, _, rfl⟩
  · rw [e] at hr
    cases hr
  · rw [e] at hr
    cases hr
  · rw [e] at hr
    exact (Option.some.inj (Except.ok.inj hr))
  · rw [e] at hr
    show t.evict.clockHand = i
    rw [clockHand_evict]
    exact (Option.some.inj (Except.ok.inj hr))

/-- When every frame is valid and pinned, the sweep that ends in BufferExceeded leaves
every reference bit off. -/
theorem allocBufLoop_all_pinned_clears (fuel pinNum : Nat) (lastPin : Bool) (s : BufMgr)
    (hN : 0 < s.numBufs) (hlen : s.bufDescTable.length = s.numBufs)
    (hall : ∀ i : Nat, i < s.numBufs → (s.desc i).valid = true ∧ 0 < (s.desc i).pinCnt)
    (hpn : pinNum ≤ s.numBufs) (hlp : lastPin = true ∨ pinNum = 0)
    (hfuel : s.refCount + (s.numBufs - pinNum) + 1 ≤ fuel)
    (hW : ∀ i : Nat, i < s.numBufs → s.numBufs ≤ s.ahead i + pinNum →
      (s.desc i).refbit = false) :
    ∀ i : Nat, i < s.numBufs →
      ((allocBufLoop fuel pinNum lastPin s).2.desc i).refbit = false := by
  induction fuel generalizing pinNum lastPin s with
  | zero => omega
  | succ n ih =>
    have hh : (advanceClock s).clockHand < s.numBufs := Nat.mod_lt _ hN
    have hhe : (advanceClock s).clockHand = (s.clockHand + 1) % s.numBufs := rfl
    obtain ⟨hv, hp⟩ := hall _ hh
    have hv2 : ((advanceClock s).desc (advanceClock s).clockHand).valid = true := hv
    have hp2 : 0 < ((advanceClock s).desc (advanceClock s).clockHand).pinCnt := hp
    unfold allocBufLoop
    simp only
    by_cases h1 : pinNum = (advanceClock s).numBufs
    · rw [if_pos h1]
      intro i hi
      have h1b : pinNum = s.numBufs := h1
      exact hW i hi (by omega)
    · rw [if_neg h1]
      have h1b : pinNum ≠ s.numBufs := h1
      have h2 : ¬ ((!((advanceClock s).desc (advanceClock s).clockHand).valid) = true) := by
        rw [hv2]
        decide
      rw [if_neg h2]
      have hstep : ∀ (t : BufMgr) (k : Nat), t.numBufs = s.numBufs →
          t.clockHand = (s.clockHand + 1) % s.numBufs →
          (∀ j, j ≠ (s.clockHand + 1) % s.numBufs → t.desc j = s.desc j) →
          (t.desc ((s.clockHand + 1) % s.numBufs)).refbit = false →
          k ≤ pinNum + 1 →
          ∀ i : Nat, i < t.numBufs → t.numBufs ≤ t.ahead i + k → (t.desc i).refbit = false := by
        intro t k tn th td tr hk i hi hle
        have ta : t.ahead i = (advanceClock s).ahead i := by
          unfold BufMgr.ahead
          rw [tn, th]
          rfl
        rw [tn] at hi hle
        by_cases hic : i = (s.clockHand + 1) % s.numBufs
        · rw [hic]
          exact tr
        · have := (ahead_advance s hN i hi).2 hic
          rw [td i hic]
          exact hW i hi (by omega)
      by_cases h3 : ((advanceClock s).desc (advanceClock s).clockHand).refbit = true
      · rw [if_pos h3]
        have hcl := refCount_clear (advanceClock s) (advanceClock s).clockHand
          (by show _ < s.bufDescTable.length; rw [hlen]; exact hh) h3
        have hlen1 : (advanceClock s).clockHand < (advanceClock s).bufDescTable.length := by
          show _ < s.bufDescTable.length
          rw [hlen]
          exact hh
        have hW2 := hstep ((advanceClock s).setDesc (advanceClock s).clockHand
            { (advanceClock s).desc (advanceClock s).clockHand with refbit := false })
          pinNum rfl rfl
          (by
            intro j hj
            rw [desc_setDesc]
            have : ¬ (j = (advanceClock s).clockHand ∧
                (advanceClock s).clockHand < (advanceClock s).bufDescTable.length) :=
              fun e => hj e.1
            rw [if_neg this]
            rfl)
          (by
            rw [desc_setDesc]
            have : ((s.clockHand + 1) % s.numBufs = (advanceClock s).clockHand ∧
                (advanceClock s).clockHand < (advanceClock s).bufDescTable.length) :=
              ⟨rfl, hlen1⟩
            rw [if_pos this])
          (Nat.le_succ _)
        have hlen2 : (List.set s.bufDescTable (advanceClock s).clockHand
            { (advanceClock s).desc (advanceClock s).clockHand with refbit := false }).length
              = s.numBufs := by
          rw [List.length_set]
          exact hlen
        have hall2 : ∀ i : Nat, i < s.numBufs →
            (((advanceClock s).setDesc (advanceClock s).clockHand
              { (advanceClock s).desc (advanceClock s).clockHand with refbit := false }).desc
                i).valid = true ∧
            0 < (((advanceClock s).setDesc (advanceClock s).clockHand
              { (advanceClock s).desc (advanceClock s).clockHand with refbit := false }).desc
                i).pinCnt := by
          intro i hi
          rw [desc_setDesc]
          split
          · exact ⟨hv, hp⟩
          · exact hall i hi
        have e : ∀ x : Nat, x + 1 = (advanceClock s).refCount →
            x + (s.numBufs - pinNum) + 1 ≤ n := by
          intro x hx
          have hrc : (advanceClock s).refCount = s.refCount := rfl
          omega
        exact ih pinNum lastPin ((advanceClock s).setDesc (advanceClock s).clockHand
            { (advanceClock s).desc (advanceClock s).clockHand with refbit := false })
          hN hlen2 hall2 hpn hlp (e _ hcl) hW2
      · rw [if_neg h3, if_pos hp2]
        have hpn2 : (if lastPin = true then pinNum + 1 else 1) = pinNum + 1 := by
          rcases hlp with h | h
          · rw [if_pos h]
          · subst h
            split <;> rfl
        rw [hpn2]
        have hW2 := hstep (advanceClock s) (pinNum + 1) rfl rfl (fun _ _ => rfl)
          (by simpa using h3) le_rfl
        have hfuel2 : (advanceClock s).refCount + (s.numBufs - (pinNum + 1)) + 1 ≤ n := by
          have hrc : (advanceClock s).refCount = s.refCount := rfl
          omega
        have hpn3 : pinNum + 1 ≤ s.numBufs := by omega
        exact ih (pinNum + 1) true (advanceClock s) hN hlen hall hpn3 (Or.inl rfl)
          hfuel2 hW2


/-- The state an all-pinned pool is left in by a failed `allocBuf`: descriptors unchanged
except that every reference bit is off, page table unchanged. -/
theorem allocBuf_all_pinned_state (s : BufMgr) (hN : 1 ≤ s.numBufs) (h31 : s.numBufs < 2 ^ 31)
    (hlen : s.bufDescTable.length = s.numBufs)
    (hall : ∀ i : Nat, i < s.numBufs → (s.desc i).valid = true ∧ 0 < (s.desc i).pinCnt) :
    (allocBuf s).1 = .error .BufferExceededException ∧
    (allocBuf s).2.hashTable = s.hashTable ∧ (allocBuf s).2.numBufs = s.numBufs ∧
    (allocBuf s).2.bufDescTable.length = s.bufDescTable.length ∧
    ∀ i : Nat, i < s.numBufs →
      ((allocBuf s).2.desc i).refbit = false ∧
      ((allocBuf s).2.desc i).valid = true ∧
      ((allocBuf s).2.desc i).pinCnt = (s.desc i).pinCnt := by
  have herr := allocBuf_all_pinned_aux s hN h31 hlen hall
  have hres := allocBuf_result s
  have hcl : ∀ i : Nat, i < s.numBufs → ((allocBuf s).2.desc i).refbit = false := by
    unfold allocBuf
    apply allocBufLoop_all_pinned_clears _ 0 false s hN hlen hall (Nat.zero_le _) (Or.inr rfl)
    · have hr : s.refCount ≤ s.numBufs := by
        rw [← hlen]
        exact List.countP_le_length _
      have : 2 * s.numBufs % 2 ^ 32 = 2 * s.numBufs := Nat.mod_eq_of_lt (by omega)
      omega
    · intro i hi hle
      have := ahead_lt s hN i hi
      omega
  obtain ⟨t, ht, hc⟩ := hres
  have hst : (allocBuf s).2 = t := by
    rcases hc with ⟨_, e⟩ | ⟨e, _⟩ | ⟨e, _⟩ | ⟨e, _⟩
    · exact e
    · rw [herr] at e
      cases e
    · rw [herr] at e
      cases e
    · rw [herr] at e
      cases e
  refine ⟨herr, by rw [hst]; exact ht.2.2.1, by rw [hst]; exact ht.1,
    by rw [hst]; exact ht.2.2.2.2.2.1, ?_⟩
  intro i hi
  refine ⟨hcl i hi, ?_, ?_⟩
  · rw [hst, (ht.desc_fields i).1]
    exact (hall i hi).1
  · rw [hst, (ht.desc_fields i).2.1]

/-- C13. Recovery from exhaustion.  In a pool of 1 <= N < 2^31 frames that are all
valid and pinned, allocPage fails with BufferExceeded; if then a page (g, q) whose pin
count is 1 is unpinned (its pin count becomes 0), allocBuf selects the frame u of that
page, so the next allocPage succeeds in frame u, and so does the next readPage of a
page that is not resident and that its file holds. -/
theorem recovery_after_exhaustion (s : BufMgr) (w : s.WF) (hN : 1 ≤ s.numBufs)
    (h31 : s.numBufs < 2 ^ 31)
    (hall : ∀ i : Nat, i < s.numBufs → (s.desc i).valid = true ∧ 0 < (s.desc i).pinCnt)
    (f g : FileId) (q : PageId) (u : Nat) (hres : s.holds u g q)
    (hpin : (s.desc u).pinCnt = 1) (d : Bool)
    (s1 : BufMgr) (h1 : s1 = (allocPage s f).2)
    (s2 : BufMgr) (h2 : s2 = (unPinPage s1 g q d).2) :
    (allocPage s f).1 = .error .BufferExceededException ∧
    (unPinPage s1 g q d).1 = .ok () ∧
    (s2.desc u).pinCnt = 0 ∧
    (allocBuf s2).1 = .ok (some u) ∧
    (∀ f1, (allocPage s2 f1).1 = .ok (s2.disk.next f1, u)) ∧
    (∀ f1 p1 pg, amLookup s2.hashTable (f1, p1) = none →
      amLookup s2.disk.pages (f1, p1) = some pg → (readPage s2 f1 p1).1 = .ok u) := by
  have hu : u < s.numBufs := hres.1
  have hlen : s.bufDescTable.length = s.numBufs := w.descLen
  obtain ⟨a1, a2, a3, a4, a5⟩ := allocBuf_all_pinned_state
    ({ s with disk := (s.disk.allocatePage f).2 } : BufMgr) hN h31 hlen hall
  have hap : allocPage s f = (.error .BufferExceededException,
      (allocBuf ({ s with disk := (s.disk.allocatePage f).2 } : BufMgr)).2) := by
    rw [allocPage_eq]
    rcases hA : allocBuf ({ s with disk := (s.disk.allocatePage f).2 } : BufMgr) with ⟨r, t⟩
    rw [hA] at a1
    simp only at a1
    subst a1
    rfl
  have hs1 : s1 = (allocBuf ({ s with disk := (s.disk.allocatePage f).2 } : BufMgr)).2 := by
    rw [h1, hap]
  have w1 : s1.WF := by
    rw [h1]
    exact (wf_allocPage w hN f).1
  have hn1 : s1.numBufs = s.numBufs := by rw [hs1]; exact a3
  have hl1 : amLookup s1.hashTable (g, q) = some u := by
    rw [hs1, a2]
    exact (w.resident g q u).2 hres
  have hp1 : (s1.desc u).pinCnt = 1 := by
    rw [hs1, (a5 u hu).2.2]
    exact hpin
  have hlen1 : u < s1.bufDescTable.length := by rw [w1.descLen, hn1]; exact hu
  have hun := unPinPage_pinned d hl1 (by rw [hp1]; exact Nat.one_pos)
  have hs2 : s2 = (s1.setDesc u { s1.desc u with pinCnt := (s1.desc u).pinCnt - 1,
                                                  dirty := (d || (s1.desc u).dirty) }).countAccess := by
    rw [h2, hun]
  have w2 : s2.WF := by
    rw [h2]
    exact (wf_unPinPage w1 g q d).1
  have hn2 : s2.numBufs = s.numBufs := by
    rw [hs2]
    exact hn1
  have hd2 : ∀ j : Nat, s2.desc j = if j = u then
      { s1.desc u with pinCnt := (s1.desc u).pinCnt - 1,
                       dirty := (d || (s1.desc u).dirty) }
      else s1.desc j := by
    intro j
    rw [hs2]
    show (BufMgr.setDesc s1 u _).desc j = _
    rw [desc_setDesc]
    by_cases hj : j = u
    · simp [hj, hlen1]
    · simp [hj]
  have hfree : s2.free u := by
    right
    rw [hd2, if_pos rfl]
    refine ⟨?_, ?_⟩
    · show (s1.desc u).refbit = false
      rw [hs1]
      exact (a5 u hu).1
    · show (s1.desc u).pinCnt - 1 = 0
      rw [hp1]
  have hnot : ∀ i : Nat, i < s.numBufs → i ≠ u → ¬ s2.free i := by
    intro i hi hne hf
    unfold BufMgr.free at hf
    rw [hd2, if_neg hne, hs1] at hf
    obtain ⟨_, b2, b3⟩ := a5 i hi
    have := (hall i hi).2
    rcases hf with h | ⟨_, h⟩
    · rw [b2] at h
      cases h
    · rw [b3] at h
      have h0 : (s.desc i).pinCnt = 0 := h
      omega
  have hsel : ∀ t : BufMgr, t.numBufs = s2.numBufs → t.clockHand = s2.clockHand →
      t.bufDescTable = s2.bufDescTable → (allocBuf t).1 = .ok (some u) := by
    intro t tn th td
    have tdesc : ∀ j, t.desc j = s2.desc j := by
      intro j
      unfold BufMgr.desc
      rw [td]
    have tahead : ∀ j, t.ahead j = s2.ahead j := by
      intro j
      unfold BufMgr.ahead
      rw [tn, th]
    have tN : 0 < t.numBufs := by rw [tn, hn2]; exact hN
    have tu : u < t.numBufs := by rw [tn, hn2]; exact hu
    apply allocBuf_first_free t u tN (by rw [td, w2.descLen, tn]) tu
    · unfold BufMgr.free
      rw [tdesc]
      exact hfree
    · intro i hi hlt hf
      have hne : i ≠ u := by
        rintro rfl
        exact lt_irrefl _ hlt
      apply hnot i (by rw [← hn2, ← tn]; exact hi) hne
      unfold BufMgr.free at hf ⊢
      rw [tdesc] at hf
      exact hf
    · have := ahead_lt t tN u tu
      have e : 2 * t.numBufs % 2 ^ 32 = 2 * t.numBufs :=
        Nat.mod_eq_of_lt (by rw [tn, hn2]; omega)
      omega
  have hsel2 := hsel s2 rfl rfl rfl
  refine ⟨by rw [hap], by rw [hun], ?_, hsel2, ?_, ?_⟩
  · rw [hd2, if_pos rfl]
    show (s1.desc u).pinCnt - 1 = 0
    rw [hp1]
  · intro f1
    have := hsel ({ s2 with disk := (s2.disk.allocatePage f1).2 } : BufMgr) rfl rfl rfl
    rw [allocPage_eq]
    rcases hA : allocBuf ({ s2 with disk := (s2.disk.allocatePage f1).2 } : BufMgr) with ⟨r, t⟩
    rw [hA] at this
    simp only at this
    subst this
    rfl
  · intro f1 p1 pg hl hd
    have hsv : Saved s2 f1 p1 pg := Or.inr ⟨hl, hd⟩
    exact (hsv.readPage_same w2 (by rw [hn2]; exact hN)).2.2 u hl hsel2

theorem fullPool_wf : fullPool.WF ∧ fullPool.numBufs = 3 :=
  wf_runOps _ (wf_new 3 exampleDisk_wf) (by decide)

theorem recovery_after_exhaustion_witness :
    (allocPage fullPool 7).1 = .error .BufferExceededException ∧
    (allocPage (unPinPage (allocPage fullPool 7).2 7 2 true).2 7).1
      = .ok ((unPinPage (allocPage fullPool 7).2 7 2 true).2.disk.next 7, 1) :=
  ⟨(recovery_after_exhaustion fullPool fullPool_wf.1 (by decide) (by decide) (by decide) 7 7 2 1
      ⟨by decide, by decide, by decide, by decide⟩ (by decide) true _ rfl _ rfl).1,
    (recovery_after_exhaustion fullPool fullPool_wf.1 (by decide) (by decide) (by decide) 7 7 2 1
      ⟨by decide, by decide, by decide, by decide⟩ (by decide) true _ rfl _ rfl).2.2.2.2.1 7⟩

/-- C12. Effect of a successful flushFile(f) on a pool of 1 <= N < 2^31 frames that
satisfies the invariant: afterwards no frame holds a page of f and the page table has
no entry for f; the file calls added are exactly one writePage for every frame of f
that was dirty (none for a clean one); descriptors of frames that did not hold f, all
buffers and the page-table entries of other files are unchanged; and a following
readPage(f, p) of a page that was resident with bytes b, dirty or in agreement with
the file, succeeds and returns a frame whose buffer is b. -/
theorem flushFile_ok_effect {s : BufMgr} (w : s.WF) (hN : 0 < s.numBufs)
    (h31 : s.numBufs < 2 ^ 31) (f : FileId) (hok : (flushFile s f).1 = .ok ()) :
    (∀ i : Nat, i < s.numBufs → ((flushFile s f).2.desc i).file ≠ some f) ∧
    (∀ p, amLookup (flushFile s f).2.hashTable (f, p) = none) ∧
    (flushFile s f).2.disk.calls =
      (((List.range' 0 s.numBufs).filter
          (fun j => decide ((s.desc j).file = some f) && (s.desc j).dirty)).map
        (fun j => FileCall.writePage f (s.desc j).pageNo)).reverse ++ s.disk.calls ∧
    (∀ i : Nat, (s.desc i).file ≠ some f → (flushFile s f).2.desc i = s.desc i) ∧
    (flushFile s f).2.bufPool = s.bufPool ∧
    (∀ g p, g ≠ f → amLookup (flushFile s f).2.hashTable (g, p) = amLookup s.hashTable (g, p)) ∧
    (∀ (p : PageId) (i : Nat) (b : Page), s.holds i f p → s.page i = b →
      ((s.desc i).dirty = true ∨ amLookup s.disk.pages (f, p) = some b) →
      ∃ j, (readPage (flushFile s f).2 f p).1 = .ok j ∧
        (readPage (flushFile s f).2 f p).2.page j = b) := by
  obtain ⟨_, _, hpool, _, hrest⟩ := flushFileLoop_spec f s.numBufs 0 w (Nat.zero_add _)
  obtain ⟨hcl, hsame, hcalls⟩ := hrest hok
  obtain ⟨w1, hn1⟩ := wf_flushFile w f
  have hfile : ∀ i : Nat, i < s.numBufs → ((flushFile s f).2.desc i).file ≠ some f := by
    intro i hi
    by_cases hf : (s.desc i).file = some f
    · have := hcl i (Nat.zero_le _) (by rw [Nat.zero_add]; exact hi) hf
      show ((flushFileLoop f s.numBufs 0 s).2.desc i).file ≠ _
      rw [this]
      intro h
      cases h
    · have := hsame i (fun h => hf h.2.2)
      show ((flushFileLoop f s.numBufs 0 s).2.desc i).file ≠ _
      rw [this]
      exact hf
  have hnone : ∀ p, amLookup (flushFile s f).2.hashTable (f, p) = none := by
    intro p
    cases hl : amLookup (flushFile s f).2.hashTable (f, p) with
    | none => rfl
    | some i =>
      have hh := (w1.resident f p i).1 hl
      exact absurd hh.2.2.1 (hfile i (by rw [← hn1]; exact hh.1))
  refine ⟨hfile, hnone, hcalls, fun i hf => hsame i (fun h => hf h.2.2), hpool, ?_, ?_⟩
  · intro g p hg
    have hiff : ∀ i, (flushFile s f).2.holds i g p ↔ s.holds i g p := by
      intro i
      have hd : (s.desc i).file = some g → (flushFile s f).2.desc i = s.desc i := by
        intro h
        apply hsame i
        intro h3
        rw [h] at h3
        exact hg (Option.some.inj h3.2.2)
      constructor
      · intro h
        have hi : i < s.numBufs := by rw [← hn1]; exact h.1
        by_cases hf : (s.desc i).file = some f
        · have := hcl i (Nat.zero_le _) (by rw [Nat.zero_add]; exact hi) hf
          have hv := h.2.1
          rw [show (flushFile s f).2.desc i = (s.desc i).Clear from this] at hv
          cases hv
        · have e : (flushFile s f).2.desc i = s.desc i := hsame i (fun h3 => hf h3.2.2)
          exact ⟨hi, by rw [← e]; exact h.2.1, by rw [← e]; exact h.2.2.1,
            by rw [← e]; exact h.2.2.2⟩
      · intro h
        have e := hd h.2.2.1
        exact ⟨by rw [hn1]; exact h.1, by rw [e]; exact h.2.1, by rw [e]; exact h.2.2.1,
          by rw [e]; exact h.2.2.2⟩
    apply Option.ext
    intro i
    show amLookup (flushFile s f).2.hashTable (g, p) = some i ↔ amLookup s.hashTable (g, p) = some i
    rw [w1.resident g p i, w.resident g p i]
    exact hiff i
  · intro p i b hh hb hc
    have hsv : Saved s f p b := Or.inl ⟨i, hh, hb, hc⟩
    have hsv1 : Saved (flushFile s f).2 f p b :=
      Saved.after_flushFileLoop f s.numBufs 0 w (Nat.zero_add _) hsv
    have hN1 : 0 < (flushFile s f).2.numBufs := by rw [hn1]; exact hN
    have hfree : (flushFile s f).2.free i := by
      left
      have := hcl i (Nat.zero_le _) (by rw [Nat.zero_add]; exact hh.1) hh.2.2.1
      rw [show (flushFile s f).2.desc i = (s.desc i).Clear from this]
      rfl
    obtain ⟨u, _, _, hu⟩ := allocBuf_finds (flushFile s f).2 hN1 (by rw [hn1]; exact h31)
      w1.descLen ⟨i, by rw [hn1]; exact hh.1, hfree⟩
    obtain ⟨_, h2, h3⟩ := hsv1.readPage_same w1 hN1
    have hr := h3 u (hnone p) hu
    exact ⟨u, hr, h2 u hr⟩

theorem flushPool_wf : flushPool.WF ∧ flushPool.numBufs = 2 :=
  wf_runOps _ (wf_new 2 exampleDisk_wf) (by decide)

theorem flushFile_ok_effect_witness :
    (flushFile flushPool 7).1 = .ok () ∧
    (flushFile flushPool 7).2.disk.calls = FileCall.writePage 7 2 :: flushPool.disk.calls ∧
    ∃ j, (readPage (flushFile flushPool 7).2 7 2).1 = .ok j ∧
      (readPage (flushFile flushPool 7).2 7 2).2.page j = ⟨2, [21]⟩ :=
  ⟨by decide,
    (flushFile_ok_effect flushPool_wf.1 (by decide) (by decide) 7 (by decide)).2.2.1,
    (flushFile_ok_effect flushPool_wf.1 (by decide) (by decide) 7 (by decide)).2.2.2.2.2.2
      2 0 ⟨2, [21]⟩ ⟨by decide, by decide, by decide, by decide⟩ (by decide)
      (Or.inl (by decide))⟩

/-- While frames `j, j + 1, …` are invalid and the hand is just before frame `j`,
`allocBuf` hands out frame `j` at its first step and changes nothing but the hand, the
statistics and reference bits. -/
theorem allocBuf_next_invalid (s : BufMgr) (j : Nat) (hN : 0 < s.numBufs)
    (hlen : s.bufDescTable.length = s.numBufs) (hj : j < s.numBufs)
    (hh : (s.clockHand + 1) % s.numBufs = j) (hv : (s.desc j).valid = false) :
    (allocBuf s).1 = .ok (some j) ∧ (allocBuf s).2.clockHand = j ∧
    (allocBuf s).2.hashTable = s.hashTable ∧ (allocBuf s).2.disk = s.disk ∧
    (allocBuf s).2.numBufs = s.numBufs ∧
    ∀ i : Nat, ((allocBuf s).2.desc i).valid = (s.desc i).valid := by
  have h0 : s.ahead j = 0 := by
    unfold BufMgr.ahead
    rw [hh]
    unfold aheadOf
    simp
  have hsel : (allocBuf s).1 = .ok (some j) := by
    apply allocBuf_first_free s j hN hlen hj (Or.inl hv)
    · intro i _ hlt
      rw [h0] at hlt
      exact absurd hlt (Nat.not_lt_zero _)
    · rw [h0]
      exact Nat.succ_pos _
  have hres := allocBuf_result s
  have hhand := hres.hand hsel
  obtain ⟨t, ht, hc⟩ := hres
  have hst : (allocBuf s).2 = t.countAccess ∧ t.clockHand = j := by
    rcases hc with ⟨e, _⟩ | ⟨e, _⟩ | ⟨e, _, _, e2⟩ | ⟨e, _, tv, _, _, _⟩
    · rw [hsel] at e
      cases e
    · rw [hsel] at e
      cases e
    · rw [hsel] at e
      exact ⟨e2, (Option.some.inj (Except.ok.inj e)).symm⟩
    · rw [hsel] at e
      have ej : j = t.clockHand := Option.some.inj (Except.ok.inj e)
      rw [← ej, (ht.desc_fields j).1, hv] at tv
      cases tv
  refine ⟨hsel, hhand, ?_, ?_, ?_, ?_⟩
  · rw [hst.1]
    exact ht.2.2.1
  · rw [hst.1]
    exact ht.2.2.2.1
  · rw [hst.1]
    exact ht.1
  · intro i
    rw [hst.1]
    exact (ht.desc_fields i).1

/-- Filling a pool in frame order, started at frame `j`. -/
theorem loadFrames_from (N : Nat) (hN : 0 < N) (ops : List Op) :
    ∀ (j : Nat) (s : BufMgr), s.WF → s.numBufs = N → (s.clockHand + 1) % N = j % N →
      (∀ i : Nat, j ≤ i → i < N → (s.desc i).valid = false) →
      freshLoads s ops = true → j + (ops.filter Op.isLoad).length ≤ N →
      loadFrames s ops = (List.range' j (ops.filter Op.isLoad).length).map Except.ok := by
  induction ops with
  | nil =>
    intro j s _ _ _ _ _ _
    rfl
  | cons op r ih =>
    intro j s w hn hh hv hf hk
    cases op with
    | read f p =>
      have hk1 : j + ((r.filter Op.isLoad).length + 1) ≤ N := hk
      have hj : j < N := by omega
      have hjm : j % N = j := Nat.mod_eq_of_lt hj
      unfold freshLoads at hf
      simp only [Bool.and_eq_true, Option.isNone_iff_eq_none] at hf
      obtain ⟨⟨hl, hd⟩, hf2⟩ := hf
      obtain ⟨pg, hpg⟩ := Option.isSome_iff_exists.1 hd
      obtain ⟨a1, a2, a3, a4, a5, a6⟩ := allocBuf_next_invalid s j (by rw [hn]; exact hN)
        w.descLen (by rw [hn]; exact hj) (by rw [hn, hh, hjm]) (hv j le_rfl hj)
      have hA : allocBuf s = (.ok (some j), (allocBuf s).2) := Prod.ext a1 rfl
      have hR : amLookup (allocBuf s).2.disk.pages (f, p) = some pg := by rw [a4]; exact hpg
      have hrd := readPage_miss_ok hl hA hR
      have w1 := (wf_readPage w (by rw [hn]; exact hN) f p)
      have e1 : (readPage s f p).1 = .ok j := by rw [hrd]
      have hc1 : (readPage s f p).2.clockHand = j := by
        rw [hrd]
        exact a2
      have hv1 : ∀ i : Nat, j + 1 ≤ i → i < N → ((readPage s f p).2.desc i).valid = false := by
        intro i hi1 hi2
        have hne : i ≠ j := by omega
        rw [hrd]
        show ((BufMgr.install _ j f p pg).desc i).valid = false
        rw [desc_install_ne _ j f p pg hne]
        show (((allocBuf s).2).desc i).valid = false
        rw [a6 i]
        exact hv i (by omega) hi2
      have := ih (j + 1) (readPage s f p).2 w1.1 (w1.2.trans hn) (by rw [hc1]) hv1 hf2
        (by omega)
      show (readPage s f p).1 :: loadFrames (readPage s f p).2 r
        = (List.range' j ((r.filter Op.isLoad).length + 1)).map Except.ok
      rw [this, e1]
      rfl
    | alloc f =>
      have hk1 : j + ((r.filter Op.isLoad).length + 1) ≤ N := hk
      have hj : j < N := by omega
      have hjm : j % N = j := Nat.mod_eq_of_lt hj
      have hf2 : freshLoads (allocPage s f).2 r = true := hf
      obtain ⟨a1, a2, a3, a4, a5, a6⟩ := allocBuf_next_invalid
        ({ s with disk := (s.disk.allocatePage f).2 } : BufMgr) j (by rw [hn]; exact hN)
        w.descLen (by rw [hn]; exact hj)
        (by show (s.clockHand + 1) % s.numBufs = j; rw [hn, hh, hjm]) (hv j le_rfl hj)
      have hap : allocPage s f = (.ok ((s.disk.allocatePage f).1.page_number, j),
          (((allocBuf ({ s with disk := (s.disk.allocatePage f).2 } : BufMgr)).2.install j f
            (s.disk.allocatePage f).1.page_number (s.disk.allocatePage f).1).countAccess)) := by
        rw [allocPage_eq]
        rcases hA : allocBuf ({ s with disk := (s.disk.allocatePage f).2 } : BufMgr) with ⟨x, t⟩
        rw [hA] at a1
        simp only at a1
        subst a1
        rfl
      have w1 := (wf_allocPage w (by rw [hn]; exact hN) f)
      have e1 : (allocPage s f).1.map Prod.snd = .ok j := by rw [hap]; rfl
      have hc1 : (allocPage s f).2.clockHand = j := by
        rw [hap]
        exact a2
      have hv1 : ∀ i : Nat, j + 1 ≤ i → i < N → ((allocPage s f).2.desc i).valid = false := by
        intro i hi1 hi2
        have hne : i ≠ j := by omega
        rw [hap]
        show ((BufMgr.install _ j f _ _).desc i).valid = false
        rw [desc_install_ne _ j f _ _ hne, a6 i]
        exact hv i (by omega) hi2
      have := ih (j + 1) (allocPage s f).2 w1.1 (w1.2.trans hn) (by rw [hc1]) hv1 hf2
        (by omega)
      show (allocPage s f).1.map Prod.snd :: loadFrames (allocPage s f).2 r
        = (List.range' j ((r.filter Op.isLoad).length + 1)).map Except.ok
      rw [this, e1]
      rfl
    | unpin f p d =>
      have hf2 : freshLoads (unPinPage s f p d).2 r = true := hf
      have w1 := wf_unPinPage w f p d
      have hk1 : j + (r.filter Op.isLoad).length ≤ N := hk
      have hst : (unPinPage s f p d).2.clockHand = s.clockHand ∧
          ∀ i : Nat, ((unPinPage s f p d).2.desc i).valid = (s.desc i).valid := by
        cases hl : amLookup s.hashTable (f, p) with
        | none =>
          unfold unPinPage
          rw [hl]
          exact ⟨rfl, fun _ => rfl⟩
        | some u =>
          by_cases h1 : (s.desc u).pinCnt ≤ 0
          · unfold unPinPage
            rw [hl]
            simp only
            rw [if_pos h1]
            exact ⟨rfl, fun _ => rfl⟩
          · rw [unPinPage_pinned d hl (Nat.lt_of_not_le h1)]
            refine ⟨rfl, ?_⟩
            intro i
            show ((BufMgr.setDesc s u _).desc i).valid = _
            rw [desc_setDesc]
            split_ifs with h2
            · obtain ⟨rfl, _⟩ := h2
              rfl
            · rfl
      have := ih j (unPinPage s f p d).2 w1.1 (w1.2.trans hn) (by rw [hst.1]; exact hh)
        (fun i h1 h2 => by rw [hst.2 i]; exact hv i h1 h2) hf2 hk1
      exact this
    | dispose f p => cases hf
    | flush f => cases hf
    | write i data => cases hf

/-- C15. Fill order of a fresh pool.  On a freshly constructed pool of 1 <= N < 2^32
frames, a sequence of calls made of loads (allocPage, or readPage of a page that is not
resident and that its file holds) and unPinPage calls, with at most N loads and no
disposePage or flushFile, hands out frame j - 1 to the j-th load, whether or not
earlier pages were unpinned in between. -/
theorem fresh_pool_fills_in_order (N : Nat) (hN : 1 ≤ N) (h32 : N < 2 ^ 32) (disk : Disk)
    (hd : disk.WF) (ops : List Op) (hf : freshLoads (BufMgr.new N disk) ops = true)
    (hk : (ops.filter Op.isLoad).length ≤ N) :
    loadFrames (BufMgr.new N disk) ops
      = (List.range (ops.filter Op.isLoad).length).map Except.ok := by
  have hc : ((BufMgr.new N disk).clockHand + 1) % N = 0 % N := by
    show ((N + 2 ^ 32 - 1) % 2 ^ 32 + 1) % N = 0 % N
    have e : (N + 2 ^ 32 - 1) % 2 ^ 32 = N - 1 := by
      have : N + 2 ^ 32 - 1 = (N - 1) + 2 ^ 32 := by omega
      rw [this, Nat.add_mod_right]
      exact Nat.mod_eq_of_lt (by omega)
    rw [e, Nat.sub_add_cancel hN, Nat.mod_self, Nat.zero_mod]
  have := loadFrames_from N hN ops 0 (BufMgr.new N disk) (wf_new N hd) rfl hc
    (fun i _ _ => desc_new_valid N disk i) hf (by omega)
  rw [this, List.range_eq_range']

theorem fresh_pool_fills_in_order_witness :
    loadFrames (BufMgr.new 3 exampleDisk)
        [.read 7 2, .unpin 7 2 false, .alloc 7, .read 7 1]
      = [.ok 0, .ok 1, .ok 2] :=
  fresh_pool_fills_in_order 3 (by decide) (by decide) exampleDisk exampleDisk_wf
    [.read 7 2, .unpin 7 2 false, .alloc 7, .read 7 1] (by decide) (by decide)

/-! ## B+-tree index: words and nodes -/

theorem ofWord_toWord (x : Int) (h1 : -2 ^ 31 ≤ x) (h2 : x < 2 ^ 31) : ofWord (toWord x) = x := by
  unfold ofWord toWord
  have hm : 0 ≤ x % 2 ^ 32 := Int.emod_nonneg _ (by norm_num)
  have hlt : x % 2 ^ 32 < 2 ^ 32 := Int.emod_lt_of_pos _ (by norm_num)
  have hc : (((x % 2 ^ 32).toNat : Nat) : Int) = x % 2 ^ 32 := Int.toNat_of_nonneg hm
  have hmod : (x % 2 ^ 32).toNat % 2 ^ 32 = (x % 2 ^ 32).toNat := by
    apply Nat.mod_eq_of_lt
    omega
  rw [hmod]
  by_cases hx : 0 ≤ x
  · have e : x % 2 ^ 32 = x := Int.emod_eq_of_lt hx (by omega)
    rw [if_pos (by omega), hc, e]
  · have e : x % 2 ^ 32 = x + 2 ^ 32 := by
      have := Int.emod_emod_of_dvd x (dvd_refl (2 ^ 32 : Int))
      rw [← Int.add_emod_self]
      exact Int.emod_eq_of_lt (by omega) (by omega)
    rw [if_neg (by omega), hc, e]
    omega

theorem ofWord_range (w : Nat) : -2 ^ 31 ≤ ofWord w ∧ ofWord w < 2 ^ 31 := by
  unfold ofWord
  have : w % 2 ^ 32 < 2 ^ 32 := Nat.mod_lt _ (by norm_num)
  split_ifs <;> omega

theorem getD_append_add {α : Type} (a b : List α) (j : Nat) (d : α) :
    (a ++ b).getD (a.length + j) d = b.getD j d := by
  simp [List.getD_eq_getElem?_getD, List.getElem?_append_right]

theorem getD_append_lt {α : Type} (a b : List α) (j : Nat) (d : α) (h : j < a.length) :
    (a ++ b).getD j d = a.getD j d := by
  simp [List.getD_eq_getElem?_getD, List.getElem?_append_left h]

theorem length_ridWords (l : List RecordId) : (ridWords l).length = 2 * l.length := by
  induction l with
  | nil => rfl
  | cons x l ih =>
    show (ridWords l).length + 1 + 1 = 2 * (l.length + 1)
    omega

theorem getD_ridWords (l : List RecordId) (rest : List Nat) (i : Nat) (h : i < l.length) :
    (ridWords l ++ rest).getD (2 * i) 0 = (l.getD i default).page_number ∧
    (ridWords l ++ rest).getD (2 * i + 1) 0 = (l.getD i default).slot_number := by
  induction l generalizing i with
  | nil => exact absurd h (Nat.not_lt_zero _)
  | cons x l ih =>
    cases i with
    | zero => exact ⟨rfl, rfl⟩
    | succ i =>
      have := ih i (Nat.lt_of_succ_lt_succ h)
      exact this

/-- A leaf node written to a page is the leaf node read back from it. -/
theorem LeafNodeInt.ofWords_words (L : Nat) (n : LeafNodeInt) (rest : List Nat)
    (hk : n.keyArray.length = L) (hr : n.ridArray.length = L)
    (hkeys : ∀ x ∈ n.keyArray, -2 ^ 31 ≤ x ∧ x < 2 ^ 31)
    (hn : -2 ^ 31 ≤ n.keyNum ∧ n.keyNum < 2 ^ 31) :
    LeafNodeInt.ofWords L (n.words ++ rest) = n := by
  cases n with
  | mk ka ra rs kn =>
    simp only at hk hr hkeys hn
    have hmap : (ka.map toWord).length = L := by simp [hk]
    have hkey : ∀ i, i < L → (LeafNodeInt.words ⟨ka, ra, rs, kn⟩ ++ rest).getD i 0
        = toWord (ka.getD i 0) := by
      intro i hi
      show ((ka.map toWord ++ (ridWords ra ++ [rs, toWord kn])) ++ rest).getD i 0 = _
      rw [List.append_assoc, getD_append_lt _ _ _ _ (by rw [hmap]; exact hi)]
      simp [List.getD_eq_getElem?_getD]
      cases ka[i]? <;> rfl
    have hoff : ∀ j, (LeafNodeInt.words ⟨ka, ra, rs, kn⟩ ++ rest).getD (L + j) 0
        = (ridWords ra ++ ([rs, toWord kn] ++ rest)).getD j 0 := by
      intro j
      show ((ka.map toWord ++ (ridWords ra ++ [rs, toWord kn])) ++ rest).getD (L + j) 0 = _
      rw [List.append_assoc, List.append_assoc, ← hmap, getD_append_add]
    have hoff2 : ∀ j, (LeafNodeInt.words ⟨ka, ra, rs, kn⟩ ++ rest).getD (3 * L + j) 0
        = ([rs, toWord kn] ++ rest).getD j 0 := by
      intro j
      have e : 3 * L + j = L + ((ridWords ra).length + j) := by
        rw [length_ridWords, hr]
        omega
      rw [e, hoff, getD_append_add]
    unfold LeafNodeInt.ofWords
    have h1 := hoff2 0
    have h2 := hoff2 1
    simp only [Nat.add_zero] at h1
    rw [h1, h2]
    show LeafNodeInt.mk _ _ rs (ofWord (toWord kn)) = _
    rw [ofWord_toWord kn hn.1 hn.2]
    congr 1
    · apply List.ext_getElem
      · simp [hk]
      · intro i h1 h2
        have hi : i < L := by simpa using h1
        simp only [List.getElem_map, List.getElem_range]
        rw [hkey i hi]
        have : ka.getD i 0 = ka[i] := by simp [List.getD_eq_getElem?_getD, h2]
        rw [this]
        exact ofWord_toWord _ (hkeys _ (List.getElem_mem _)).1 (hkeys _ (List.getElem_mem _)).2
    · apply List.ext_getElem
      · simp [hr]
      · intro i h1 h2
        have hi : i < L := by simpa using h1
        simp only [List.getElem_map, List.getElem_range]
        have e2 : L + 2 * i + 1 = L + (2 * i + 1) := by omega
        rw [e2, hoff, hoff]
        have := getD_ridWords ra ([rs, toWord kn] ++ rest) i h2
        rw [this.1, this.2]
        have : ra.getD i default = ra[i] := by simp [List.getD_eq_getElem?_getD, h2]
        rw [this]


/-! ## B+-tree index: insertion into an array -/

/-- The array after the shift of `insertToLeaf` and the store at `i`: the first `k + 1`
elements are the first `k` old elements with `x` inserted at position `i`. -/
theorem memmove_insert {α : Type} (a : List α) (L i k : Nat) (x : α) (ha : a.length = L)
    (hik : i ≤ k) (hk : k < L) :
    ((memmove a (i + 1) i (L - i - 1)).set i x).take (k + 1)
      = (a.take k).take i ++ x :: (a.take k).drop i := by
  unfold memmove
  have h1 : (a.take (i + 1)).length = i + 1 := by
    rw [List.length_take, ha]
    omega
  have hset : (a.take (i + 1) ++ ((a.drop i).take (L - i - 1) ++ a.drop (i + 1 + (L - i - 1)))).set i x
      = a.take i ++ x :: ((a.drop i).take (L - i - 1) ++ a.drop (i + 1 + (L - i - 1))) := by
    rw [List.set_append_left _ _ (by rw [h1]; omega)]
    have : (a.take (i + 1)).set i x = a.take i ++ [x] := by
      apply List.ext_getElem
      · simp [ha]
        omega
      · intro j hj1 hj2
        rw [List.getElem_set]
        by_cases hji : i = j
        · subst hji
          simp [ha, show i ≤ L by omega]
        · rw [if_neg hji]
          have hjl : j < i := by
            simp [ha] at hj2
            omega
          rw [List.getElem_append_left (by simp [ha]; omega)]
          simp
    rw [this]
    simp
  rw [hset]
  have h2 : (a.take i).length = i := by
    rw [List.length_take, ha]
    omega
  rw [List.take_append_eq_append_take, h2, List.take_of_length_le (by rw [h2]; omega)]
  have e : k + 1 - i = (k - i) + 1 := by omega
  rw [e, List.take_succ_cons]
  have h3 : ((a.drop i).take (L - i - 1)).length = L - i - 1 := by
    rw [List.length_take, List.length_drop, ha]
    omega
  have hl : (a.take k).take i = a.take i := by
    rw [List.take_take, Nat.min_eq_left hik]
  have hr : (a.take k).drop i = (a.drop i).take (k - i) := by
    rw [List.drop_take]
  have hm : ((a.drop i).take (L - i - 1) ++ a.drop (i + 1 + (L - i - 1))).take (k - i)
      = (a.drop i).take (k - i) := by
    rw [List.take_append_of_le_length (by rw [h3]; omega), List.take_take,
      Nat.min_eq_left (by omega)]
  rw [hl, hr, hm]

theorem length_memmove_set {α : Type} (a : List α) (L i : Nat) (x : α) (ha : a.length = L)
    (hi : i < L) : ((memmove a (i + 1) i (L - i - 1)).set i x).length = L := by
  unfold memmove
  simp [ha]
  omega

/-- Result of `std::lower_bound` on the sorted range `a[0 .. k)`: the elements before
the position are smaller than `key`, those from the position on are not. -/
theorem lower_bound_spec (a : List Int) (keyNum : Int) (key : Int)
    (hs : (a.take keyNum.toNat).Pairwise (fun x y => x ≤ y)) :
    lower_bound a keyNum key ≤ (a.take keyNum.toNat).length ∧
    (∀ x ∈ (a.take keyNum.toNat).take (lower_bound a keyNum key), x < key) ∧
    (∀ x ∈ (a.take keyNum.toNat).drop (lower_bound a keyNum key), key ≤ x) := by
  unfold lower_bound
  generalize a.take keyNum.toNat = xs at hs
  induction xs with
  | nil => simp
  | cons y ys ih =>
    rw [List.pairwise_cons] at hs
    by_cases hy : y < key
    · have e : (y :: ys).takeWhile (fun x => decide (x < key))
          = y :: ys.takeWhile (fun x => decide (x < key)) := by
        simp [List.takeWhile_cons, hy]
      rw [e]
      obtain ⟨i1, i2, i3⟩ := ih hs.2
      refine ⟨Nat.succ_le_succ i1, ?_, ?_⟩
      · intro x hx
        simp only [List.length_cons, List.take_succ_cons, List.mem_cons] at hx
        rcases hx with rfl | hx
        · exact hy
        · exact i2 x hx
      · intro x hx
        simp only [List.length_cons, List.drop_succ_cons] at hx
        exact i3 x hx
    · have e : (y :: ys).takeWhile (fun x => decide (x < key)) = [] := by
        simp [List.takeWhile_cons, hy]
      rw [e]
      refine ⟨Nat.zero_le _, ?_, ?_⟩
      · intro x hx
        simp at hx
      · intro x hx
        simp only [List.length_nil, List.drop_zero, List.mem_cons] at hx
        rcases hx with rfl | hx
        · exact not_lt.1 hy
        · exact le_trans (not_lt.1 hy) (hs.1 x hx)

/-- Inserting at the position `std::lower_bound` gives keeps a sorted array sorted. -/
theorem pairwise_insert_lower_bound (xs : List Int) (key : Int) (i : Nat)
    (hs : xs.Pairwise (fun x y => x ≤ y))
    (h2 : ∀ x ∈ xs.take i, x < key) (h3 : ∀ x ∈ xs.drop i, key ≤ x) :
    (xs.take i ++ key :: xs.drop i).Pairwise (fun x y => x ≤ y) := by
  rw [List.pairwise_append]
  refine ⟨hs.sublist (List.take_sublist _ _), ?_, ?_⟩
  · rw [List.pairwise_cons]
    exact ⟨h3, hs.sublist (List.drop_sublist _ _)⟩
  · intro x hx y hy
    rcases List.mem_cons.1 hy with rfl | hy
    · exact le_of_lt (h2 x hx)
    · exact le_trans (le_of_lt (h2 x hx)) (h3 y hy)


/-! ## B+-tree index: insertion into a leaf that is not full -/

theorem bind_eq {α β : Type} (x : IndexM α) (f : α → IndexM β) (t : BTreeIndex) :
    (x >>= f) t = match x t with
      | (.ok a, t1) => f a t1
      | (.error e, t1) => (.error e, t1) := rfl

theorem callBuf_ok {α : Type} (op : BufMgr → Except Exn α × BufMgr) (t : BTreeIndex) (a : α)
    (h : (op t.bufMgr).1 = .ok a) :
    callBuf op t = (.ok a, { t with bufMgr := (op t.bufMgr).2 }) := by
  unfold callBuf
  rcases hx : op t.bufMgr with ⟨r, b⟩
  rw [hx] at h
  simp only at h
  subst h
  rfl

theorem findIndexInLeaf_eq (L : Nat) (n : LeafNodeInt) (key : Int)
    (h : lower_bound n.keyArray n.keyNum key ≤ L) :
    findIndexInLeaf L n key = (lower_bound n.keyArray n.keyNum key : Int) := by
  unfold findIndexInLeaf
  simp only
  rw [if_neg (by omega)]

theorem insertToLeaf_eq (t : BTreeIndex) (p : FrameId) (i : Nat) (key : Int) (rid : RecordId)
    (hi : i < t.L) :
    insertToLeaf p (i : Int) key rid t = (.ok (),
      { t with bufMgr := t.bufMgr.putWords p ((leafAt t p).insertAt t.L i key rid).words
               leafOccupancy := t.leafOccupancy + 1 }) := by
  unfold insertToLeaf
  have hc : ¬ ((i : Int) < 0 ∨ (t.L : Int) ≤ (i : Int)) := by omega
  simp only [bind_eq, readState, if_neg hc, getLeaf, setLeaf, modifyState, Int.toNat_ofNat]

theorem assert_true (t : BTreeIndex) : assert true t = (.ok (), t) := rfl

/-- The leaf branch of `handleLeafInsertion` for a leaf that is not full. -/
theorem handleLeafInsertion_insert (t : BTreeIndex) (currPageNo : PageId) (key : Int)
    (rid : RecordId) (p : FrameId)
    (hread : (readPage t.bufMgr t.file currPageNo).1 = .ok p)
    (hnf : (LeafNodeInt.ofWords t.L ((readPage t.bufMgr t.file currPageNo).2.page p).data).keyNum < t.L)
    (i : Nat)
    (hi : findIndexInLeaf t.L
      (LeafNodeInt.ofWords t.L ((readPage t.bufMgr t.file currPageNo).2.page p).data) key = (i : Int))
    (hiL : i < t.L)
    (hun : (unPinPage ((readPage t.bufMgr t.file currPageNo).2.putWords p
      ((LeafNodeInt.ofWords t.L ((readPage t.bufMgr t.file currPageNo).2.page p).data).insertAt
        t.L i key rid).words) t.file currPageNo true).1 = .ok ()) :
    handleLeafInsertion currPageNo key rid t = (.ok (0, -1),
      { t with
        bufMgr := (unPinPage ((readPage t.bufMgr t.file currPageNo).2.putWords p
          ((LeafNodeInt.ofWords t.L ((readPage t.bufMgr t.file currPageNo).2.page p).data).insertAt
            t.L i key rid).words) t.file currPageNo true).2
        leafOccupancy := t.leafOccupancy + 1 }) := by
  unfold handleLeafInsertion
  simp only [bind_eq, readState, getLeaf, leafAt]
  rw [callBuf_ok (fun b => readPage b t.file currPageNo) t p hread]
  simp only
  rw [if_pos hnf]
  simp only [bind_eq, hi]
  have ha : decide ((i : Int) ≠ -1) = true := by
    rw [decide_eq_true_iff]
    omega
  rw [ha, assert_true]
  simp only
  rw [insertToLeaf_eq ({ t with bufMgr := (readPage t.bufMgr t.file currPageNo).2 } : BTreeIndex)
    p i key rid hiL]
  simp only [leafAt]
  rw [callBuf_ok (fun b => unPinPage b t.file currPageNo true) _ () hun]
  rfl

/-- C17. Insertion into a leaf that is not full.  The pool satisfies the invariant, the
leaf page is pinned into frame p by readPage, its node n has 0 <= keyNum < L and its
first keyNum keys are sorted; key is a 32-bit value.  Then, with i the first position
whose key is >= key (keyNum if there is none): handleLeafInsertion returns
(newPageNo, newIndex) = (0, -1), no split; the leaf then holds keyNum + 1 entries, the
old entries with (key, rid) inserted at index i, and its keys are sorted; the page is
still resident in frame p, its dirty bit is set, and the pin taken by readPage has
been released. -/
theorem handleLeafInsertion_not_full (t : BTreeIndex) (w : t.bufMgr.WF)
    (hN : 0 < t.bufMgr.numBufs) (currPageNo : PageId) (key : Int) (rid : RecordId)
    (hkey : -2 ^ 31 ≤ key ∧ key < 2 ^ 31) (hL : t.L < 2 ^ 31) (p : FrameId)
    (hread : (readPage t.bufMgr t.file currPageNo).1 = .ok p)
    (n : LeafNodeInt)
    (hn : n = LeafNodeInt.ofWords t.L ((readPage t.bufMgr t.file currPageNo).2.page p).data)
    (h0 : 0 ≤ n.keyNum) (hnf : n.keyNum < t.L)
    (hs : (n.keyArray.take n.keyNum.toNat).Pairwise (fun x y => x ≤ y))
    (i : Nat) (hi : i = lower_bound n.keyArray n.keyNum key)
    (t2 : BTreeIndex) (ht2 : t2 = (handleLeafInsertion currPageNo key rid t).2) :
    i ≤ n.keyNum.toNat ∧
    (∀ x ∈ (n.keyArray.take n.keyNum.toNat).take i, x < key) ∧
    (∀ x ∈ (n.keyArray.take n.keyNum.toNat).drop i, key ≤ x) ∧
    (handleLeafInsertion currPageNo key rid t).1 = .ok (0, -1) ∧
    (leafAt t2 p).keyNum = n.keyNum + 1 ∧
    (leafAt t2 p).keyArray.take (n.keyNum.toNat + 1)
      = (n.keyArray.take n.keyNum.toNat).take i ++ key :: (n.keyArray.take n.keyNum.toNat).drop i ∧
    (leafAt t2 p).ridArray.take (n.keyNum.toNat + 1)
      = (n.ridArray.take n.keyNum.toNat).take i ++ rid :: (n.ridArray.take n.keyNum.toNat).drop i ∧
    ((leafAt t2 p).keyArray.take (n.keyNum.toNat + 1)).Pairwise (fun x y => x ≤ y) ∧
    (leafAt t2 p).rightSibPageNo = n.rightSibPageNo ∧
    t2.bufMgr.holds p t.file currPageNo ∧
    (t2.bufMgr.desc p).dirty = true ∧
    (t2.bufMgr.desc p).pinCnt + 1 = ((readPage t.bufMgr t.file currPageNo).2.desc p).pinCnt := by
  have hka : n.keyArray.length = t.L := by rw [hn]; simp [LeafNodeInt.ofWords]
  have hra : n.ridArray.length = t.L := by rw [hn]; simp [LeafNodeInt.ofWords]
  have hkr : ∀ x ∈ n.keyArray, -2 ^ 31 ≤ x ∧ x < 2 ^ 31 := by
    intro x hx
    rw [hn] at hx
    simp only [LeafNodeInt.ofWords, List.mem_map] at hx
    obtain ⟨j, _, rfl⟩ := hx
    exact ofWord_range _
  have hk : n.keyNum.toNat < t.L := by omega
  obtain ⟨l1, l2, l3⟩ := lower_bound_spec n.keyArray n.keyNum key hs
  rw [← hi] at l1 l2 l3
  have hlen : (n.keyArray.take n.keyNum.toNat).length = n.keyNum.toNat := by
    rw [List.length_take, hka]
    omega
  rw [hlen] at l1
  have hiL : i < t.L := by omega
  have hfi : findIndexInLeaf t.L n key = (i : Int) := by
    rw [findIndexInLeaf_eq _ _ _ (by rw [← hi]; omega), hi]
  -- the buffer manager after the read
  obtain ⟨w1, hn1⟩ := wf_readPage w hN t.file currPageNo
  obtain ⟨hh1, hp1⟩ := readPage_ok_holds w hN hread
  have hl1 : amLookup (readPage t.bufMgr t.file currPageNo).2.hashTable (t.file, currPageNo) = some p :=
    (w1.resident t.file currPageNo p).2 hh1
  have hpl : p < (readPage t.bufMgr t.file currPageNo).2.bufPool.length := by
    rw [w1.poolLen]
    exact hh1.1
  have hdl : p < (readPage t.bufMgr t.file currPageNo).2.bufDescTable.length := by
    rw [w1.descLen]
    exact hh1.1
  have hun := unPinPage_pinned (s := (readPage t.bufMgr t.file currPageNo).2.putWords p
    (n.insertAt t.L i key rid).words) true hl1 hp1
  have hst := handleLeafInsertion_insert t currPageNo key rid p hread (by rw [← hn]; exact hnf) i
    (by rw [← hn]; exact hfi) hiL (by rw [← hn, hun])
  rw [← hn, hun] at hst
  rw [hst] at ht2
  -- the node written
  have hnode : leafAt t2 p = n.insertAt t.L i key rid := by
    rw [ht2]
    unfold leafAt
    show LeafNodeInt.ofWords t.L (((readPage t.bufMgr t.file currPageNo).2.putWords p
      (n.insertAt t.L i key rid).words).page p).data = _
    unfold BufMgr.putWords writeFrame
    rw [page_setPage, if_pos ⟨rfl, hpl⟩]
    apply LeafNodeInt.ofWords_words
    · exact length_memmove_set _ _ _ _ hka hiL
    · exact length_memmove_set _ _ _ _ hra hiL
    · intro x hx
      rcases List.mem_or_eq_of_mem_set hx with hx | rfl
      · unfold memmove at hx
        have hsub : ∀ y ∈ n.keyArray.take (i + 1) ++ ((n.keyArray.drop i).take (t.L - i - 1)
            ++ n.keyArray.drop (i + 1 + (t.L - i - 1))), y ∈ n.keyArray := by
          intro y hy
          rcases List.mem_append.1 hy with hy | hy
          · exact List.mem_of_mem_take hy
          · rcases List.mem_append.1 hy with hy | hy
            · exact List.mem_of_mem_drop (List.mem_of_mem_take hy)
            · exact List.mem_of_mem_drop hy
        exact hkr x (hsub x hx)
      · exact hkey
    · show -2 ^ 31 ≤ n.keyNum + 1 ∧ n.keyNum + 1 < 2 ^ 31
      omega
  have hdesc : t2.bufMgr.desc p = { (readPage t.bufMgr t.file currPageNo).2.desc p with
      pinCnt := ((readPage t.bufMgr t.file currPageNo).2.desc p).pinCnt - 1, dirty := true } := by
    rw [ht2]
    show (BufMgr.setDesc _ p _).desc p = _
    rw [desc_setDesc, if_pos ⟨rfl, hdl⟩]
    rfl
  refine ⟨l1, l2, l3, by rw [hst], ?_, ?_, ?_, ?_, ?_, ?_, ?_, ?_⟩
  · rw [hnode]
    rfl
  · rw [hnode]
    exact memmove_insert n.keyArray t.L i n.keyNum.toNat key hka l1 hk
  · rw [hnode]
    exact memmove_insert n.ridArray t.L i n.keyNum.toNat rid hra l1 hk
  · rw [hnode]
    show (((memmove n.keyArray (i + 1) i (t.L - i - 1)).set i key).take (n.keyNum.toNat + 1)).Pairwise _
    rw [memmove_insert n.keyArray t.L i n.keyNum.toNat key hka l1 hk]
    exact pairwise_insert_lower_bound _ key i hs l2 l3
  · rw [hnode]
    rfl
  · refine ⟨by rw [ht2]; exact hh1.1, ?_, ?_, ?_⟩
    · rw [hdesc]
      exact hh1.2.1
    · rw [hdesc]
      exact hh1.2.2.1
    · rw [hdesc]
      exact hh1.2.2.2
  · rw [hdesc]
  · rw [hdesc]
    show ((readPage t.bufMgr t.file currPageNo).2.desc p).pinCnt - 1 + 1 = _
    omega


theorem indexDisk_wf : indexDisk.WF := by
  intro f p pg h
  cases h

theorem builtIndex_leaf_wf : (builtIndex [1, 2, 4]).2.bufMgr.WF := by
  have e : (builtIndex [1, 2, 4]).2.bufMgr = runOps (BufMgr.new 10 indexDisk) leafOps := by
    decide!
  rw [e]
  exact (wf_runOps leafOps (wf_new 10 indexDisk_wf) (by decide)).1

theorem handleLeafInsertion_not_full_witness :
    (handleLeafInsertion 2 3 (ridOf 3) (builtIndex [1, 2, 4]).2).1 = .ok (0, -1) ∧
    (leafAt (handleLeafInsertion 2 3 (ridOf 3) (builtIndex [1, 2, 4]).2).2 1).keyArray
      = [1, 2, 3, 4] :=
  ⟨(handleLeafInsertion_not_full (builtIndex [1, 2, 4]).2 builtIndex_leaf_wf (by decide!) 2 3
      (ridOf 3) ⟨by decide, by decide⟩ (by decide!) 1 (by decide!) _ rfl (by decide!)
      (by decide!) (by decide!) _ rfl _ rfl).2.2.2.1,
    by decide!⟩


/-- Where the elements are after the shift of `insertToLeaf` and the store at `i`. -/
theorem memmove_insert_positions {α : Type} (a : List α) (L i k : Nat) (x : α)
    (ha : a.length = L) (hik : i ≤ k) (hk : k < L) :
    ((memmove a (i + 1) i (L - i - 1)).set i x)[i]? = some x ∧
    (∀ j, j < i → ((memmove a (i + 1) i (L - i - 1)).set i x)[j]? = a[j]?) ∧
    (∀ j, i ≤ j → j < k → ((memmove a (i + 1) i (L - i - 1)).set i x)[j + 1]? = a[j]?) := by
  have h := memmove_insert a L i k x ha hik hk
  have hget : ∀ m, m < k + 1 → ((memmove a (i + 1) i (L - i - 1)).set i x)[m]?
      = ((a.take k).take i ++ x :: (a.take k).drop i)[m]? := by
    intro m hm
    rw [← h, List.getElem?_take_of_lt hm]
  have hl : ((a.take k).take i).length = i := by
    rw [List.length_take, List.length_take, ha]
    omega
  refine ⟨?_, ?_, ?_⟩
  · rw [hget i (by omega), List.getElem?_append_right (by rw [hl]), hl]
    simp
  · intro j hj
    rw [hget j (by omega), List.getElem?_append_left (by rw [hl]; exact hj),
      List.getElem?_take_of_lt hj, List.getElem?_take_of_lt (by omega)]
  · intro j hij hjk
    rw [hget (j + 1) (by omega), List.getElem?_append_right (by rw [hl]; omega), hl]
    have e : j + 1 - i = (j - i) + 1 := by omega
    rw [e, List.getElem?_cons_succ, List.getElem?_drop, List.getElem?_take_of_lt (by omega)]
    congr 1
    omega

/-- The node in the page after `insertToLeaf`, for an index inside the arrays. -/
theorem leafAt_insertToLeaf (t : BTreeIndex) (p : FrameId) (i : Nat) (key : Int) (rid : RecordId)
    (hp : p < t.bufMgr.bufPool.length) (hi : i < t.L)
    (hkey : -2 ^ 31 ≤ key ∧ key < 2 ^ 31) (hL : t.L < 2 ^ 31)
    (h0 : 0 ≤ (leafAt t p).keyNum) (hnf : (leafAt t p).keyNum < t.L) :
    (insertToLeaf p (i : Int) key rid t).1 = .ok () ∧
    leafAt (insertToLeaf p (i : Int) key rid t).2 p = (leafAt t p).insertAt t.L i key rid := by
  rw [insertToLeaf_eq t p i key rid hi]
  refine ⟨rfl, ?_⟩
  have hka : (leafAt t p).keyArray.length = t.L := by simp [leafAt, LeafNodeInt.ofWords]
  have hra : (leafAt t p).ridArray.length = t.L := by simp [leafAt, LeafNodeInt.ofWords]
  have hkr : ∀ x ∈ (leafAt t p).keyArray, -2 ^ 31 ≤ x ∧ x < 2 ^ 31 := by
    intro x hx
    simp only [leafAt, LeafNodeInt.ofWords, List.mem_map] at hx
    obtain ⟨j, _, rfl⟩ := hx
    exact ofWord_range _
  generalize leafAt t p = n at *
  unfold leafAt
  show LeafNodeInt.ofWords t.L ((t.bufMgr.putWords p (n.insertAt t.L i key rid).words).page p).data = _
  unfold BufMgr.putWords writeFrame
  rw [page_setPage, if_pos ⟨rfl, hp⟩]
  apply LeafNodeInt.ofWords_words
  · exact length_memmove_set _ _ _ _ hka hi
  · exact length_memmove_set _ _ _ _ hra hi
  · intro x hx
    rcases List.mem_or_eq_of_mem_set hx with hx | rfl
    · unfold memmove at hx
      have hsub : ∀ y ∈ n.keyArray.take (i + 1) ++ ((n.keyArray.drop i).take (t.L - i - 1)
          ++ n.keyArray.drop (i + 1 + (t.L - i - 1))), y ∈ n.keyArray := by
        intro y hy
        rcases List.mem_append.1 hy with hy | hy
        · exact List.mem_of_mem_take hy
        · rcases List.mem_append.1 hy with hy | hy
          · exact List.mem_of_mem_drop (List.mem_of_mem_take hy)
          · exact List.mem_of_mem_drop hy
      exact hkr x (hsub x hx)
    · exact hkey
  · show -2 ^ 31 ≤ n.keyNum + 1 ∧ n.keyNum + 1 < 2 ^ 31
    omega

/-- C18. The code does neither what the claim says nor what the comment of
findIndexInLeaf in btree.cpp says ("find index of the first element that larger than
it", the insert-after position): it calls std::lower_bound, which returns the first
position whose key is not smaller than the key.  On the leaf holding the one entry
(5, rid 5), findIndexInLeaf with key 5 returns 0, the index of an element that is not
larger than the key.  A second entry with the same key 5 and record id (99, 0) is
inserted: insertEntry returns normally, and the leaf then holds the new entry at index
0, before the entry that was there. -/
theorem equal_key_goes_first :
    (builtIndex [5]).1 = .ok () ∧
    findIndexInLeaf (builtIndex [5]).2.L (leafAt (builtIndex [5]).2 1) 5 = 0 ∧
    (leafAt (builtIndex [5]).2 1).keyNum = 1 ∧
    (leafAt (builtIndex [5]).2 1).keyArray.take 1 = [5] ∧
    (leafAt (builtIndex [5]).2 1).ridArray.take 1 = [ridOf 5] ∧
    (insertEntry 10 5 ⟨99, 0⟩ (builtIndex [5]).2).1 = .ok () ∧
    (leafAt (insertEntry 10 5 ⟨99, 0⟩ (builtIndex [5]).2).2 1).keyNum = 2 ∧
    (leafAt (insertEntry 10 5 ⟨99, 0⟩ (builtIndex [5]).2).2 1).keyArray.take 2 = [5, 5] ∧
    (leafAt (insertEntry 10 5 ⟨99, 0⟩ (builtIndex [5]).2).2 1).ridArray.take 2
      = [⟨99, 0⟩, ridOf 5] := by
  decide!

/-- What the code does with equal keys, on every leaf: the new entry goes before them.
For a leaf (the node n in frame p) with 0 <= keyNum < L whose first keyNum keys are sorted and a
32-bit key, findIndexInLeaf returns the first position i whose key is >= key (keyNum if
there is none), never -1, and insertToLeaf at that index returns normally; afterwards
the leaf holds (key, rid) at index i, the entries before i are unchanged and their keys
are smaller than key, and every old entry at an index j >= i, in particular every
entry whose key equals key, has moved to index j + 1, after the new entry. -/
theorem equal_key_inserted_before (t : BTreeIndex) (p : FrameId) (key : Int) (rid : RecordId)
    (hp : p < t.bufMgr.bufPool.length) (hkey : -2 ^ 31 ≤ key ∧ key < 2 ^ 31)
    (hL : t.L < 2 ^ 31) (n : LeafNodeInt) (hn : n = leafAt t p)
    (h0 : 0 ≤ n.keyNum) (hnf : n.keyNum < t.L)
    (hs : (n.keyArray.take n.keyNum.toNat).Pairwise (fun x y => x ≤ y))
    (i : Nat) (hi : i = lower_bound n.keyArray n.keyNum key)
    (t2 : BTreeIndex) (ht2 : t2 = (insertToLeaf p (findIndexInLeaf t.L n key) key rid t).2) :
    findIndexInLeaf t.L n key = (i : Int) ∧ i ≤ n.keyNum.toNat ∧
    (insertToLeaf p (findIndexInLeaf t.L n key) key rid t).1 = .ok () ∧
    (leafAt t2 p).keyNum = n.keyNum + 1 ∧
    (leafAt t2 p).keyArray[i]? = some key ∧ (leafAt t2 p).ridArray[i]? = some rid ∧
    (∀ j, j < i → (leafAt t2 p).keyArray[j]? = n.keyArray[j]? ∧
      (leafAt t2 p).ridArray[j]? = n.ridArray[j]? ∧ ∀ x, n.keyArray[j]? = some x → x < key) ∧
    (∀ j, i ≤ j → j < n.keyNum.toNat → (leafAt t2 p).keyArray[j + 1]? = n.keyArray[j]? ∧
      (leafAt t2 p).ridArray[j + 1]? = n.ridArray[j]?) ∧
    (∀ j, j < n.keyNum.toNat → n.keyArray[j]? = some key → i ≤ j) := by
  have hka : n.keyArray.length = t.L := by rw [hn]; simp [leafAt, LeafNodeInt.ofWords]
  have hra : n.ridArray.length = t.L := by rw [hn]; simp [leafAt, LeafNodeInt.ofWords]
  have hk : n.keyNum.toNat < t.L := by omega
  obtain ⟨l1, l2, _⟩ := lower_bound_spec n.keyArray n.keyNum key hs
  rw [← hi] at l1 l2
  have hlen : (n.keyArray.take n.keyNum.toNat).length = n.keyNum.toNat := by
    rw [List.length_take, hka]
    omega
  rw [hlen] at l1
  have hiL : i < t.L := by omega
  have hfi : findIndexInLeaf t.L n key = (i : Int) := by
    rw [findIndexInLeaf_eq _ _ _ (by rw [← hi]; omega), hi]
  rw [hfi] at ht2 ⊢
  obtain ⟨hok, hnode⟩ := leafAt_insertToLeaf t p i key rid hp hiL hkey hL
    (by rw [← hn]; exact h0) (by rw [← hn]; exact hnf)
  rw [← ht2, ← hn] at hnode
  obtain ⟨k1, k2, k3⟩ := memmove_insert_positions n.keyArray t.L i n.keyNum.toNat key hka l1 hk
  obtain ⟨r1, r2, r3⟩ := memmove_insert_positions n.ridArray t.L i n.keyNum.toNat rid hra l1 hk
  have hsmall : ∀ j, j < i → ∀ x, n.keyArray[j]? = some x → x < key := by
    intro j hj x hx
    apply l2 x
    rw [List.take_take, Nat.min_eq_left l1]
    rw [List.mem_iff_getElem?]
    exact ⟨j, by rw [List.getElem?_take_of_lt hj]; exact hx⟩
  refine ⟨rfl, l1, hok, ?_, ?_, ?_, ?_, ?_, ?_⟩
  · rw [hnode]
    rfl
  · rw [hnode]
    exact k1
  · rw [hnode]
    exact r1
  · intro j hj
    rw [hnode]
    exact ⟨k2 j hj, r2 j hj, hsmall j hj⟩
  · intro j h1 h2
    rw [hnode]
    exact ⟨k3 j h1 h2, r3 j h1 h2⟩
  · intro j _ hx
    by_contra hlt
    have := hsmall j (Nat.lt_of_not_le hlt) key hx
    exact lt_irrefl _ this

theorem equal_key_inserted_before_witness :
    findIndexInLeaf (builtIndex [5]).2.L (leafAt (builtIndex [5]).2 1) 5 = ((0 : Nat) : Int) ∧
    (leafAt (insertToLeaf 1 (findIndexInLeaf (builtIndex [5]).2.L (leafAt (builtIndex [5]).2 1) 5)
      5 ⟨99, 0⟩ (builtIndex [5]).2).2 1).ridArray[0]? = some ⟨99, 0⟩ :=
  ⟨(equal_key_inserted_before (builtIndex [5]).2 1 5 ⟨99, 0⟩ (by decide!)
      ⟨by decide, by decide⟩ (by decide!) _ rfl (by decide!) (by decide!) (by decide!) 0
      (by decide!) _ rfl).1,
    (equal_key_inserted_before (builtIndex [5]).2 1 5 ⟨99, 0⟩ (by decide!)
      ⟨by decide, by decide⟩ (by decide!) _ rfl (by decide!) (by decide!) (by decide!) 0
      (by decide!) _ rfl).2.2.2.2.2.1⟩

/-- C16. The claim fails on the distinct keys 1, 2, 4, 5, 3 with leaf capacity 4.  After
1, 2, 4, 5 the root leaf (page 2, in frame 1) is full with the keys 1, 2, 4, 5;
findIndexInLeaf gives index 2 for key 3, which equals the middle L / 2 = 2, so
handleLeafInsertion splits with left length 3 and calls insertToLeaf on the new leaf
with index 2 - 3 = -1: the stores keyArray[-1] and ridArray[-1] are outside the
arrays, and key 3 does not reach the key array of any leaf. -/
theorem insertEntry_index_at_middle :
    (builtIndex [1, 2, 4, 5]).1 = .ok () ∧
    (builtIndex [1, 2, 4, 5]).2.rootPageNum = 2 ∧
    (builtIndex [1, 2, 4, 5]).2.initialRootPageNum = 2 ∧
    (readPage (builtIndex [1, 2, 4, 5]).2.bufMgr 7 2).1 = .ok 1 ∧
    leafAt (builtIndex [1, 2, 4, 5]).2 1 =
      { keyArray := [1, 2, 4, 5], ridArray := [ridOf 1, ridOf 2, ridOf 4, ridOf 5],
        rightSibPageNo := 0, keyNum := 4 } ∧
    findIndexInLeaf 4 (leafAt (builtIndex [1, 2, 4, 5]).2 1) 3 = 2 ∧
    (handleLeafInsertion 2 3 (ridOf 3) (builtIndex [1, 2, 4, 5]).2).1
      = .error .UndefinedBehaviour ∧
    (insertEntry 10 3 (ridOf 3) (builtIndex [1, 2, 4, 5]).2).1 = .error .UndefinedBehaviour ∧
    (∀ (t : BTreeIndex) (p : FrameId) (key : Int) (rid : RecordId),
      insertToLeaf p (-1) key rid t = (.error .UndefinedBehaviour, t)) := by
  refine ⟨by decide!, by decide!, by decide!, by decide!, by decide!, by decide!, by decide!,
    by decide!, ?_⟩
  intro t p key rid
  unfold insertToLeaf
  have hc : ((-1 : Int) < 0 ∨ (t.L : Int) ≤ -1) := Or.inl (by decide)
  simp only [bind_eq, readState, if_pos hc]
  rfl

/-- C19. The claim fails on the empty index.  The index built over an empty relation has
the initial leaf (page 2) as root, a page of zeros; startScan(0, GTE, 100, LTE) calls
getLeafPage, whose getLevelOnePage reads the root page as a non-leaf node: level 0
and keyNum 0, so it descends to pageNoArray[0] = 0 and calls readPage(file, 0), which
the file answers with InvalidPageException.  startScan ends with that exception, no
scan is executing, and the scanNext that follows raises ScanNotInitialized instead of
IndexScanCompleted. -/
theorem startScan_on_leaf_root :
    (builtIndex []).1 = .ok () ∧
    (builtIndex []).2.rootPageNum = 2 ∧
    (builtIndex []).2.initialRootPageNum = 2 ∧
    (readPage (builtIndex []).2.bufMgr 7 2).1 = .ok 1 ∧
    nonLeafAt (builtIndex []).2 1 =
      { level := 0, keyNum := 0, keyArray := [0, 0, 0, 0], pageNoArray := [0, 0, 0, 0, 0] } ∧
    (readPage (builtIndex []).2.bufMgr 7 0).1 = .error .InvalidPageException ∧
    (getLevelOnePage 10 2 0 (builtIndex []).2).1 = .error (.buffer .InvalidPageException) ∧
    (startScan 10 0 .GTE 100 .LTE (builtIndex []).2).1
      = .error (.buffer .InvalidPageException) ∧
    (startScan 10 0 .GTE 100 .LTE (builtIndex []).2).2.scanExecuting = false ∧
    (scanNext (startScan 10 0 .GTE 100 .LTE (builtIndex []).2).2).1
      = .error .ScanNotInitializedException := by
  decide!

/-- C20. The claim fails on the index over the keys 1, 2, 3, 4, 5 with capacities 4: the
root (page 4) is a non-leaf with the key 4 over the leaves page 2 (keys 1, 2, 3) and
page 3 (keys 4, 5), linked 2 -> 3 -> 0.  After startScan(1, GTE, 5, LTE) the first three
scanNext calls return the record ids of 1, 2, 3; the fourth exhausts the leaf, moves
to the sibling (page 3, in frame 2) and returns the record id of entry 0 of the
exhausted leaf (frame 1), the one of key 1, because its local pointer still points to
the buffer of the old leaf; the record id of key 4 is never returned. -/
theorem scanNext_reads_exhausted_leaf :
    (builtIndex [1, 2, 3, 4, 5]).1 = .ok () ∧
    (builtIndex [1, 2, 3, 4, 5]).2.rootPageNum = 4 ∧
    (readPage (builtIndex [1, 2, 3, 4, 5]).2.bufMgr 7 4).1 = .ok 3 ∧
    (readPage (builtIndex [1, 2, 3, 4, 5]).2.bufMgr 7 2).1 = .ok 1 ∧
    (readPage (builtIndex [1, 2, 3, 4, 5]).2.bufMgr 7 3).1 = .ok 2 ∧
    nonLeafAt (builtIndex [1, 2, 3, 4, 5]).2 3 =
      { level := 1, keyNum := 1, keyArray := [4, 0, 0, 0], pageNoArray := [2, 3, 0, 0, 0] } ∧
    leafAt (builtIndex [1, 2, 3, 4, 5]).2 1 =
      { keyArray := [1, 2, 3, 0], ridArray := [ridOf 1, ridOf 2, ridOf 3, ⟨0, 0⟩],
        rightSibPageNo := 3, keyNum := 3 } ∧
    leafAt (builtIndex [1, 2, 3, 4, 5]).2 2 =
      { keyArray := [4, 5, 0, 0], ridArray := [ridOf 4, ridOf 5, ⟨0, 0⟩, ⟨0, 0⟩],
        rightSibPageNo := 0, keyNum := 2 } ∧
    (startScan 10 1 .GTE 5 .LTE (builtIndex [1, 2, 3, 4, 5]).2).1 = .ok () ∧
    scanNexts 6 (startScan 10 1 .GTE 5 .LTE (builtIndex [1, 2, 3, 4, 5]).2).2
      = [.ok (ridOf 1), .ok (ridOf 2), .ok (ridOf 3), .ok (ridOf 1), .ok (ridOf 5),
         .error .IndexScanCompletedException] := by
  decide!

/-! ## B+-tree index: scenarios -/

/-- C23. The claim fails.  The index file of the index over the keys 1, 2 exists, with a
meta page (page 1) that carries the relation name of five zero words, attribute
offset 0 and attribute type 0.  Constructing an index object with these arguments
opens it (root page 2).  With a different relation name, a different attribute offset
or a different attribute type, the `try` block raises BadIndexInfoException, the
`catch (BadgerDbException&)` block of the same constructor catches it and tries to
create the file, and the constructor ends with FileExistsException; the meta page
read by the `try` block stays pinned. -/
theorem construct_on_mismatch :
    (builtIndex [1, 2]).1 = .ok () ∧
    (builtIndex [1, 2]).2.bufMgr.disk.fileExists 7 = true ∧
    metaOf (builtIndex [1, 2]).2 1 =
      { relationName := [0, 0, 0, 0, 0], attrByteOffset := 0, attrType := 0,
        rootPageNo := 2, initialRootPageNum := 2 } ∧
    (BTreeIndex.construct 10 [] []
      (BTreeIndex.fresh (builtIndex [1, 2]).2.bufMgr 7 4 4 0 0)).1 = .ok () ∧
    (BTreeIndex.construct 10 [] []
      (BTreeIndex.fresh (builtIndex [1, 2]).2.bufMgr 7 4 4 0 0)).2.rootPageNum = 2 ∧
    (constructorTry [5] (BTreeIndex.fresh (builtIndex [1, 2]).2.bufMgr 7 4 4 0 0)).1
      = .error .BadIndexInfoException ∧
    (BTreeIndex.construct 10 [5] []
      (BTreeIndex.fresh (builtIndex [1, 2]).2.bufMgr 7 4 4 0 0)).1
      = .error .FileExistsException ∧
    (BTreeIndex.construct 10 [] []
      (BTreeIndex.fresh (builtIndex [1, 2]).2.bufMgr 7 4 4 4 0)).1
      = .error .FileExistsException ∧
    (BTreeIndex.construct 10 [] []
      (BTreeIndex.fresh (builtIndex [1, 2]).2.bufMgr 7 4 4 0 1)).1
      = .error .FileExistsException ∧
    (readPage (builtIndex [1, 2]).2.bufMgr 7 1).1 = .ok 0 ∧
    ((builtIndex [1, 2]).2.bufMgr.desc 0).pinCnt = 0 ∧
    ((BTreeIndex.construct 10 [5] []
      (BTreeIndex.fresh (builtIndex [1, 2]).2.bufMgr 7 4 4 0 0)).2.bufMgr.desc 0).pinCnt = 1 := by
  decide!

/-- C25, the claim as stated fails.  With capacities 4, after the keys 1, 2, 3, 4, 5 the
root (page 4) is a non-leaf whose one key is 4, not 3, and its first child (page 2)
holds the three keys 1, 2, 3. -/
theorem forced_leaf_split_promotes_four :
    (builtIndex (keysUpTo 5)).1 = .ok () ∧
    (builtIndex (keysUpTo 5)).2.rootPageNum = 4 ∧
    (nonLeafOf (builtIndex (keysUpTo 5)).2 4).keys = [4] ∧
    (nonLeafOf (builtIndex (keysUpTo 5)).2 4).children = [2, 3] ∧
    ((leafOf (builtIndex (keysUpTo 5)).2 2).entries.map Prod.fst) = [1, 2, 3] ∧
    ((leafOf (builtIndex (keysUpTo 5)).2 3).entries.map Prod.fst) = [4, 5] := by
  decide!

/-- C25, amended.  With leaf capacity 4, inserting the keys 1, 2, 3, 4, 5 in this order
into an empty index leaves a non-leaf root (level 1, not the initial root) with
exactly one key, 4, equal to keyArray[0] of the new leaf; pageNoArray[0] of the root is
the initial leaf, holding 1, 2, 3, pageNoArray[1] is the new leaf, holding 4, 5; the
left leaf's rightSibPageNo is the right leaf and the right leaf's is 0; the meta page
records the new root. -/
theorem forced_leaf_split :
    (builtIndex (keysUpTo 5)).1 = .ok () ∧
    (builtIndex (keysUpTo 5)).2.initialRootPageNum = 2 ∧
    (builtIndex (keysUpTo 5)).2.rootPageNum = 4 ∧
    (metaOf (builtIndex (keysUpTo 5)).2 1).rootPageNo = 4 ∧
    nonLeafOf (builtIndex (keysUpTo 5)).2 4 =
      { level := 1, keyNum := 1, keyArray := [4, 0, 0, 0], pageNoArray := [2, 3, 0, 0, 0] } ∧
    leafOf (builtIndex (keysUpTo 5)).2 2 =
      { keyArray := [1, 2, 3, 0], ridArray := [ridOf 1, ridOf 2, ridOf 3, ⟨0, 0⟩],
        rightSibPageNo := 3, keyNum := 3 } ∧
    leafOf (builtIndex (keysUpTo 5)).2 3 =
      { keyArray := [4, 5, 0, 0], ridArray := [ridOf 4, ridOf 5, ⟨0, 0⟩, ⟨0, 0⟩],
        rightSibPageNo := 0, keyNum := 2 } ∧
    (leafOf (builtIndex (keysUpTo 5)).2 3).keyArray[0]? = some 4 := by
  decide!

/-- C26. Split cascade.  With capacities 4, after the keys 1, ..., 21 in ascending order
the root (page 10, recorded in the meta page) is a level-0 non-leaf with the key 13 over
the two level-1 non-leaves page 4 (keys 4, 7, 10 over four leaves) and page 9 (keys 16,
19 over three leaves): the tree has height 3.  Following rightSibPageNo from the
initial root leaf (page 2) ends at page id 0 after seven leaves and yields exactly the
entries of the keys 1, ..., 21 in ascending order. -/
theorem split_cascade :
    (builtIndex (keysUpTo 21)).1 = .ok () ∧
    (builtIndex (keysUpTo 21)).2.initialRootPageNum = 2 ∧
    (builtIndex (keysUpTo 21)).2.rootPageNum = 10 ∧
    (metaOf (builtIndex (keysUpTo 21)).2 1).rootPageNo = 10 ∧
    nonLeafOf (builtIndex (keysUpTo 21)).2 10 =
      { level := 0, keyNum := 1, keyArray := [13, 0, 0, 0], pageNoArray := [4, 9, 0, 0, 0] } ∧
    nonLeafOf (builtIndex (keysUpTo 21)).2 4 =
      { level := 1, keyNum := 3, keyArray := [4, 7, 10, 0], pageNoArray := [2, 3, 5, 6, 0] } ∧
    nonLeafOf (builtIndex (keysUpTo 21)).2 9 =
      { level := 1, keyNum := 2, keyArray := [16, 19, 0, 0], pageNoArray := [7, 8, 11, 0, 0] } ∧
    leafChain (builtIndex (keysUpTo 21)).2 8 2
      = some ((keysUpTo 21).map (fun k => (k, ridOf k))) ∧
    leafChain (builtIndex (keysUpTo 21)).2 7 2 = none := by
  decide!

/-- C27. The claim fails for the insertion index L / 2.  The root leaf (page 2) is full
with the keys 10, 20, 30, 40 (L = 4).  For key 35 (index 3) the split leaves 10, 20, 30
in the leaf and 35, 40 in the new leaf, for key 15 (index 1) it leaves 10, 15, 20 and
30, 40; for key 25 the insertion index is 2 = L / 2 and handleLeafInsertion calls
insertToLeaf on the new leaf with index -1. -/
theorem leaf_split_at_middle_index :
    (builtIndex [10, 20, 30, 40]).1 = .ok () ∧
    (leafOf (builtIndex [10, 20, 30, 40]).2 2).entries.map Prod.fst = [10, 20, 30, 40] ∧
    findIndexInLeaf 4 (leafOf (builtIndex [10, 20, 30, 40]).2 2) 35 = 3 ∧
    (handleLeafInsertion 2 35 (ridOf 35) (builtIndex [10, 20, 30, 40]).2).1 = .ok (3, 35) ∧
    (leafOf (handleLeafInsertion 2 35 (ridOf 35) (builtIndex [10, 20, 30, 40]).2).2 2).entries
      = [(10, ridOf 10), (20, ridOf 20), (30, ridOf 30)] ∧
    (leafOf (handleLeafInsertion 2 35 (ridOf 35) (builtIndex [10, 20, 30, 40]).2).2 3).entries
      = [(35, ridOf 35), (40, ridOf 40)] ∧
    findIndexInLeaf 4 (leafOf (builtIndex [10, 20, 30, 40]).2 2) 15 = 1 ∧
    (handleLeafInsertion 2 15 (ridOf 15) (builtIndex [10, 20, 30, 40]).2).1 = .ok (3, 30) ∧
    findIndexInLeaf 4 (leafOf (builtIndex [10, 20, 30, 40]).2 2) 25 = 2 ∧
    (handleLeafInsertion 2 25 (ridOf 25) (builtIndex [10, 20, 30, 40]).2).1
      = .error .UndefinedBehaviour := by
  decide!

/-- C29. The claim fails: the index handed to insertToLeaf and to insertToNewNonLeaf
for the new node is -1 when the insertion index equals the middle.  Leaf: the full
root leaf 2, 4, 6, 8 and key 5 (index 2 = L / 2).  Non-leaf: after the keys 10, 20, ...,
140 and 95 the root (page 4) is a full level-1 node with the keys 40, 70, 100, 130;
inserting 96 splits the leaf 70, 80, 90, 95 (page 5), which reports the key 95 and the
new page 8; the index of 95 in the root is 2 = M / 2, and recursiveInsert calls
insertToNewNonLeaf with index 2 - 3 = -1.  In every state both functions leave the
arrays with index -1, and L / 2 - (L / 2 + 1) is -1 for every capacity. -/
theorem insert_index_below_zero :
    (builtIndex [2, 4, 6, 8]).1 = .ok () ∧
    findIndexInLeaf 4 (leafOf (builtIndex [2, 4, 6, 8]).2 2) 5 = 2 ∧
    (insertEntry 10 5 (ridOf 5) (builtIndex [2, 4, 6, 8]).2).1 = .error .UndefinedBehaviour ∧
    (builtIndex middleKeys).1 = .ok () ∧
    (builtIndex middleKeys).2.rootPageNum = 4 ∧
    nonLeafOf (builtIndex middleKeys).2 4 =
      { level := 1, keyNum := 4, keyArray := [40, 70, 100, 130],
        pageNoArray := [2, 3, 5, 6, 7] } ∧
    (leafOf (builtIndex middleKeys).2 5).entries.map Prod.fst = [70, 80, 90, 95] ∧
    (handleLeafInsertion 5 96 (ridOf 96) (builtIndex middleKeys).2).1 = .ok (8, 95) ∧
    findIndexInNonLeaf 4 (nonLeafOf (builtIndex middleKeys).2 4) 95 = 2 ∧
    (insertEntry 10 96 (ridOf 96) (builtIndex middleKeys).2).1 = .error .UndefinedBehaviour ∧
    (∀ (t : BTreeIndex) (p : FrameId) (key : Int) (rid : RecordId),
      insertToLeaf p (-1) key rid t = (.error .UndefinedBehaviour, t)) ∧
    (∀ (t : BTreeIndex) (p : FrameId) (key : Int) (pageNo : PageId),
      insertToNewNonLeaf p (-1) key pageNo t = (.error .UndefinedBehaviour, t)) ∧
    (∀ L : Nat, ((L / 2 : Nat) : Int) - ((L / 2 + 1 : Nat) : Int) = -1) := by
  refine ⟨by decide!, by decide!, by decide!, by decide!, by decide!, by decide!, by decide!,
    by decide!, by decide!, by decide!, ?_, ?_, ?_⟩
  · intro t p key rid
    unfold insertToLeaf
    have hc : ((-1 : Int) < 0 ∨ (t.L : Int) ≤ -1) := Or.inl (by decide)
    simp only [bind_eq, readState, if_pos hc]
    rfl
  · intro t p key pageNo
    unfold insertToNewNonLeaf
    have hc : ((-1 : Int) < 0 ∨ (t.M : Int) ≤ -1) := Or.inl (by decide)
    simp only [bind_eq, readState, if_pos hc]
    rfl
  · intro L
    push_cast
    ring

/-! ## B+-tree index: which exceptions a method can raise -/

theorem Raises.bind_ {α β : Type} {x : IndexM α} {f : α → IndexM β} {P : IndexExn → Prop}
    (hx : Raises x P) (hf : ∀ a, Raises (f a) P) : Raises (x >>= f) P := by
  intro t e h
  rw [bind_eq] at h
  rcases hxt : x t with ⟨r, t1⟩
  rw [hxt] at h
  cases r with
  | ok a => exact hf a t1 e h
  | error e1 =>
    have he : e1 = e := Except.error.inj h
    subst he
    apply hx t
    rw [hxt]

theorem raises_pure {α : Type} (a : α) (P : IndexExn → Prop) : Raises (pure a : IndexM α) P := by
  intro t e h
  cases h

theorem raises_raise {α : Type} (e : IndexExn) (P : IndexExn → Prop) (h : P e) :
    Raises (raise e : IndexM α) P := by
  intro t e1 h1
  have he : e = e1 := Except.error.inj h1
  subst he
  exact h

theorem raises_readState (P : IndexExn → Prop) : Raises readState P := by
  intro t e h
  cases h

theorem raises_modifyState (f : BTreeIndex → BTreeIndex) (P : IndexExn → Prop) :
    Raises (modifyState f) P := by
  intro t e h
  cases h

theorem raises_getLeaf (p : FrameId) (P : IndexExn → Prop) : Raises (getLeaf p) P := by
  intro t e h
  cases h

theorem raises_getNonLeaf (p : FrameId) (P : IndexExn → Prop) : Raises (getNonLeaf p) P := by
  intro t e h
  cases h

theorem raises_callBuf {α : Type} (op : BufMgr → Except Exn α × BufMgr) (P : IndexExn → Prop)
    (hb : ∀ e, P (.buffer e)) : Raises (callBuf op) P := by
  intro t e h
  unfold callBuf at h
  rcases hx : op t.bufMgr with ⟨r, b⟩
  rw [hx] at h
  cases r with
  | ok a => cases h
  | error e1 =>
    have he : IndexExn.buffer e1 = e := Except.error.inj h
    subst he
    exact hb e1

theorem raises_assert (c : Bool) (P : IndexExn → Prop) (ha : P .AssertionFailed) :
    Raises (assert c) P := by
  unfold assert
  cases c
  · exact raises_raise _ P ha
  · intro t e h
    cases h

theorem raises_arrayGet {α : Type} (a : List α) (i : Int) (P : IndexExn → Prop)
    (hu : P .UndefinedBehaviour) : Raises (arrayGet a i) P := by
  unfold arrayGet
  split
  · intro t e h
    cases h
  · exact raises_raise _ P hu

theorem raises_ite {α : Type} (c : Prop) [Decidable c] (x y : IndexM α) (P : IndexExn → Prop)
    (hx : Raises x P) (hy : Raises y P) : Raises (if c then x else y) P := by
  split
  · exact hx
  · exact hy

theorem raises_getLevelOnePage (P : IndexExn → Prop) (hb : ∀ e, P (.buffer e))
    (hu : P .UndefinedBehaviour) (hf : P .OutOfFuel) (fuel : Nat) (prev : PageId) (key : Int) :
    Raises (getLevelOnePage fuel prev key) P := by
  induction fuel generalizing prev with
  | zero => exact raises_raise _ P hf
  | succ n ih =>
    unfold getLevelOnePage
    refine Raises.bind_ (raises_readState P) (fun t => ?_)
    refine Raises.bind_ (raises_callBuf _ P hb) (fun prevPage => ?_)
    refine Raises.bind_ (raises_getNonLeaf _ P) (fun prevNode => ?_)
    apply raises_ite
    · exact Raises.bind_ (raises_callBuf _ P hb) (fun _ => raises_pure _ P)
    · refine Raises.bind_ (raises_arrayGet _ _ P hu) (fun next => ?_)
      exact Raises.bind_ (raises_callBuf _ P hb) (fun _ => ih next)

theorem raises_getLeafPage (P : IndexExn → Prop) (hb : ∀ e, P (.buffer e))
    (hu : P .UndefinedBehaviour) (ha : P .AssertionFailed) (hf : P .OutOfFuel) (fuel : Nat)
    (key : Int) : Raises (getLeafPage fuel key) P := by
  unfold getLeafPage
  refine Raises.bind_ (raises_readState P) (fun t => ?_)
  refine Raises.bind_ (raises_getLevelOnePage P hb hu hf _ _ _) (fun id => ?_)
  refine Raises.bind_ (raises_callBuf _ P hb) (fun pg => ?_)
  refine Raises.bind_ (raises_getNonLeaf _ P) (fun node => ?_)
  refine Raises.bind_ (raises_assert _ P ha) (fun _ => ?_)
  refine Raises.bind_ (raises_arrayGet _ _ P hu) (fun leafId => ?_)
  exact Raises.bind_ (raises_callBuf _ P hb) (fun _ => raises_pure _ P)

theorem raises_currentPage (P : IndexExn → Prop) (hu : P .UndefinedBehaviour) :
    Raises currentPage P := by
  unfold currentPage
  refine Raises.bind_ (raises_readState P) (fun t => ?_)
  split
  · exact raises_pure _ P
  · exact raises_raise _ P hu

theorem raises_getFirstIndex (P : IndexExn → Prop) (hu : P .UndefinedBehaviour) :
    Raises getFirstIndex P := by
  unfold getFirstIndex
  refine Raises.bind_ (raises_readState P) (fun t => ?_)
  refine Raises.bind_ (raises_currentPage P hu) (fun p => ?_)
  exact Raises.bind_ (raises_getLeaf _ P) (fun _ => raises_pure _ P)

theorem Raises.not_error {α : Type} {x : IndexM α} {e0 : IndexExn}
    (h : Raises x (fun e => e ≠ e0)) (t : BTreeIndex) : (x t).1 ≠ .error e0 :=
  fun he => h t e0 he rfl

/-- C21. Checks of startScan, for every state and every bound of the descent.  It
raises BadOpcodes iff lowOp is not GT or GTE, or highOp is not LT or LTE (whatever the
range), and then changes nothing; it raises BadScanrange iff the operators are valid
and low > high (low = high is accepted with every valid pair of operators), and then
the buffer manager (so every pin count) and scanExecuting, the current page and
nextEntry are as before, the two bounds are set to 0 and the operators are the new
ones. -/
theorem startScan_checks (fuel : Nat) (low : Int) (lowOp : Operator) (high : Int)
    (highOp : Operator) (t : BTreeIndex) :
    ((startScan fuel low lowOp high highOp t).1 = .error .BadOpcodesException ↔
      ((lowOp ≠ .GT ∧ lowOp ≠ .GTE) ∨ (highOp ≠ .LT ∧ highOp ≠ .LTE))) ∧
    ((startScan fuel low lowOp high highOp t).1 = .error .BadScanrangeException ↔
      (¬ ((lowOp ≠ .GT ∧ lowOp ≠ .GTE) ∨ (highOp ≠ .LT ∧ highOp ≠ .LTE)) ∧ low > high)) ∧
    ((startScan fuel low lowOp high highOp t).1 = .error .BadOpcodesException →
      (startScan fuel low lowOp high highOp t).2 = t) ∧
    ((startScan fuel low lowOp high highOp t).1 = .error .BadScanrangeException →
      (startScan fuel low lowOp high highOp t).2 =
        { t with lowValInt := 0, highValInt := 0, lowOp := lowOp, highOp := highOp } ∧
      (startScan fuel low lowOp high highOp t).2.bufMgr = t.bufMgr ∧
      (startScan fuel low lowOp high highOp t).2.scanExecuting = t.scanExecuting) := by
  by_cases hops : (lowOp ≠ .GT ∧ lowOp ≠ .GTE) ∨ (highOp ≠ .LT ∧ highOp ≠ .LTE)
  · have e : startScan fuel low lowOp high highOp t = (.error .BadOpcodesException, t) := by
      unfold startScan
      rw [if_pos hops]
      rfl
    rw [e]
    refine ⟨⟨fun _ => hops, fun _ => rfl⟩, ⟨fun h => ?_, fun h => absurd hops h.1⟩,
      fun _ => rfl, fun h => ?_⟩
    · cases h
    · cases h
  · by_cases hr : low > high
    · have e : startScan fuel low lowOp high highOp t = (.error .BadScanrangeException,
          { t with lowValInt := 0, highValInt := 0, lowOp := lowOp, highOp := highOp }) := by
        unfold startScan
        rw [if_neg hops]
        simp only [bind_eq, modifyState]
        rw [if_pos hr]
        rfl
      rw [e]
      refine ⟨⟨fun h => ?_, fun h => absurd h hops⟩, ⟨fun _ => ⟨hops, hr⟩, fun _ => rfl⟩,
        fun h => ?_, fun _ => ⟨rfl, rfl, rfl⟩⟩
      · cases h
      · cases h
    · have hP : ∀ e, (startScan fuel low lowOp high highOp t).1 = .error e →
          e ≠ .BadOpcodesException ∧ e ≠ .BadScanrangeException := by
        intro e
        have hb : ∀ e : Exn, IndexExn.buffer e ≠ .BadOpcodesException ∧
            IndexExn.buffer e ≠ .BadScanrangeException :=
          fun _ => ⟨nofun, nofun⟩
        have hR : Raises (startScan fuel low lowOp high highOp)
            (fun e => e ≠ .BadOpcodesException ∧ e ≠ .BadScanrangeException) := by
          unfold startScan
          rw [if_neg hops]
          refine Raises.bind_ (raises_modifyState _ _) (fun _ => ?_)
          rw [if_neg hr]
          refine Raises.bind_ (raises_getLeafPage _ hb ⟨nofun, nofun⟩
            ⟨nofun, nofun⟩
            ⟨nofun, nofun⟩ _ _) (fun leaf => ?_)
          refine Raises.bind_ (raises_modifyState _ _) (fun _ => ?_)
          refine Raises.bind_ (raises_readState _) (fun t1 => ?_)
          refine Raises.bind_ (raises_callBuf _ _ hb) (fun leafPage => ?_)
          refine Raises.bind_ (raises_modifyState _ _) (fun _ => ?_)
          refine Raises.bind_ (raises_getFirstIndex _
            ⟨nofun, nofun⟩) (fun i => ?_)
          exact raises_modifyState _ _
        exact hR t e
      refine ⟨⟨fun h => absurd rfl (hP _ h).1, fun h => absurd h hops⟩,
        ⟨fun h => absurd rfl (hP _ h).2, fun h => absurd h.2 hr⟩,
        fun h => absurd rfl (hP _ h).1, fun h => absurd rfl (hP _ h).2⟩

/-- C22. scanNext and endScan raise ScanNotInitialized exactly when no scan is executing.
On an executing scan endScan makes the one call unPinPage(file, currentPageNum, false);
when that call returns (it does when the current leaf is pinned) endScan returns with
scanExecuting = false, nextEntry = 0, currentPageNum = 0, currentPageData = NULL and
both bounds 0, so that the scanNext or the endScan that follows raises
ScanNotInitialized; the pin count of the leaf has dropped by one and its dirty bit is
as before. -/
theorem scan_not_initialized (t : BTreeIndex) :
    ((scanNext t).1 = .error .ScanNotInitializedException ↔ t.scanExecuting = false) ∧
    ((endScan t).1 = .error .ScanNotInitializedException ↔ t.scanExecuting = false) ∧
    (t.scanExecuting = false → (scanNext t).2 = t ∧ (endScan t).2 = t) ∧
    (t.scanExecuting = true →
      (endScan t).2.bufMgr = (unPinPage t.bufMgr t.file t.currentPageNum false).2 ∧
      ((unPinPage t.bufMgr t.file t.currentPageNum false).1 = .ok () →
        endScan t = (.ok (),
          { t with bufMgr := (unPinPage t.bufMgr t.file t.currentPageNum false).2,
                   nextEntry := 0, scanExecuting := false, currentPageData := none,
                   currentPageNum := 0, lowValInt := 0, highValInt := 0 }) ∧
        (scanNext (endScan t).2).1 = .error .ScanNotInitializedException ∧
        (endScan (endScan t).2).1 = .error .ScanNotInitializedException) ∧
      (∀ i, amLookup t.bufMgr.hashTable (t.file, t.currentPageNum) = some i →
        0 < (t.bufMgr.desc i).pinCnt → i < t.bufMgr.bufDescTable.length →
        (endScan t).1 = .ok () ∧
        ((endScan t).2.bufMgr.desc i).pinCnt + 1 = (t.bufMgr.desc i).pinCnt ∧
        ((endScan t).2.bufMgr.desc i).dirty = (t.bufMgr.desc i).dirty)) := by
  have hsn : t.scanExecuting = false → scanNext t = (.error .ScanNotInitializedException, t) := by
    intro h
    unfold scanNext
    simp only [bind_eq, readState, h, if_true]
    rfl
  have hes : ∀ t : BTreeIndex, t.scanExecuting = false →
      endScan t = (.error .ScanNotInitializedException, t) := by
    intro t h
    unfold endScan
    simp only [bind_eq, readState, h, if_true]
    rfl
  have hend : t.scanExecuting = true → endScan t =
      match unPinPage t.bufMgr t.file t.currentPageNum false with
      | (.ok _, b) => (.ok (),
          { t with bufMgr := b, nextEntry := 0, scanExecuting := false, currentPageData := none,
                   currentPageNum := 0, lowValInt := 0, highValInt := 0 })
      | (.error e, b) => (.error (.buffer e), { t with bufMgr := b }) := by
    intro h
    unfold endScan
    have hc : ¬ (t.scanExecuting = false) := by rw [h]; decide
    simp only [bind_eq, readState, if_neg hc, callBuf, modifyState]
    rcases hu : unPinPage t.bufMgr t.file t.currentPageNum false with ⟨r, b⟩
    cases r <;> rfl
  cases hx : t.scanExecuting with
  | false =>
    refine ⟨⟨fun _ => rfl, fun _ => by rw [hsn hx]⟩, ⟨fun _ => rfl, fun _ => by rw [hes t hx]⟩,
      fun _ => ⟨by rw [hsn hx], by rw [hes t hx]⟩, fun h => by cases h⟩
  | true =>
    have hb : ∀ e : Exn, IndexExn.buffer e ≠ .ScanNotInitializedException := fun _ => nofun
    have hc : ¬ (t.scanExecuting = false) := by rw [hx]; decide
    have hsn2 : (scanNext t).1 ≠ .error .ScanNotInitializedException := by
      unfold scanNext
      rw [bind_eq]
      simp only [readState]
      rw [if_neg hc]
      apply Raises.not_error
      refine Raises.bind_ (raises_currentPage _ nofun) (fun leafNode => ?_)
      repeat' (first
        | exact raises_pure _ _
        | exact raises_raise _ _ nofun
        | exact raises_readState _
        | exact raises_modifyState _ _
        | exact raises_getLeaf _ _
        | exact raises_callBuf _ _ hb
        | exact raises_arrayGet _ _ _ nofun
        | apply raises_ite
        | refine Raises.bind_ ?_ (fun _ => ?_))
    have he := hend hx
    have hes2 : (endScan t).1 ≠ .error .ScanNotInitializedException := by
      rw [he]
      rcases hu : unPinPage t.bufMgr t.file t.currentPageNum false with ⟨r, b⟩
      cases r <;> exact nofun
    refine ⟨⟨fun h => absurd h hsn2, nofun⟩,
      ⟨fun h => absurd h hes2, nofun⟩, nofun, fun _ => ⟨?_, ?_, ?_⟩⟩
    · rw [he]
      rcases hu : unPinPage t.bufMgr t.file t.currentPageNum false with ⟨r, b⟩
      cases r <;> rfl
    · intro hok
      have e2 : endScan t = (.ok (),
          { t with bufMgr := (unPinPage t.bufMgr t.file t.currentPageNum false).2,
                   nextEntry := 0, scanExecuting := false, currentPageData := none,
                   currentPageNum := 0, lowValInt := 0, highValInt := 0 }) := by
        rw [he]
        rcases hu : unPinPage t.bufMgr t.file t.currentPageNum false with ⟨r, b⟩
        rw [hu] at hok
        simp only at hok
        subst hok
        rfl
      refine ⟨e2, ?_, ?_⟩
      · rw [e2]
        unfold scanNext
        simp only [bind_eq, readState, if_true]
        rfl
      · rw [e2]
        exact congrArg Prod.fst (hes _ rfl)
    · intro i hl hp hi
      have hun := unPinPage_pinned false hl hp
      rw [he, hun]
      refine ⟨rfl, ?_, ?_⟩
      · show ((BufMgr.setDesc t.bufMgr i _).desc i).pinCnt + 1 = _
        rw [desc_setDesc, if_pos ⟨rfl, hi⟩]
        show (t.bufMgr.desc i).pinCnt - 1 + 1 = _
        omega
      · show ((BufMgr.setDesc t.bufMgr i _).desc i).dirty = _
        rw [desc_setDesc, if_pos ⟨rfl, hi⟩]
        rfl

theorem scan_not_initialized_witness :
    (endScan (startScan 10 1 .GTE 5 .LTE (builtIndex (keysUpTo 5)).2).2).1 = .ok () ∧
    (scanNext (endScan (startScan 10 1 .GTE 5 .LTE (builtIndex (keysUpTo 5)).2).2).2).1
      = .error .ScanNotInitializedException :=
  ⟨((scan_not_initialized (startScan 10 1 .GTE 5 .LTE (builtIndex (keysUpTo 5)).2).2).2.2.2
      (by decide!)).2.2 1 (by decide!) (by decide!) (by decide!) |>.1,
    (((scan_not_initialized (startScan 10 1 .GTE 5 .LTE (builtIndex (keysUpTo 5)).2).2).2.2.2
      (by decide!)).2.1 (by decide!)).2.1⟩

theorem startScan_checks_witness :
    (startScan 10 5 .LT 1 .LTE (builtIndex (keysUpTo 5)).2).1 = .error .BadOpcodesException ∧
    (startScan 10 5 .GT 1 .LT (builtIndex (keysUpTo 5)).2).1 = .error .BadScanrangeException ∧
    (startScan 10 3 .GT 3 .LT (builtIndex (keysUpTo 5)).2).1 = .ok () :=
  ⟨(startScan_checks 10 5 .LT 1 .LTE (builtIndex (keysUpTo 5)).2).1.2 (by decide),
    (startScan_checks 10 5 .GT 1 .LT (builtIndex (keysUpTo 5)).2).2.1.2 (by decide),
    by decide!⟩

/-! ## B+-tree index: non-leaf nodes in pages -/

/-- A non-leaf node written to a page is the non-leaf node read back from it. -/
theorem NonLeafNodeInt.words_roundtrip (M : Nat) (n : NonLeafNodeInt) (rest : List Nat)
    (hk : n.keyArray.length = M) (hp : n.pageNoArray.length = M + 1)
    (hkeys : ∀ x ∈ n.keyArray, -2 ^ 31 ≤ x ∧ x < 2 ^ 31)
    (hl : -2 ^ 31 ≤ n.level ∧ n.level < 2 ^ 31)
    (hn : -2 ^ 31 ≤ n.keyNum ∧ n.keyNum < 2 ^ 31) :
    NonLeafNodeInt.ofWords M (n.words ++ rest) = n := by
  cases n with
  | mk lv kn ka pa =>
    simp only at hk hp hkeys hl hn
    have hmap : (ka.map toWord).length = M := by simp [hk]
    have hkey : ∀ i, i < M → (NonLeafNodeInt.words ⟨lv, kn, ka, pa⟩ ++ rest).getD (2 + i) 0
        = toWord (ka.getD i 0) := by
      intro i hi
      show (toWord lv :: toWord kn :: (ka.map toWord ++ pa) ++ rest).getD (2 + i) 0 = _
      have e : 2 + i = i + 1 + 1 := by omega
      rw [e]
      show ((ka.map toWord ++ pa) ++ rest).getD i 0 = _
      rw [List.append_assoc, getD_append_lt _ _ _ _ (by rw [hmap]; exact hi)]
      simp [List.getD_eq_getElem?_getD]
      cases ka[i]? <;> rfl
    have hpage : ∀ i, i < M + 1 → (NonLeafNodeInt.words ⟨lv, kn, ka, pa⟩ ++ rest).getD (2 + M + i) 0
        = pa.getD i 0 := by
      intro i hi
      show (toWord lv :: toWord kn :: (ka.map toWord ++ pa) ++ rest).getD (2 + M + i) 0 = _
      have e : 2 + M + i = (M + i) + 1 + 1 := by omega
      rw [e]
      show ((ka.map toWord ++ pa) ++ rest).getD (M + i) 0 = _
      rw [List.append_assoc]
      have := getD_append_add (ka.map toWord) (pa ++ rest) i 0
      rw [hmap] at this
      rw [this, getD_append_lt _ _ _ _ (by rw [hp]; exact hi)]
    unfold NonLeafNodeInt.ofWords
    have h0 : (NonLeafNodeInt.words ⟨lv, kn, ka, pa⟩ ++ rest).getD 0 0 = toWord lv := rfl
    have h1 : (NonLeafNodeInt.words ⟨lv, kn, ka, pa⟩ ++ rest).getD 1 0 = toWord kn := rfl
    rw [h0, h1, ofWord_toWord lv hl.1 hl.2, ofWord_toWord kn hn.1 hn.2]
    congr 1
    · apply List.ext_getElem
      · simp [hk]
      · intro i h1 h2
        have hi : i < M := by simpa using h1
        simp only [List.getElem_map, List.getElem_range]
        rw [hkey i hi]
        have : ka.getD i 0 = ka[i] := by simp [List.getD_eq_getElem?_getD, h2]
        rw [this]
        exact ofWord_toWord _ (hkeys _ (List.getElem_mem _)).1 (hkeys _ (List.getElem_mem _)).2
    · apply List.ext_getElem
      · simp [hp]
      · intro i h1 h2
        have hi : i < M + 1 := by simpa using h1
        simp only [List.getElem_map, List.getElem_range]
        rw [hpage i hi]
        simp [List.getD_eq_getElem?_getD, h2]

/-- The non-leaf node read from a page has arrays of the capacity and 32-bit fields. -/
theorem NonLeafNodeInt.ofWords_shape (M : Nat) (w : List Nat) :
    (NonLeafNodeInt.ofWords M w).keyArray.length = M ∧
    (NonLeafNodeInt.ofWords M w).pageNoArray.length = M + 1 ∧
    (∀ x ∈ (NonLeafNodeInt.ofWords M w).keyArray, -2 ^ 31 ≤ x ∧ x < 2 ^ 31) ∧
    (-2 ^ 31 ≤ (NonLeafNodeInt.ofWords M w).level ∧ (NonLeafNodeInt.ofWords M w).level < 2 ^ 31) ∧
    (-2 ^ 31 ≤ (NonLeafNodeInt.ofWords M w).keyNum ∧ (NonLeafNodeInt.ofWords M w).keyNum < 2 ^ 31) := by
  refine ⟨by simp [NonLeafNodeInt.ofWords], by simp [NonLeafNodeInt.ofWords], ?_,
    ofWord_range _, ofWord_range _⟩
  intro x hx
  simp only [NonLeafNodeInt.ofWords, List.mem_map] at hx
  obtain ⟨j, _, rfl⟩ := hx
  exact ofWord_range _

/-- Storing a non-leaf node through a pointer: the node read back through the same
pointer is the node stored, the nodes behind other pointers are as before. -/
theorem nonLeafAt_setNonLeaf (t : BTreeIndex) (p : FrameId) (n : NonLeafNodeInt)
    (hp : p < t.bufMgr.bufPool.length)
    (hk : n.keyArray.length = t.M) (hpa : n.pageNoArray.length = t.M + 1)
    (hkeys : ∀ x ∈ n.keyArray, -2 ^ 31 ≤ x ∧ x < 2 ^ 31)
    (hl : -2 ^ 31 ≤ n.level ∧ n.level < 2 ^ 31)
    (hn : -2 ^ 31 ≤ n.keyNum ∧ n.keyNum < 2 ^ 31) :
    setNonLeaf p n t = (.ok (), { t with bufMgr := t.bufMgr.putWords p n.words }) ∧
    nonLeafAt ({ t with bufMgr := t.bufMgr.putWords p n.words } : BTreeIndex) p = n ∧
    (∀ q, q ≠ p →
      nonLeafAt ({ t with bufMgr := t.bufMgr.putWords p n.words } : BTreeIndex) q = nonLeafAt t q) ∧
    (t.bufMgr.putWords p n.words).bufPool.length = t.bufMgr.bufPool.length := by
  refine ⟨rfl, ?_, ?_, ?_⟩
  · unfold nonLeafAt
    show NonLeafNodeInt.ofWords t.M ((t.bufMgr.putWords p n.words).page p).data = _
    unfold BufMgr.putWords writeFrame
    rw [page_setPage, if_pos ⟨rfl, hp⟩]
    exact NonLeafNodeInt.words_roundtrip t.M n _ hk hpa hkeys hl hn
  · intro q hq
    unfold nonLeafAt
    show NonLeafNodeInt.ofWords t.M ((t.bufMgr.putWords p n.words).page q).data = _
    unfold BufMgr.putWords writeFrame
    rw [page_setPage, if_neg (fun h => hq h.1)]
  · unfold BufMgr.putWords writeFrame BufMgr.setPage
    simp

/-! ## B+-tree index: the arrays of a split non-leaf node -/

/-- The array after a shift by one from `i` and the store at `i`, in an array with at
least `L` elements: the first `k + 1` elements are the first `k` old elements with `x`
inserted at position `i`. -/
theorem memmove_insert_ge {α : Type} (a : List α) (L i k : Nat) (x : α) (ha : L ≤ a.length)
    (hik : i ≤ k) (hk : k < L) :
    ((memmove a (i + 1) i (L - i - 1)).set i x).take (k + 1)
      = (a.take k).take i ++ x :: (a.take k).drop i := by
  unfold memmove
  have h1 : (a.take (i + 1)).length = i + 1 := by
    rw [List.length_take]
    omega
  have hset : (a.take (i + 1) ++ ((a.drop i).take (L - i - 1) ++ a.drop (i + 1 + (L - i - 1)))).set i x
      = a.take i ++ x :: ((a.drop i).take (L - i - 1) ++ a.drop (i + 1 + (L - i - 1))) := by
    rw [List.set_append_left _ _ (by rw [h1]; omega)]
    have : (a.take (i + 1)).set i x = a.take i ++ [x] := by
      apply List.ext_getElem
      · simp
        omega
      · intro j hj1 hj2
        rw [List.getElem_set]
        by_cases hji : i = j
        · subst hji
          simp [show i ≤ a.length by omega]
        · rw [if_neg hji]
          have hjl : j < i := by
            simp at hj2
            omega
          rw [List.getElem_append_left (by simp; omega)]
          simp
    rw [this]
    simp
  rw [hset]
  have h2 : (a.take i).length = i := by
    rw [List.length_take]
    omega
  rw [List.take_append_eq_append_take, h2, List.take_of_length_le (by rw [h2]; omega)]
  have e : k + 1 - i = (k - i) + 1 := by omega
  rw [e, List.take_succ_cons]
  have h3 : ((a.drop i).take (L - i - 1)).length = L - i - 1 := by
    rw [List.length_take, List.length_drop]
    omega
  have hl : (a.take k).take i = a.take i := by
    rw [List.take_take, Nat.min_eq_left hik]
  have hr : (a.take k).drop i = (a.drop i).take (k - i) := by
    rw [List.drop_take]
  have hm : ((a.drop i).take (L - i - 1) ++ a.drop (i + 1 + (L - i - 1))).take (k - i)
      = (a.drop i).take (k - i) := by
    rw [List.take_append_of_le_length (by rw [h3]; omega), List.take_take,
      Nat.min_eq_left (by omega)]
  rw [hl, hr, hm]

theorem length_memmove_set_ge {α : Type} (a : List α) (L i : Nat) (x : α) (ha : L ≤ a.length)
    (hi : i < L) : ((memmove a (i + 1) i (L - i - 1)).set i x).length = a.length := by
  unfold memmove
  simp
  omega

/-- The array after the shift to the left by one of `deleteNewKeyNonLeaf` and the store
of 0 behind the `n` elements moved. -/
theorem memmove_delete_first {α : Type} (a : List α) (n : Nat) (z : α) (ha : n + 1 ≤ a.length) :
    ((memmove a 0 1 n).set n z).take n = (a.drop 1).take n ∧
    ((memmove a 0 1 n).set n z).length = a.length := by
  unfold memmove
  have h3 : ((a.drop 1).take n).length = n := by
    rw [List.length_take, List.length_drop]
    omega
  constructor
  · simp only [List.take_zero, List.nil_append, Nat.zero_add]
    rw [List.set_append_right _ _ (by rw [h3]), List.take_append_of_le_length (by rw [h3]),
      List.take_take, Nat.min_self]
  · simp
    omega

theorem mem_memmove {α : Type} (a : List α) (dst src len : Nat) (x : α)
    (h : x ∈ memmove a dst src len) : x ∈ a := by
  unfold memmove at h
  rcases List.mem_append.1 h with h | h
  · exact List.mem_of_mem_take h
  · rcases List.mem_append.1 h with h | h
    · exact List.mem_of_mem_drop (List.mem_of_mem_take h)
    · exact List.mem_of_mem_drop h

theorem mem_memcpy {α : Type} (a b : List α) (src len : Nat) (x : α)
    (h : x ∈ memcpy a b src len) : x ∈ a ∨ x ∈ b := by
  unfold memcpy at h
  rcases List.mem_append.1 h with h | h
  · exact Or.inr (List.mem_of_mem_drop (List.mem_of_mem_take h))
  · exact Or.inl (List.mem_of_mem_drop h)

theorem mem_memset {α : Type} (z : α) (a : List α) (dst len : Nat) (x : α)
    (h : x ∈ memset z a dst len) : x ∈ a ∨ x = z := by
  unfold memset at h
  rcases List.mem_append.1 h with h | h
  · exact Or.inl (List.mem_of_mem_take h)
  · rcases List.mem_append.1 h with h | h
    · exact Or.inr (List.eq_of_mem_replicate h)
    · exact Or.inl (List.mem_of_mem_drop h)

theorem length_memset {α : Type} (z : α) (a : List α) (dst len : Nat)
    (h : dst + len ≤ a.length) : (memset z a dst len).length = a.length := by
  unfold memset
  simp
  omega

theorem length_memcpy {α : Type} (a b : List α) (src len : Nat)
    (hb : src + len ≤ b.length) (ha : len ≤ a.length) : (memcpy a b src len).length = a.length := by
  unfold memcpy
  simp
  omega

theorem take_memset {α : Type} (z : α) (a : List α) (dst len : Nat) (h : dst ≤ a.length) :
    (memset z a dst len).take dst = a.take dst := by
  unfold memset
  rw [List.take_append_of_le_length (by rw [List.length_take]; omega), List.take_take,
    Nat.min_self]

theorem take_memcpy {α : Type} (a b : List α) (src len : Nat) (hb : src + len ≤ b.length) :
    (memcpy a b src len).take len = (b.drop src).take len := by
  unfold memcpy
  rw [List.take_append_of_le_length (by rw [List.length_take, List.length_drop]; omega),
    List.take_take, Nat.min_self]

theorem insert_into_left {α : Type} (a : List α) (j m : Nat) (x : α) (hj : j ≤ m) :
    ((a.take m).take j ++ x :: (a.take m).drop j) ++ a.drop m = a.take j ++ x :: a.drop j := by
  have h1 : (a.take m).take j = a.take j := by rw [List.take_take, Nat.min_eq_left hj]
  have h2 : (a.take m).drop j ++ a.drop m = a.drop j := by
    conv_rhs => rw [← List.take_append_drop m a]
    by_cases hm : m ≤ a.length
    · rw [List.drop_append_of_le_length (by rw [List.length_take]; omega)]
    · have e : a.take m = a := List.take_of_length_le (by omega)
      have e2 : a.drop m = [] := List.drop_of_length_le (by omega)
      rw [e, e2, List.append_nil, List.append_nil]
  rw [h1, List.append_assoc, List.cons_append, h2]

theorem insert_into_right {α : Type} (a : List α) (m i : Nat) (x : α) :
    a.take m ++ ((a.drop m).take i ++ x :: (a.drop m).drop i)
      = a.take (m + i) ++ x :: a.drop (m + i) := by
  rw [List.drop_drop, ← List.append_assoc]
  congr 1
  rw [List.take_add]

theorem take_one_append {α : Type} (l : List α) (n : Nat) :
    l.take 1 ++ (l.drop 1).take n = l.take (n + 1) := by
  cases l with
  | nil => simp
  | cons x t => simp [List.take_succ_cons]

/-- Keys after the split of a full non-leaf node whose new key goes to the left node. -/
theorem split_keys_left {α : Type} (ka nka : List α) (M mid j : Nat) (x z : α)
    (hka : ka.length = M) (hnka : nka.length = M) (hj : j < mid) (hmid : mid < M) :
    ((memmove (memset z ka mid (M - mid)) (j + 1) j (M - j - 1)).set j x).take (mid + 1) ++
      ((memcpy nka ka mid (M - mid)).take 1 ++
        ((memmove (memcpy nka ka mid (M - mid)) 0 1 (M - mid - 1)).set (M - mid - 1) z).take
          (M - mid - 1))
      = ka.take j ++ x :: ka.drop j := by
  have hs1 : (memset z ka mid (M - mid)).length = M := by
    rw [length_memset _ _ _ _ (by omega), hka]
  have hs2 : (memcpy nka ka mid (M - mid)).length = M := by
    rw [length_memcpy _ _ _ _ (by omega) (by omega), hnka]
  have hA : ((memmove (memset z ka mid (M - mid)) (j + 1) j (M - j - 1)).set j x).take (mid + 1)
      = (ka.take mid).take j ++ x :: (ka.take mid).drop j := by
    rw [memmove_insert_ge _ M j mid x (by rw [hs1]) (Nat.le_of_lt hj) hmid,
      take_memset _ _ _ _ (by omega)]
  have hB : (memcpy nka ka mid (M - mid)).take 1 ++
      ((memmove (memcpy nka ka mid (M - mid)) 0 1 (M - mid - 1)).set (M - mid - 1) z).take
        (M - mid - 1) = ka.drop mid := by
    rw [(memmove_delete_first _ (M - mid - 1) z (by rw [hs2]; omega)).1, take_one_append]
    have e : M - mid - 1 + 1 = M - mid := by omega
    rw [e, take_memcpy _ _ _ _ (by omega)]
    exact List.take_of_length_le (by rw [List.length_drop]; omega)
  rw [hA, hB]
  exact insert_into_left ka j mid x (Nat.le_of_lt hj)

/-- Children after the split of a full non-leaf node whose new key goes to the left
node. -/
theorem split_children_left {α : Type} (pa npa : List α) (M mid j : Nat) (x z : α)
    (hpa : pa.length = M + 1) (hnpa : npa.length = M + 1) (hj : j < mid) (hmid : mid < M) :
    ((memmove (memset z pa (mid + 1) (M - mid)) (j + 2) (j + 1) (M - j - 1)).set (j + 1) x).take
        (mid + 2) ++ (memcpy npa pa (mid + 1) (M - mid)).take (M - mid)
      = pa.take (j + 1) ++ x :: pa.drop (j + 1) := by
  have hs1 : (memset z pa (mid + 1) (M - mid)).length = M + 1 := by
    rw [length_memset _ _ _ _ (by omega), hpa]
  have e1 : M - j - 1 = (M + 1) - (j + 1) - 1 := by omega
  have hA : ((memmove (memset z pa (mid + 1) (M - mid)) (j + 2) (j + 1) (M - j - 1)).set (j + 1) x).take
      (mid + 2) = (pa.take (mid + 1)).take (j + 1) ++ x :: (pa.take (mid + 1)).drop (j + 1) := by
    rw [e1]
    have := memmove_insert_ge (memset z pa (mid + 1) (M - mid)) (M + 1) (j + 1) (mid + 1) x
      (by rw [hs1]) (by omega) (by omega)
    rw [take_memset _ _ _ _ (by omega)] at this
    exact this
  have hB : (memcpy npa pa (mid + 1) (M - mid)).take (M - mid) = pa.drop (mid + 1) := by
    rw [take_memcpy _ _ _ _ (by omega)]
    exact List.take_of_length_le (by rw [List.length_drop]; omega)
  rw [hA, hB]
  exact insert_into_left pa (j + 1) (mid + 1) x (by omega)

/-- Keys after the split of a full non-leaf node whose new key goes to the new node. -/
theorem split_keys_right {α : Type} (ka nka : List α) (M leftLen j : Nat) (x z : α)
    (hka : ka.length = M) (hnka : nka.length = M) (h1 : 1 ≤ leftLen) (hj : leftLen ≤ j)
    (hjM : j ≤ M) :
    (memset z ka leftLen (M - leftLen)).take leftLen ++
      (((memmove (memcpy nka ka leftLen (M - leftLen)) (j - leftLen + 1) (j - leftLen)
          (M - (j - leftLen) - 1)).set (j - leftLen) x).take 1 ++
        ((memmove ((memmove (memcpy nka ka leftLen (M - leftLen)) (j - leftLen + 1) (j - leftLen)
          (M - (j - leftLen) - 1)).set (j - leftLen) x) 0 1 (M - leftLen)).set (M - leftLen) z).take
            (M - leftLen))
      = ka.take j ++ x :: ka.drop j := by
  have hs2 : (memcpy nka ka leftLen (M - leftLen)).length = M := by
    rw [length_memcpy _ _ _ _ (by omega) (by omega), hnka]
  have hn2 : ((memmove (memcpy nka ka leftLen (M - leftLen)) (j - leftLen + 1) (j - leftLen)
      (M - (j - leftLen) - 1)).set (j - leftLen) x).length = M := by
    rw [length_memmove_set_ge _ M _ _ (by rw [hs2]) (by omega), hs2]
  have hC : (memcpy nka ka leftLen (M - leftLen)).take (M - leftLen) = ka.drop leftLen := by
    rw [take_memcpy _ _ _ _ (by omega)]
    exact List.take_of_length_le (by rw [List.length_drop]; omega)
  have hB : ((memmove (memcpy nka ka leftLen (M - leftLen)) (j - leftLen + 1) (j - leftLen)
          (M - (j - leftLen) - 1)).set (j - leftLen) x).take 1 ++
        ((memmove ((memmove (memcpy nka ka leftLen (M - leftLen)) (j - leftLen + 1) (j - leftLen)
          (M - (j - leftLen) - 1)).set (j - leftLen) x) 0 1 (M - leftLen)).set (M - leftLen) z).take
            (M - leftLen)
      = (ka.drop leftLen).take (j - leftLen) ++ x :: (ka.drop leftLen).drop (j - leftLen) := by
    rw [(memmove_delete_first _ (M - leftLen) z (by rw [hn2]; omega)).1, take_one_append,
      memmove_insert_ge _ M (j - leftLen) (M - leftLen) x (by rw [hs2]) (by omega) (by omega), hC]
  rw [take_memset _ _ _ _ (by omega), hB, insert_into_right]
  have : leftLen + (j - leftLen) = j := by omega
  rw [this]

/-- Children after the split of a full non-leaf node whose new key goes to the new
node. -/
theorem split_children_right {α : Type} (pa npa : List α) (M leftLen j : Nat) (x z : α)
    (hpa : pa.length = M + 1) (hnpa : npa.length = M + 1) (h1 : 1 ≤ leftLen)
    (hj : leftLen ≤ j) (hjM : j ≤ M) :
    (memset z pa (leftLen + 1) (M - leftLen)).take (leftLen + 1) ++
      ((memmove (memcpy npa pa (leftLen + 1) (M - leftLen)) (j - leftLen + 1) (j - leftLen)
          (M - (j - leftLen) - 1)).set (j - leftLen) x).take (M - leftLen + 1)
      = pa.take (j + 1) ++ x :: pa.drop (j + 1) := by
  have hs2 : (memcpy npa pa (leftLen + 1) (M - leftLen)).length = M + 1 := by
    rw [length_memcpy _ _ _ _ (by omega) (by omega), hnpa]
  have hC : (memcpy npa pa (leftLen + 1) (M - leftLen)).take (M - leftLen) = pa.drop (leftLen + 1) := by
    rw [take_memcpy _ _ _ _ (by omega)]
    exact List.take_of_length_le (by rw [List.length_drop]; omega)
  rw [take_memset _ _ _ _ (by omega),
    memmove_insert_ge _ M (j - leftLen) (M - leftLen) x (by rw [hs2]; omega) (by omega) (by omega),
    hC, insert_into_right]
  have : leftLen + 1 + (j - leftLen) = j + 1 := by omega
  rw [this]

/-! ## B+-tree index: the functions on non-leaf nodes as equations -/

theorem shaped_nonLeafAt (t : BTreeIndex) (p : FrameId) : (nonLeafAt t p).Shaped t.M :=
  NonLeafNodeInt.ofWords_shape t.M _

theorem setNonLeaf_shaped (t : BTreeIndex) (p : FrameId) (n : NonLeafNodeInt)
    (hp : p < t.bufMgr.bufPool.length) (hs : n.Shaped t.M) :
    nonLeafAt ({ t with bufMgr := t.bufMgr.putWords p n.words } : BTreeIndex) p = n ∧
    (∀ q, q ≠ p →
      nonLeafAt ({ t with bufMgr := t.bufMgr.putWords p n.words } : BTreeIndex) q = nonLeafAt t q) ∧
    (t.bufMgr.putWords p n.words).bufPool.length = t.bufMgr.bufPool.length :=
  (nonLeafAt_setNonLeaf t p n hp hs.1 hs.2.1 hs.2.2.1 hs.2.2.2.1 hs.2.2.2.2).2

theorem shaped_split (M : Nat) (Q N : NonLeafNodeInt) (leftLen : Nat) (hQ : Q.Shaped M)
    (hN : N.Shaped M) (hl : leftLen ≤ M) (hM : M < 2 ^ 31) :
    (NonLeafNodeInt.split M Q N leftLen).1.Shaped M ∧
    (NonLeafNodeInt.split M Q N leftLen).2.Shaped M := by
  obtain ⟨q1, q2, q3, q4, _⟩ := hQ
  obtain ⟨n1, n2, n3, _, _⟩ := hN
  refine ⟨⟨?_, ?_, ?_, q4, ?_⟩, ⟨?_, ?_, ?_, ?_, ?_⟩⟩
  · show (memset 0 Q.keyArray leftLen (M - leftLen)).length = M
    rw [length_memset _ _ _ _ (by omega), q1]
  · show (memset 0 Q.pageNoArray (leftLen + 1) (M - leftLen)).length = M + 1
    rw [length_memset _ _ _ _ (by omega), q2]
  · intro x hx
    rcases mem_memset _ _ _ _ _ hx with h | h
    · exact q3 x h
    · rw [h]
      constructor <;> norm_num
  · show -2 ^ 31 ≤ (leftLen : Int) ∧ (leftLen : Int) < 2 ^ 31
    omega
  · show (memcpy N.keyArray Q.keyArray leftLen (M - leftLen)).length = M
    rw [length_memcpy _ _ _ _ (by omega) (by omega), n1]
  · show (memcpy N.pageNoArray Q.pageNoArray (leftLen + 1) (M - leftLen)).length = M + 1
    rw [length_memcpy _ _ _ _ (by omega) (by omega), n2]
  · intro x hx
    rcases mem_memcpy _ _ _ _ _ hx with h | h
    · exact n3 x h
    · exact q3 x h
  · show -2 ^ 31 ≤ (if Q.level = 1 then (1 : Int) else 0) ∧ (if Q.level = 1 then (1 : Int) else 0) < 2 ^ 31
    split_ifs <;> constructor <;> norm_num
  · show -2 ^ 31 ≤ ((M - leftLen : Nat) : Int) ∧ ((M - leftLen : Nat) : Int) < 2 ^ 31
    omega

theorem shaped_insertAt (M : Nat) (n : NonLeafNodeInt) (i : Nat) (k : Int) (pg : PageId)
    (hn : n.Shaped M) (hi : i < M) (hk : -2 ^ 31 ≤ k ∧ k < 2 ^ 31)
    (hkn : -2 ^ 31 ≤ n.keyNum + 1 ∧ n.keyNum + 1 < 2 ^ 31) :
    (n.insertAt M i k pg).Shaped M := by
  obtain ⟨n1, n2, n3, n4, _⟩ := hn
  refine ⟨?_, ?_, ?_, n4, hkn⟩
  · show ((memmove n.keyArray (i + 1) i (M - i - 1)).set i k).length = M
    rw [length_memmove_set_ge _ M _ _ (by omega) hi, n1]
  · show ((memmove n.pageNoArray (i + 2) (i + 1) (M - i - 1)).set (i + 1) pg).length = M + 1
    have e1 : M - i - 1 = (M + 1) - (i + 1) - 1 := by omega
    rw [e1]
    rw [length_memmove_set_ge _ (M + 1) (i + 1) _ (by omega) (by omega), n2]
  · intro x hx
    rcases List.mem_or_eq_of_mem_set hx with h | h
    · exact n3 x (mem_memmove _ _ _ _ _ h)
    · rw [h]
      exact hk

theorem shaped_insertAtNew (M : Nat) (n : NonLeafNodeInt) (i : Nat) (k : Int) (pg : PageId)
    (hn : n.Shaped M) (hi : i < M) (hk : -2 ^ 31 ≤ k ∧ k < 2 ^ 31)
    (hkn : -2 ^ 31 ≤ n.keyNum + 1 ∧ n.keyNum + 1 < 2 ^ 31) :
    (n.insertAtNew M i k pg).Shaped M := by
  obtain ⟨n1, n2, n3, n4, _⟩ := hn
  refine ⟨?_, ?_, ?_, n4, hkn⟩
  · show ((memmove n.keyArray (i + 1) i (M - i - 1)).set i k).length = M
    rw [length_memmove_set_ge _ M _ _ (by omega) hi, n1]
  · show ((memmove n.pageNoArray (i + 1) i (M - i - 1)).set i pg).length = M + 1
    rw [length_memmove_set_ge _ M i _ (by omega) hi, n2]
  · intro x hx
    rcases List.mem_or_eq_of_mem_set hx with h | h
    · exact n3 x (mem_memmove _ _ _ _ _ h)
    · rw [h]
      exact hk

theorem shaped_deleteFirstKey (M : Nat) (n : NonLeafNodeInt) (hn : n.Shaped M)
    (h1 : 1 ≤ n.keyNum) (h2 : n.keyNum ≤ M) : n.deleteFirstKey.Shaped M := by
  obtain ⟨n1, n2, n3, n4, n5⟩ := hn
  refine ⟨?_, n2, ?_, n4, ?_⟩
  · show ((memmove n.keyArray 0 1 (n.keyNum - 1).toNat).set (n.keyNum - 1).toNat 0).length = M
    rw [(memmove_delete_first _ _ _ (by omega)).2, n1]
  · intro x hx
    rcases List.mem_or_eq_of_mem_set hx with h | h
    · exact n3 x (mem_memmove _ _ _ _ _ h)
    · rw [h]
      constructor <;> norm_num
  · show -2 ^ 31 ≤ n.keyNum - 1 ∧ n.keyNum - 1 < 2 ^ 31
    omega

theorem splitNonLeaf_eq (t : BTreeIndex) (p q : FrameId) (leftLen : Nat) (h : leftLen ≤ t.M) :
    splitNonLeaf p q leftLen t = (.ok (),
      { t with
        bufMgr := BufMgr.putWords
          (t.bufMgr.putWords p
            (NonLeafNodeInt.split t.M (nonLeafAt t p) (nonLeafAt t q) leftLen).1.words) q
          (NonLeafNodeInt.split t.M (nonLeafAt t p) (nonLeafAt t q) leftLen).2.words }) := by
  unfold splitNonLeaf
  have hc : ¬ (t.M < leftLen) := by omega
  simp only [bind_eq, readState, if_neg hc, getNonLeaf, setNonLeaf, modifyState]

theorem insertToNonLeaf_eq (t : BTreeIndex) (p : FrameId) (i : Nat) (k : Int) (pg : PageId)
    (hi : i < t.M) :
    insertToNonLeaf p (i : Int) k pg t = (.ok (),
      { t with bufMgr := t.bufMgr.putWords p ((nonLeafAt t p).insertAt t.M i k pg).words
               nodeOccupancy := t.nodeOccupancy + 1 }) := by
  unfold insertToNonLeaf
  have hc : ¬ ((i : Int) < 0 ∨ (t.M : Int) ≤ (i : Int)) := by omega
  simp only [bind_eq, readState, if_neg hc, getNonLeaf, setNonLeaf, modifyState, Int.toNat_ofNat]

theorem insertToNewNonLeaf_eq (t : BTreeIndex) (p : FrameId) (i : Nat) (k : Int) (pg : PageId)
    (hi : i < t.M) :
    insertToNewNonLeaf p (i : Int) k pg t = (.ok (),
      { t with bufMgr := t.bufMgr.putWords p ((nonLeafAt t p).insertAtNew t.M i k pg).words
               nodeOccupancy := t.nodeOccupancy + 1 }) := by
  unfold insertToNewNonLeaf
  have hc : ¬ ((i : Int) < 0 ∨ (t.M : Int) ≤ (i : Int)) := by omega
  simp only [bind_eq, readState, if_neg hc, getNonLeaf, setNonLeaf, modifyState, Int.toNat_ofNat]

theorem deleteNewKeyNonLeaf_eq (t : BTreeIndex) (p : FrameId) (key : Int)
    (h1 : 1 ≤ (nonLeafAt t p).keyNum) (h2 : (nonLeafAt t p).keyNum ≤ t.M)
    (hk : (nonLeafAt t p).keyArray[0]? = some key) :
    deleteNewKeyNonLeaf p t = (.ok key,
      { t with bufMgr := t.bufMgr.putWords p (nonLeafAt t p).deleteFirstKey.words
               nodeOccupancy := t.nodeOccupancy - 1 }) := by
  unfold deleteNewKeyNonLeaf
  have hlen : (nonLeafAt t p).keyArray.length = t.M := (shaped_nonLeafAt t p).1
  have hc : ¬ ((nonLeafAt t p).keyNum - 1 < 0 ∨
      ((nonLeafAt t p).keyArray.length : Int) ≤ (nonLeafAt t p).keyNum - 1) := by
    rw [hlen]
    omega
  have hg : arrayGet (nonLeafAt t p).keyArray 0 = IndexM.pure key := by
    unfold arrayGet
    have : (if (0 : Int) ≤ 0 then (nonLeafAt t p).keyArray.get? (0 : Int).toNat else none) = some key := by
      rw [if_pos (le_refl _)]
      simpa using hk
    rw [this]
  simp only [bind_eq, getNonLeaf, modifyState, hg, IndexM.pure, if_neg hc, setNonLeaf]
  rfl

theorem nonLeafAt_put (t t1 : BTreeIndex) (p : FrameId) (n : NonLeafNodeInt)
    (hM : t1.M = t.M) (hb : t1.bufMgr = t.bufMgr.putWords p n.words)
    (hp : p < t.bufMgr.bufPool.length) (hs : n.Shaped t.M) :
    nonLeafAt t1 p = n ∧ (∀ q, q ≠ p → nonLeafAt t1 q = nonLeafAt t q) ∧
    t1.bufMgr.bufPool.length = t.bufMgr.bufPool.length := by
  obtain ⟨a, b, c⟩ := setNonLeaf_shaped t p n hp hs
  unfold nonLeafAt at a b ⊢
  rw [hM, hb]
  exact ⟨a, b, c⟩

/-- The split of a full non-leaf node when the incoming key goes to the left node. -/
theorem splitAndInsertNonLeaf_left (t : BTreeIndex) (p q : FrameId) (hpq : p ≠ q)
    (hp : p < t.bufMgr.bufPool.length) (hq : q < t.bufMgr.bufPool.length)
    (hM31 : t.M < 2 ^ 31) (hfull : (nonLeafAt t p).keyNum = t.M)
    (j : Nat) (hj : j < t.M / 2) (k : Int) (hk : -2 ^ 31 ≤ k ∧ k < 2 ^ 31) (pg : PageId) :
    ∃ promoted t2, splitAndInsertNonLeaf p q (j : Int) k pg t = (.ok promoted, t2) ∧
      nonLeafAt t2 p = ((NonLeafNodeInt.split t.M (nonLeafAt t p) (nonLeafAt t q) (t.M / 2)).1).insertAt
        t.M j k pg ∧
      nonLeafAt t2 q = ((NonLeafNodeInt.split t.M (nonLeafAt t p) (nonLeafAt t q) (t.M / 2)).2).deleteFirstKey ∧
      (NonLeafNodeInt.split t.M (nonLeafAt t p) (nonLeafAt t q) (t.M / 2)).2.keyArray[0]? = some promoted ∧
      t2.M = t.M := by
  have hmid : t.M / 2 < t.M := by omega
  have hQ := shaped_nonLeafAt t p
  have hN := shaped_nonLeafAt t q
  obtain ⟨hS1, hS2⟩ := shaped_split t.M _ _ (t.M / 2) hQ hN (Nat.le_of_lt hmid) hM31
  generalize hSd : NonLeafNodeInt.split t.M (nonLeafAt t p) (nonLeafAt t q) (t.M / 2) = S at hS1 hS2
  have hS1k : S.1.keyNum = ((t.M / 2 : Nat) : Int) := by rw [← hSd]; rfl
  have hS2k : S.2.keyNum = ((t.M - t.M / 2 : Nat) : Int) := by rw [← hSd]; rfl
  have hS2a : S.2.keyArray = memcpy (nonLeafAt t q).keyArray (nonLeafAt t p).keyArray (t.M / 2)
      (t.M - t.M / 2) := by rw [← hSd]; rfl
  -- the promoted key
  have hprom : ∃ promoted, S.2.keyArray[0]? = some promoted := by
    have : 0 < S.2.keyArray.length := by rw [hS2.1]; omega
    exact ⟨S.2.keyArray[0], by simp [this]⟩
  obtain ⟨promoted, hpromo⟩ := hprom
  -- step 1: splitNonLeaf
  have e1 := splitNonLeaf_eq t p q (t.M / 2) (Nat.le_of_lt hmid)
  rw [hSd] at e1
  obtain ⟨ta, hta⟩ : ∃ ta : BTreeIndex, ta = { t with bufMgr := t.bufMgr.putWords p S.1.words } :=
    ⟨_, rfl⟩
  obtain ⟨a1, a2, a3⟩ := nonLeafAt_put t ta p S.1 (by rw [hta]) (by rw [hta]) hp hS1
  obtain ⟨t1, ht1⟩ : ∃ t1 : BTreeIndex, t1 = { ta with bufMgr := ta.bufMgr.putWords q S.2.words } :=
    ⟨_, rfl⟩
  have hMa : ta.M = t.M := by rw [hta]
  obtain ⟨b1, b2, b3⟩ := nonLeafAt_put ta t1 q S.2 (by rw [ht1]) (by rw [ht1])
    (by rw [a3]; exact hq) (by rw [hMa]; exact hS2)
  have hM1 : t1.M = t.M := by rw [ht1, hta]
  have e1' : splitNonLeaf p q (t.M / 2) t = (.ok (), t1) := by rw [e1, ht1, hta]
  have c1 : nonLeafAt t1 p = S.1 := by rw [b2 p hpq, a1]
  -- step 2: insertToNonLeaf
  have e2 := insertToNonLeaf_eq t1 p j k pg (by rw [hM1]; omega)
  have hQ2 : (S.1.insertAt t.M j k pg).Shaped t.M :=
    shaped_insertAt t.M S.1 j k pg hS1 (by omega) hk (by rw [hS1k]; omega)
  obtain ⟨t2, ht2⟩ : ∃ t2 : BTreeIndex, t2 = { t1 with
      bufMgr := t1.bufMgr.putWords p ((nonLeafAt t1 p).insertAt t1.M j k pg).words
      nodeOccupancy := t1.nodeOccupancy + 1 } := ⟨_, rfl⟩
  rw [← ht2] at e2
  obtain ⟨d1, d2, d3⟩ := nonLeafAt_put t1 t2 p (S.1.insertAt t.M j k pg) (by rw [ht2])
    (by rw [ht2]; show t1.bufMgr.putWords p _ = _; rw [c1, hM1])
    (by rw [b3, a3]; exact hp) (by rw [hM1]; exact hQ2)
  have hM2 : t2.M = t.M := by rw [ht2]; exact hM1
  have c2 : nonLeafAt t2 q = S.2 := by rw [d2 q (Ne.symm hpq), b1]
  -- step 3: the assertion and deleteNewKeyNonLeaf
  have e3 := deleteNewKeyNonLeaf_eq t2 q promoted (by rw [c2, hS2k]; omega)
    (by rw [c2, hS2k, hM2]; omega) (by rw [c2]; exact hpromo)
  obtain ⟨t3, ht3⟩ : ∃ t3 : BTreeIndex, t3 = { t2 with
      bufMgr := t2.bufMgr.putWords q (nonLeafAt t2 q).deleteFirstKey.words
      nodeOccupancy := t2.nodeOccupancy - 1 } := ⟨_, rfl⟩
  rw [← ht3] at e3
  obtain ⟨f1, f2, _⟩ := nonLeafAt_put t2 t3 q S.2.deleteFirstKey (by rw [ht3])
    (by rw [ht3]; show t2.bufMgr.putWords q _ = _; rw [c2])
    (by rw [d3, b3, a3]; exact hq)
    (by rw [hM2]; exact shaped_deleteFirstKey t.M S.2 hS2 (by rw [hS2k]; omega) (by rw [hS2k]; omega))
  refine ⟨promoted, t3, ?_, by rw [f2 p hpq, d1], f1, hpromo, by rw [ht3]; exact hM2⟩
  unfold splitAndInsertNonLeaf
  have hd : decide ((j : Int) < ((t.M / 2 : Nat) : Int)) = true := by
    rw [decide_eq_true_iff]
    omega
  simp only [bind_eq, readState, hd, if_true, Nat.add_zero, e1', e2, getNonLeaf, d1, c2]
  have hasrt : decide ((S.1.insertAt t.M j k pg).keyNum - S.2.keyNum ≤ 1 ∧
      (S.1.insertAt t.M j k pg).keyNum - S.2.keyNum ≥ -1) = true := by
    rw [decide_eq_true_iff]
    have : (S.1.insertAt t.M j k pg).keyNum = S.1.keyNum + 1 := rfl
    rw [this, hS1k, hS2k]
    omega
  rw [hasrt, assert_true]
  simp only [e3]

/-- The split of a full non-leaf node when the incoming key goes to the new node. -/
theorem splitAndInsertNonLeaf_right (t : BTreeIndex) (p q : FrameId) (hpq : p ≠ q)
    (hp : p < t.bufMgr.bufPool.length) (hq : q < t.bufMgr.bufPool.length)
    (hM31 : t.M < 2 ^ 31) (hfull : (nonLeafAt t p).keyNum = t.M)
    (j : Nat) (hj : t.M / 2 < j) (hjM : j ≤ t.M) (k : Int) (hk : -2 ^ 31 ≤ k ∧ k < 2 ^ 31)
    (pg : PageId) :
    ∃ promoted t2, splitAndInsertNonLeaf p q (j : Int) k pg t = (.ok promoted, t2) ∧
      nonLeafAt t2 p = (NonLeafNodeInt.split t.M (nonLeafAt t p) (nonLeafAt t q) (t.M / 2 + 1)).1 ∧
      nonLeafAt t2 q =
        (((NonLeafNodeInt.split t.M (nonLeafAt t p) (nonLeafAt t q) (t.M / 2 + 1)).2).insertAtNew
          t.M (j - (t.M / 2 + 1)) k pg).deleteFirstKey ∧
      (((NonLeafNodeInt.split t.M (nonLeafAt t p) (nonLeafAt t q) (t.M / 2 + 1)).2).insertAtNew
          t.M (j - (t.M / 2 + 1)) k pg).keyArray[0]? = some promoted ∧
      t2.M = t.M := by
  have hle : t.M / 2 + 1 ≤ t.M := by omega
  have hQ := shaped_nonLeafAt t p
  have hN := shaped_nonLeafAt t q
  obtain ⟨hS1, hS2⟩ := shaped_split t.M _ _ (t.M / 2 + 1) hQ hN hle hM31
  generalize hSd : NonLeafNodeInt.split t.M (nonLeafAt t p) (nonLeafAt t q) (t.M / 2 + 1) = S
    at hS1 hS2
  have hS1k : S.1.keyNum = ((t.M / 2 + 1 : Nat) : Int) := by rw [← hSd]; rfl
  have hS2k : S.2.keyNum = ((t.M - (t.M / 2 + 1) : Nat) : Int) := by rw [← hSd]; rfl
  have hiM : j - (t.M / 2 + 1) < t.M := by omega
  have hN2 : (S.2.insertAtNew t.M (j - (t.M / 2 + 1)) k pg).Shaped t.M :=
    shaped_insertAtNew t.M S.2 _ k pg hS2 hiM hk (by rw [hS2k]; omega)
  have hN2k : (S.2.insertAtNew t.M (j - (t.M / 2 + 1)) k pg).keyNum = S.2.keyNum + 1 := rfl
  -- the promoted key
  have hprom : ∃ promoted, (S.2.insertAtNew t.M (j - (t.M / 2 + 1)) k pg).keyArray[0]?
      = some promoted := by
    have : 0 < (S.2.insertAtNew t.M (j - (t.M / 2 + 1)) k pg).keyArray.length := by
      rw [hN2.1]
      omega
    exact ⟨(S.2.insertAtNew t.M (j - (t.M / 2 + 1)) k pg).keyArray[0], by simp [this]⟩
  obtain ⟨promoted, hpromo⟩ := hprom
  -- step 1: splitNonLeaf
  have e1 := splitNonLeaf_eq t p q (t.M / 2 + 1) hle
  rw [hSd] at e1
  obtain ⟨ta, hta⟩ : ∃ ta : BTreeIndex, ta = { t with bufMgr := t.bufMgr.putWords p S.1.words } :=
    ⟨_, rfl⟩
  obtain ⟨a1, a2, a3⟩ := nonLeafAt_put t ta p S.1 (by rw [hta]) (by rw [hta]) hp hS1
  obtain ⟨t1, ht1⟩ : ∃ t1 : BTreeIndex, t1 = { ta with bufMgr := ta.bufMgr.putWords q S.2.words } :=
    ⟨_, rfl⟩
  have hMa : ta.M = t.M := by rw [hta]
  obtain ⟨b1, b2, b3⟩ := nonLeafAt_put ta t1 q S.2 (by rw [ht1]) (by rw [ht1])
    (by rw [a3]; exact hq) (by rw [hMa]; exact hS2)
  have hM1 : t1.M = t.M := by rw [ht1, hta]
  have e1' : splitNonLeaf p q (t.M / 2 + 1) t = (.ok (), t1) := by rw [e1, ht1, hta]
  have c1 : nonLeafAt t1 p = S.1 := by rw [b2 p hpq, a1]
  -- step 2: insertToNewNonLeaf
  have e2 := insertToNewNonLeaf_eq t1 q (j - (t.M / 2 + 1)) k pg (by rw [hM1]; exact hiM)
  obtain ⟨t2, ht2⟩ : ∃ t2 : BTreeIndex, t2 = { t1 with
      bufMgr := t1.bufMgr.putWords q
        ((nonLeafAt t1 q).insertAtNew t1.M (j - (t.M / 2 + 1)) k pg).words
      nodeOccupancy := t1.nodeOccupancy + 1 } := ⟨_, rfl⟩
  rw [← ht2] at e2
  obtain ⟨d1, d2, d3⟩ := nonLeafAt_put t1 t2 q (S.2.insertAtNew t.M (j - (t.M / 2 + 1)) k pg)
    (by rw [ht2]) (by rw [ht2]; show t1.bufMgr.putWords q _ = _; rw [b1, hM1])
    (by rw [b3, a3]; exact hq) (by rw [hM1]; exact hN2)
  have hM2 : t2.M = t.M := by rw [ht2]; exact hM1
  have c2 : nonLeafAt t2 p = S.1 := by rw [d2 p hpq, c1]
  -- step 3: the assertion and deleteNewKeyNonLeaf
  have e3 := deleteNewKeyNonLeaf_eq t2 q promoted (by rw [d1, hN2k, hS2k]; omega)
    (by rw [d1, hN2k, hS2k, hM2]; omega) (by rw [d1]; exact hpromo)
  obtain ⟨t3, ht3⟩ : ∃ t3 : BTreeIndex, t3 = { t2 with
      bufMgr := t2.bufMgr.putWords q (nonLeafAt t2 q).deleteFirstKey.words
      nodeOccupancy := t2.nodeOccupancy - 1 } := ⟨_, rfl⟩
  rw [← ht3] at e3
  have hN3 : (S.2.insertAtNew t.M (j - (t.M / 2 + 1)) k pg).deleteFirstKey.Shaped t2.M := by
    rw [hM2]
    apply shaped_deleteFirstKey t.M _ hN2
    · rw [hN2k, hS2k]
      omega
    · rw [hN2k, hS2k]
      omega
  obtain ⟨f1, f2, _⟩ := nonLeafAt_put t2 t3 q
    (S.2.insertAtNew t.M (j - (t.M / 2 + 1)) k pg).deleteFirstKey (by rw [ht3])
    (by rw [ht3]; show t2.bufMgr.putWords q _ = _; rw [d1])
    (by rw [d3, b3, a3]; exact hq) hN3
  refine ⟨promoted, t3, ?_, by rw [f2 p hpq, c2], f1, hpromo, by rw [ht3]; exact hM2⟩
  unfold splitAndInsertNonLeaf
  have hd : decide ((j : Int) < ((t.M / 2 : Nat) : Int)) = false := by
    rw [decide_eq_false_iff_not]
    omega
  have hidx : (j : Int) - ((t.M / 2 + 1 : Nat) : Int) = ((j - (t.M / 2 + 1) : Nat) : Int) := by
    omega
  simp only [bind_eq, readState, hd, Bool.false_eq_true, if_false, e1', hidx, e2, getNonLeaf, d1, c2]
  have hasrt : decide (S.1.keyNum - (S.2.insertAtNew t.M (j - (t.M / 2 + 1)) k pg).keyNum ≤ 1 ∧
      S.1.keyNum - (S.2.insertAtNew t.M (j - (t.M / 2 + 1)) k pg).keyNum ≥ -1) = true := by
    rw [decide_eq_true_iff, hN2k, hS1k, hS2k]
    omega
  rw [hasrt, assert_true]
  simp only [e3]

theorem take_one_of_head {α : Type} (l : List α) (x : α) (h : l[0]? = some x) : l.take 1 = [x] := by
  cases l with
  | nil => simp at h
  | cons y t =>
    simp only [List.getElem?_cons_zero, Option.some.injEq] at h
    subst h
    simp

/-- C28. Split of a full non-leaf node.  The node Q behind the pointer p is full (keyNum =
M, 2 <= M < 2^31) with level 0 or 1, q points to another node (the one just allocated),
and the incoming (key, page id) has an insertion index j in [0, M] other than M / 2;
key is a 32-bit value.  The statements of recursiveInsert from splitNonLeaf to
deleteNewKeyNonLeaf then return a promoted key, and afterwards: the keys of Q, then the
promoted key, then the keys of the new node Q' are the old keys with the key inserted
at j; the children of Q followed by those of Q' are the old M + 1 children with the
page id inserted at position j + 1; each node has keyNum + 1 children and together
they have M keys; both nodes have the level of Q. -/
theorem nonleaf_split_keeps_entries (t : BTreeIndex) (p q : FrameId) (hpq : p ≠ q)
    (hp : p < t.bufMgr.bufPool.length) (hq : q < t.bufMgr.bufPool.length)
    (hM : 2 ≤ t.M) (hM31 : t.M < 2 ^ 31)
    (Q : NonLeafNodeInt) (hQ : Q = nonLeafAt t p) (hfull : Q.keyNum = t.M)
    (hlev : Q.level = 0 ∨ Q.level = 1)
    (j : Nat) (hj : j ≤ t.M) (hjm : j ≠ t.M / 2) (k : Int) (hk : -2 ^ 31 ≤ k ∧ k < 2 ^ 31)
    (pg : PageId) (t2 : BTreeIndex) (ht2 : t2 = (splitAndInsertNonLeaf p q (j : Int) k pg t).2) :
    ∃ promoted, (splitAndInsertNonLeaf p q (j : Int) k pg t).1 = .ok promoted ∧
      (nonLeafAt t2 p).keys ++ promoted :: (nonLeafAt t2 q).keys
        = Q.keys.take j ++ k :: Q.keys.drop j ∧
      (nonLeafAt t2 p).children ++ (nonLeafAt t2 q).children
        = Q.children.take (j + 1) ++ pg :: Q.children.drop (j + 1) ∧
      (nonLeafAt t2 p).children.length = (nonLeafAt t2 p).keyNum.toNat + 1 ∧
      (nonLeafAt t2 q).children.length = (nonLeafAt t2 q).keyNum.toNat + 1 ∧
      (nonLeafAt t2 p).keyNum + (nonLeafAt t2 q).keyNum = t.M ∧
      0 ≤ (nonLeafAt t2 q).keyNum ∧
      (nonLeafAt t2 p).level = Q.level ∧ (nonLeafAt t2 q).level = Q.level := by
  have hsQ := shaped_nonLeafAt t p
  have hsN := shaped_nonLeafAt t q
  rw [← hQ] at hsQ
  have hkeys : Q.keys = Q.keyArray := by
    unfold NonLeafNodeInt.keys
    rw [hfull]
    exact List.take_of_length_le (by rw [hsQ.1]; simp)
  have hchildren : Q.children = Q.pageNoArray := by
    unfold NonLeafNodeInt.children
    rw [hfull]
    exact List.take_of_length_le (by rw [hsQ.2.1]; simp)
  rw [hkeys, hchildren]
  have hlevel : (if Q.level = 1 then (1 : Int) else 0) = Q.level := by
    rcases hlev with h | h <;> rw [h] <;> simp
  by_cases hlt : j < t.M / 2
  · obtain ⟨promoted, t3, e, hp3, hq3, hprom, hM2⟩ := splitAndInsertNonLeaf_left t p q hpq hp hq
      hM31 (by rw [← hQ]; exact hfull) j hlt k hk pg
    rw [← hQ] at hp3 hq3 hprom
    rw [e] at ht2
    simp only at ht2
    subst ht2
    have hmid : t.M / 2 < t.M := by omega
    have kp : (nonLeafAt t2 p).keyNum = ((t.M / 2 : Nat) : Int) + 1 := by rw [hp3]; rfl
    have kq : (nonLeafAt t2 q).keyNum = ((t.M - t.M / 2 : Nat) : Int) - 1 := by rw [hq3]; rfl
    have kpn : (nonLeafAt t2 p).keyNum.toNat = t.M / 2 + 1 := by rw [kp]; omega
    have kqn : (nonLeafAt t2 q).keyNum.toNat = t.M - t.M / 2 - 1 := by rw [kq]; omega
    have hlp := (shaped_nonLeafAt t2 p).2.1
    have hlq := (shaped_nonLeafAt t2 q).2.1
    rw [hM2] at hlp hlq
    refine ⟨promoted, by rw [e], ?_, ?_, ?_, ?_, ?_, ?_, ?_, ?_⟩
    · unfold NonLeafNodeInt.keys
      rw [kpn, kqn, hp3, hq3]
      have h1 := take_one_of_head _ _ hprom
      show ((memmove (memset 0 Q.keyArray (t.M / 2) (t.M - t.M / 2)) (j + 1) j (t.M - j - 1)).set j k).take
          (t.M / 2 + 1) ++ promoted ::
          ((memmove (memcpy (nonLeafAt t q).keyArray Q.keyArray (t.M / 2) (t.M - t.M / 2)) 0 1
            (((t.M - t.M / 2 : Nat) : Int) - 1).toNat).set (((t.M - t.M / 2 : Nat) : Int) - 1).toNat
              0).take (t.M - t.M / 2 - 1) = _
      have e2 : (((t.M - t.M / 2 : Nat) : Int) - 1).toNat = t.M - t.M / 2 - 1 := by omega
      rw [e2]
      have := split_keys_left Q.keyArray (nonLeafAt t q).keyArray t.M (t.M / 2) j k 0 hsQ.1 hsN.1
        hlt hmid
      rw [← this]
      congr 1
      have h1' : (memcpy (nonLeafAt t q).keyArray Q.keyArray (t.M / 2) (t.M - t.M / 2)).take 1
          = [promoted] := h1
      rw [h1']
      rfl
    · unfold NonLeafNodeInt.children
      rw [kpn, kqn, hp3, hq3]
      show ((memmove (memset 0 Q.pageNoArray (t.M / 2 + 1) (t.M - t.M / 2)) (j + 2) (j + 1)
          (t.M - j - 1)).set (j + 1) pg).take (t.M / 2 + 1 + 1) ++
          (memcpy (nonLeafAt t q).pageNoArray Q.pageNoArray (t.M / 2 + 1) (t.M - t.M / 2)).take
            (t.M - t.M / 2 - 1 + 1) = _
      have e2 : t.M - t.M / 2 - 1 + 1 = t.M - t.M / 2 := by omega
      rw [e2]
      exact split_children_left Q.pageNoArray (nonLeafAt t q).pageNoArray t.M (t.M / 2) j pg 0
        hsQ.2.1 hsN.2.1 hlt hmid
    · unfold NonLeafNodeInt.children
      rw [List.length_take, hlp, kpn]
      omega
    · unfold NonLeafNodeInt.children
      rw [List.length_take, hlq, kqn]
      omega
    · rw [kp, kq]
      omega
    · rw [kq]
      omega
    · rw [hp3]
      rfl
    · rw [hq3]
      exact hlevel
  · have hgt : t.M / 2 < j := by omega
    obtain ⟨promoted, t3, e, hp3, hq3, hprom, hM2⟩ := splitAndInsertNonLeaf_right t p q hpq hp hq
      hM31 (by rw [← hQ]; exact hfull) j hgt hj k hk pg
    rw [← hQ] at hp3 hq3 hprom
    rw [e] at ht2
    simp only at ht2
    subst ht2
    have kp : (nonLeafAt t2 p).keyNum = ((t.M / 2 + 1 : Nat) : Int) := by rw [hp3]; rfl
    have kq : (nonLeafAt t2 q).keyNum = ((t.M - (t.M / 2 + 1) : Nat) : Int) + 1 - 1 := by
      rw [hq3]
      rfl
    have kpn : (nonLeafAt t2 p).keyNum.toNat = t.M / 2 + 1 := by rw [kp]; omega
    have kqn : (nonLeafAt t2 q).keyNum.toNat = t.M - (t.M / 2 + 1) := by rw [kq]; omega
    have hlp := (shaped_nonLeafAt t2 p).2.1
    have hlq := (shaped_nonLeafAt t2 q).2.1
    rw [hM2] at hlp hlq
    refine ⟨promoted, by rw [e], ?_, ?_, ?_, ?_, ?_, ?_, ?_, ?_⟩
    · unfold NonLeafNodeInt.keys
      rw [kpn, kqn, hp3, hq3]
      have h1 := take_one_of_head _ _ hprom
      show (memset 0 Q.keyArray (t.M / 2 + 1) (t.M - (t.M / 2 + 1))).take (t.M / 2 + 1) ++
          promoted ::
          ((memmove ((memmove (memcpy (nonLeafAt t q).keyArray Q.keyArray (t.M / 2 + 1)
              (t.M - (t.M / 2 + 1))) (j - (t.M / 2 + 1) + 1) (j - (t.M / 2 + 1))
              (t.M - (j - (t.M / 2 + 1)) - 1)).set (j - (t.M / 2 + 1)) k) 0 1
            (((t.M - (t.M / 2 + 1) : Nat) : Int) + 1 - 1).toNat).set
              (((t.M - (t.M / 2 + 1) : Nat) : Int) + 1 - 1).toNat 0).take (t.M - (t.M / 2 + 1)) = _
      have e2 : (((t.M - (t.M / 2 + 1) : Nat) : Int) + 1 - 1).toNat = t.M - (t.M / 2 + 1) := by
        omega
      rw [e2]
      have := split_keys_right Q.keyArray (nonLeafAt t q).keyArray t.M (t.M / 2 + 1) j k 0 hsQ.1
        hsN.1 (by omega) (by omega) hj
      rw [← this]
      congr 1
      have h1' : ((memmove (memcpy (nonLeafAt t q).keyArray Q.keyArray (t.M / 2 + 1)
          (t.M - (t.M / 2 + 1))) (j - (t.M / 2 + 1) + 1) (j - (t.M / 2 + 1))
          (t.M - (j - (t.M / 2 + 1)) - 1)).set (j - (t.M / 2 + 1)) k).take 1 = [promoted] := h1
      rw [h1']
      rfl
    · unfold NonLeafNodeInt.children
      rw [kpn, kqn, hp3, hq3]
      show (memset 0 Q.pageNoArray (t.M / 2 + 1 + 1) (t.M - (t.M / 2 + 1))).take (t.M / 2 + 1 + 1) ++
          ((memmove (memcpy (nonLeafAt t q).pageNoArray Q.pageNoArray (t.M / 2 + 1 + 1)
              (t.M - (t.M / 2 + 1))) (j - (t.M / 2 + 1) + 1) (j - (t.M / 2 + 1))
              (t.M - (j - (t.M / 2 + 1)) - 1)).set (j - (t.M / 2 + 1)) pg).take
            (t.M - (t.M / 2 + 1) + 1) = _
      exact split_children_right Q.pageNoArray (nonLeafAt t q).pageNoArray t.M (t.M / 2 + 1) j pg 0
        hsQ.2.1 hsN.2.1 (by omega) (by omega) hj
    · unfold NonLeafNodeInt.children
      rw [List.length_take, hlp, kpn]
      omega
    · unfold NonLeafNodeInt.children
      rw [List.length_take, hlq, kqn]
      omega
    · rw [kp, kq]
      omega
    · rw [kq]
      omega
    · rw [hp3]
      rfl
    · rw [hq3]
      exact hlevel


theorem nonleaf_split_keeps_entries_witness :
    (∃ promoted, (splitAndInsertNonLeaf 3 9 ((4 : Nat) : Int) 150 99
      (builtIndex middleKeys).2).1 = .ok promoted) ∧
    (nonLeafAt (builtIndex middleKeys).2 3).keys = [40, 70, 100, 130] ∧
    (splitAndInsertNonLeaf 3 9 ((4 : Nat) : Int) 150 99 (builtIndex middleKeys).2).1 = .ok 130 ∧
    (nonLeafAt (splitAndInsertNonLeaf 3 9 ((4 : Nat) : Int) 150 99
      (builtIndex middleKeys).2).2 3).keys = [40, 70, 100] ∧
    (nonLeafAt (splitAndInsertNonLeaf 3 9 ((4 : Nat) : Int) 150 99
      (builtIndex middleKeys).2).2 9).keys = [150] :=
  ⟨(nonleaf_split_keeps_entries (builtIndex middleKeys).2 3 9 (by decide) (by decide!)
      (by decide!) (by decide!) (by decide!) _ rfl (by decide!) (by decide!) 4 (by decide!)
      (by decide!) 150 ⟨by decide, by decide⟩ 99 _ rfl).imp (fun _ h => h.1),
    by decide!, by decide!, by decide!, by decide!⟩

theorem BufMgr.WF.same_page {s : BufMgr} (_w : s.WF) {i : FrameId} {f g : FileId}
    {p q : PageId} (h1 : s.holds i f p) (h2 : s.holds i g q) : (g, q) = (f, p) := by
  have a := h1.2.2.1
  have b := h2.2.2.1
  rw [a] at b
  have c := h1.2.2.2
  have d := h2.2.2.2
  rw [c] at d
  rw [Option.some.inj b, d]

theorem pinOf_allocResult {s s1 : BufMgr} {r : Except Exn (Option FrameId)}
    (h : AllocResult s r s1) (w : s.WF) (hN : 0 < s.numBufs) (g : FileId) (q : PageId) :
    pinOf s1 g q = pinOf s g q := by
  obtain ⟨_, hfr, _⟩ := h.frames
  have hpin : ∀ j, r ≠ .ok (some j) → (s1.desc j).pinCnt = (s.desc j).pinCnt := by
    intro j hj
    rcases hfr j hj with e | e <;> rw [e]
  rcases h.effect w hN with ⟨hht, _, hinv⟩ | ⟨i, f, p, hr, hh, hp, hht, _⟩
  · unfold pinOf
    rw [hht]
    cases hl : amLookup s.hashTable (g, q) with
    | none => rfl
    | some j =>
      simp only
      apply hpin
      intro hrj
      have hv := hinv j hrj
      have hj := (w.resident g q j).1 hl
      rw [hj.2.1] at hv
      cases hv
  · unfold pinOf
    rw [hht, amLookup_remove]
    by_cases hk : (g, q) = (f, p)
    · rw [if_pos hk]
      have hl := (w.resident f p i).2 hh
      rw [hk, hl]
      exact hp.symm
    · rw [if_neg hk]
      cases hl : amLookup s.hashTable (g, q) with
      | none => rfl
      | some j =>
        simp only
        apply hpin
        intro hrj
        rw [hr] at hrj
        have hji : i = j := Option.some.inj (Except.ok.inj hrj)
        subst hji
        exact hk (w.same_page hh ((w.resident g q i).1 hl))

theorem pinOf_countAccess (s : BufMgr) (g : FileId) (q : PageId) :
    pinOf s.countAccess g q = pinOf s g q := rfl

theorem pinOf_countRead (s : BufMgr) (g : FileId) (q : PageId) :
    pinOf s.countRead g q = pinOf s g q := rfl

/-- Pin counts after a frame that is not valid has been bound to page (f, p). -/
theorem pinOf_install {s : BufMgr} (w : s.WF) {i : FrameId} (hi : i < s.numBufs)
    (hv : (s.desc i).valid = false) (f : FileId) (p : PageId) (pg : Page)
    (hl : amLookup s.hashTable (f, p) = none) (g : FileId) (q : PageId) :
    pinOf (s.install i f p pg) g q = pinOf s g q + (if (g, q) = (f, p) then 1 else 0) := by
  have hlen : i < s.bufDescTable.length := by rw [w.descLen]; exact hi
  have hht : (s.install i f p pg).hashTable = amInsert s.hashTable (f, p) i := rfl
  unfold pinOf
  rw [hht, amLookup_insert]
  by_cases hk : (g, q) = (f, p)
  · rw [if_pos hk, if_pos hk, hk, hl]
    simp only
    unfold BufMgr.install
    simp only [desc_setDesc, true_and]
    have : i < (BufMgr.setPage s i pg).bufDescTable.length := hlen
    rw [if_pos this]
    rfl
  · rw [if_neg hk, if_neg hk]
    cases hl2 : amLookup s.hashTable (g, q) with
    | none => rfl
    | some j =>
      simp only
      have hj := (w.resident g q j).1 hl2
      have hji : j ≠ i := by
        rintro rfl
        rw [hj.2.1] at hv
        cases hv
      rw [desc_install_ne s i f p pg hji]
      rfl

theorem pinOf_readPage {s : BufMgr} (w : s.WF) (hN : 0 < s.numBufs) {f : FileId}
    {p : PageId} {i : FrameId} (hok : (readPage s f p).1 = .ok i) (g : FileId) (q : PageId) :
    pinOf (readPage s f p).2 g q = pinOf s g q + (if (g, q) = (f, p) then 1 else 0) := by
  cases hl : amLookup s.hashTable (f, p) with
  | some k =>
    rw [readPage_hit hl]
    have hh := (w.resident f p k).1 hl
    have hlen : k < s.bufDescTable.length := by rw [w.descLen]; exact hh.1
    show pinOf (BufMgr.setDesc s k _) g q = _
    unfold pinOf
    show (match amLookup s.hashTable (g, q) with
      | some j => ((BufMgr.setDesc s k _).desc j).pinCnt
      | none => 0) = _
    by_cases hk : (g, q) = (f, p)
    · rw [if_pos hk, hk, hl]
      simp only [desc_setDesc, true_and]
      rw [if_pos hlen]
    · rw [if_neg hk]
      cases hl2 : amLookup s.hashTable (g, q) with
      | none => rfl
      | some j =>
        simp only
        have hj := (w.resident g q j).1 hl2
        have hji : j ≠ k := by
          rintro rfl
          exact hk (w.same_page hh hj)
        rw [desc_setDesc]
        simp only [hji, false_and, if_false, Nat.add_zero]
  | none =>
    have hres := allocBuf_result s
    obtain ⟨w1, hn, hsel, _, _⟩ := wf_allocBuf w hN
    rcases hA : allocBuf s with ⟨r, s1⟩
    rw [hA] at w1 hn hsel hres
    simp only at w1 hn hsel hres
    match r, hA with
    | .error e, hA =>
      rw [readPage_miss_fail hl hA] at hok
      cases hok
    | .ok none, hA =>
      rw [readPage_miss_unset hl hA] at hok
      cases hok
    | .ok (some i1), hA =>
      obtain ⟨hi1, hv1⟩ := hsel i1 rfl
      cases hR : amLookup s1.disk.pages (f, p) with
      | none =>
        rw [readPage_miss_invalid hl hA hR] at hok
        cases hok
      | some pg =>
        rw [readPage_miss_ok hl hA hR]
        simp only [pinOf_countAccess, pinOf_countRead]
        have w1c : ({ s1 with disk :=
            { s1.disk with calls := FileCall.readPage f p :: s1.disk.calls } } : BufMgr).WF :=
          w1.withDisk _ (fun f1 p1 pg1 h => w1.diskWF f1 p1 pg1 h) (fun _ => le_rfl)
        have hl1 : amLookup s1.hashTable (f, p) = none := by
          have := pinOf_allocResult hres w hN f p
          cases h1 : amLookup s1.hashTable (f, p) with
          | none => rfl
          | some j =>
            exfalso
            obtain ⟨_, _, _, hno, _⟩ := hres.wf w hN
            rw [hno (f, p) hl] at h1
            cases h1
        rw [pinOf_install w1c (by rw [hn]; exact hi1) hv1 f p pg hl1 g q]
        have := pinOf_allocResult hres w hN g q
        show pinOf s1 g q + _ = _
        rw [this]

theorem pinOf_allocPage {s : BufMgr} (w : s.WF) (hN : 0 < s.numBufs) {f : FileId}
    {r : PageId × FrameId} (hok : (allocPage s f).1 = .ok r) (g : FileId) (q : PageId) :
    pinOf (allocPage s f).2 g q = pinOf s g q + (if (g, q) = (f, r.1) then 1 else 0) := by
  have hnx : ∀ g, s.disk.next g ≤ (s.disk.allocatePage f).2.next g := by
    intro g
    rw [Disk.next_allocatePage]
    split
    · rename_i h
      rw [h]
      exact Nat.le_succ _
    · exact le_rfl
  have w0 : ({ s with disk := (s.disk.allocatePage f).2 } : BufMgr).WF :=
    w.withDisk _ (w.diskWF.allocatePage f) hnx
  have hfresh : amLookup s.hashTable (f, s.disk.next f) = none := by
    cases h : amLookup s.hashTable (f, s.disk.next f) with
    | none => rfl
    | some j =>
      have hh := (w.resident f _ j).1 h
      exact absurd (w.pageNo j f _ hh).2 (Nat.lt_irrefl _)
  have hres := allocBuf_result ({ s with disk := (s.disk.allocatePage f).2 } : BufMgr)
  obtain ⟨w1, hn, hsel, hno, _⟩ := hres.wf w0 hN
  have hp0 := pinOf_allocResult hres w0 hN g q
  rw [allocPage_eq] at hok ⊢
  rcases hA : allocBuf ({ s with disk := (s.disk.allocatePage f).2 } : BufMgr) with ⟨r1, s1⟩
  rw [hA] at hok w1 hn hsel hno hp0
  simp only at hok w1 hn hsel hno hp0 ⊢
  match r1, hok with
  | .ok (some i), hok =>
    simp only at hok ⊢
    have hr : r = ((s.disk.allocatePage f).1.page_number, i) := (Except.ok.inj hok).symm
    obtain ⟨hi, hv⟩ := hsel i rfl
    have hpi := pinOf_install w1 (by rw [hn]; exact hi) hv f
      (s.disk.allocatePage f).1.page_number (s.disk.allocatePage f).1 (hno _ hfresh) g q
    subst hr
    show pinOf (s1.install i f (s.disk.allocatePage f).1.page_number
      (s.disk.allocatePage f).1) g q = pinOf s g q + _
    rw [hpi, hp0]
    rfl
  | .ok none, hok => cases hok
  | .error e, hok => cases hok

theorem pinOf_unPinPage {s : BufMgr} (w : s.WF) {f : FileId} {p : PageId} {d : Bool}
    (hok : (unPinPage s f p d).1 = .ok ()) (g : FileId) (q : PageId) :
    pinOf (unPinPage s f p d).2 g q = pinOf s g q - (if (g, q) = (f, p) then 1 else 0) := by
  cases hl : amLookup s.hashTable (f, p) with
  | none =>
    have e : unPinPage s f p d = (.ok (), s) := by
      unfold unPinPage
      rw [hl]
    rw [e]
    by_cases hk : (g, q) = (f, p)
    · rw [if_pos hk]
      show pinOf s g q = pinOf s g q - 1
      unfold pinOf
      rw [hk, hl]
      rfl
    · rw [if_neg hk]
      rfl
  | some k =>
    have hh := (w.resident f p k).1 hl
    have hlen : k < s.bufDescTable.length := by rw [w.descLen]; exact hh.1
    by_cases hp : 0 < (s.desc k).pinCnt
    · rw [unPinPage_pinned d hl hp]
      show pinOf (BufMgr.setDesc s k _) g q = _
      unfold pinOf
      show (match amLookup s.hashTable (g, q) with
        | some j => ((BufMgr.setDesc s k _).desc j).pinCnt
        | none => 0) = _
      by_cases hk : (g, q) = (f, p)
      · rw [if_pos hk, hk, hl]
        simp only [desc_setDesc, true_and]
        rw [if_pos hlen]
      · rw [if_neg hk]
        cases hl2 : amLookup s.hashTable (g, q) with
        | none => rfl
        | some j =>
          simp only
          have hj := (w.resident g q j).1 hl2
          have hji : j ≠ k := by
            rintro rfl
            exact hk (w.same_page hh hj)
          rw [desc_setDesc]
          simp only [hji, false_and, if_false, Nat.sub_zero]
    · exfalso
      have e : unPinPage s f p d = (.error .PageNotPinnedException, s) := by
        unfold unPinPage
        rw [hl]
        simp only
        rw [if_pos (by omega)]
      rw [e] at hok
      cases hok

/-- A page whose pin count is not 0 is resident. -/
theorem holds_of_pinOf {s : BufMgr} (w : s.WF) {f : FileId} {p : PageId}
    (h : 0 < pinOf s f p) : ∃ i, amLookup s.hashTable (f, p) = some i ∧ s.holds i f p ∧
      0 < (s.desc i).pinCnt := by
  unfold pinOf at h
  cases hl : amLookup s.hashTable (f, p) with
  | none =>
    rw [hl] at h
    cases h
  | some i =>
    rw [hl] at h
    exact ⟨i, rfl, (w.resident f p i).1 hl, h⟩

/-- Unpinning a pinned page with dirty = true leaves it resident and dirty. -/
theorem dirtyResident_unPinPage {s : BufMgr} (w : s.WF) {f : FileId} {p : PageId}
    (h : 0 < pinOf s f p) : (unPinPage s f p true).2.dirtyResident f p := by
  obtain ⟨i, hl, hh, hp⟩ := holds_of_pinOf w h
  have hlen : i < s.bufDescTable.length := by rw [w.descLen]; exact hh.1
  rw [unPinPage_pinned true hl hp]
  refine ⟨i, ?_, ?_⟩
  · obtain ⟨a, b, c, d⟩ := hh
    refine ⟨a, ?_, ?_, ?_⟩
    · show ((BufMgr.setDesc s i _).desc i).valid = true
      rw [desc_setDesc]
      simp only [true_and, if_pos hlen]
      exact b
    · show ((BufMgr.setDesc s i _).desc i).file = some f
      rw [desc_setDesc]
      simp only [true_and, if_pos hlen]
      exact c
    · show ((BufMgr.setDesc s i _).desc i).pageNo = p
      rw [desc_setDesc]
      simp only [true_and, if_pos hlen]
      exact d
  · show ((BufMgr.setDesc s i _).desc i).dirty = true
    rw [desc_setDesc]
    simp only [true_and, if_pos hlen]
    rfl

/-- An unpin never makes a dirty resident page clean or absent. -/
theorem dirtyResident_mono_unPinPage {s : BufMgr} (w : s.WF) {f g : FileId} {p q : PageId}
    (d : Bool) (h : s.dirtyResident g q) : (unPinPage s f p d).2.dirtyResident g q := by
  obtain ⟨j, hj, hd⟩ := h
  cases hl : amLookup s.hashTable (f, p) with
  | none =>
    have e : unPinPage s f p d = (.ok (), s) := by
      unfold unPinPage
      rw [hl]
    rw [e]
    exact ⟨j, hj, hd⟩
  | some k =>
    have hh := (w.resident f p k).1 hl
    have hlen : k < s.bufDescTable.length := by rw [w.descLen]; exact hh.1
    by_cases hp : 0 < (s.desc k).pinCnt
    · rw [unPinPage_pinned d hl hp]
      have hdesc : ∀ j, ((BufMgr.setDesc s k
          { s.desc k with pinCnt := (s.desc k).pinCnt - 1, dirty := (d || (s.desc k).dirty) }
          ).countAccess).desc j =
          if j = k then
            { s.desc k with pinCnt := (s.desc k).pinCnt - 1, dirty := (d || (s.desc k).dirty) }
          else s.desc j := by
        intro j
        show (BufMgr.setDesc s k _).desc j = _
        rw [desc_setDesc]
        by_cases e : j = k
        · rw [if_pos ⟨e, hlen⟩, if_pos e]
        · rw [if_neg (fun h => e h.1), if_neg e]
      refine ⟨j, ?_, ?_⟩
      · obtain ⟨a, b, c, e⟩ := hj
        refine ⟨a, ?_, ?_, ?_⟩
        · rw [hdesc]
          split
          · rename_i e1
            rw [e1] at b
            exact b
          · exact b
        · rw [hdesc]
          split
          · rename_i e1
            rw [e1] at c
            exact c
          · exact c
        · rw [hdesc]
          split
          · rename_i e1
            rw [e1] at e
            exact e
          · exact e
      · rw [hdesc]
        split
        · rename_i e1
          rw [e1] at hd
          show (d || (s.desc k).dirty) = true
          rw [hd]
          exact Bool.or_true d
        · exact hd
    · have e : unPinPage s f p d = (.error .PageNotPinnedException, s) := by
        unfold unPinPage
        rw [hl]
        simp only
        rw [if_pos (by omega)]
      rw [e]
      exact ⟨j, hj, hd⟩


/-! ### Methods that return: the steps they are made of -/

theorem bind_ok {α β : Type} {x : IndexM α} {f : α → IndexM β} {t u : BTreeIndex} {b : β}
    (h : (x >>= f) t = (.ok b, u)) : ∃ a t1, x t = (.ok a, t1) ∧ f a t1 = (.ok b, u) := by
  rw [bind_eq] at h
  rcases hx : x t with ⟨r, t1⟩
  rw [hx] at h
  cases r with
  | ok a => exact ⟨a, t1, rfl, h⟩
  | error e => cases h

theorem readState_inv {t u a : BTreeIndex} (h : readState t = (.ok a, u)) : t = a ∧ t = u := by
  have h1 : (Except.ok t : Except IndexExn BTreeIndex) = .ok a := congrArg Prod.fst h
  have h2 : t = u := congrArg Prod.snd h
  exact ⟨Except.ok.inj h1, h2⟩

theorem pure_inv {α : Type} {a b : α} {t u : BTreeIndex}
    (h : (pure a : IndexM α) t = (.ok b, u)) : a = b ∧ t = u := by
  have h1 : (Except.ok a : Except IndexExn α) = .ok b := congrArg Prod.fst h
  have h2 : t = u := congrArg Prod.snd h
  exact ⟨Except.ok.inj h1, h2⟩

theorem getLeaf_inv {p : FrameId} {t u : BTreeIndex} {n : LeafNodeInt}
    (h : getLeaf p t = (.ok n, u)) : leafAt t p = n ∧ t = u := by
  have h1 : (Except.ok (leafAt t p) : Except IndexExn LeafNodeInt) = .ok n := congrArg Prod.fst h
  have h2 : t = u := congrArg Prod.snd h
  exact ⟨Except.ok.inj h1, h2⟩

theorem getNonLeaf_inv {p : FrameId} {t u : BTreeIndex} {n : NonLeafNodeInt}
    (h : getNonLeaf p t = (.ok n, u)) : nonLeafAt t p = n ∧ t = u := by
  have h1 : (Except.ok (nonLeafAt t p) : Except IndexExn NonLeafNodeInt) = .ok n :=
    congrArg Prod.fst h
  have h2 : t = u := congrArg Prod.snd h
  exact ⟨Except.ok.inj h1, h2⟩

theorem getMeta_inv {p : FrameId} {t u : BTreeIndex} {n : IndexMetaInfo}
    (h : getMeta p t = (.ok n, u)) : metaAt t p = n ∧ t = u := by
  have h1 : (Except.ok (metaAt t p) : Except IndexExn IndexMetaInfo) = .ok n :=
    congrArg Prod.fst h
  have h2 : t = u := congrArg Prod.snd h
  exact ⟨Except.ok.inj h1, h2⟩

theorem modifyState_inv {f : BTreeIndex → BTreeIndex} {t u : BTreeIndex} {a : Unit}
    (h : modifyState f t = (.ok a, u)) : f t = u :=
  congrArg Prod.snd h

theorem callBuf_inv {α : Type} {op : BufMgr → Except Exn α × BufMgr} {t u : BTreeIndex} {a : α}
    (h : callBuf op t = (.ok a, u)) :
    (op t.bufMgr).1 = .ok a ∧ u = { t with bufMgr := (op t.bufMgr).2 } := by
  unfold callBuf at h
  rcases hx : op t.bufMgr with ⟨r, b⟩
  rw [hx] at h
  cases r with
  | ok a1 =>
    have h1 : (Except.ok a1 : Except IndexExn α) = .ok a := congrArg Prod.fst h
    have h2 : ({ t with bufMgr := b } : BTreeIndex) = u := congrArg Prod.snd h
    exact ⟨by rw [Except.ok.inj h1], h2.symm⟩
  | error e =>
    have h1 : (Except.error (IndexExn.buffer e) : Except IndexExn α) = .ok a :=
      congrArg Prod.fst h
    cases h1

/-! ### Relations that every step of a method keeps -/

theorem Always.bind_always {α β : Type} {R : BTreeIndex → BTreeIndex → Prop}
    (htr : ∀ a b c, R a b → R b c → R a c) {x : IndexM α} {f : α → IndexM β}
    (hx : Always R x) (hf : ∀ a, Always R (f a)) : Always R (x >>= f) := by
  intro t
  rw [bind_eq]
  have h1 := hx t
  rcases hxt : x t with ⟨r, t1⟩
  rw [hxt] at h1
  cases r with
  | ok a => exact htr _ _ _ h1 (hf a t1)
  | error e => exact h1

theorem always_pure {α : Type} {R : BTreeIndex → BTreeIndex → Prop} (hrf : ∀ a, R a a) (a : α) :
    Always R (pure a : IndexM α) := fun t => hrf t

theorem always_raise {α : Type} {R : BTreeIndex → BTreeIndex → Prop} (hrf : ∀ a, R a a)
    (e : IndexExn) : Always R (raise e : IndexM α) := fun t => hrf t

theorem always_readState {R : BTreeIndex → BTreeIndex → Prop} (hrf : ∀ a, R a a) :
    Always R readState := fun t => hrf t

theorem always_getLeaf {R : BTreeIndex → BTreeIndex → Prop} (hrf : ∀ a, R a a) (p : FrameId) :
    Always R (getLeaf p) := fun t => hrf t

theorem always_getNonLeaf {R : BTreeIndex → BTreeIndex → Prop} (hrf : ∀ a, R a a)
    (p : FrameId) : Always R (getNonLeaf p) := fun t => hrf t

theorem always_getMeta {R : BTreeIndex → BTreeIndex → Prop} (hrf : ∀ a, R a a) (p : FrameId) :
    Always R (getMeta p) := fun t => hrf t

theorem always_assert {R : BTreeIndex → BTreeIndex → Prop} (hrf : ∀ a, R a a) (c : Bool) :
    Always R (assert c) := by
  unfold assert
  cases c
  · exact always_raise hrf _
  · exact fun t => hrf t

theorem always_arrayGet {α : Type} {R : BTreeIndex → BTreeIndex → Prop} (hrf : ∀ a, R a a)
    (a : List α) (i : Int) : Always R (arrayGet a i) := by
  unfold arrayGet
  split
  · exact fun t => hrf t
  · exact always_raise hrf _

theorem always_ite {α : Type} {R : BTreeIndex → BTreeIndex → Prop} (c : Prop) [Decidable c]
    (x y : IndexM α) (hx : Always R x) (hy : Always R y) : Always R (if c then x else y) := by
  split
  · exact hx
  · exact hy

theorem always_modifyState {R : BTreeIndex → BTreeIndex → Prop} (f : BTreeIndex → BTreeIndex)
    (h : ∀ t, R t (f t)) : Always R (modifyState f) := fun t => h t

theorem always_callBuf {α : Type} {R : BTreeIndex → BTreeIndex → Prop}
    (op : BufMgr → Except Exn α × BufMgr) (h : ∀ t b, R t { t with bufMgr := b }) :
    Always R (callBuf op) := by
  intro t
  unfold callBuf
  rcases hx : op t.bufMgr with ⟨r, b⟩
  cases r with
  | ok a => exact h t b
  | error e => exact h t b

theorem Always.ok {α : Type} {R : BTreeIndex → BTreeIndex → Prop} {x : IndexM α}
    (h : Always R x) {t u : BTreeIndex} {r : Except IndexExn α} (e : x t = (r, u)) : R t u := by
  have h1 := h t
  rw [e] at h1
  exact h1

/-! ### Writes into the buffers leave the bookkeeping of the pool alone -/

theorem SameFrames.refl_frames (b : BufMgr) : SameFrames b b := ⟨rfl, rfl, rfl, rfl, rfl, fun _ => rfl⟩

theorem SameFrames.trans_frames {a b c : BufMgr} (h1 : SameFrames a b) (h2 : SameFrames b c) :
    SameFrames a c :=
  ⟨h2.1.trans h1.1, h2.2.1.trans h1.2.1, h2.2.2.1.trans h1.2.2.1,
    h2.2.2.2.1.trans h1.2.2.2.1, h2.2.2.2.2.1.trans h1.2.2.2.2.1,
    fun i => (h2.2.2.2.2.2 i).trans (h1.2.2.2.2.2 i)⟩

theorem SameFrames.of_putWords (b : BufMgr) (p : FrameId) (w : List Nat) :
    SameFrames b (b.putWords p w) := by
  refine ⟨rfl, rfl, rfl, rfl, ?_, ?_⟩
  · show (b.bufPool.set p _).length = _
    rw [List.length_set]
  · intro i
    unfold BufMgr.putWords writeFrame
    rw [page_setPage]
    split
    · rename_i h
      rw [h.1]
    · rfl

theorem SameFrames.desc_same {b c : BufMgr} (h : SameFrames b c) (i : FrameId) : c.desc i = b.desc i := by
  unfold BufMgr.desc
  rw [h.2.2.1]

theorem SameFrames.holds_same {b c : BufMgr} (h : SameFrames b c) (i : FrameId) (f : FileId)
    (p : PageId) : c.holds i f p ↔ b.holds i f p := by
  unfold BufMgr.holds
  rw [h.desc_same, h.1]

theorem SameFrames.wf_same {b c : BufMgr} (h : SameFrames b c) (w : b.WF) : c.WF := by
  have hd := h.desc_same
  have hh := h.holds_same
  obtain ⟨h1, h2, h3, h4, h5, h6⟩ := h
  refine ⟨by rw [h3, h1]; exact w.descLen, by rw [h5, h1]; exact w.poolLen, ?_, ?_, ?_, ?_,
    by rw [h4]; exact w.diskWF⟩
  · intro i hi
    rw [hd]
    exact w.frameNo i (h1 ▸ hi)
  · intro i hi
    rw [hd]
    exact w.fileIff i (h1 ▸ hi)
  · intro f p i
    rw [h2, hh]
    exact w.resident f p i
  · intro i f p hi
    rw [h6, h4]
    exact w.pageNo i f p ((hh i f p).1 hi)

theorem SameFrames.inv_same {b c : BufMgr} (h : SameFrames b c) (w : b.Inv) : c.Inv :=
  ⟨h.wf_same w.1, by rw [h.1]; exact w.2⟩

theorem SameFrames.pinOf_same {b c : BufMgr} (h : SameFrames b c) (g : FileId) (q : PageId) :
    pinOf c g q = pinOf b g q := by
  unfold badgerdb.pinOf
  rw [h.2.1]
  cases amLookup b.hashTable (g, q) with
  | none => rfl
  | some i =>
    simp only
    rw [h.desc_same]

theorem SameFrames.dirtyResident_same {b c : BufMgr} (h : SameFrames b c) {g : FileId} {q : PageId}
    (hd : b.dirtyResident g q) : c.dirtyResident g q := by
  obtain ⟨i, hi, hd⟩ := hd
  exact ⟨i, (h.holds_same i g q).2 hi, by rw [h.desc_same]; exact hd⟩

theorem Members.refl_members (t : BTreeIndex) : Members t t := ⟨rfl, rfl, rfl, rfl, rfl, rfl⟩

theorem Members.trans_members (a b c : BTreeIndex) (h1 : Members a b) (h2 : Members b c) :
    Members a c :=
  ⟨h2.1.trans h1.1, h2.2.1.trans h1.2.1, h2.2.2.1.trans h1.2.2.1,
    h2.2.2.2.1.trans h1.2.2.2.1, h2.2.2.2.2.1.trans h1.2.2.2.2.1,
    h2.2.2.2.2.2.trans h1.2.2.2.2.2⟩

theorem SameBuf.refl_buf (t : BTreeIndex) : SameBuf t t := ⟨SameFrames.refl_frames _, Members.refl_members _⟩

theorem SameBuf.trans_buf (a b c : BTreeIndex) (h1 : SameBuf a b) (h2 : SameBuf b c) : SameBuf a c :=
  ⟨SameFrames.trans_frames h1.1 h2.1, Members.trans_members _ _ _ h1.2 h2.2⟩

theorem Always.mono {α : Type} {R S : BTreeIndex → BTreeIndex → Prop} {x : IndexM α}
    (h : Always R x) (hrs : ∀ t u, R t u → S t u) : Always S x := fun t => hrs _ _ (h t)

theorem quiet_setLeaf (p : FrameId) (n : LeafNodeInt) : Always SameBuf (setLeaf p n) :=
  always_modifyState _ (fun _ => ⟨SameFrames.of_putWords _ _ _, rfl, rfl, rfl, rfl, rfl, rfl⟩)

theorem quiet_setNonLeaf (p : FrameId) (n : NonLeafNodeInt) : Always SameBuf (setNonLeaf p n) :=
  always_modifyState _ (fun _ => ⟨SameFrames.of_putWords _ _ _, rfl, rfl, rfl, rfl, rfl, rfl⟩)

theorem quiet_setMeta (p : FrameId) (n : IndexMetaInfo) : Always SameBuf (setMeta p n) :=
  always_modifyState _ (fun _ => ⟨SameFrames.of_putWords _ _ _, rfl, rfl, rfl, rfl, rfl, rfl⟩)

theorem quiet_page_set_LeafNodeInt (p : FrameId) : Always SameBuf (page_set_LeafNodeInt p) := by
  unfold page_set_LeafNodeInt
  exact Always.bind_always SameBuf.trans_buf (always_readState SameBuf.refl_buf) (fun _ => quiet_setLeaf _ _)

theorem quiet_page_set_NonLeafNodeInt (p : FrameId) :
    Always SameBuf (page_set_NonLeafNodeInt p) := by
  unfold page_set_NonLeafNodeInt
  exact Always.bind_always SameBuf.trans_buf (always_readState SameBuf.refl_buf) (fun _ => quiet_setNonLeaf _ _)

theorem quiet_occupancy (f : BTreeIndex → BTreeIndex)
    (h : ∀ t, (f t).bufMgr = t.bufMgr ∧ Members t (f t)) : Always SameBuf (modifyState f) := by
  apply always_modifyState
  intro t
  refine ⟨?_, (h t).2⟩
  rw [(h t).1]
  exact SameFrames.refl_frames _

theorem quiet_insertToLeaf (p : FrameId) (index : Int) (key : Int) (rid : RecordId) :
    Always SameBuf (insertToLeaf p index key rid) := by
  unfold insertToLeaf
  refine Always.bind_always SameBuf.trans_buf (always_readState SameBuf.refl_buf) (fun t => ?_)
  apply always_ite
  · exact always_raise SameBuf.refl_buf _
  · refine Always.bind_always SameBuf.trans_buf (always_getLeaf SameBuf.refl_buf _) (fun n => ?_)
    refine Always.bind_always SameBuf.trans_buf (quiet_setLeaf _ _) (fun _ => ?_)
    exact quiet_occupancy _ (fun _ => ⟨rfl, rfl, rfl, rfl, rfl, rfl, rfl⟩)

theorem quiet_insertToNonLeaf (p : FrameId) (index : Int) (key : Int) (pn : PageId) :
    Always SameBuf (insertToNonLeaf p index key pn) := by
  unfold insertToNonLeaf
  refine Always.bind_always SameBuf.trans_buf (always_readState SameBuf.refl_buf) (fun t => ?_)
  apply always_ite
  · exact always_raise SameBuf.refl_buf _
  · refine Always.bind_always SameBuf.trans_buf (always_getNonLeaf SameBuf.refl_buf _) (fun n => ?_)
    refine Always.bind_always SameBuf.trans_buf (quiet_setNonLeaf _ _) (fun _ => ?_)
    exact quiet_occupancy _ (fun _ => ⟨rfl, rfl, rfl, rfl, rfl, rfl, rfl⟩)

theorem quiet_insertToNewNonLeaf (p : FrameId) (index : Int) (key : Int) (pn : PageId) :
    Always SameBuf (insertToNewNonLeaf p index key pn) := by
  unfold insertToNewNonLeaf
  refine Always.bind_always SameBuf.trans_buf (always_readState SameBuf.refl_buf) (fun t => ?_)
  apply always_ite
  · exact always_raise SameBuf.refl_buf _
  · refine Always.bind_always SameBuf.trans_buf (always_getNonLeaf SameBuf.refl_buf _) (fun n => ?_)
    refine Always.bind_always SameBuf.trans_buf (quiet_occupancy _ (fun _ => ⟨rfl, rfl, rfl, rfl, rfl, rfl, rfl⟩)) (fun _ => ?_)
    exact quiet_setNonLeaf _ _

theorem quiet_deleteNewKeyNonLeaf (p : FrameId) : Always SameBuf (deleteNewKeyNonLeaf p) := by
  unfold deleteNewKeyNonLeaf
  refine Always.bind_always SameBuf.trans_buf (always_getNonLeaf SameBuf.refl_buf _) (fun n => ?_)
  refine Always.bind_always SameBuf.trans_buf (quiet_occupancy _ (fun _ => ⟨rfl, rfl, rfl, rfl, rfl, rfl, rfl⟩)) (fun _ => ?_)
  refine Always.bind_always SameBuf.trans_buf (always_arrayGet SameBuf.refl_buf _ _) (fun key => ?_)
  apply always_ite
  · exact always_raise SameBuf.refl_buf _
  · refine Always.bind_always SameBuf.trans_buf (quiet_setNonLeaf _ _) (fun _ => ?_)
    exact always_pure SameBuf.refl_buf _

theorem quiet_splitLeaf (p q : FrameId) (pn : PageId) (leftLen : Nat) :
    Always SameBuf (splitLeaf p q pn leftLen) := by
  unfold splitLeaf
  refine Always.bind_always SameBuf.trans_buf (always_readState SameBuf.refl_buf) (fun t => ?_)
  apply always_ite
  · exact always_raise SameBuf.refl_buf _
  · refine Always.bind_always SameBuf.trans_buf (always_getLeaf SameBuf.refl_buf _) (fun n => ?_)
    refine Always.bind_always SameBuf.trans_buf (always_getLeaf SameBuf.refl_buf _) (fun m => ?_)
    refine Always.bind_always SameBuf.trans_buf (quiet_setLeaf _ _) (fun _ => ?_)
    exact quiet_setLeaf _ _

theorem quiet_splitNonLeaf (p q : FrameId) (leftLen : Nat) :
    Always SameBuf (splitNonLeaf p q leftLen) := by
  unfold splitNonLeaf
  refine Always.bind_always SameBuf.trans_buf (always_readState SameBuf.refl_buf) (fun t => ?_)
  apply always_ite
  · exact always_raise SameBuf.refl_buf _
  · refine Always.bind_always SameBuf.trans_buf (always_getNonLeaf SameBuf.refl_buf _) (fun n => ?_)
    refine Always.bind_always SameBuf.trans_buf (always_getNonLeaf SameBuf.refl_buf _) (fun m => ?_)
    refine Always.bind_always SameBuf.trans_buf (quiet_setNonLeaf _ _) (fun _ => ?_)
    exact quiet_setNonLeaf _ _


/-! ### The effect of each call of the buffer manager on the pin counts -/

theorem next_readPage_le {s : BufMgr} (w : s.WF) (hN : 0 < s.numBufs) (f : FileId) (p : PageId)
    (g : FileId) : s.disk.next g ≤ (readPage s f p).2.disk.next g := by
  cases hl : amLookup s.hashTable (f, p) with
  | some k =>
    rw [readPage_hit hl]
    exact le_rfl
  | none =>
    obtain ⟨_, _, _, _, hnext⟩ := wf_allocBuf w hN
    rcases hA : allocBuf s with ⟨r, s1⟩
    rw [hA] at hnext
    simp only at hnext
    match r, hA with
    | .error e, hA =>
      rw [readPage_miss_fail hl hA]
      exact le_of_eq (hnext g).symm
    | .ok none, hA =>
      rw [readPage_miss_unset hl hA]
      exact le_of_eq (hnext g).symm
    | .ok (some i1), hA =>
      cases hR : amLookup s1.disk.pages (f, p) with
      | none =>
        rw [readPage_miss_invalid hl hA hR]
        exact le_of_eq (hnext g).symm
      | some pg =>
        rw [readPage_miss_ok hl hA hR]
        exact le_of_eq (hnext g).symm

theorem next_allocPage_le {s : BufMgr} (w : s.WF) (hN : 0 < s.numBufs) (f : FileId)
    (g : FileId) : s.disk.next g ≤ (allocPage s f).2.disk.next g := by
  have hnx : ∀ g, s.disk.next g ≤ (s.disk.allocatePage f).2.next g := by
    intro g
    rw [Disk.next_allocatePage]
    split
    · rename_i h
      rw [h]
      exact Nat.le_succ _
    · exact le_rfl
  have w0 : ({ s with disk := (s.disk.allocatePage f).2 } : BufMgr).WF :=
    w.withDisk _ (w.diskWF.allocatePage f) hnx
  obtain ⟨_, _, _, _, hnext⟩ := wf_allocBuf w0 hN
  rw [allocPage_eq]
  rcases hA : allocBuf ({ s with disk := (s.disk.allocatePage f).2 } : BufMgr) with ⟨r, s1⟩
  rw [hA] at hnext
  simp only at hnext
  have h1 : s.disk.next g ≤ s1.disk.next g := by
    rw [hnext]
    exact hnx g
  match r, hA with
  | .error e, hA => exact h1
  | .ok none, hA => exact h1
  | .ok (some i), hA => exact h1

theorem disk_unPinPage (s : BufMgr) (f : FileId) (p : PageId) (d : Bool) :
    (unPinPage s f p d).2.disk = s.disk := by
  unfold unPinPage
  cases amLookup s.hashTable (f, p) with
  | none => rfl
  | some i =>
    simp only
    split_ifs <;> rfl

theorem step_read {t u : BTreeIndex} {f : FileId} {p : PageId} {i : FrameId}
    (hI : t.bufMgr.Inv) (h : callBuf (fun b => readPage b f p) t = (.ok i, u)) :
    u.bufMgr.Inv ∧
    (∀ g q, pinOf u.bufMgr g q = pinOf t.bufMgr g q + (if (g, q) = (f, p) then 1 else 0)) ∧
    (∀ g, t.bufMgr.disk.next g ≤ u.bufMgr.disk.next g) := by
  obtain ⟨hok, rfl⟩ := callBuf_inv h
  obtain ⟨w1, hn⟩ := wf_readPage hI.1 hI.2 f p
  exact ⟨⟨w1, by rw [hn]; exact hI.2⟩, pinOf_readPage hI.1 hI.2 hok,
    next_readPage_le hI.1 hI.2 f p⟩

theorem step_alloc {t u : BTreeIndex} {f : FileId} {r : PageId × FrameId}
    (hI : t.bufMgr.Inv) (h : callBuf (fun b => allocPage b f) t = (.ok r, u)) :
    u.bufMgr.Inv ∧
    (∀ g q, pinOf u.bufMgr g q = pinOf t.bufMgr g q + (if (g, q) = (f, r.1) then 1 else 0)) ∧
    (∀ g, t.bufMgr.disk.next g ≤ u.bufMgr.disk.next g) := by
  obtain ⟨hok, rfl⟩ := callBuf_inv h
  obtain ⟨w1, hn⟩ := wf_allocPage hI.1 hI.2 f
  exact ⟨⟨w1, by rw [hn]; exact hI.2⟩, pinOf_allocPage hI.1 hI.2 hok,
    next_allocPage_le hI.1 hI.2 f⟩

theorem step_unpin {t u : BTreeIndex} {f : FileId} {p : PageId} {d : Bool} {a : Unit}
    (hI : t.bufMgr.Inv) (h : callBuf (fun b => unPinPage b f p d) t = (.ok a, u)) :
    u.bufMgr.Inv ∧
    (∀ g q, pinOf u.bufMgr g q = pinOf t.bufMgr g q - (if (g, q) = (f, p) then 1 else 0)) ∧
    (∀ g, t.bufMgr.disk.next g ≤ u.bufMgr.disk.next g) ∧
    (d = true → 0 < pinOf t.bufMgr f p → u.bufMgr.dirtyResident f p) ∧
    (∀ g q, t.bufMgr.dirtyResident g q → u.bufMgr.dirtyResident g q) := by
  obtain ⟨hok, rfl⟩ := callBuf_inv h
  obtain ⟨w1, hn⟩ := wf_unPinPage hI.1 f p d
  refine ⟨⟨w1, by rw [hn]; exact hI.2⟩, pinOf_unPinPage hI.1 hok, ?_, ?_, ?_⟩
  · intro g
    show _ ≤ (unPinPage t.bufMgr f p d).2.disk.next g
    rw [disk_unPinPage]
  · intro hd hp
    subst hd
    exact dirtyResident_unPinPage hI.1 hp
  · intro g q hd
    exact dirtyResident_mono_unPinPage hI.1 d hd

theorem step_quiet {α : Type} {x : IndexM α} (hq : Always SameBuf x) {t u : BTreeIndex}
    {r : Except IndexExn α} (hI : t.bufMgr.Inv) (h : x t = (r, u)) :
    u.bufMgr.Inv ∧ (∀ g q, pinOf u.bufMgr g q = pinOf t.bufMgr g q) ∧
    (∀ g, t.bufMgr.disk.next g ≤ u.bufMgr.disk.next g) ∧
    (∀ g q, t.bufMgr.dirtyResident g q → u.bufMgr.dirtyResident g q) := by
  have hs : SameFrames t.bufMgr u.bufMgr := (hq.ok h).1
  refine ⟨hs.inv_same hI, hs.pinOf_same, ?_, fun g q hd => hs.dirtyResident_same hd⟩
  intro g
  rw [hs.2.2.2.1]

theorem members_callBuf {α : Type} (op : BufMgr → Except Exn α × BufMgr) :
    Always Members (callBuf op) :=
  always_callBuf op (fun _ _ => ⟨rfl, rfl, rfl, rfl, rfl, rfl⟩)

theorem members_of_quiet {α : Type} {x : IndexM α} (h : Always SameBuf x) : Always Members x :=
  h.mono (fun _ _ h => h.2)

theorem members_allocNode {page_set : FrameId → IndexM Unit}
    (hps : ∀ p, Always SameBuf (page_set p)) : Always Members (allocNode page_set) := by
  unfold allocNode
  refine Always.bind_always Members.trans_members (always_readState Members.refl_members) (fun t => ?_)
  refine Always.bind_always Members.trans_members (members_callBuf _) (fun a => ?_)
  obtain ⟨newPageId, dummy⟩ := a
  exact Always.bind_always Members.trans_members (members_of_quiet (hps dummy))
    (fun _ => always_pure Members.refl_members _)

theorem step_allocNode {page_set : FrameId → IndexM Unit}
    (hps : ∀ p, Always SameBuf (page_set p)) {t u : BTreeIndex} {r : PageId × FrameId}
    (hI : t.bufMgr.Inv) (h : allocNode page_set t = (.ok r, u)) :
    u.bufMgr.Inv ∧
    (∀ g q, pinOf u.bufMgr g q =
      pinOf t.bufMgr g q + (if (g, q) = (t.file, r.1) then 1 else 0)) ∧
    (∀ g, t.bufMgr.disk.next g ≤ u.bufMgr.disk.next g) := by
  unfold allocNode at h
  obtain ⟨t0, t1, e, h1⟩ := bind_ok h
  clear h
  obtain ⟨rfl, rfl⟩ := readState_inv e
  obtain ⟨a, t1, e1, h2⟩ := bind_ok h1
  clear h1
  obtain ⟨I1, P1, N1⟩ := step_alloc hI e1
  obtain ⟨newPageId, dummy⟩ := a
  dsimp only at h2
  obtain ⟨_, t2, e2, h3⟩ := bind_ok h2
  clear h2
  obtain ⟨I2, P2, N2, -⟩ := step_quiet (hps dummy) I1 e2
  obtain ⟨rfl, rfl⟩ := pure_inv h3
  refine ⟨I2, ?_, fun g => le_trans (N1 g) (N2 g)⟩
  intro g q
  rw [P2, P1]

theorem arrayGet_inv {α : Type} {a : List α} {i : Int} {t u : BTreeIndex} {x : α}
    (h : arrayGet a i t = (.ok x, u)) : x ∈ a := by
  unfold arrayGet at h
  generalize hd : (if 0 ≤ i then a.get? i.toNat else none) = d at h
  cases d with
  | none =>
    cases (congrArg Prod.fst h : (Except.error IndexExn.UndefinedBehaviour : Except IndexExn α) = _)
  | some y =>
    obtain ⟨rfl, _⟩ := pure_inv h
    split at hd
    · exact List.get?_mem hd
    · cases hd

theorem leafAt_key_range (t : BTreeIndex) (p : FrameId) :
    ∀ x ∈ (leafAt t p).keyArray, -2 ^ 31 ≤ x ∧ x < 2 ^ 31 := by
  intro x hx
  simp only [leafAt, LeafNodeInt.ofWords, List.mem_map] at hx
  obtain ⟨j, _, rfl⟩ := hx
  exact ofWord_range _

theorem deleteNewKeyNonLeaf_range {p : FrameId} {t u : BTreeIndex} {k : Int}
    (h : deleteNewKeyNonLeaf p t = (.ok k, u)) : -2 ^ 31 ≤ k ∧ k < 2 ^ 31 := by
  unfold deleteNewKeyNonLeaf at h
  obtain ⟨n, t1, e1, h1⟩ := bind_ok h
  clear h
  obtain ⟨hn, rfl⟩ := getNonLeaf_inv e1
  dsimp only at h1
  obtain ⟨_, t2, e2, h2⟩ := bind_ok h1
  clear h1
  obtain ⟨key, t3, e3, h3⟩ := bind_ok h2
  clear h2
  have hmem := arrayGet_inv e3
  split at h3
  · cases (congrArg Prod.fst h3 : (Except.error IndexExn.UndefinedBehaviour : Except IndexExn Int) = _)
  · obtain ⟨_, t4, e4, h4⟩ := bind_ok h3
    obtain ⟨rfl, _⟩ := pure_inv h4
    rw [← hn] at hmem
    exact (shaped_nonLeafAt t p).2.2.1 _ hmem

theorem members_handleLeafInsertion (page : PageId) (key : Int) (rid : RecordId) :
    Always Members (handleLeafInsertion page key rid) := by
  unfold handleLeafInsertion
  refine Always.bind_always Members.trans_members (always_readState Members.refl_members) (fun t => ?_)
  refine Always.bind_always Members.trans_members (members_callBuf _) (fun pg => ?_)
  refine Always.bind_always Members.trans_members (always_getLeaf Members.refl_members _) (fun n => ?_)
  dsimp only
  apply always_ite
  · refine Always.bind_always Members.trans_members (always_assert Members.refl_members _) (fun _ => ?_)
    refine Always.bind_always Members.trans_members (members_of_quiet (quiet_insertToLeaf _ _ _ _)) (fun _ => ?_)
    exact Always.bind_always Members.trans_members (members_callBuf _) (fun _ => always_pure Members.refl_members _)
  · refine Always.bind_always Members.trans_members (members_allocNode quiet_page_set_LeafNodeInt) (fun a => ?_)
    obtain ⟨newPageNo, newNode⟩ := a
    dsimp only
    refine Always.bind_always Members.trans_members (members_of_quiet (quiet_splitLeaf _ _ _ _)) (fun _ => ?_)
    have hjp : ∀ y : Unit, Always Members ((fun _ => do
        let c ← getLeaf pg
        let n ← getLeaf newNode
        assert (decide (c.keyNum - n.keyNum ≤ 1 ∧ c.keyNum - n.keyNum ≥ -1))
        let newIndex ← arrayGet n.keyArray 0
        callBuf (fun b => unPinPage b t.file page true)
        callBuf (fun b => unPinPage b t.file newPageNo true)
        pure (newPageNo, newIndex) : Unit → IndexM (PageId × Int)) y) := by
      intro _
      refine Always.bind_always Members.trans_members (always_getLeaf Members.refl_members _) (fun c => ?_)
      refine Always.bind_always Members.trans_members (always_getLeaf Members.refl_members _) (fun m => ?_)
      refine Always.bind_always Members.trans_members (always_assert Members.refl_members _) (fun _ => ?_)
      refine Always.bind_always Members.trans_members (always_arrayGet Members.refl_members _ _) (fun _ => ?_)
      refine Always.bind_always Members.trans_members (members_callBuf _) (fun _ => ?_)
      exact Always.bind_always Members.trans_members (members_callBuf _) (fun _ => always_pure Members.refl_members _)
    apply always_ite
    · exact Always.bind_always Members.trans_members (members_of_quiet (quiet_insertToLeaf _ _ _ _)) hjp
    · exact Always.bind_always Members.trans_members (members_of_quiet (quiet_insertToLeaf _ _ _ _)) hjp

theorem members_recursiveInsert (fuel : Nat) (page : PageId) (key : Int) (rid : RecordId)
    (isLeaf : Bool) : Always Members (recursiveInsert fuel page key rid isLeaf) := by
  induction fuel generalizing page isLeaf with
  | zero => exact always_raise Members.refl_members _
  | succ n ih =>
    unfold recursiveInsert
    apply always_ite
    · exact members_handleLeafInsertion _ _ _
    · refine Always.bind_always Members.trans_members (always_readState Members.refl_members) (fun t => ?_)
      refine Always.bind_always Members.trans_members (members_callBuf _) (fun pg => ?_)
      refine Always.bind_always Members.trans_members (always_getNonLeaf Members.refl_members _) (fun cur => ?_)
      dsimp only
      refine Always.bind_always Members.trans_members (always_arrayGet Members.refl_members _ _) (fun child => ?_)
      refine Always.bind_always Members.trans_members (ih _ _) (fun a => ?_)
      obtain ⟨newPageNo, newIndex⟩ := a
      dsimp only
      apply always_ite
      · exact Always.bind_always Members.trans_members (members_callBuf _) (fun _ => always_pure Members.refl_members _)
      · refine Always.bind_always Members.trans_members (always_getNonLeaf Members.refl_members _) (fun cur2 => ?_)
        dsimp only
        apply always_ite
        · refine Always.bind_always Members.trans_members (always_assert Members.refl_members _) (fun _ => ?_)
          refine Always.bind_always Members.trans_members
            (members_of_quiet (quiet_insertToNonLeaf _ _ _ _)) (fun _ => ?_)
          exact Always.bind_always Members.trans_members (members_callBuf _)
            (fun _ => always_pure Members.refl_members _)
        · refine Always.bind_always Members.trans_members
            (members_allocNode quiet_page_set_NonLeafNodeInt) (fun a => ?_)
          obtain ⟨newNonLeafPage, newNode⟩ := a
          dsimp only
          refine Always.bind_always Members.trans_members
            (members_of_quiet (quiet_splitNonLeaf _ _ _)) (fun _ => ?_)
          have hjp : ∀ y : Unit, Always Members ((fun _ => do
              let c ← getNonLeaf pg
              let n ← getNonLeaf newNode
              assert (decide (c.keyNum - n.keyNum ≤ 1 ∧ c.keyNum - n.keyNum ≥ -1))
              let newIndex2 ← deleteNewKeyNonLeaf newNode
              callBuf (fun b => unPinPage b t.file page true)
              callBuf (fun b => unPinPage b t.file newNonLeafPage true)
              pure (newNonLeafPage, newIndex2) : Unit → IndexM (PageId × Int)) y) := by
            intro _
            refine Always.bind_always Members.trans_members (always_getNonLeaf Members.refl_members _) (fun c => ?_)
            refine Always.bind_always Members.trans_members (always_getNonLeaf Members.refl_members _) (fun m => ?_)
            refine Always.bind_always Members.trans_members (always_assert Members.refl_members _) (fun _ => ?_)
            refine Always.bind_always Members.trans_members
              (members_of_quiet (quiet_deleteNewKeyNonLeaf _)) (fun _ => ?_)
            refine Always.bind_always Members.trans_members (members_callBuf _) (fun _ => ?_)
            exact Always.bind_always Members.trans_members (members_callBuf _)
              (fun _ => always_pure Members.refl_members _)
          apply always_ite
          · exact Always.bind_always Members.trans_members
              (members_of_quiet (quiet_insertToNonLeaf _ _ _ _)) hjp
          · exact Always.bind_always Members.trans_members
              (members_of_quiet (quiet_insertToNewNonLeaf _ _ _ _)) hjp

theorem handleLeafInsertion_pins {page : PageId} {key : Int} {rid : RecordId}
    {t u : BTreeIndex} {r : PageId × Int} (hI : t.bufMgr.Inv)
    (h : handleLeafInsertion page key rid t = (.ok r, u)) :
    u.bufMgr.Inv ∧ (∀ g q, pinOf u.bufMgr g q = pinOf t.bufMgr g q) ∧
    (∀ g, t.bufMgr.disk.next g ≤ u.bufMgr.disk.next g) ∧
    (r.1 ≠ 0 → u.bufMgr.dirtyResident t.file page ∧ u.bufMgr.dirtyResident t.file r.1) ∧
    (-2 ^ 31 ≤ r.2 ∧ r.2 < 2 ^ 31) := by
  unfold handleLeafInsertion at h
  obtain ⟨t0, t1, e, h1⟩ := bind_ok h
  clear h
  obtain ⟨rfl, rfl⟩ := readState_inv e
  obtain ⟨pg, t1, e1, h2⟩ := bind_ok h1
  clear h1
  obtain ⟨I1, P1, N1⟩ := step_read hI e1
  obtain ⟨n, t2, e2, h3⟩ := bind_ok h2
  clear h2
  obtain ⟨-, rfl⟩ := getLeaf_inv e2
  dsimp only at h3
  split at h3
  · obtain ⟨_, t2, e3, h4⟩ := bind_ok h3
    clear h3
    obtain ⟨I2, P2, N2, -⟩ := step_quiet (always_assert SameBuf.refl_buf _) I1 e3
    obtain ⟨_, t3, e4, h5⟩ := bind_ok h4
    clear h4
    obtain ⟨I3, P3, N3, -⟩ := step_quiet (quiet_insertToLeaf _ _ _ _) I2 e4
    obtain ⟨_, t4, e5, h6⟩ := bind_ok h5
    clear h5
    obtain ⟨I4, P4, N4, -, -⟩ := step_unpin I3 e5
    obtain ⟨rfl, rfl⟩ := pure_inv h6
    refine ⟨I4, ?_, fun g => le_trans (N1 g) (le_trans (N2 g) (le_trans (N3 g) (N4 g))), ?_,
      by norm_num, by norm_num⟩
    · intro g q
      rw [P4, P3, P2, P1]
      split_ifs <;> omega
    · intro hne
      exact absurd rfl hne
  · obtain ⟨a, t2, e3, h4⟩ := bind_ok h3
    clear h3
    obtain ⟨I2, P2, N2⟩ := step_allocNode quiet_page_set_LeafNodeInt I1 e3
    have F1 : t1.file = t.file := ((members_callBuf _).ok e1).1
    rw [F1] at P2
    obtain ⟨newPageNo, newNode⟩ := a
    dsimp only at h4
    obtain ⟨_, t3, e4, h5⟩ := bind_ok h4
    clear h4
    obtain ⟨I3, P3, N3, -⟩ := step_quiet (quiet_splitLeaf _ _ _ _) I2 e4
    have hrest : ∃ t4 : BTreeIndex, t4.bufMgr.Inv ∧
        (∀ g q, pinOf t4.bufMgr g q = pinOf t3.bufMgr g q) ∧
        (∀ g, t3.bufMgr.disk.next g ≤ t4.bufMgr.disk.next g) ∧
        ((do
          let c ← getLeaf pg
          let n ← getLeaf newNode
          assert (decide (c.keyNum - n.keyNum ≤ 1 ∧ c.keyNum - n.keyNum ≥ -1))
          let newIndex ← arrayGet n.keyArray 0
          callBuf (fun b => unPinPage b t.file page true)
          callBuf (fun b => unPinPage b t.file newPageNo true)
          pure (newPageNo, newIndex)) : IndexM (PageId × Int)) t4 = (.ok r, u) := by
      split at h5
      · obtain ⟨_, t4, e5, h6⟩ := bind_ok h5
        obtain ⟨I4, P4, N4, -⟩ := step_quiet (quiet_insertToLeaf _ _ _ _) I3 e5
        exact ⟨t4, I4, P4, N4, h6⟩
      · obtain ⟨_, t4, e5, h6⟩ := bind_ok h5
        obtain ⟨I4, P4, N4, -⟩ := step_quiet (quiet_insertToLeaf _ _ _ _) I3 e5
        exact ⟨t4, I4, P4, N4, h6⟩
    clear h5
    obtain ⟨t4, I4, P4, N4, h6⟩ := hrest
    obtain ⟨c, t5, e6, h7⟩ := bind_ok h6
    clear h6
    obtain ⟨-, rfl⟩ := getLeaf_inv e6
    obtain ⟨m, t5, e7, h8⟩ := bind_ok h7
    clear h7
    obtain ⟨hm, rfl⟩ := getLeaf_inv e7
    obtain ⟨_, t5, e8, h9⟩ := bind_ok h8
    clear h8
    obtain ⟨I5, P5, N5, -⟩ := step_quiet (always_assert SameBuf.refl_buf _) I4 e8
    obtain ⟨newIndex, t6, e9, h10⟩ := bind_ok h9
    clear h9
    obtain ⟨I6, P6, N6, -⟩ := step_quiet (always_arrayGet SameBuf.refl_buf _ _) I5 e9
    obtain ⟨_, t7, e10, h11⟩ := bind_ok h10
    clear h10
    obtain ⟨I7, P7, N7, D7, -⟩ := step_unpin I6 e10
    obtain ⟨_, t8, e11, h12⟩ := bind_ok h11
    clear h11
    obtain ⟨I8, P8, N8, D8, M8⟩ := step_unpin I7 e11
    obtain ⟨rfl, rfl⟩ := pure_inv h12
    have hp6 : ∀ g q, pinOf t6.bufMgr g q = pinOf t.bufMgr g q +
        (if (g, q) = (t.file, page) then 1 else 0) +
        (if (g, q) = (t.file, newPageNo) then 1 else 0) := by
      intro g q
      rw [P6, P5, P4, P3, P2, P1]
    have hrange : -2 ^ 31 ≤ newIndex ∧ newIndex < 2 ^ 31 := by
      have hmem := arrayGet_inv e9
      rw [← hm] at hmem
      exact leafAt_key_range _ _ _ hmem
    refine ⟨I8, ?_, ?_, ?_, hrange⟩
    · intro g q
      rw [P8, P7, hp6]
      split_ifs <;> omega
    · intro g
      exact le_trans (N1 g) (le_trans (N2 g) (le_trans (N3 g) (le_trans (N4 g)
        (le_trans (N5 g) (le_trans (N6 g) (le_trans (N7 g) (N8 g)))))))
    · intro _
      have h6 : 0 < pinOf t6.bufMgr t.file page := by
        rw [hp6, if_pos rfl]
        omega
      have h7 : 0 < pinOf t7.bufMgr t.file newPageNo := by
        rw [P7, hp6, if_pos rfl]
        split_ifs <;> omega
      exact ⟨M8 _ _ (D7 rfl h6), D8 rfl h7⟩


theorem raise_not_ok {α : Type} {e : IndexExn} {t u : BTreeIndex} {a : α}
    (h : (raise e : IndexM α) t = (.ok a, u)) : False := by
  cases (congrArg Prod.fst h : (Except.error e : Except IndexExn α) = _)

theorem recursiveInsert_pins (fuel : Nat) : ∀ (page : PageId) (key : Int) (rid : RecordId)
    (isLeaf : Bool) (t u : BTreeIndex) (r : PageId × Int), t.bufMgr.Inv →
    recursiveInsert fuel page key rid isLeaf t = (.ok r, u) →
    u.bufMgr.Inv ∧ (∀ g q, pinOf u.bufMgr g q = pinOf t.bufMgr g q) ∧
    (∀ g, t.bufMgr.disk.next g ≤ u.bufMgr.disk.next g) ∧
    (r.1 ≠ 0 → u.bufMgr.dirtyResident t.file page ∧ u.bufMgr.dirtyResident t.file r.1) ∧
    (-2 ^ 31 ≤ r.2 ∧ r.2 < 2 ^ 31) := by
  induction fuel with
  | zero =>
    intro page key rid isLeaf t u r _ h
    exact (raise_not_ok h).elim
  | succ n ih =>
    intro page key rid isLeaf t u r hI h
    unfold recursiveInsert at h
    split at h
    · exact handleLeafInsertion_pins hI h
    · obtain ⟨t0, t1, e, h1⟩ := bind_ok h
      clear h
      obtain ⟨rfl, rfl⟩ := readState_inv e
      obtain ⟨pg, t1, e1, h2⟩ := bind_ok h1
      clear h1
      obtain ⟨I1, P1, N1⟩ := step_read hI e1
      have F1 : t1.file = t.file := ((members_callBuf _).ok e1).1
      obtain ⟨cur, t2, e2, h3⟩ := bind_ok h2
      clear h2
      obtain ⟨-, rfl⟩ := getNonLeaf_inv e2
      dsimp only at h3
      obtain ⟨child, t2, e3, h4⟩ := bind_ok h3
      clear h3
      obtain ⟨I2, P2, N2, -⟩ := step_quiet (always_arrayGet SameBuf.refl_buf _ _) I1 e3
      have F2 : t2.file = t1.file := ((always_arrayGet Members.refl_members _ _).ok e3).1
      obtain ⟨a, t3, e4, h5⟩ := bind_ok h4
      clear h4
      obtain ⟨I3, P3, N3, -, -⟩ := ih _ _ _ _ _ _ _ I2 e4
      have F3 : t3.file = t2.file := ((members_recursiveInsert _ _ _ _ _).ok e4).1
      obtain ⟨newPageNo, newIndex⟩ := a
      dsimp only at h5
      have hp3 : ∀ g q, pinOf t3.bufMgr g q = pinOf t.bufMgr g q +
          (if (g, q) = (t.file, page) then 1 else 0) := by
        intro g q
        rw [P3, P2, P1]
      have hn3 : ∀ g, t.bufMgr.disk.next g ≤ t3.bufMgr.disk.next g :=
        fun g => le_trans (N1 g) (le_trans (N2 g) (N3 g))
      split at h5
      · obtain ⟨_, t4, e5, h6⟩ := bind_ok h5
        clear h5
        obtain ⟨I4, P4, N4, -, -⟩ := step_unpin I3 e5
        obtain ⟨rfl, rfl⟩ := pure_inv h6
        refine ⟨I4, ?_, fun g => le_trans (hn3 g) (N4 g), ?_, by norm_num, by norm_num⟩
        · intro g q
          rw [P4, hp3]
          split_ifs <;> omega
        · intro hne
          exact absurd rfl hne
      · obtain ⟨cur2, t4, e5, h6⟩ := bind_ok h5
        clear h5
        obtain ⟨-, rfl⟩ := getNonLeaf_inv e5
        split at h6
        · obtain ⟨_, t4, e6, h7⟩ := bind_ok h6
          clear h6
          obtain ⟨I4, P4, N4, -⟩ := step_quiet (always_assert SameBuf.refl_buf _) I3 e6
          obtain ⟨_, t5, e7, h8⟩ := bind_ok h7
          clear h7
          obtain ⟨I5, P5, N5, -⟩ := step_quiet (quiet_insertToNonLeaf _ _ _ _) I4 e7
          obtain ⟨_, t6, e8, h9⟩ := bind_ok h8
          clear h8
          obtain ⟨I6, P6, N6, -, -⟩ := step_unpin I5 e8
          obtain ⟨rfl, rfl⟩ := pure_inv h9
          refine ⟨I6, ?_, fun g => le_trans (hn3 g) (le_trans (N4 g) (le_trans (N5 g) (N6 g))),
            ?_, by norm_num, by norm_num⟩
          · intro g q
            rw [P6, P5, P4, hp3]
            split_ifs <;> omega
          · intro hne
            exact absurd rfl hne
        · obtain ⟨a, t4, e6, h7⟩ := bind_ok h6
          clear h6
          obtain ⟨I4, P4, N4⟩ := step_allocNode quiet_page_set_NonLeafNodeInt I3 e6
          rw [F3, F2, F1] at P4
          obtain ⟨newNonLeafPage, newNode⟩ := a
          dsimp only at h7
          obtain ⟨_, t5, e7, h8⟩ := bind_ok h7
          clear h7
          obtain ⟨I5, P5, N5, -⟩ := step_quiet (quiet_splitNonLeaf _ _ _) I4 e7
          have hrest : ∃ t6 : BTreeIndex, t6.bufMgr.Inv ∧
              (∀ g q, pinOf t6.bufMgr g q = pinOf t5.bufMgr g q) ∧
              (∀ g, t5.bufMgr.disk.next g ≤ t6.bufMgr.disk.next g) ∧
              ((do
                let c ← getNonLeaf pg
                let n ← getNonLeaf newNode
                assert (decide (c.keyNum - n.keyNum ≤ 1 ∧ c.keyNum - n.keyNum ≥ -1))
                let newIndex2 ← deleteNewKeyNonLeaf newNode
                callBuf (fun b => unPinPage b t.file page true)
                callBuf (fun b => unPinPage b t.file newNonLeafPage true)
                pure (newNonLeafPage, newIndex2)) : IndexM (PageId × Int)) t6 = (.ok r, u) := by
            split at h8
            · obtain ⟨_, t6, e8, h9⟩ := bind_ok h8
              obtain ⟨I6, P6, N6, -⟩ := step_quiet (quiet_insertToNonLeaf _ _ _ _) I5 e8
              exact ⟨t6, I6, P6, N6, h9⟩
            · obtain ⟨_, t6, e8, h9⟩ := bind_ok h8
              obtain ⟨I6, P6, N6, -⟩ := step_quiet (quiet_insertToNewNonLeaf _ _ _ _) I5 e8
              exact ⟨t6, I6, P6, N6, h9⟩
          clear h8
          obtain ⟨t6, I6, P6, N6, h9⟩ := hrest
          obtain ⟨c, t7, e9, h10⟩ := bind_ok h9
          clear h9
          obtain ⟨-, rfl⟩ := getNonLeaf_inv e9
          obtain ⟨m, t7, e10, h11⟩ := bind_ok h10
          clear h10
          obtain ⟨-, rfl⟩ := getNonLeaf_inv e10
          obtain ⟨_, t7, e11, h12⟩ := bind_ok h11
          clear h11
          obtain ⟨I7, P7, N7, -⟩ := step_quiet (always_assert SameBuf.refl_buf _) I6 e11
          obtain ⟨newIndex2, t8, e12, h13⟩ := bind_ok h12
          clear h12
          obtain ⟨I8, P8, N8, -⟩ := step_quiet (quiet_deleteNewKeyNonLeaf _) I7 e12
          have hrange := deleteNewKeyNonLeaf_range e12
          obtain ⟨_, t9, e13, h14⟩ := bind_ok h13
          clear h13
          obtain ⟨I9, P9, N9, D9, -⟩ := step_unpin I8 e13
          obtain ⟨_, t10, e14, h15⟩ := bind_ok h14
          clear h14
          obtain ⟨I10, P10, N10, D10, M10⟩ := step_unpin I9 e14
          obtain ⟨rfl, rfl⟩ := pure_inv h15
          have hp8 : ∀ g q, pinOf t8.bufMgr g q = pinOf t.bufMgr g q +
              (if (g, q) = (t.file, page) then 1 else 0) +
              (if (g, q) = (t.file, newNonLeafPage) then 1 else 0) := by
            intro g q
            rw [P8, P7, P6, P5, P4, hp3]
          refine ⟨I10, ?_, ?_, ?_, hrange⟩
          · intro g q
            rw [P10, P9, hp8]
            split_ifs <;> omega
          · intro g
            exact le_trans (hn3 g) (le_trans (N4 g) (le_trans (N5 g) (le_trans (N6 g)
              (le_trans (N7 g) (le_trans (N8 g) (le_trans (N9 g) (N10 g)))))))
          · intro _
            have h8 : 0 < pinOf t8.bufMgr t.file page := by
              rw [hp8, if_pos rfl]
              omega
            have h9 : 0 < pinOf t9.bufMgr t.file newNonLeafPage := by
              rw [P9, hp8, if_pos rfl]
              split_ifs <;> omega
            exact ⟨M10 _ _ (D9 rfl h8), D10 rfl h9⟩


/-! ### The root split -/

theorem allocPage_ok_holds {s : BufMgr} (w : s.WF) (hN : 0 < s.numBufs) {f : FileId}
    {r : PageId × FrameId} (hok : (allocPage s f).1 = .ok r) :
    (allocPage s f).2.holds r.2 f r.1 ∧ r.1 = s.disk.next f := by
  have hnx : ∀ g, s.disk.next g ≤ (s.disk.allocatePage f).2.next g := by
    intro g
    rw [Disk.next_allocatePage]
    split
    · rename_i h
      rw [h]
      exact Nat.le_succ _
    · exact le_rfl
  have w0 : ({ s with disk := (s.disk.allocatePage f).2 } : BufMgr).WF :=
    w.withDisk _ (w.diskWF.allocatePage f) hnx
  obtain ⟨w1, hn, hsel, _, _⟩ := wf_allocBuf w0 hN
  rw [allocPage_eq] at hok ⊢
  rcases hA : allocBuf ({ s with disk := (s.disk.allocatePage f).2 } : BufMgr) with ⟨r1, s1⟩
  rw [hA] at hok w1 hn hsel
  simp only at hok w1 hn hsel ⊢
  match r1, hok with
  | .ok (some i), hok =>
    simp only at hok ⊢
    have hr : ((s.disk.allocatePage f).1.page_number, i) = r := Except.ok.inj hok
    obtain ⟨hi, hv⟩ := hsel i rfl
    subst hr
    refine ⟨?_, rfl⟩
    have hh := (BufMgr.holds_install w1 (by rw [hn]; exact hi) f
      (s.disk.allocatePage f).1.page_number (s.disk.allocatePage f).1 i f
      (s.disk.allocatePage f).1.page_number).2 (Or.inl ⟨rfl, rfl, rfl⟩)
    exact hh
  | .ok none, hok => cases hok
  | .error e, hok => cases hok

/-- A resident page that is unpinned with dirty = true keeps its bytes from then on. -/
theorem saved_unPinPage_dirty {s : BufMgr} (w : s.WF) {f : FileId} {p : PageId} {i : FrameId}
    (hh : s.holds i f p) (hok : (unPinPage s f p true).1 = .ok ()) :
    Saved (unPinPage s f p true).2 f p (s.page i) := by
  have hl := (w.resident f p i).2 hh
  have hlen : i < s.bufDescTable.length := by rw [w.descLen]; exact hh.1
  by_cases hp : 0 < (s.desc i).pinCnt
  · rw [unPinPage_pinned true hl hp]
    left
    have hd : ((BufMgr.setDesc s i
        { s.desc i with pinCnt := (s.desc i).pinCnt - 1, dirty := (true || (s.desc i).dirty) }
        ).countAccess).desc i =
        { s.desc i with pinCnt := (s.desc i).pinCnt - 1, dirty := (true || (s.desc i).dirty) } := by
      show (BufMgr.setDesc s i _).desc i = _
      rw [desc_setDesc, if_pos ⟨rfl, hlen⟩]
    refine ⟨i, ⟨hh.1, ?_, ?_, ?_⟩, rfl, Or.inl ?_⟩
    · rw [hd]
      exact hh.2.1
    · rw [hd]
      exact hh.2.2.1
    · rw [hd]
      exact hh.2.2.2
    · rw [hd]
      rfl
  · exfalso
    have e : unPinPage s f p true = (.error .PageNotPinnedException, s) := by
      unfold unPinPage
      rw [hl]
      simp only
      rw [if_pos (by omega)]
    rw [e] at hok
    cases hok

theorem Saved.pageData_eq {s : BufMgr} (w : s.WF) {f : FileId} {p : PageId} {b : Page}
    (h : Saved s f p b) : s.pageData f p = b.data := by
  unfold BufMgr.pageData
  rcases h with ⟨i, hi, hb, _⟩ | ⟨hl, hd⟩
  · rw [(w.resident f p i).2 hi]
    simp only
    rw [hb]
  · rw [hl]
    simp only
    rw [hd]

theorem page_putWords (b : BufMgr) (p : FrameId) (w : List Nat) (hp : p < b.bufPool.length) :
    ((b.putWords p w).page p).data = w ++ (b.page p).data.drop w.length := by
  unfold BufMgr.putWords writeFrame
  rw [page_setPage, if_pos ⟨rfl, hp⟩]

theorem Saved.after_putWords {s : BufMgr} {f : FileId} {p : PageId} {b : Page}
    (h : Saved s f p b) (i : FrameId) (w : List Nat) (hi : ¬ s.holds i f p) :
    Saved (s.putWords i w) f p b :=
  h.after_writeFrame i _ hi

theorem rootPageNo_ofWords (m : IndexMetaInfo) (rest : List Nat) :
    (IndexMetaInfo.ofWords (m.words ++ rest)).rootPageNo = m.rootPageNo := by
  unfold IndexMetaInfo.ofWords IndexMetaInfo.words
  simp only [List.getD_eq_getElem?_getD]
  rw [List.getElem?_append_left (by simp), List.getElem?_append_right (by simp)]
  simp


/-- The effect of `splitRoot` when it returns: the pin counts are those on entry, the
root is the page just allocated, that page holds the new root node, and the meta page
records it. -/
theorem splitRoot_effect {key : Int} {left right : PageId} {t u : BTreeIndex}
    (hI : t.bufMgr.Inv) (hk : -2 ^ 31 ≤ key ∧ key < 2 ^ 31)
    (hhdr : t.headerPageNum < t.bufMgr.disk.next t.file)
    (h : splitRoot key left right t = (.ok (), u)) :
    u.bufMgr.Inv ∧ (∀ g q, pinOf u.bufMgr g q = pinOf t.bufMgr g q) ∧
    u.rootPageNum = t.bufMgr.disk.next t.file ∧
    (u.file = t.file ∧ u.M = t.M ∧ u.headerPageNum = t.headerPageNum) ∧
    nonLeafOf u u.rootPageNum =
      { level := if t.rootPageNum = t.initialRootPageNum then 1 else 0
        keyNum := 1
        keyArray := (List.replicate t.M 0).set 0 key
        pageNoArray := ((List.replicate (t.M + 1) 0).set 0 left).set 1 right } ∧
    (metaOf u u.headerPageNum).rootPageNo = u.rootPageNum := by
  unfold splitRoot at h
  obtain ⟨a, t2x, e1, h1⟩ := bind_ok h
  clear h
  obtain ⟨newIdx, frx⟩ := a
  dsimp only at h1
  have e1c := e1
  unfold allocNode at e1c
  obtain ⟨t0, t0b, e0, ha⟩ := bind_ok e1c
  clear e1c
  obtain ⟨rfl, rfl⟩ := readState_inv e0
  obtain ⟨a, t1, ea, hb⟩ := bind_ok ha
  clear ha
  obtain ⟨newId, fr⟩ := a
  dsimp only at hb
  obtain ⟨_, t2, eps, hc⟩ := bind_ok hb
  clear hb
  obtain ⟨hpair, rfl⟩ := pure_inv hc
  obtain ⟨rfl, rfl⟩ := Prod.mk.inj hpair
  clear hc hpair e0
  obtain ⟨hok, ht1⟩ := callBuf_inv ea
  obtain ⟨hh1, hnew⟩ := allocPage_ok_holds hI.1 hI.2 hok
  dsimp only at hh1 hnew
  obtain ⟨I1, P1, N1⟩ := step_alloc hI ea
  have M1 : Members t t1 := (members_callBuf _).ok ea
  have hb1 : t1.bufMgr = (allocPage t.bufMgr t.file).2 := by rw [ht1]
  have hh1b : t1.bufMgr.holds fr t.file newId := by
    rw [hb1]
    exact hh1
  have hfr1 : fr < t1.bufMgr.bufPool.length := by
    rw [I1.1.poolLen]
    exact hh1b.1
  obtain ⟨I2, P2, N2, -⟩ := step_quiet (quiet_page_set_NonLeafNodeInt fr) I1 eps
  have S2 := (quiet_page_set_NonLeafNodeInt fr).ok eps
  have hZ : nonLeafAt t2 fr =
      (⟨0, 0, List.replicate t1.M 0, List.replicate (t1.M + 1) 0⟩ : NonLeafNodeInt) := by
    have hs : NonLeafNodeInt.Shaped t1.M
        (⟨0, 0, List.replicate t1.M 0, List.replicate (t1.M + 1) 0⟩ : NonLeafNodeInt) := by
      refine ⟨by simp, by simp, ?_, by norm_num, by norm_num⟩
      intro x hx
      rw [List.mem_replicate] at hx
      rw [hx.2]
      norm_num
    have hb : t2.bufMgr = t1.bufMgr.putWords fr (NonLeafNodeInt.words
        (⟨0, 0, List.replicate t1.M 0, List.replicate (t1.M + 1) 0⟩ : NonLeafNodeInt)) := by
      exact (congrArg (fun x => x.2.bufMgr) eps).symm
    exact (nonLeafAt_put t1 t2 fr _ S2.2.2.2.1 hb hfr1 hs).1
  obtain ⟨n, t2c, e2, h2⟩ := bind_ok h1
  clear h1
  obtain ⟨hn, rfl⟩ := getNonLeaf_inv e2
  obtain ⟨ts, t2d, e3, h3⟩ := bind_ok h2
  clear h2
  obtain ⟨rfl, rfl⟩ := readState_inv e3
  clear e2 e3
  split at h3
  · exact (raise_not_ok h3).elim
  · rename_i hM
    obtain ⟨_, t3, e4, h4⟩ := bind_ok h3
    clear h3
    obtain ⟨I3, P3, N3, -⟩ := step_quiet (quiet_setNonLeaf _ _) I2 e4
    have S3 := (quiet_setNonLeaf _ _).ok e4
    have hfr2 : fr < t2.bufMgr.bufPool.length := by
      rw [S2.1.2.2.2.2.1]
      exact hfr1
    have hM12 : t2.M = t1.M := S2.2.2.2.1
    have hM01 : t1.M = t.M := M1.2.2.1
    have hR : nonLeafAt t3 fr =
        (⟨if t2.rootPageNum = t2.initialRootPageNum then 1 else 0, 1, n.keyArray.set 0 key,
          (n.pageNoArray.set 0 left).set 1 right⟩ : NonLeafNodeInt) := by
      have hs : NonLeafNodeInt.Shaped t2.M
        (⟨if t2.rootPageNum = t2.initialRootPageNum then 1 else 0, 1, n.keyArray.set 0 key,
          (n.pageNoArray.set 0 left).set 1 right⟩ : NonLeafNodeInt) := by
        rw [← hn, hZ]
        refine ⟨by simp [hM12], by simp [hM12], ?_, ?_, by norm_num⟩
        · intro x hx
          rcases List.mem_or_eq_of_mem_set hx with hx | hx
          · rw [List.mem_replicate] at hx
            rw [hx.2]
            norm_num
          · rw [hx]
            exact hk
        · dsimp only
          split_ifs <;> norm_num
      have hb : t3.bufMgr = t2.bufMgr.putWords fr (NonLeafNodeInt.words
        (⟨if t2.rootPageNum = t2.initialRootPageNum then 1 else 0, 1, n.keyArray.set 0 key,
          (n.pageNoArray.set 0 left).set 1 right⟩ : NonLeafNodeInt)) := by
        exact (congrArg (fun x => x.2.bufMgr) e4).symm
      exact (nonLeafAt_put t2 t3 fr _ S3.2.2.2.1 hb hfr2 hs).1
    obtain ⟨_, t4, e5, h5⟩ := bind_ok h4
    clear h4
    have Q4 := quiet_occupancy (fun t => { t with nodeOccupancy := t.nodeOccupancy + 1 })
      (fun _ => ⟨rfl, rfl, rfl, rfl, rfl, rfl, rfl⟩)
    obtain ⟨I4, P4, N4, -⟩ := step_quiet Q4 I3 e5
    have S4 := Q4.ok e5
    have hb4 : t4.bufMgr = t3.bufMgr := by
      rw [← modifyState_inv e5]
    obtain ⟨_, t5, e6, h6⟩ := bind_ok h5
    clear h5
    obtain ⟨I5, P5, N5, -, -⟩ := step_unpin I4 e6
    obtain ⟨hok6, ht5⟩ := callBuf_inv e6
    have F2 : t2.file = t.file := (S2.2.1).trans M1.1
    have hh4 : t4.bufMgr.holds fr t2.file newId := by
      rw [F2]
      exact (S4.1.holds_same _ _ _).2 ((S3.1.holds_same _ _ _).2 ((S2.1.holds_same _ _ _).2 hh1b))
    have hS5 : Saved t5.bufMgr t2.file newId (t4.bufMgr.page fr) := by
      rw [ht5]
      exact saved_unPinPage_dirty I4.1 hh4 hok6
    obtain ⟨_, t6, e7, h7⟩ := bind_ok h6
    clear h6
    obtain rfl := modifyState_inv e7
    obtain ⟨hfr, t7, e8, h8⟩ := bind_ok h7
    clear h7
    have I5b : ({ t5 with rootPageNum := newId } : BTreeIndex).bufMgr.Inv := I5
    obtain ⟨I7, P7, N7⟩ := step_read I5b e8
    obtain ⟨hok8, ht7⟩ := callBuf_inv e8
    have H2 : t2.headerPageNum = t.headerPageNum := (S2.2.2.2.2.1).trans M1.2.2.2.1
    have hne : (t2.file, newId) ≠ (t2.file, t2.headerPageNum) := by
      intro e
      have e2 := (Prod.mk.inj e).2
      rw [H2, hnew] at e2
      rw [← e2] at hhdr
      exact lt_irrefl _ hhdr
    have hh7 : t7.bufMgr.holds hfr t2.file t2.headerPageNum := by
      rw [ht7]
      exact (readPage_ok_holds I5.1 I5.2 hok8).1
    have hS7 : Saved t7.bufMgr t2.file newId (t4.bufMgr.page fr) := by
      rw [ht7]
      exact hS5.readPage_other I5.1 I5.2 _ _ hne
    obtain ⟨m, t7b, e9, h9⟩ := bind_ok h8
    clear h8
    obtain ⟨hm, rfl⟩ := getMeta_inv e9
    obtain ⟨_, t8, e10, h10⟩ := bind_ok h9
    clear h9
    obtain ⟨I8, P8, N8, -⟩ := step_quiet (quiet_setMeta _ _) I7 e10
    have S8 := (quiet_setMeta _ _).ok e10
    have hb8 : t8.bufMgr = t7.bufMgr.putWords hfr
        (IndexMetaInfo.words { m with rootPageNo := newId }) := by
      exact (congrArg (fun x => x.2.bufMgr) e10).symm
    have hS8 : Saved t8.bufMgr t2.file newId (t4.bufMgr.page fr) := by
      rw [hb8]
      exact hS7.after_putWords _ _ (fun hc => hne (I7.1.same_page hh7 hc))
    have hh8 : t8.bufMgr.holds hfr t2.file t2.headerPageNum := (S8.1.holds_same _ _ _).2 hh7
    obtain ⟨I9, P9, N9, -, -⟩ := step_unpin I8 h10
    obtain ⟨hok10, hu⟩ := callBuf_inv h10
    have hS9 : Saved u.bufMgr t2.file newId (t4.bufMgr.page fr) := by
      rw [hu]
      exact hS8.after_unPinPage _ _ _
    have hS9h : Saved u.bufMgr t2.file t2.headerPageNum (t8.bufMgr.page hfr) := by
      rw [hu]
      exact saved_unPinPage_dirty I8.1 hh8 hok10
    have M7 : Members ({ t5 with rootPageNum := newId } : BTreeIndex) t7 :=
      (members_callBuf _).ok e8
    have M5 : Members t4 t5 := (members_callBuf _).ok e6
    have M8u : Members t8 u := (members_callBuf _).ok h10
    have hroot : u.rootPageNum = newId := by
      rw [M8u.2.2.2.2.1, S8.2.2.2.2.2.1, M7.2.2.2.2.1]
    have hfile : u.file = t2.file := by
      rw [M8u.1, S8.2.1, M7.1]
      show t5.file = _
      rw [M5.1, S4.2.1, S3.2.1]
    have hMu : u.M = t2.M := by
      rw [M8u.2.2.1, S8.2.2.2.1, M7.2.2.1]
      show t5.M = _
      rw [M5.2.2.1, S4.2.2.2.1, S3.2.2.2.1]
    have hhu : u.headerPageNum = t2.headerPageNum := by
      rw [M8u.2.2.2.1, S8.2.2.2.2.1, M7.2.2.2.1]
      show t5.headerPageNum = _
      rw [M5.2.2.2.1, S4.2.2.2.2.1, S3.2.2.2.2.1]
    have hfr7 : hfr < t7.bufMgr.bufPool.length := by
      rw [I7.1.poolLen]
      exact hh7.1
    refine ⟨I9, ?_, ?_, ⟨hfile.trans F2, hMu.trans (hM12.trans hM01), hhu.trans H2⟩, ?_, ?_⟩
    · intro g q
      rw [P9, P8, P7]
      show pinOf t5.bufMgr g q + _ - _ = _
      rw [P5, P4, P3, P2, P1, F2, H2]
      dsimp only
      split_ifs <;> omega
    · rw [hroot, hnew]
    · unfold nonLeafOf
      rw [hroot, hfile, hS9.pageData_eq I9.1, hMu, hb4]
      have hR2 := hR
      unfold nonLeafAt at hR2
      rw [S3.2.2.2.1] at hR2
      rw [hR2, ← hn, hZ, hM01]
      have e5r : t2.rootPageNum = t.rootPageNum := (S2.2.2.2.2.2.1).trans M1.2.2.2.2.1
      have e6r : t2.initialRootPageNum = t.initialRootPageNum :=
        (S2.2.2.2.2.2.2).trans M1.2.2.2.2.2
      rw [e5r, e6r]
    · unfold metaOf
      rw [hroot, hfile, hhu, hS9h.pageData_eq I9.1, hb8, page_putWords _ _ _ hfr7,
        rootPageNo_ofWords]


theorem eq_of_fst_ok {α : Type} {x : Except IndexExn α × BTreeIndex} {a : α}
    (h : x.1 = .ok a) : x = (.ok a, x.2) := by
  obtain ⟨r, s⟩ := x
  simp only at h
  rw [h]

theorem splitRoot_pins {key : Int} {left right : PageId} {t u : BTreeIndex} {a : Unit}
    (hI : t.bufMgr.Inv) (h : splitRoot key left right t = (.ok a, u)) :
    u.bufMgr.Inv ∧ (∀ g q, pinOf u.bufMgr g q = pinOf t.bufMgr g q) ∧
    (∀ g, t.bufMgr.disk.next g ≤ u.bufMgr.disk.next g) := by
  unfold splitRoot at h
  obtain ⟨a, t2, e1, h1⟩ := bind_ok h
  clear h
  obtain ⟨I2, P2, N2⟩ := step_allocNode quiet_page_set_NonLeafNodeInt hI e1
  have M2 : Members t t2 := (members_allocNode quiet_page_set_NonLeafNodeInt).ok e1
  obtain ⟨newId, fr⟩ := a
  dsimp only at h1 P2
  obtain ⟨n, t2c, e2, h2⟩ := bind_ok h1
  clear h1
  obtain ⟨-, rfl⟩ := getNonLeaf_inv e2
  obtain ⟨ts, t2d, e3, h3⟩ := bind_ok h2
  clear h2
  obtain ⟨rfl, rfl⟩ := readState_inv e3
  clear e2 e3
  split at h3
  · exact (raise_not_ok h3).elim
  · obtain ⟨_, t3, e4, h4⟩ := bind_ok h3
    clear h3
    obtain ⟨I3, P3, N3, -⟩ := step_quiet (quiet_setNonLeaf _ _) I2 e4
    obtain ⟨_, t4, e5, h5⟩ := bind_ok h4
    clear h4
    have Q4 := quiet_occupancy (fun t => { t with nodeOccupancy := t.nodeOccupancy + 1 })
      (fun _ => ⟨rfl, rfl, rfl, rfl, rfl, rfl, rfl⟩)
    obtain ⟨I4, P4, N4, -⟩ := step_quiet Q4 I3 e5
    obtain ⟨_, t5, e6, h6⟩ := bind_ok h5
    clear h5
    obtain ⟨I5, P5, N5, -, -⟩ := step_unpin I4 e6
    obtain ⟨_, t6, e7, h7⟩ := bind_ok h6
    clear h6
    obtain rfl := modifyState_inv e7
    obtain ⟨hfr, t7, e8, h8⟩ := bind_ok h7
    clear h7
    have I5b : ({ t5 with rootPageNum := newId } : BTreeIndex).bufMgr.Inv := I5
    obtain ⟨I7, P7, N7⟩ := step_read I5b e8
    obtain ⟨m, t7b, e9, h9⟩ := bind_ok h8
    clear h8
    obtain ⟨-, rfl⟩ := getMeta_inv e9
    obtain ⟨_, t8, e10, h10⟩ := bind_ok h9
    clear h9
    obtain ⟨I8, P8, N8, -⟩ := step_quiet (quiet_setMeta _ _) I7 e10
    obtain ⟨I9, P9, N9, -, -⟩ := step_unpin I8 h10
    refine ⟨I9, ?_, ?_⟩
    · intro g q
      rw [P9, P8, P7]
      show pinOf t5.bufMgr g q + _ - _ = _
      rw [P5, P4, P3, P2, M2.1]
      split_ifs <;> omega
    · intro g
      have a7 : t5.bufMgr.disk.next g ≤ t7.bufMgr.disk.next g := N7 g
      exact le_trans (N2 g) (le_trans (N3 g) (le_trans (N4 g) (le_trans (N5 g)
        (le_trans a7 (le_trans (N8 g) (N9 g))))))

/-- What `insertEntry` is made of: the recursive insert from the root, followed by
`splitRoot` when a split is reported. -/
theorem insertEntry_run (fuel : Nat) (key : Int) (rid : RecordId) (t s : BTreeIndex)
    (pn : PageId) (k : Int)
    (hrec : recursiveInsert fuel t.rootPageNum key rid
      (decide (t.rootPageNum = t.initialRootPageNum)) t = (.ok (pn, k), s)) :
    insertEntry fuel key rid t =
      if pn ≠ 0 then splitRoot k t.rootPageNum pn s else (.ok (), s) := by
  unfold insertEntry
  simp only [bind_eq, readState]
  rw [hrec]
  simp only
  split <;> rfl

theorem insertEntry_pins {fuel : Nat} {key : Int} {rid : RecordId} {t u : BTreeIndex}
    {a : Unit} (hI : t.bufMgr.Inv) (h : insertEntry fuel key rid t = (.ok a, u)) :
    u.bufMgr.Inv ∧ (∀ g q, pinOf u.bufMgr g q = pinOf t.bufMgr g q) ∧
    (∀ g, t.bufMgr.disk.next g ≤ u.bufMgr.disk.next g) := by
  have h0 := h
  unfold insertEntry at h0
  obtain ⟨t0, t1, e, h1⟩ := bind_ok h0
  clear h0
  obtain ⟨rfl, rfl⟩ := readState_inv e
  obtain ⟨r, s, e1, h2⟩ := bind_ok h1
  clear h1
  obtain ⟨I1, P1, N1, -, -⟩ := recursiveInsert_pins _ _ _ _ _ _ _ _ hI e1
  obtain ⟨pn, k⟩ := r
  dsimp only at h2
  split at h2
  · obtain ⟨I2, P2, N2⟩ := splitRoot_pins I1 h2
    refine ⟨I2, ?_, fun g => le_trans (N1 g) (N2 g)⟩
    intro g q
    rw [P2, P1]
  · obtain ⟨-, rfl⟩ := pure_inv h2
    exact ⟨I1, P1, N1⟩

theorem insertAll_inv {fuel : Nat} (l : List (Int × RecordId)) {t u : BTreeIndex} {a : Unit}
    (hI : t.bufMgr.Inv) (h : insertAll fuel l t = (.ok a, u)) : u.bufMgr.Inv := by
  induction l generalizing t with
  | nil =>
    obtain ⟨-, rfl⟩ := pure_inv h
    exact hI
  | cons x r ih =>
    obtain ⟨key, rid⟩ := x
    unfold insertAll at h
    obtain ⟨_, t1, e1, h1⟩ := bind_ok h
    exact ih (insertEntry_pins hI e1).1 h1

/-- The constructor, when it builds the index, leaves a pool that satisfies the
invariant. -/
theorem createIndex_inv {fuel : Nat} {relationName : List Nat} {l : List (Int × RecordId)}
    {t u : BTreeIndex} {a : Unit} (hI : t.bufMgr.Inv)
    (h : createIndex fuel relationName l t = (.ok a, u)) : u.bufMgr.Inv := by
  unfold createIndex at h
  obtain ⟨a1, t1, e1, h1⟩ := bind_ok h
  clear h
  obtain ⟨I1, -, -⟩ := step_allocNode (fun p => quiet_setMeta p _) hI e1
  obtain ⟨headerPageNum, metaPtr⟩ := a1
  dsimp only at h1
  obtain ⟨_, t2, e2, h2⟩ := bind_ok h1
  clear h1
  obtain rfl := modifyState_inv e2
  obtain ⟨a3, t3, e3, h3⟩ := bind_ok h2
  clear h2
  have I1b : ({ t1 with headerPageNum := headerPageNum } : BTreeIndex).bufMgr.Inv := I1
  obtain ⟨I3, -, -⟩ := step_allocNode quiet_page_set_LeafNodeInt I1b e3
  obtain ⟨rootPageNum, page⟩ := a3
  dsimp only at h3
  obtain ⟨_, t4, e4, h4⟩ := bind_ok h3
  clear h3
  obtain rfl := modifyState_inv e4
  obtain ⟨n, t5, e5, h5⟩ := bind_ok h4
  clear h4
  obtain ⟨-, rfl⟩ := getLeaf_inv e5
  obtain ⟨_, t6, e6, h6⟩ := bind_ok h5
  clear h5
  have S6 : SameFrames t3.bufMgr t6.bufMgr := ((quiet_setLeaf _ _).ok e6).1
  have I6 : t6.bufMgr.Inv := S6.inv_same I3
  obtain ⟨ts, t7, e7, h7⟩ := bind_ok h6
  clear h6
  obtain ⟨rfl, rfl⟩ := readState_inv e7
  obtain ⟨_, t8, e8, h8⟩ := bind_ok h7
  clear h7
  obtain ⟨I8, -, -, -⟩ := step_quiet (quiet_setMeta _ _) I6 e8
  obtain ⟨_, t9, e9, h9⟩ := bind_ok h8
  clear h8
  obtain ⟨I9, -, -, -, -⟩ := step_unpin I8 e9
  obtain ⟨_, t10, e10, h10⟩ := bind_ok h9
  clear h9
  obtain ⟨I10, -, -, -, -⟩ := step_unpin I9 e10
  exact insertAll_inv _ I10 h10

theorem builtIndex_inv (keys : List Int) (h : (builtIndex keys).1 = .ok ()) :
    (builtIndex keys).2.bufMgr.Inv :=
  createIndex_inv ⟨wf_new 10 indexDisk_wf, by decide⟩ (eq_of_fst_ok h)

/-- C24. insertEntry leaks no pins.  On a pool that satisfies the invariant, when
insertEntry returns normally the pin count of every page (of every file) is the one it
had on entry, and the pool still satisfies the invariant.  The same holds for every call
of recursiveInsert that returns normally, at any level of the descent; and when such a
call reports a split (newPageNo is not 0), the page that was split and the new sibling
are both resident with their dirty bit set when the call returns: each was unpinned with
dirty = true. -/
theorem insertEntry_no_pin_leak (fuel : Nat) (key : Int) (rid : RecordId) (t : BTreeIndex)
    (w : t.bufMgr.WF) (hN : 0 < t.bufMgr.numBufs)
    (hok : (insertEntry fuel key rid t).1 = .ok ()) :
    (∀ f p, pinOf (insertEntry fuel key rid t).2.bufMgr f p = pinOf t.bufMgr f p) ∧
    (insertEntry fuel key rid t).2.bufMgr.WF ∧
    (∀ (n : Nat) (page : PageId) (k : Int) (r : RecordId) (isLeaf : Bool) (s : BTreeIndex)
      (newPageNo : PageId) (newIndex : Int), s.bufMgr.WF → 0 < s.bufMgr.numBufs →
      (recursiveInsert n page k r isLeaf s).1 = .ok (newPageNo, newIndex) →
      (∀ f p, pinOf (recursiveInsert n page k r isLeaf s).2.bufMgr f p = pinOf s.bufMgr f p) ∧
      (newPageNo ≠ 0 →
        (recursiveInsert n page k r isLeaf s).2.bufMgr.dirtyResident s.file page ∧
        (recursiveInsert n page k r isLeaf s).2.bufMgr.dirtyResident s.file newPageNo)) := by
  obtain ⟨I, P, -⟩ := insertEntry_pins ⟨w, hN⟩ (eq_of_fst_ok hok)
  refine ⟨P, I.1, ?_⟩
  intro n page k r isLeaf s newPageNo newIndex ws hs hrec
  obtain ⟨-, P1, -, D1, -⟩ :=
    recursiveInsert_pins n page k r isLeaf s _ _ ⟨ws, hs⟩ (eq_of_fst_ok hrec)
  exact ⟨P1, D1⟩

theorem insertEntry_no_pin_leak_witness :
    (insertEntry 10 5 (ridOf 5) (builtIndex [1, 2, 3, 4]).2).1 = .ok () ∧
    (∀ f p, pinOf (insertEntry 10 5 (ridOf 5) (builtIndex [1, 2, 3, 4]).2).2.bufMgr f p
      = pinOf (builtIndex [1, 2, 3, 4]).2.bufMgr f p) :=
  ⟨by decide!,
    (insertEntry_no_pin_leak 10 5 (ridOf 5) (builtIndex [1, 2, 3, 4]).2
      (builtIndex_inv [1, 2, 3, 4] (by decide!)).1 (builtIndex_inv [1, 2, 3, 4] (by decide!)).2
      (by decide!)).1⟩

/-- C30. Root split.  The pool satisfies the invariant and the meta page is a page of
the index file.  Let the top-level call of recursiveInsert, on the root, return
(pn, k).  If pn = 0, insertEntry returns and the root page number is unchanged.  If pn
is not 0 and insertEntry returns, then the root page number is the id of the page the
file has just allocated; that page holds a non-leaf node with keyNum = 1,
keyArray[0] = k, pageNoArray[0] = the old root page id and pageNoArray[1] = pn (all other
entries 0), whose level is 1 if the old root was the initial root leaf and 0 otherwise;
and rootPageNo in the meta page is the new page id. -/
theorem insertEntry_root_split (fuel : Nat) (key : Int) (rid : RecordId) (t : BTreeIndex)
    (w : t.bufMgr.WF) (hN : 0 < t.bufMgr.numBufs)
    (hhdr : t.headerPageNum < t.bufMgr.disk.next t.file) (pn : PageId) (k : Int)
    (hrec : (recursiveInsert fuel t.rootPageNum key rid
      (decide (t.rootPageNum = t.initialRootPageNum)) t).1 = .ok (pn, k)) :
    (pn = 0 → (insertEntry fuel key rid t).1 = .ok () ∧
      (insertEntry fuel key rid t).2.rootPageNum = t.rootPageNum) ∧
    (pn ≠ 0 → (insertEntry fuel key rid t).1 = .ok () →
      (insertEntry fuel key rid t).2.rootPageNum =
        (recursiveInsert fuel t.rootPageNum key rid
          (decide (t.rootPageNum = t.initialRootPageNum)) t).2.bufMgr.disk.next t.file ∧
      nonLeafOf (insertEntry fuel key rid t).2 (insertEntry fuel key rid t).2.rootPageNum =
        { level := if t.rootPageNum = t.initialRootPageNum then 1 else 0
          keyNum := 1
          keyArray := (List.replicate t.M 0).set 0 k
          pageNoArray := ((List.replicate (t.M + 1) 0).set 0 t.rootPageNum).set 1 pn } ∧
      (metaOf (insertEntry fuel key rid t).2 t.headerPageNum).rootPageNo =
        (insertEntry fuel key rid t).2.rootPageNum) := by
  have e := eq_of_fst_ok hrec
  obtain ⟨I1, -, N1, -, hrange⟩ := recursiveInsert_pins _ _ _ _ _ _ _ _ ⟨w, hN⟩ e
  have M := (members_recursiveInsert fuel t.rootPageNum key rid
    (decide (t.rootPageNum = t.initialRootPageNum))).ok e
  have run := insertEntry_run fuel key rid t _ pn k e
  obtain ⟨mf, -, mM, mh, mr, mi⟩ := M
  constructor
  · intro h0
    rw [run, if_neg (not_not.mpr h0)]
    exact ⟨rfl, mr⟩
  · intro hne hok
    rw [run, if_pos hne] at hok ⊢
    have hs := eq_of_fst_ok hok
    have hhdr2 : (recursiveInsert fuel t.rootPageNum key rid
        (decide (t.rootPageNum = t.initialRootPageNum)) t).2.headerPageNum <
        (recursiveInsert fuel t.rootPageNum key rid
          (decide (t.rootPageNum = t.initialRootPageNum)) t).2.bufMgr.disk.next
        (recursiveInsert fuel t.rootPageNum key rid
          (decide (t.rootPageNum = t.initialRootPageNum)) t).2.file := by
      rw [mh, mf]
      exact lt_of_lt_of_le hhdr (N1 _)
    obtain ⟨-, -, hroot, ⟨-, -, hh⟩, hnode, hmeta⟩ := splitRoot_effect I1 hrange hhdr2 hs
    rw [mf] at hroot
    rw [mr, mi, mM] at hnode
    rw [hh, mh] at hmeta
    exact ⟨hroot, hnode, hmeta⟩

theorem insertEntry_root_split_witness :
    (insertEntry 10 5 (ridOf 5) (builtIndex [1, 2, 3, 4]).2).1 = .ok () ∧
    (insertEntry 10 5 (ridOf 5) (builtIndex [1, 2, 3, 4]).2).2.rootPageNum = 4 ∧
    nonLeafOf (insertEntry 10 5 (ridOf 5) (builtIndex [1, 2, 3, 4]).2).2
        (insertEntry 10 5 (ridOf 5) (builtIndex [1, 2, 3, 4]).2).2.rootPageNum =
      { level := if (builtIndex [1, 2, 3, 4]).2.rootPageNum =
            (builtIndex [1, 2, 3, 4]).2.initialRootPageNum then 1 else 0
        keyNum := 1
        keyArray := (List.replicate (builtIndex [1, 2, 3, 4]).2.M 0).set 0 4
        pageNoArray := ((List.replicate ((builtIndex [1, 2, 3, 4]).2.M + 1) 0).set 0
          (builtIndex [1, 2, 3, 4]).2.rootPageNum).set 1 3 } :=
  ⟨by decide!, by decide!,
    ((insertEntry_root_split 10 5 (ridOf 5) (builtIndex [1, 2, 3, 4]).2
      (builtIndex_inv [1, 2, 3, 4] (by decide!)).1 (builtIndex_inv [1, 2, 3, 4] (by decide!)).2
      (by decide!) 3 4 (by decide!)).2 (by decide) (by decide!)).2.1⟩

/-! ## B+-tree index: the two descents -/

/-- The loop of the scan descent, as a count: it returns the position of the first key
of the range that is larger than `key`, the value of `keyNum` when there is none. -/
theorem scanChild_eq (a : List Int) (kn key : Int) (n i : Nat) (h : i + n ≤ a.length) :
    scanChild a kn key n i =
      if (((a.drop i).take n).takeWhile (fun x => decide (x ≤ key))).length < n then
        ((i + (((a.drop i).take n).takeWhile (fun x => decide (x ≤ key))).length : Nat) : Int)
      else kn := by
  induction n generalizing i with
  | zero => simp [scanChild]
  | succ m ih =>
    have hi : i < a.length := by omega
    have hd : a.drop i = a[i] :: a.drop (i + 1) := List.drop_eq_getElem_cons hi
    have hg : a.getD i 0 = a[i] := by
      rw [List.getD_eq_getElem?_getD, List.getElem?_eq_getElem hi]
      rfl
    unfold scanChild
    rw [hg, hd, List.take_succ_cons]
    by_cases hk : key < a[i]
    · rw [if_pos hk]
      have hnot : ¬ a[i] ≤ key := by omega
      simp [List.takeWhile_cons, hnot]
    · rw [if_neg hk, ih (i + 1) (by omega)]
      have hle : a[i] ≤ key := by omega
      simp only [List.takeWhile_cons, hle, decide_True, if_true, List.length_cons]
      by_cases hc : (((a.drop (i + 1)).take m).takeWhile (fun x => decide (x ≤ key))).length < m
      · rw [if_pos hc, if_pos (by omega)]
        push_cast
        omega
      · rw [if_neg hc, if_neg (by omega)]

/-- On keys that are all different from `key`, counting the keys smaller than `key` and
counting the keys not larger than `key` is the same. -/
theorem takeWhile_lt_eq_le (xs : List Int) (key : Int) (h : key ∉ xs) :
    xs.takeWhile (fun x => decide (x < key)) = xs.takeWhile (fun x => decide (x ≤ key)) := by
  induction xs with
  | nil => rfl
  | cons y ys ih =>
    have hy : y ≠ key := fun e => h (by rw [e]; exact List.mem_cons_self _ _)
    have hys : key ∉ ys := fun e => h (List.mem_cons_of_mem _ e)
    have e : decide (y < key) = decide (y ≤ key) := by
      by_cases c : y < key
      · have c2 : y ≤ key := by omega
        simp [c, c2]
      · have c2 : ¬ y ≤ key := by omega
        simp [c, c2]
    simp only [List.takeWhile_cons, e, ih hys]

/-- In strictly ascending keys, the key at position `i` has `i` smaller keys before it
and `i + 1` keys not larger than it. -/
theorem takeWhile_at_key (xs : List Int) (i : Nat) (hi : i < xs.length)
    (hs : xs.Pairwise (fun x y => x < y)) :
    (xs.takeWhile (fun x => decide (x < xs[i]))).length = i ∧
    (xs.takeWhile (fun x => decide (x ≤ xs[i]))).length = i + 1 := by
  induction xs generalizing i with
  | nil => simp at hi
  | cons y ys ih =>
    rw [List.pairwise_cons] at hs
    cases i with
    | zero =>
      simp only [List.getElem_cons_zero, List.takeWhile_cons, lt_self_iff_false, decide_False,
        le_refl, decide_True, if_true, List.length_cons]
      refine ⟨by simp, ?_⟩
      cases ys with
      | nil => rfl
      | cons z zs =>
        have hz : ¬ z ≤ y := by
          have := hs.1 z (List.mem_cons_self _ _)
          omega
        simp [List.takeWhile_cons, hz]
    | succ j =>
      have hj : j < ys.length := by simpa using hi
      have hlt : y < ys[j] := hs.1 _ (List.getElem_mem _)
      have hle : y ≤ ys[j] := by omega
      obtain ⟨a, b⟩ := ih j hj hs.2
      simp only [List.getElem_cons_succ, List.takeWhile_cons, hlt, hle, decide_True, if_true,
        List.length_cons, a, b]
      exact ⟨trivial, trivial⟩

/-- C35. Insert descent and scan descent.  The node has 0 <= keyNum <= M keys inside its
key array, strictly ascending.  Both descents return a child index in [0, keyNum]: that
of the insert descent (findIndexInNonLeaf) is the number of keys smaller than k, that of
the scan descent (the loop of getLeafPage and getLevelOnePage) the number of keys not
larger than k.  If k equals none of the keys the two indexes are equal; if k is the key
at position i, the insert descent returns i and the scan descent i + 1. -/
theorem descents_agree_off_separators (M : Nat) (n : NonLeafNodeInt) (k : Int)
    (h0 : 0 ≤ n.keyNum) (hM : n.keyNum ≤ M) (hlen : n.keyNum.toNat ≤ n.keyArray.length)
    (hs : (n.keyArray.take n.keyNum.toNat).Pairwise (fun x y => x < y)) :
    findIndexInNonLeaf M n k =
      (((n.keyArray.take n.keyNum.toNat).takeWhile (fun x => decide (x < k))).length : Int) ∧
    scanChild n.keyArray n.keyNum k n.keyNum.toNat 0 =
      (((n.keyArray.take n.keyNum.toNat).takeWhile (fun x => decide (x ≤ k))).length : Int) ∧
    (0 ≤ findIndexInNonLeaf M n k ∧ findIndexInNonLeaf M n k ≤ n.keyNum) ∧
    (k ∉ n.keyArray.take n.keyNum.toNat →
      findIndexInNonLeaf M n k = scanChild n.keyArray n.keyNum k n.keyNum.toNat 0) ∧
    (∀ i : Nat, i < n.keyNum.toNat → n.keyArray.getD i 0 = k →
      findIndexInNonLeaf M n k = (i : Int) ∧
      scanChild n.keyArray n.keyNum k n.keyNum.toNat 0 = (i : Int) + 1) := by
  have hxl : (n.keyArray.take n.keyNum.toNat).length = n.keyNum.toNat := by
    rw [List.length_take]
    omega
  have hkn : ((n.keyNum.toNat : Nat) : Int) = n.keyNum := Int.toNat_of_nonneg h0
  have hlo : ((n.keyArray.take n.keyNum.toNat).takeWhile (fun x => decide (x < k))).length
      ≤ n.keyNum.toNat := by
    have := (List.takeWhile_prefix (fun x => decide (x < k))
      (l := n.keyArray.take n.keyNum.toNat)).length_le
    omega
  have hhi : ((n.keyArray.take n.keyNum.toNat).takeWhile (fun x => decide (x ≤ k))).length
      ≤ n.keyNum.toNat := by
    have := (List.takeWhile_prefix (fun x => decide (x ≤ k))
      (l := n.keyArray.take n.keyNum.toNat)).length_le
    omega
  have hfind : findIndexInNonLeaf M n k =
      (((n.keyArray.take n.keyNum.toNat).takeWhile (fun x => decide (x < k))).length : Int) := by
    unfold findIndexInNonLeaf lower_bound
    simp only
    rw [if_neg (by omega)]
  have hscan : scanChild n.keyArray n.keyNum k n.keyNum.toNat 0 =
      (((n.keyArray.take n.keyNum.toNat).takeWhile (fun x => decide (x ≤ k))).length : Int) := by
    rw [scanChild_eq n.keyArray n.keyNum k n.keyNum.toNat 0 (by omega), List.drop_zero]
    by_cases hc : ((n.keyArray.take n.keyNum.toNat).takeWhile
        (fun x => decide (x ≤ k))).length < n.keyNum.toNat
    · rw [if_pos hc, Nat.zero_add]
    · rw [if_neg hc]
      have : ((n.keyArray.take n.keyNum.toNat).takeWhile
          (fun x => decide (x ≤ k))).length = n.keyNum.toNat := by omega
      rw [this, hkn]
  refine ⟨hfind, hscan, ⟨by rw [hfind]; omega, by rw [hfind]; omega⟩, ?_, ?_⟩
  · intro hk
    rw [hfind, hscan, takeWhile_lt_eq_le _ k hk]
  · intro i hi hki
    have hi2 : i < (n.keyArray.take n.keyNum.toNat).length := by rw [hxl]; exact hi
    have hget : (n.keyArray.take n.keyNum.toNat)[i] = k := by
      rw [List.getElem_take]
      rw [List.getD_eq_getElem?_getD, List.getElem?_eq_getElem (by omega)] at hki
      exact hki
    obtain ⟨a, b⟩ := takeWhile_at_key _ i hi2 hs
    rw [hget] at a b
    rw [hfind, hscan, a, b]
    exact ⟨rfl, by push_cast; rfl⟩

theorem descents_agree_off_separators_witness :
    findIndexInNonLeaf 4 ⟨1, 3, [10, 20, 30, 0], [2, 3, 5, 6, 0]⟩ 25 =
      scanChild [10, 20, 30, 0] 3 25 (3 : Int).toNat 0 ∧
    findIndexInNonLeaf 4 ⟨1, 3, [10, 20, 30, 0], [2, 3, 5, 6, 0]⟩ 20 = ((1 : Nat) : Int) ∧
    scanChild [10, 20, 30, 0] 3 20 (3 : Int).toNat 0 = ((1 : Nat) : Int) + 1 :=
  ⟨(descents_agree_off_separators 4 ⟨1, 3, [10, 20, 30, 0], [2, 3, 5, 6, 0]⟩ 25 (by decide)
      (by decide) (by decide) (by decide)).2.2.2.1 (by decide),
    ((descents_agree_off_separators 4 ⟨1, 3, [10, 20, 30, 0], [2, 3, 5, 6, 0]⟩ 20 (by decide)
      (by decide) (by decide) (by decide)).2.2.2.2 1 (by decide) (by decide)).1,
    ((descents_agree_off_separators 4 ⟨1, 3, [10, 20, 30, 0], [2, 3, 5, 6, 0]⟩ 20 (by decide)
      (by decide) (by decide) (by decide)).2.2.2.2 1 (by decide) (by decide)).2⟩

/-! ## Buffer manager: the length of the clock sweep -/

theorem refCount_advanceClock (s : BufMgr) : (advanceClock s).refCount = s.refCount := rfl

/-- The loop of `allocBuf` ends in a `return` or a `throw` when its bound leaves room for
the reference bits still set and the pinned frames still to be counted. -/
theorem allocBufLoop_returns_or_throws (fuel pinNum : Nat) (lastPin : Bool) (s : BufMgr)
    (hN : 0 < s.numBufs) (hlen : s.bufDescTable.length = s.numBufs)
    (hpn : pinNum ≤ s.numBufs) (hlp : lastPin = true ∨ pinNum = 0)
    (hfuel : s.refCount + (s.numBufs - pinNum) + 1 ≤ fuel) :
    (allocBufLoop fuel pinNum lastPin s).1 ≠ .ok none ∧
    allocBufAdvances fuel pinNum lastPin s ≤ s.refCount + (s.numBufs - pinNum) + 1 := by
  induction fuel generalizing pinNum lastPin s with
  | zero => omega
  | succ n ih =>
    have hh : (advanceClock s).clockHand < s.numBufs := Nat.mod_lt _ hN
    unfold allocBufLoop allocBufAdvances
    simp only
    by_cases h1 : pinNum = (advanceClock s).numBufs
    · rw [if_pos h1, if_pos h1]
      exact ⟨nofun, by omega⟩
    · rw [if_neg h1, if_neg h1]
      have h1b : pinNum ≠ s.numBufs := h1
      by_cases h2 : (!((advanceClock s).desc (advanceClock s).clockHand).valid) = true
      · rw [if_pos h2, if_pos h2]
        exact ⟨nofun, by omega⟩
      · rw [if_neg h2, if_neg h2]
        by_cases h3 : ((advanceClock s).desc (advanceClock s).clockHand).refbit = true
        · rw [if_pos h3, if_pos h3]
          have hc := refCount_clear (advanceClock s) (advanceClock s).clockHand
            (by show _ < s.bufDescTable.length; rw [hlen]; exact hh) h3
          rw [refCount_advanceClock] at hc
          obtain ⟨s1, hs1⟩ : ∃ s1, s1 = (advanceClock s).setDesc (advanceClock s).clockHand
              { (advanceClock s).desc (advanceClock s).clockHand with refbit := false } :=
            ⟨_, rfl⟩
          rw [← hs1] at hc ⊢
          have hn1 : s1.numBufs = s.numBufs := by rw [hs1]; rfl
          have hl1 : s1.bufDescTable.length = s1.numBufs := by
            rw [hn1, hs1]
            show (List.set _ _ _).length = _
            rw [List.length_set]
            exact hlen
          obtain ⟨a, b⟩ := ih pinNum lastPin s1 (by rw [hn1]; exact hN) hl1
            (by rw [hn1]; exact hpn) hlp (by rw [hn1]; omega)
          rw [hn1] at b
          exact ⟨a, by omega⟩
        · rw [if_neg h3, if_neg h3]
          by_cases h4 : 0 < ((advanceClock s).desc (advanceClock s).clockHand).pinCnt
          · rw [if_pos h4, if_pos h4]
            have hpn2 : (if lastPin = true then pinNum + 1 else 1) ≤ s.numBufs := by
              split <;> omega
            have hf2 : s.refCount + (s.numBufs - (if lastPin = true then pinNum + 1 else 1)) + 1
                ≤ n := by
              rcases hlp with hl | hp
              · rw [if_pos hl]
                omega
              · subst hp
                split <;> omega
            obtain ⟨s1, hs1⟩ : ∃ s1, s1 = advanceClock s := ⟨_, rfl⟩
            rw [← hs1]
            have hn1 : s1.numBufs = s.numBufs := by rw [hs1]; rfl
            have hl1 : s1.bufDescTable.length = s1.numBufs := by
              rw [hn1, hs1]
              exact hlen
            have hr1 : s1.refCount = s.refCount := by rw [hs1]; rfl
            obtain ⟨a, b⟩ := ih (if lastPin = true then pinNum + 1 else 1) true s1
              (by rw [hn1]; exact hN) hl1 (by rw [hn1]; exact hpn2) (Or.inl rfl)
              (by rw [hn1, hr1]; exact hf2)
            rw [hn1, hr1] at b
            refine ⟨a, ?_⟩
            rcases hlp with hl | hp
            · rw [if_pos hl] at b ⊢
              omega
            · subst hp
              have e : (if lastPin = true then 0 + 1 else 1) = 1 := by split <;> rfl
              rw [e] at b ⊢
              omega
          · rw [if_neg h4, if_neg h4]
            exact ⟨nofun, by omega⟩

/-- Each call of `advanceClock` moves the hand one frame on: after the loop the hand is
as many frames after its starting position as the loop has run iterations. -/
theorem clockHand_allocBufLoop (fuel pinNum : Nat) (lastPin : Bool) (s : BufMgr) :
    (allocBufLoop fuel pinNum lastPin s).2.clockHand % s.numBufs =
      (s.clockHand + allocBufAdvances fuel pinNum lastPin s) % s.numBufs := by
  induction fuel generalizing pinNum lastPin s with
  | zero => rfl
  | succ n ih =>
    have hadv : (advanceClock s).clockHand % s.numBufs = (s.clockHand + 1) % s.numBufs :=
      Nat.mod_mod _ _
    unfold allocBufLoop allocBufAdvances
    simp only
    by_cases h1 : pinNum = (advanceClock s).numBufs
    · rw [if_pos h1, if_pos h1]
      exact hadv
    · rw [if_neg h1, if_neg h1]
      by_cases h2 : (!((advanceClock s).desc (advanceClock s).clockHand).valid) = true
      · rw [if_pos h2, if_pos h2]
        exact hadv
      · rw [if_neg h2, if_neg h2]
        by_cases h3 : ((advanceClock s).desc (advanceClock s).clockHand).refbit = true
        · rw [if_pos h3, if_pos h3]
          obtain ⟨s1, hs1⟩ : ∃ s1, s1 = (advanceClock s).setDesc (advanceClock s).clockHand
              { (advanceClock s).desc (advanceClock s).clockHand with refbit := false } :=
            ⟨_, rfl⟩
          rw [← hs1]
          have e1 : s1.numBufs = s.numBufs := by rw [hs1]; rfl
          have e2 : s1.clockHand = (s.clockHand + 1) % s.numBufs := by rw [hs1]; rfl
          have := ih pinNum lastPin s1
          rw [e1, e2] at this
          rw [this, Nat.add_mod, Nat.mod_mod, ← Nat.add_mod]
          congr 1
          omega
        · rw [if_neg h3, if_neg h3]
          by_cases h4 : 0 < ((advanceClock s).desc (advanceClock s).clockHand).pinCnt
          · rw [if_pos h4, if_pos h4]
            have := ih (if lastPin = true then pinNum + 1 else 1) true (advanceClock s)
            have e1 : (advanceClock s).numBufs = s.numBufs := rfl
            have e2 : (advanceClock s).clockHand = (s.clockHand + 1) % s.numBufs := rfl
            rw [e1, e2] at this
            rw [this, Nat.add_mod, Nat.mod_mod, ← Nat.add_mod]
            congr 1
            omega
          · rw [if_neg h4, if_neg h4]
            show (BufMgr.evict _).clockHand % _ = _
            rw [clockHand_evict]
            exact hadv

/-- C34, the claim as stated fails.  In the pool of two frames whose two pages are
pinned and have their reference bits set, allocBuf raises BufferExceeded after it has
advanced the clock hand 5 = 2 N + 1 times, more than 2 N. -/
theorem sweep_five_advances :
    busyPool.numBufs = 2 ∧
    (allocBuf busyPool).1 = .error .BufferExceededException ∧
    allocBufSteps busyPool = 5 ∧ ¬ allocBufSteps busyPool ≤ 2 * busyPool.numBufs := by
  decide

/-- C34, amended.  Bounded sweep: for every pool of N frames with 1 <= N < 2^31 (so that
the loop bound 2 * N does not wrap in 32 bits) and every state of it, one call of
allocBuf ends by selecting a frame of the pool or by raising BufferExceeded, it never
falls out of its loop; it advances the clock hand at most 2 N + 1 times (once per
iteration, and at most once more than there are reference bits set and frames), and the
hand ends that many frames after its starting position. -/
theorem sweep_bounded (s : BufMgr) (hN : 1 ≤ s.numBufs) (h31 : s.numBufs < 2 ^ 31)
    (hlen : s.bufDescTable.length = s.numBufs) :
    ((∃ u : Nat, u < s.numBufs ∧ (allocBuf s).1 = .ok (some u)) ∨
      (allocBuf s).1 = .error .BufferExceededException) ∧
    allocBufSteps s ≤ s.refCount + s.numBufs + 1 ∧
    allocBufSteps s ≤ 2 * s.numBufs + 1 ∧
    (allocBuf s).2.clockHand % s.numBufs = (s.clockHand + allocBufSteps s) % s.numBufs := by
  have hr : s.refCount ≤ s.numBufs := by
    rw [← hlen]
    exact List.countP_le_length _
  have e : 2 * s.numBufs % 2 ^ 32 = 2 * s.numBufs := Nat.mod_eq_of_lt (by omega)
  obtain ⟨a, b⟩ := allocBufLoop_returns_or_throws ((2 * s.numBufs) % 2 ^ 32 + 1) 0 false s
    hN hlen (Nat.zero_le _) (Or.inr rfl) (by omega)
  have hres := allocBuf_result s
  refine ⟨?_, ?_, ?_, clockHand_allocBufLoop _ _ _ s⟩
  · obtain ⟨t, ht, hc⟩ := hres
    rcases hc with ⟨hr1, _⟩ | ⟨hr1, _⟩ | ⟨hr1, hlt, _, _⟩ | ⟨hr1, hlt, _, _, _, _⟩
    · exact Or.inr hr1
    · exact absurd hr1 a
    · exact Or.inl ⟨t.clockHand, hlt hN, hr1⟩
    · exact Or.inl ⟨t.clockHand, hlt hN, hr1⟩
  · have b2 : allocBufSteps s ≤ s.refCount + (s.numBufs - 0) + 1 := b
    omega
  · have b2 : allocBufSteps s ≤ s.refCount + (s.numBufs - 0) + 1 := b
    omega

theorem sweep_bounded_witness :
    ((∃ u : Nat, u < starvedPool.numBufs ∧ (allocBuf starvedPool).1 = .ok (some u)) ∨
      (allocBuf starvedPool).1 = .error .BufferExceededException) ∧
    allocBufSteps starvedPool ≤ 2 * starvedPool.numBufs + 1 :=
  ⟨(sweep_bounded starvedPool (by decide) (by decide) (by decide)).1,
    (sweep_bounded starvedPool (by decide) (by decide) (by decide)).2.2.1⟩


/-- With 2^31 frames the loop bound 2 * numBufs wraps to 0 in 32 bits and the loop runs
once: when the frame it visits is valid with its reference bit set, the loop clears the
bit and ends without selecting a frame and without throwing. -/
theorem allocBuf_falls_out_at_wrap (s : BufMgr) (hN : s.numBufs = 2 ^ 31)
    (hv : (s.desc ((s.clockHand + 1) % s.numBufs)).valid = true)
    (hr : (s.desc ((s.clockHand + 1) % s.numBufs)).refbit = true) :
    (allocBuf s).1 = .ok none := by
  have hf : (2 * s.numBufs) % 2 ^ 32 + 1 = 1 := by
    rw [hN]
    norm_num
  have hv2 : ((advanceClock s).desc (advanceClock s).clockHand).valid = true := hv
  have hr2 : ((advanceClock s).desc (advanceClock s).clockHand).refbit = true := hr
  unfold allocBuf
  rw [hf]
  unfold allocBufLoop
  simp only
  have h1 : ¬ 0 = (advanceClock s).numBufs := by
    show ¬ 0 = s.numBufs
    rw [hN]
    norm_num
  rw [if_neg h1, hv2, hr2]
  simp only [Bool.not_true, if_true]
  rfl

/-! ## Buffer manager: the frame the clock chooses -/

theorem refbit_evict (s : BufMgr) (h : (s.desc s.clockHand).refbit = false) :
    (s.evict.desc s.clockHand).refbit = false := by
  unfold BufMgr.evict
  simp only [clockHand_removeEntry, clockHand_writeBack]
  rw [desc_setDesc]
  split
  · rfl
  · rw [desc_removeEntry, (desc_writeBack_fields s _ _ _).2.2.2.2.2]
    exact h

/-- The sweep over frames that are valid with their reference bit set: the loop clears
the bits of the frames it passes and selects the first frame that can be taken. -/
theorem allocBufLoop_clears_passed (fuel pinNum : Nat) (lastPin : Bool) (s : BufMgr) (u : Nat)
    (hN : 0 < s.numBufs) (hlen : s.bufDescTable.length = s.numBufs) (hu : u < s.numBufs)
    (hfree : s.free u)
    (hpassed : ∀ i : Nat, i < s.numBufs → s.ahead i < s.ahead u →
      (s.desc i).valid = true ∧ (s.desc i).refbit = true)
    (hpn : pinNum ≠ s.numBufs) (hfuel : s.ahead u < fuel) :
    (allocBufLoop fuel pinNum lastPin s).1 = .ok (some u) ∧
    (allocBufLoop fuel pinNum lastPin s).2.clockHand = u ∧
    (∀ i : Nat, i < s.numBufs → i ≠ u →
      (allocBufLoop fuel pinNum lastPin s).2.desc i =
        if s.ahead i < s.ahead u then { s.desc i with refbit := false } else s.desc i) ∧
    ((s.desc u).refbit = false →
      ((allocBufLoop fuel pinNum lastPin s).2.desc u).refbit = false) := by
  induction fuel generalizing s with
  | zero => omega
  | succ n ih =>
    have hh : (s.clockHand + 1) % s.numBufs < s.numBufs := Nat.mod_lt _ hN
    have hhe : (advanceClock s).clockHand = (s.clockHand + 1) % s.numBufs := rfl
    have hd : ∀ j, (advanceClock s).desc j = s.desc j := fun _ => rfl
    have h1 : ¬ pinNum = (advanceClock s).numBufs := hpn
    unfold allocBufLoop
    simp only
    rw [if_neg h1]
    by_cases hcur : u = (s.clockHand + 1) % s.numBufs
    · have hau : s.ahead u = 0 := by
        rw [hcur]
        exact ((ahead_advance s hN _ hh).1 rfl).1
      have hsame : ∀ i : Nat,
          (if s.ahead i < s.ahead u then { s.desc i with refbit := false } else s.desc i)
            = s.desc i := by
        intro i
        rw [hau, if_neg (Nat.not_lt_zero _)]
      rw [hhe, ← hcur, hd]
      by_cases hv : (s.desc u).valid = true
      · have hrp : (s.desc u).refbit = false ∧ (s.desc u).pinCnt = 0 := by
          rcases hfree with h | h
          · rw [hv] at h
            cases h
          · exact h
        have c1 : ¬ ((!(s.desc u).valid) = true) := by
          rw [hv]
          decide
        have c2 : ¬ ((s.desc u).refbit = true) := by
          rw [hrp.1]
          decide
        have c3 : ¬ (0 < (s.desc u).pinCnt) := by
          rw [hrp.2]
          exact Nat.lt_irrefl 0
        rw [if_neg c1, if_neg c2, if_neg c3]
        refine ⟨rfl, ?_, ?_, ?_⟩
        · show (BufMgr.evict _).clockHand = u
          rw [clockHand_evict, hhe, ← hcur]
        · intro i _ hiu
          rw [hsame]
          show (BufMgr.evict (advanceClock s)).desc i = _
          rw [desc_evict_ne (advanceClock s) (by rw [hhe, ← hcur]; exact hiu)]
          rfl
        · intro _
          show ((BufMgr.evict (advanceClock s)).desc u).refbit = false
          have hu2 : u = (advanceClock s).clockHand := by rw [hhe, ← hcur]
          rw [hu2]
          apply refbit_evict
          rw [← hu2]
          exact hrp.1
      · have hv2 : (s.desc u).valid = false := by simpa using hv
        have c1 : (!(s.desc u).valid) = true := by
          rw [hv2]
          rfl
        rw [if_pos c1]
        refine ⟨rfl, ?_, ?_, ?_⟩
        · show (advanceClock s).clockHand = u
          rw [hhe, ← hcur]
        · intro i _ _
          rw [hsame]
          rfl
        · intro hr
          exact hr
    · have hau : (advanceClock s).ahead u + 1 = s.ahead u := (ahead_advance s hN u hu).2 hcur
      have hcur0 : s.ahead ((s.clockHand + 1) % s.numBufs) = 0 :=
        ((ahead_advance s hN _ hh).1 rfl).1
      have hlast : (advanceClock s).ahead ((s.clockHand + 1) % s.numBufs) = s.numBufs - 1 :=
        ((ahead_advance s hN _ hh).1 rfl).2
      obtain ⟨hv, hr⟩ := hpassed _ hh (by omega)
      have c1 : ¬ ((!(s.desc ((s.clockHand + 1) % s.numBufs)).valid) = true) := by
        rw [hv]
        decide
      rw [hhe, hd, if_neg c1, if_pos hr]
      obtain ⟨s1, hs1⟩ : ∃ s1, s1 = (advanceClock s).setDesc ((s.clockHand + 1) % s.numBufs)
          { s.desc ((s.clockHand + 1) % s.numBufs) with refbit := false } := ⟨_, rfl⟩
      rw [← hs1]
      have hn1 : s1.numBufs = s.numBufs := by rw [hs1]; rfl
      have hl1 : s1.bufDescTable.length = s1.numBufs := by
        rw [hn1, hs1]
        show (List.set _ _ _).length = _
        rw [List.length_set]
        exact hlen
      have ha1 : ∀ i, s1.ahead i = (advanceClock s).ahead i := by
        intro i
        rw [hs1]
        rfl
      have hlt : (s.clockHand + 1) % s.numBufs < s.bufDescTable.length := by
        rw [hlen]
        exact hh
      have hd1 : ∀ i, s1.desc i = if i = (s.clockHand + 1) % s.numBufs then
          { s.desc ((s.clockHand + 1) % s.numBufs) with refbit := false } else s.desc i := by
        intro i
        rw [hs1, desc_setDesc]
        by_cases e : i = (s.clockHand + 1) % s.numBufs
        · rw [if_pos e, if_pos ⟨e, hlt⟩]
        · rw [if_neg e, if_neg (fun h => e h.1)]
          rfl
      have hub := ahead_lt s hN u hu
      obtain ⟨r1, r2, r3, r4⟩ := ih s1 (by rw [hn1]; exact hN) hl1 (by rw [hn1]; exact hu)
        (by
          unfold BufMgr.free
          rw [hd1, if_neg hcur]
          exact hfree)
        (by
          intro i hi hlti
          rw [hn1] at hi
          rw [ha1, ha1] at hlti
          have hne : i ≠ (s.clockHand + 1) % s.numBufs := by
            intro e
            rw [e, hlast] at hlti
            omega
          have := (ahead_advance s hN i hi).2 hne
          rw [hd1, if_neg hne]
          exact hpassed i hi (by omega))
        (by rw [hn1]; exact hpn)
        (by rw [ha1]; omega)
      refine ⟨r1, r2, ?_, ?_⟩
      · intro i hi hiu
        rw [r3 i (by rw [hn1]; exact hi) hiu, ha1, ha1, hd1]
        by_cases e : i = (s.clockHand + 1) % s.numBufs
        · rw [if_pos e, e, hlast, hcur0, if_neg (by omega), if_pos (by omega)]
        · have := (ahead_advance s hN i hi).2 e
          rw [if_neg e]
          by_cases c : s.ahead i < s.ahead u
          · rw [if_pos c, if_pos (by omega)]
          · rw [if_neg c, if_neg (by omega)]
      · intro hr0
        apply r4
        rw [hd1, if_neg hcur]
        exact hr0

/-- C33. Clock choice among unpinned frames.  In a pool of N frames (1 <= N < 2^31), all
valid with pin count 0: (a) if frame u has its reference bit clear and every frame the
sweep visits before u (the frames after the hand, in cyclic order) has its bit set,
allocBuf selects u, leaves the hand on u, clears the reference bit of every frame passed
and leaves the descriptors of the other frames as they are; (b) if every reference bit
is set, allocBuf selects the frame right after the starting position of the hand and
every reference bit is clear afterwards.  (c) With N = 2, after read A, read B and both
unpinned, read C takes the frame of A: A is no longer resident, B and C are. -/
theorem clock_choice (s : BufMgr) (hN : 1 ≤ s.numBufs) (h31 : s.numBufs < 2 ^ 31)
    (hlen : s.bufDescTable.length = s.numBufs)
    (hall : ∀ i : Nat, i < s.numBufs → (s.desc i).valid = true ∧ (s.desc i).pinCnt = 0) :
    (∀ u : Nat, u < s.numBufs → (s.desc u).refbit = false →
      (∀ i : Nat, i < s.numBufs → s.ahead i < s.ahead u → (s.desc i).refbit = true) →
      (allocBuf s).1 = .ok (some u) ∧ (allocBuf s).2.clockHand = u ∧
      ∀ i : Nat, i < s.numBufs → i ≠ u →
        (allocBuf s).2.desc i =
          if s.ahead i < s.ahead u then { s.desc i with refbit := false } else s.desc i) ∧
    ((∀ i : Nat, i < s.numBufs → (s.desc i).refbit = true) →
      (allocBuf s).1 = .ok (some ((s.clockHand + 1) % s.numBufs)) ∧
      ∀ i : Nat, i < s.numBufs → ((allocBuf s).2.desc i).refbit = false) ∧
    ((readPage clockPool 7 3).1 = .ok 0 ∧
      amLookup clockPool.hashTable (7, 1) = some 0 ∧
      amLookup (readPage clockPool 7 3).2.hashTable (7, 1) = none ∧
      amLookup (readPage clockPool 7 3).2.hashTable (7, 2) = some 1 ∧
      amLookup (readPage clockPool 7 3).2.hashTable (7, 3) = some 0) := by
  have e : 2 * s.numBufs % 2 ^ 32 = 2 * s.numBufs := Nat.mod_eq_of_lt (by omega)
  refine ⟨?_, ?_, by decide⟩
  · intro u hu hr hbefore
    have hau := ahead_lt s hN u hu
    obtain ⟨a1, a2, a3, _⟩ := allocBufLoop_clears_passed ((2 * s.numBufs) % 2 ^ 32 + 1) 0 false
      s u hN hlen hu (Or.inr ⟨hr, (hall u hu).2⟩)
      (fun i hi hlt => ⟨(hall i hi).1, hbefore i hi hlt⟩) (by omega) (by omega)
    exact ⟨a1, a2, a3⟩
  · intro hset
    have hh : (s.clockHand + 1) % s.numBufs < s.numBufs := Nat.mod_lt _ hN
    have hlt : (s.clockHand + 1) % s.numBufs < s.bufDescTable.length := by
      rw [hlen]
      exact hh
    obtain ⟨s1, hs1⟩ : ∃ s1, s1 = (advanceClock s).setDesc ((s.clockHand + 1) % s.numBufs)
        { s.desc ((s.clockHand + 1) % s.numBufs) with refbit := false } := ⟨_, rfl⟩
    have hstep : allocBuf s = allocBufLoop (2 * s.numBufs) 0 false s1 := by
      unfold allocBuf
      rw [e, allocBufLoop]
      simp only
      have h1 : ¬ 0 = (advanceClock s).numBufs := by
        show ¬ 0 = s.numBufs
        omega
      have hv : ((advanceClock s).desc (advanceClock s).clockHand).valid = true :=
        (hall _ hh).1
      have hr : ((advanceClock s).desc (advanceClock s).clockHand).refbit = true :=
        hset _ hh
      have c1 : ¬ ((!((advanceClock s).desc (advanceClock s).clockHand).valid) = true) := by
        rw [hv]
        decide
      rw [if_neg h1, if_neg c1, if_pos hr, hs1]
      rfl
    have hn1 : s1.numBufs = s.numBufs := by rw [hs1]; rfl
    have hl1 : s1.bufDescTable.length = s1.numBufs := by
      rw [hn1, hs1]
      show (List.set _ _ _).length = _
      rw [List.length_set]
      exact hlen
    have hd1 : ∀ i, s1.desc i = if i = (s.clockHand + 1) % s.numBufs then
        { s.desc ((s.clockHand + 1) % s.numBufs) with refbit := false } else s.desc i := by
      intro i
      rw [hs1, desc_setDesc]
      by_cases c : i = (s.clockHand + 1) % s.numBufs
      · rw [if_pos c, if_pos ⟨c, hlt⟩]
      · rw [if_neg c, if_neg (fun h => c h.1)]
        rfl
    have ha1 : ∀ i, s1.ahead i = (advanceClock s).ahead i := by
      intro i
      rw [hs1]
      rfl
    have hlast : s1.ahead ((s.clockHand + 1) % s.numBufs) = s.numBufs - 1 := by
      rw [ha1]
      exact ((ahead_advance s hN _ hh).1 rfl).2
    obtain ⟨r1, _, r3, r4⟩ := allocBufLoop_clears_passed (2 * s.numBufs) 0 false s1
      ((s.clockHand + 1) % s.numBufs) (by rw [hn1]; exact hN) hl1 (by rw [hn1]; exact hh)
      (by
        unfold BufMgr.free
        rw [hd1, if_pos rfl]
        exact Or.inr ⟨rfl, (hall _ hh).2⟩)
      (by
        intro i hi hlti
        rw [hn1] at hi
        have hne : i ≠ (s.clockHand + 1) % s.numBufs := by
          intro c
          rw [c] at hlti
          exact Nat.lt_irrefl _ hlti
        rw [hd1, if_neg hne]
        exact ⟨(hall i hi).1, hset i hi⟩)
      (by rw [hn1]; omega)
      (by rw [hlast]; omega)
    rw [hstep]
    refine ⟨r1, ?_⟩
    intro i hi
    by_cases c : i = (s.clockHand + 1) % s.numBufs
    · rw [c]
      apply r4
      rw [hd1, if_pos rfl]
    · have h1 := (ahead_advance s hN i hi).2 c
      have h2 := ahead_lt s hN i hi
      rw [r3 i (by rw [hn1]; exact hi) c, hlast, ha1, if_pos (by omega)]

theorem clock_choice_witness :
    ((allocBuf clockPool).1 = .ok (some 0) ∧ (allocBuf clockPool).2.clockHand = 0) ∧
    ((allocBuf restedPool).1 = .ok (some ((restedPool.clockHand + 1) % restedPool.numBufs)) ∧
      ∀ i : Nat, i < restedPool.numBufs → ((allocBuf restedPool).2.desc i).refbit = false) :=
  ⟨⟨((clock_choice clockPool (by decide) (by decide) (by decide) (by decide)).1 0 (by decide)
        (by decide) (by decide)).1,
      ((clock_choice clockPool (by decide) (by decide) (by decide) (by decide)).1 0 (by decide)
        (by decide) (by decide)).2.1⟩,
    (clock_choice restedPool (by decide) (by decide) (by decide) (by decide)).2.1 (by decide)⟩

/-! ## B+-tree index: a scan inside one leaf -/

theorem OnlyBuf.refl_only (t : BTreeIndex) : OnlyBuf t t := rfl

theorem OnlyBuf.trans_only (a b c : BTreeIndex) (h1 : OnlyBuf a b) (h2 : OnlyBuf b c) :
    OnlyBuf a c := by
  unfold OnlyBuf at *
  rw [h2, h1]

theorem onlyBuf_callBuf {α : Type} (op : BufMgr → Except Exn α × BufMgr) :
    Always OnlyBuf (callBuf op) :=
  always_callBuf op (fun _ _ => rfl)

theorem onlyBuf_getLevelOnePage (fuel : Nat) (prev : PageId) (key : Int) :
    Always OnlyBuf (getLevelOnePage fuel prev key) := by
  induction fuel generalizing prev with
  | zero => exact always_raise OnlyBuf.refl_only _
  | succ n ih =>
    unfold getLevelOnePage
    refine Always.bind_always OnlyBuf.trans_only (always_readState OnlyBuf.refl_only) (fun t => ?_)
    refine Always.bind_always OnlyBuf.trans_only (onlyBuf_callBuf _) (fun prevPage => ?_)
    refine Always.bind_always OnlyBuf.trans_only (always_getNonLeaf OnlyBuf.refl_only _)
      (fun prevNode => ?_)
    apply always_ite
    · exact Always.bind_always OnlyBuf.trans_only (onlyBuf_callBuf _)
        (fun _ => always_pure OnlyBuf.refl_only _)
    · refine Always.bind_always OnlyBuf.trans_only (always_arrayGet OnlyBuf.refl_only _ _)
        (fun next => ?_)
      exact Always.bind_always OnlyBuf.trans_only (onlyBuf_callBuf _) (fun _ => ih next)

theorem onlyBuf_getLeafPage (fuel : Nat) (key : Int) : Always OnlyBuf (getLeafPage fuel key) := by
  unfold getLeafPage
  refine Always.bind_always OnlyBuf.trans_only (always_readState OnlyBuf.refl_only) (fun t => ?_)
  refine Always.bind_always OnlyBuf.trans_only (onlyBuf_getLevelOnePage _ _ _) (fun id => ?_)
  refine Always.bind_always OnlyBuf.trans_only (onlyBuf_callBuf _) (fun pg => ?_)
  refine Always.bind_always OnlyBuf.trans_only (always_getNonLeaf OnlyBuf.refl_only _)
    (fun node => ?_)
  refine Always.bind_always OnlyBuf.trans_only (always_assert OnlyBuf.refl_only _) (fun _ => ?_)
  refine Always.bind_always OnlyBuf.trans_only (always_arrayGet OnlyBuf.refl_only _ _)
    (fun leafId => ?_)
  exact Always.bind_always OnlyBuf.trans_only (onlyBuf_callBuf _)
    (fun _ => always_pure OnlyBuf.refl_only _)

/-- What `startScan` leaves behind when it returns: the scan is executing on a pinned
leaf and `nextEntry` is the result of the loop of `getFirstIndex` on that leaf. -/
theorem startScan_nextEntry {fuel : Nat} {low high : Int} {lowOp highOp : Operator}
    {t u : BTreeIndex} {a : Unit} (h : startScan fuel low lowOp high highOp t = (.ok a, u)) :
    ∃ p, u.currentPageData = some p ∧ u.scanExecuting = true ∧
      u.lowOp = lowOp ∧ u.lowValInt = low ∧ u.highOp = highOp ∧ u.highValInt = high ∧
      u.nextEntry = firstIndexLoop (leafAt u p) lowOp low (leafAt u p).keyNum.toNat 0 := by
  unfold startScan at h
  split at h
  · exact (raise_not_ok h).elim
  · obtain ⟨_, t1, e1, h1⟩ := bind_ok h
    clear h
    obtain rfl := modifyState_inv e1
    split at h1
    · obtain ⟨_, t2, e2, h2⟩ := bind_ok h1
      exact (raise_not_ok h2).elim
    · obtain ⟨leaf, t2, e2, h2⟩ := bind_ok h1
      clear h1
      have O2 : OnlyBuf _ t2 := (onlyBuf_getLeafPage fuel low).ok e2
      obtain ⟨_, t3, e3, h3⟩ := bind_ok h2
      clear h2
      obtain rfl := modifyState_inv e3
      obtain ⟨ts, t3b, e4, h4⟩ := bind_ok h3
      clear h3
      obtain ⟨rfl, rfl⟩ := readState_inv e4
      obtain ⟨leafPage, t4, e5, h5⟩ := bind_ok h4
      clear h4
      have O4 : OnlyBuf _ t4 := (onlyBuf_callBuf _).ok e5
      obtain ⟨_, t5, e6, h6⟩ := bind_ok h5
      clear h5
      obtain rfl := modifyState_inv e6
      obtain ⟨i, t6, e7, h7⟩ := bind_ok h6
      clear h6
      obtain rfl := modifyState_inv h7
      unfold getFirstIndex at e7
      obtain ⟨ts, t5b, e8, h8⟩ := bind_ok e7
      obtain ⟨rfl, rfl⟩ := readState_inv e8
      obtain ⟨p, t5c, e9, h9⟩ := bind_ok h8
      have hp : p = leafPage ∧ t5c = ({ t4 with currentPageData := some leafPage } : BTreeIndex) := by
        have : currentPage ({ t4 with currentPageData := some leafPage } : BTreeIndex)
            = (.ok leafPage, ({ t4 with currentPageData := some leafPage } : BTreeIndex)) := rfl
        rw [this] at e9
        exact ⟨(Except.ok.inj (congrArg Prod.fst e9)).symm, (congrArg Prod.snd e9).symm⟩
      obtain ⟨rfl, rfl⟩ := hp
      obtain ⟨n, t5d, e10, h10⟩ := bind_ok h9
      obtain ⟨hn, rfl⟩ := getLeaf_inv e10
      obtain ⟨hi, rfl⟩ := pure_inv h10
      unfold OnlyBuf at O2 O4
      refine ⟨p, rfl, rfl, ?_, ?_, ?_, ?_, ?_⟩
      · show t4.lowOp = lowOp
        rw [O4]
        show t2.lowOp = lowOp
        rw [O2]
      · show t4.lowValInt = low
        rw [O4]
        show t2.lowValInt = low
        rw [O2]
      · show t4.highOp = highOp
        rw [O4]
        show t2.highOp = highOp
        rw [O2]
      · show t4.highValInt = high
        rw [O4]
        show t2.highValInt = high
        rw [O2]
      · show i = _
        rw [← hi, ← hn]
        have e1 : ({ t4 with currentPageData := some p } : BTreeIndex).lowOp = lowOp := by
          show t4.lowOp = lowOp
          rw [O4]
          show t2.lowOp = lowOp
          rw [O2]
        have e2 : ({ t4 with currentPageData := some p } : BTreeIndex).lowValInt = low := by
          show t4.lowValInt = low
          rw [O4]
          show t2.lowValInt = low
          rw [O2]
        rw [e1, e2]
        rfl

/-- The loop of `getFirstIndex` returns the first position, from `i` on, whose key
satisfies the lower bound, and `keyNum` when there is none. -/
theorem firstIndexLoop_spec (leaf : LeafNodeInt) (op : Operator) (low : Int)
    (h0 : 0 ≤ leaf.keyNum) (n i : Nat) (hin : i + n = leaf.keyNum.toNat)
    (hbefore : ∀ j : Nat, j < i →
      ¬ (if op = .GT then low < leaf.keyArray.getD j 0 else low ≤ leaf.keyArray.getD j 0)) :
    0 ≤ firstIndexLoop leaf op low n i ∧ firstIndexLoop leaf op low n i ≤ leaf.keyNum ∧
    (∀ j : Nat, (j : Int) < firstIndexLoop leaf op low n i →
      ¬ (if op = .GT then low < leaf.keyArray.getD j 0 else low ≤ leaf.keyArray.getD j 0)) ∧
    (firstIndexLoop leaf op low n i < leaf.keyNum →
      (if op = .GT then low < leaf.keyArray.getD (firstIndexLoop leaf op low n i).toNat 0
        else low ≤ leaf.keyArray.getD (firstIndexLoop leaf op low n i).toNat 0)) := by
  have hkn : ((leaf.keyNum.toNat : Nat) : Int) = leaf.keyNum := Int.toNat_of_nonneg h0
  induction n generalizing i with
  | zero =>
    unfold firstIndexLoop
    refine ⟨h0, le_refl _, ?_, fun h => absurd h (lt_irrefl _)⟩
    intro j hj
    apply hbefore
    omega
  | succ m ih =>
    have hstep : ∀ (hnot : ¬ (if op = .GT then low < leaf.keyArray.getD i 0
        else low ≤ leaf.keyArray.getD i 0)) (j : Nat), j < i + 1 →
        ¬ (if op = .GT then low < leaf.keyArray.getD j 0 else low ≤ leaf.keyArray.getD j 0) := by
      intro hnot j hj
      by_cases e : j = i
      · rw [e]
        exact hnot
      · exact hbefore j (by omega)
    have hhere : ∀ (_ : if op = .GT then low < leaf.keyArray.getD i 0
        else low ≤ leaf.keyArray.getD i 0),
        0 ≤ (i : Int) ∧ (i : Int) ≤ leaf.keyNum ∧
        (∀ j : Nat, (j : Int) < (i : Int) →
          ¬ (if op = .GT then low < leaf.keyArray.getD j 0 else low ≤ leaf.keyArray.getD j 0)) ∧
        ((i : Int) < leaf.keyNum →
          (if op = .GT then low < leaf.keyArray.getD ((i : Int)).toNat 0
            else low ≤ leaf.keyArray.getD ((i : Int)).toNat 0)) := by
      intro hsat
      refine ⟨by omega, by omega, ?_, ?_⟩
      · intro j hj
        exact hbefore j (by omega)
      · intro _
        rw [Int.toNat_ofNat]
        exact hsat
    unfold firstIndexLoop
    by_cases hop : op = .GT
    · rw [if_pos hop]
      by_cases hc : low < leaf.keyArray.getD i 0
      · rw [if_pos hc]
        exact hhere (by rw [if_pos hop]; exact hc)
      · rw [if_neg hc]
        exact ih (i + 1) (by omega) (hstep (by rw [if_pos hop]; exact hc))
    · rw [if_neg hop]
      by_cases hc : low ≤ leaf.keyArray.getD i 0
      · rw [if_pos hc]
        exact hhere (by rw [if_neg hop]; exact hc)
      · rw [if_neg hc]
        exact ih (i + 1) (by omega) (hstep (by rw [if_neg hop]; exact hc))

theorem arrayGet_in_bounds {α : Type} (a : List α) (i : Int) (d : α) (h0 : 0 ≤ i)
    (hi : i.toNat < a.length) (t : BTreeIndex) :
    arrayGet a i t = (.ok (a.getD i.toNat d), t) := by
  unfold arrayGet
  rw [if_pos h0, List.get?_eq_getElem?, List.getElem?_eq_getElem hi,
    List.getD_eq_getElem?_getD, List.getElem?_eq_getElem hi]
  rfl

theorem length_keyArray_leafAt (t : BTreeIndex) (p : FrameId) :
    (leafAt t p).keyArray.length = t.L := by
  simp [leafAt, LeafNodeInt.ofWords]

theorem length_ridArray_leafAt (t : BTreeIndex) (p : FrameId) :
    (leafAt t p).ridArray.length = t.L := by
  simp [leafAt, LeafNodeInt.ofWords]

/-- One call of `scanNext` while the next entry is inside the current leaf. -/
theorem scanNext_in_leaf (t : BTreeIndex) (p : FrameId) (hs : t.scanExecuting = true)
    (hp : t.currentPageData = some p) (h0 : 0 ≤ t.nextEntry)
    (hlt : t.nextEntry < (leafAt t p).keyNum) (hL : (leafAt t p).keyNum ≤ t.L) :
    scanNext t =
      if (if t.highOp = .LT
          then decide ((leafAt t p).keyArray.getD t.nextEntry.toNat 0 ≥ t.highValInt)
          else decide ((leafAt t p).keyArray.getD t.nextEntry.toNat 0 > t.highValInt)) = true
      then (.error .IndexScanCompletedException, t)
      else (.ok ((leafAt t p).ridArray.getD t.nextEntry.toNat ⟨0, 0⟩),
        { t with nextEntry := t.nextEntry + 1 }) := by
  have hse : ¬ t.scanExecuting = false := by
    rw [hs]
    decide
  have hge : ¬ t.nextEntry ≥ (leafAt t p).keyNum := by omega
  have hcp : currentPage t = (.ok p, t) := by
    unfold currentPage
    simp only [bind_eq, readState, hp]
    rfl
  have hk := arrayGet_in_bounds (leafAt t p).keyArray t.nextEntry 0 h0
    (by rw [length_keyArray_leafAt]; omega) t
  have hr := arrayGet_in_bounds (leafAt t p).ridArray t.nextEntry ⟨0, 0⟩ h0
    (by rw [length_ridArray_leafAt]; omega) t
  unfold scanNext
  simp only [bind_eq, readState, if_neg hse, hcp, getLeaf, if_neg hge]
  have hpure : (pure () : IndexM Unit) t = (.ok (), t) := rfl
  rw [hpure]
  simp only [hk]
  have hret : (arrayGet (leafAt t p).ridArray t.nextEntry >>= fun outRid =>
      modifyState (fun t => { t with nextEntry := t.nextEntry + 1 }) >>= fun _ =>
      (pure outRid : IndexM RecordId)) t
      = (.ok ((leafAt t p).ridArray.getD t.nextEntry.toNat ⟨0, 0⟩),
        { t with nextEntry := t.nextEntry + 1 }) := by
    simp only [bind_eq, hr]
    rfl
  by_cases hop : t.highOp = .LT
  · simp only [if_pos hop]
    by_cases hc : (leafAt t p).keyArray.getD t.nextEntry.toNat 0 ≥ t.highValInt
    · rw [if_pos (decide_eq_true hc), if_pos (decide_eq_true hc)]
      rfl
    · rw [if_neg (by simpa using hc), if_neg (by simpa using hc)]
      exact hret
  · simp only [if_neg hop]
    by_cases hc : (leafAt t p).keyArray.getD t.nextEntry.toNat 0 > t.highValInt
    · rw [if_pos (decide_eq_true hc), if_pos (decide_eq_true hc)]
      rfl
    · rw [if_neg (by simpa using hc), if_neg (by simpa using hc)]
      exact hret

/-- One call of `scanNext` when the current leaf is exhausted and has no right sibling. -/
theorem scanNext_at_chain_end (t : BTreeIndex) (p : FrameId) (hs : t.scanExecuting = true)
    (hp : t.currentPageData = some p) (hge : t.nextEntry ≥ (leafAt t p).keyNum)
    (hr : (leafAt t p).rightSibPageNo = 0) :
    scanNext t = (.error .IndexScanCompletedException, t) := by
  have hse : ¬ t.scanExecuting = false := by
    rw [hs]
    decide
  have hcp : currentPage t = (.ok p, t) := by
    unfold currentPage
    simp only [bind_eq, readState, hp]
    rfl
  unfold scanNext
  simp only [bind_eq, readState, if_neg hse, hcp, getLeaf, if_pos hge, if_pos hr]
  rfl

theorem scanNexts_of_fixed (t : BTreeIndex) (e : IndexExn) (h : scanNext t = (.error e, t))
    (m : Nat) : scanNexts m t = List.replicate m (.error e) := by
  induction m with
  | zero => rfl
  | succ n ih =>
    unfold scanNexts
    rw [h, List.replicate_succ]
    exact congrArg _ ih

/-- C32. A scan positioned on a leaf: `t` is a state in which a scan is executing on
the pinned leaf in frame `p`, with `nextEntry` not negative and `keyNum` within the
capacity of the leaf.  (1) If `t` is the state in which `startScan` returned, then the
bounds and operators are the arguments of that call and `nextEntry` is the smallest
index i below `keyNum` with low < key[i] (operator GT) or low <= key[i] (otherwise, which
is GTE), and `keyNum` when there is none.  (2) While `nextEntry < keyNum`, `scanNext`
raises IndexScanCompleted if and only if key[nextEntry] >= high (operator LT) or
key[nextEntry] > high (otherwise), and it leaves the state as it is when it does;
otherwise it returns ridArray[nextEntry] and its only effect is `nextEntry + 1`.
(3) When `scanNext` raises IndexScanCompleted without having moved to a sibling
(`nextEntry < keyNum`, or the leaf has no right sibling), the state is unchanged and
every further `scanNext` raises IndexScanCompleted again. -/
theorem scan_inside_leaf (t : BTreeIndex) (p : FrameId)
    (hs : t.scanExecuting = true) (hp : t.currentPageData = some p)
    (h0 : 0 ≤ t.nextEntry) (hL : (leafAt t p).keyNum ≤ t.L) :
    (∀ (fuel : Nat) (low high : Int) (lowOp highOp : Operator) (s : BTreeIndex),
      startScan fuel low lowOp high highOp s = (.ok (), t) →
      t.lowOp = lowOp ∧ t.lowValInt = low ∧ t.highOp = highOp ∧ t.highValInt = high ∧
      t.nextEntry ≤ (leafAt t p).keyNum ∧
      (∀ j : Nat, (j : Int) < t.nextEntry →
        ¬ (if lowOp = .GT then low < (leafAt t p).keyArray.getD j 0
            else low ≤ (leafAt t p).keyArray.getD j 0)) ∧
      (t.nextEntry < (leafAt t p).keyNum →
        (if lowOp = .GT then low < (leafAt t p).keyArray.getD t.nextEntry.toNat 0
          else low ≤ (leafAt t p).keyArray.getD t.nextEntry.toNat 0))) ∧
    (t.nextEntry < (leafAt t p).keyNum →
      ((scanNext t).1 = .error .IndexScanCompletedException ↔
        (if t.highOp = .LT then (leafAt t p).keyArray.getD t.nextEntry.toNat 0 ≥ t.highValInt
          else (leafAt t p).keyArray.getD t.nextEntry.toNat 0 > t.highValInt)) ∧
      ((if t.highOp = .LT then (leafAt t p).keyArray.getD t.nextEntry.toNat 0 ≥ t.highValInt
          else (leafAt t p).keyArray.getD t.nextEntry.toNat 0 > t.highValInt) →
        scanNext t = (.error .IndexScanCompletedException, t)) ∧
      (¬ (if t.highOp = .LT then (leafAt t p).keyArray.getD t.nextEntry.toNat 0 ≥ t.highValInt
          else (leafAt t p).keyArray.getD t.nextEntry.toNat 0 > t.highValInt) →
        scanNext t = (.ok ((leafAt t p).ridArray.getD t.nextEntry.toNat ⟨0, 0⟩),
          { t with nextEntry := t.nextEntry + 1 }))) ∧
    ((t.nextEntry < (leafAt t p).keyNum ∨ (leafAt t p).rightSibPageNo = 0) →
      (scanNext t).1 = .error .IndexScanCompletedException →
      (scanNext t).2 = t ∧
      ∀ m : Nat, scanNexts m t = List.replicate m (.error .IndexScanCompletedException)) := by
  have hcond : (if t.highOp = .LT
        then decide ((leafAt t p).keyArray.getD t.nextEntry.toNat 0 ≥ t.highValInt)
        else decide ((leafAt t p).keyArray.getD t.nextEntry.toNat 0 > t.highValInt)) = true ↔
      (if t.highOp = .LT then (leafAt t p).keyArray.getD t.nextEntry.toNat 0 ≥ t.highValInt
        else (leafAt t p).keyArray.getD t.nextEntry.toNat 0 > t.highValInt) := by
    by_cases hop : t.highOp = .LT
    · rw [if_pos hop, if_pos hop]
      exact decide_eq_true_iff
    · rw [if_neg hop, if_neg hop]
      exact decide_eq_true_iff
  have hin : t.nextEntry < (leafAt t p).keyNum →
      ((if t.highOp = .LT then (leafAt t p).keyArray.getD t.nextEntry.toNat 0 ≥ t.highValInt
          else (leafAt t p).keyArray.getD t.nextEntry.toNat 0 > t.highValInt) →
        scanNext t = (.error .IndexScanCompletedException, t)) ∧
      (¬ (if t.highOp = .LT then (leafAt t p).keyArray.getD t.nextEntry.toNat 0 ≥ t.highValInt
          else (leafAt t p).keyArray.getD t.nextEntry.toNat 0 > t.highValInt) →
        scanNext t = (.ok ((leafAt t p).ridArray.getD t.nextEntry.toNat ⟨0, 0⟩),
          { t with nextEntry := t.nextEntry + 1 })) := by
    intro hlt
    have e := scanNext_in_leaf t p hs hp h0 hlt hL
    constructor
    · intro hc
      rw [e, if_pos (hcond.2 hc)]
    · intro hc
      rw [e, if_neg (fun h => hc (hcond.1 h))]
  refine ⟨?_, ?_, ?_⟩
  · intro fuel low high lowOp highOp s hstart
    obtain ⟨q, hq, _, h1, h2, h3, h4, h5⟩ := startScan_nextEntry hstart
    have hpq : q = p := by
      rw [hp] at hq
      exact (Option.some.inj hq).symm
    rw [hpq] at h5
    have hk0 : 0 ≤ (leafAt t p).keyNum := by
      by_contra hneg
      have hz : (leafAt t p).keyNum.toNat = 0 := by omega
      rw [hz] at h5
      unfold firstIndexLoop at h5
      omega
    have hspec := firstIndexLoop_spec (leafAt t p) lowOp low hk0 (leafAt t p).keyNum.toNat 0
      (by omega) (fun j hj => absurd hj (Nat.not_lt_zero j))
    rw [← h5] at hspec
    exact ⟨h1, h2, h3, h4, hspec.2.1, hspec.2.2.1, hspec.2.2.2⟩
  · intro hlt
    refine ⟨?_, (hin hlt).1, (hin hlt).2⟩
    constructor
    · intro hraise
      by_contra hc
      rw [(hin hlt).2 hc] at hraise
      exact Except.noConfusion hraise
    · intro hc
      rw [(hin hlt).1 hc]
  · intro hcase hraise
    have hfix : scanNext t = (.error .IndexScanCompletedException, t) := by
      by_cases hlt : t.nextEntry < (leafAt t p).keyNum
      · by_cases hc : (if t.highOp = .LT
            then (leafAt t p).keyArray.getD t.nextEntry.toNat 0 ≥ t.highValInt
            else (leafAt t p).keyArray.getD t.nextEntry.toNat 0 > t.highValInt)
        · exact (hin hlt).1 hc
        · rw [(hin hlt).2 hc] at hraise
          exact Except.noConfusion hraise
      · rcases hcase with h | h
        · exact absurd h hlt
        · exact scanNext_at_chain_end t p hs hp (by omega) h
    exact ⟨congrArg Prod.snd hfix, scanNexts_of_fixed t _ hfix⟩

theorem scan_inside_leaf_witness :
    (scanNext (startScan 10 2 .GT 3 .LT (builtIndex (keysUpTo 5)).2).2).2
      = (startScan 10 2 .GT 3 .LT (builtIndex (keysUpTo 5)).2).2 ∧
    ∀ m : Nat, scanNexts m (startScan 10 2 .GT 3 .LT (builtIndex (keysUpTo 5)).2).2
      = List.replicate m (.error .IndexScanCompletedException) :=
  (scan_inside_leaf (startScan 10 2 .GT 3 .LT (builtIndex (keysUpTo 5)).2).2 1
    (by decide!) (by decide!) (by decide!) (by decide!)).2.2 (Or.inl (by decide!)) (by decide!)

/-! ## B+-tree index: the root across calls of insertEntry -/

theorem Grows.refl_grows (t : BTreeIndex) : Grows t t := fun h => ⟨h, fun _ => le_rfl⟩

theorem Grows.trans_grows (a b c : BTreeIndex) (h1 : Grows a b) (h2 : Grows b c) :
    Grows a c := fun h =>
  ⟨(h2 (h1 h).1).1, fun g => le_trans ((h1 h).2 g) ((h2 (h1 h).1).2 g)⟩

theorem callBuf_state {α : Type} (op : BufMgr → Except Exn α × BufMgr) (t : BTreeIndex) :
    (callBuf op t).2 = { t with bufMgr := (op t.bufMgr).2 } := by
  unfold callBuf
  rcases hx : op t.bufMgr with ⟨r, b⟩
  cases r with
  | ok a => rfl
  | error e => rfl

theorem grows_read (f : FileId) (p : PageId) :
    Always Grows (callBuf (fun b => readPage b f p)) := by
  intro t hI
  rw [callBuf_state]
  obtain ⟨w1, hn⟩ := wf_readPage hI.1 hI.2 f p
  exact ⟨⟨w1, by rw [hn]; exact hI.2⟩, next_readPage_le hI.1 hI.2 f p⟩

theorem grows_alloc (f : FileId) : Always Grows (callBuf (fun b => allocPage b f)) := by
  intro t hI
  rw [callBuf_state]
  obtain ⟨w1, hn⟩ := wf_allocPage hI.1 hI.2 f
  exact ⟨⟨w1, by rw [hn]; exact hI.2⟩, next_allocPage_le hI.1 hI.2 f⟩

theorem grows_unpin (f : FileId) (p : PageId) (d : Bool) :
    Always Grows (callBuf (fun b => unPinPage b f p d)) := by
  intro t hI
  rw [callBuf_state]
  obtain ⟨w1, hn⟩ := wf_unPinPage hI.1 f p d
  refine ⟨⟨w1, by rw [hn]; exact hI.2⟩, fun g => ?_⟩
  show t.bufMgr.disk.next g ≤ (unPinPage t.bufMgr f p d).2.disk.next g
  rw [disk_unPinPage]

theorem grows_of_quiet {α : Type} {x : IndexM α} (h : Always SameBuf x) : Always Grows x := by
  intro t hI
  have hs := (h t).1
  refine ⟨hs.inv_same hI, fun g => ?_⟩
  rw [hs.2.2.2.1]

theorem grows_allocNode {page_set : FrameId → IndexM Unit}
    (hps : ∀ p, Always SameBuf (page_set p)) : Always Grows (allocNode page_set) := by
  unfold allocNode
  refine Always.bind_always Grows.trans_grows (always_readState Grows.refl_grows) (fun t => ?_)
  refine Always.bind_always Grows.trans_grows (grows_alloc _) (fun a => ?_)
  obtain ⟨newPageId, dummy⟩ := a
  exact Always.bind_always Grows.trans_grows (grows_of_quiet (hps dummy))
    (fun _ => always_pure Grows.refl_grows _)

theorem grows_handleLeafInsertion (page : PageId) (key : Int) (rid : RecordId) :
    Always Grows (handleLeafInsertion page key rid) := by
  unfold handleLeafInsertion
  refine Always.bind_always Grows.trans_grows (always_readState Grows.refl_grows) (fun t => ?_)
  refine Always.bind_always Grows.trans_grows (grows_read _ _) (fun pg => ?_)
  refine Always.bind_always Grows.trans_grows (always_getLeaf Grows.refl_grows _) (fun n => ?_)
  dsimp only
  apply always_ite
  · refine Always.bind_always Grows.trans_grows (always_assert Grows.refl_grows _) (fun _ => ?_)
    refine Always.bind_always Grows.trans_grows (grows_of_quiet (quiet_insertToLeaf _ _ _ _)) (fun _ => ?_)
    exact Always.bind_always Grows.trans_grows (grows_unpin _ _ _) (fun _ => always_pure Grows.refl_grows _)
  · refine Always.bind_always Grows.trans_grows (grows_allocNode quiet_page_set_LeafNodeInt) (fun a => ?_)
    obtain ⟨newPageNo, newNode⟩ := a
    dsimp only
    refine Always.bind_always Grows.trans_grows (grows_of_quiet (quiet_splitLeaf _ _ _ _)) (fun _ => ?_)
    have hjp : ∀ y : Unit, Always Grows ((fun _ => do
        let c ← getLeaf pg
        let n ← getLeaf newNode
        assert (decide (c.keyNum - n.keyNum ≤ 1 ∧ c.keyNum - n.keyNum ≥ -1))
        let newIndex ← arrayGet n.keyArray 0
        callBuf (fun b => unPinPage b t.file page true)
        callBuf (fun b => unPinPage b t.file newPageNo true)
        pure (newPageNo, newIndex) : Unit → IndexM (PageId × Int)) y) := by
      intro _
      refine Always.bind_always Grows.trans_grows (always_getLeaf Grows.refl_grows _) (fun c => ?_)
      refine Always.bind_always Grows.trans_grows (always_getLeaf Grows.refl_grows _) (fun m => ?_)
      refine Always.bind_always Grows.trans_grows (always_assert Grows.refl_grows _) (fun _ => ?_)
      refine Always.bind_always Grows.trans_grows (always_arrayGet Grows.refl_grows _ _) (fun _ => ?_)
      refine Always.bind_always Grows.trans_grows (grows_unpin _ _ _) (fun _ => ?_)
      exact Always.bind_always Grows.trans_grows (grows_unpin _ _ _) (fun _ => always_pure Grows.refl_grows _)
    apply always_ite
    · exact Always.bind_always Grows.trans_grows (grows_of_quiet (quiet_insertToLeaf _ _ _ _)) hjp
    · exact Always.bind_always Grows.trans_grows (grows_of_quiet (quiet_insertToLeaf _ _ _ _)) hjp

theorem grows_recursiveInsert (fuel : Nat) (page : PageId) (key : Int) (rid : RecordId)
    (isLeaf : Bool) : Always Grows (recursiveInsert fuel page key rid isLeaf) := by
  induction fuel generalizing page isLeaf with
  | zero => exact always_raise Grows.refl_grows _
  | succ n ih =>
    unfold recursiveInsert
    apply always_ite
    · exact grows_handleLeafInsertion _ _ _
    · refine Always.bind_always Grows.trans_grows (always_readState Grows.refl_grows) (fun t => ?_)
      refine Always.bind_always Grows.trans_grows (grows_read _ _) (fun pg => ?_)
      refine Always.bind_always Grows.trans_grows (always_getNonLeaf Grows.refl_grows _) (fun cur => ?_)
      dsimp only
      refine Always.bind_always Grows.trans_grows (always_arrayGet Grows.refl_grows _ _) (fun child => ?_)
      refine Always.bind_always Grows.trans_grows (ih _ _) (fun a => ?_)
      obtain ⟨newPageNo, newIndex⟩ := a
      dsimp only
      apply always_ite
      · exact Always.bind_always Grows.trans_grows (grows_unpin _ _ _) (fun _ => always_pure Grows.refl_grows _)
      · refine Always.bind_always Grows.trans_grows (always_getNonLeaf Grows.refl_grows _) (fun cur2 => ?_)
        dsimp only
        apply always_ite
        · refine Always.bind_always Grows.trans_grows (always_assert Grows.refl_grows _) (fun _ => ?_)
          refine Always.bind_always Grows.trans_grows
            (grows_of_quiet (quiet_insertToNonLeaf _ _ _ _)) (fun _ => ?_)
          exact Always.bind_always Grows.trans_grows (grows_unpin _ _ _)
            (fun _ => always_pure Grows.refl_grows _)
        · refine Always.bind_always Grows.trans_grows
            (grows_allocNode quiet_page_set_NonLeafNodeInt) (fun a => ?_)
          obtain ⟨newNonLeafPage, newNode⟩ := a
          dsimp only
          refine Always.bind_always Grows.trans_grows
            (grows_of_quiet (quiet_splitNonLeaf _ _ _)) (fun _ => ?_)
          have hjp : ∀ y : Unit, Always Grows ((fun _ => do
              let c ← getNonLeaf pg
              let n ← getNonLeaf newNode
              assert (decide (c.keyNum - n.keyNum ≤ 1 ∧ c.keyNum - n.keyNum ≥ -1))
              let newIndex2 ← deleteNewKeyNonLeaf newNode
              callBuf (fun b => unPinPage b t.file page true)
              callBuf (fun b => unPinPage b t.file newNonLeafPage true)
              pure (newNonLeafPage, newIndex2) : Unit → IndexM (PageId × Int)) y) := by
            intro _
            refine Always.bind_always Grows.trans_grows (always_getNonLeaf Grows.refl_grows _) (fun c => ?_)
            refine Always.bind_always Grows.trans_grows (always_getNonLeaf Grows.refl_grows _) (fun m => ?_)
            refine Always.bind_always Grows.trans_grows (always_assert Grows.refl_grows _) (fun _ => ?_)
            refine Always.bind_always Grows.trans_grows
              (grows_of_quiet (quiet_deleteNewKeyNonLeaf _)) (fun _ => ?_)
            refine Always.bind_always Grows.trans_grows (grows_unpin _ _ _) (fun _ => ?_)
            exact Always.bind_always Grows.trans_grows (grows_unpin _ _ _)
              (fun _ => always_pure Grows.refl_grows _)
          apply always_ite
          · exact Always.bind_always Grows.trans_grows
              (grows_of_quiet (quiet_insertToNonLeaf _ _ _ _)) hjp
          · exact Always.bind_always Grows.trans_grows
              (grows_of_quiet (quiet_insertToNewNonLeaf _ _ _ _)) hjp

theorem RootTo.trans_rootTo (id : PageId) (a b c : BTreeIndex) (h1 : RootTo id a b)
    (h2 : RootTo id b c) : RootTo id a c := by
  refine ⟨Grows.trans_grows a b c h1.1 h2.1, h2.2.1.trans h1.2.1,
    h2.2.2.1.trans h1.2.2.1, ?_⟩
  rcases h2.2.2.2 with h | h
  · rcases h1.2.2.2 with k | k
    · exact Or.inl (h.trans k)
    · exact Or.inr (h.trans k)
  · exact Or.inr h

theorem RootTo.refl_rootTo (id : PageId) (t : BTreeIndex) : RootTo id t t :=
  ⟨Grows.refl_grows t, rfl, rfl, Or.inl rfl⟩

theorem rootTo_step {α : Type} {x : IndexM α} (id : PageId) (hg : Always Grows x)
    (hm : Always Members x) : Always (RootTo id) x :=
  fun t => ⟨hg t, (hm t).1, (hm t).2.2.2.2.2, Or.inl (hm t).2.2.2.2.1⟩

/-- A bind whose continuation is examined only at the results its first part can
return with. -/
theorem rel_bind {α β : Type} {R : BTreeIndex → BTreeIndex → Prop}
    (htr : ∀ a b c, R a b → R b c → R a c) (x : IndexM α) (f : α → IndexM β) (t : BTreeIndex)
    (h1 : R t (x t).2) (h2 : ∀ a s, x t = (.ok a, s) → R s (f a s).2) :
    R t ((x >>= f) t).2 := by
  rw [bind_eq]
  rcases hx : x t with ⟨r, s⟩
  rw [hx] at h1
  cases r with
  | ok a => exact htr _ _ _ h1 (h2 a s hx)
  | error e => exact h1

theorem allocNode_id {page_set : FrameId → IndexM Unit} {t u : BTreeIndex}
    {r : PageId × FrameId} (hI : t.bufMgr.Inv) (h : allocNode page_set t = (.ok r, u)) :
    r.1 = t.bufMgr.disk.next t.file := by
  unfold allocNode at h
  obtain ⟨t0, t1, e, h1⟩ := bind_ok h
  clear h
  obtain ⟨rfl, rfl⟩ := readState_inv e
  obtain ⟨a, t1, e1, h2⟩ := bind_ok h1
  clear h1
  obtain ⟨hok, -⟩ := callBuf_inv e1
  obtain ⟨-, hnew⟩ := allocPage_ok_holds hI.1 hI.2 hok
  obtain ⟨newPageId, dummy⟩ := a
  dsimp only at h2 hnew
  obtain ⟨_, t2, e2, h3⟩ := bind_ok h2
  obtain ⟨hp, -⟩ := pure_inv h3
  rw [← hp]
  exact hnew

/-- Whatever its outcome, `splitRoot` leaves `rootPageNum` as it was or sets it to the
page number the file hands out for the new root. -/
theorem splitRoot_rootTo (key : Int) (left right : PageId) (t : BTreeIndex)
    (hI : t.bufMgr.Inv) :
    RootTo (t.bufMgr.disk.next t.file) t (splitRoot key left right t).2 := by
  unfold splitRoot
  refine rel_bind (RootTo.trans_rootTo _) _ _ t
    (rootTo_step _ (grows_allocNode quiet_page_set_NonLeafNodeInt)
      (members_allocNode quiet_page_set_NonLeafNodeInt) t) ?_
  intro a s hA
  have hid := allocNode_id hI hA
  obtain ⟨newId, fr⟩ := a
  dsimp only at hid ⊢
  rw [← hid]
  clear hA hid hI
  revert s
  show Always (RootTo newId) _
  refine Always.bind_always (RootTo.trans_rootTo _)
    (always_getNonLeaf (RootTo.refl_rootTo _) _) (fun n => ?_)
  refine Always.bind_always (RootTo.trans_rootTo _)
    (always_readState (RootTo.refl_rootTo _)) (fun t1 => ?_)
  apply always_ite
  · exact always_raise (RootTo.refl_rootTo _) _
  · refine Always.bind_always (RootTo.trans_rootTo _)
      (rootTo_step _ (grows_of_quiet (quiet_setNonLeaf _ _))
        (members_of_quiet (quiet_setNonLeaf _ _))) (fun _ => ?_)
    refine Always.bind_always (RootTo.trans_rootTo _)
      (always_modifyState _ (fun a => ⟨fun h => ⟨h, fun _ => le_rfl⟩, rfl, rfl, Or.inl rfl⟩))
      (fun _ => ?_)
    refine Always.bind_always (RootTo.trans_rootTo _)
      (rootTo_step _ (grows_unpin _ _ _) (members_callBuf _)) (fun _ => ?_)
    refine Always.bind_always (RootTo.trans_rootTo _)
      (always_modifyState _ (fun a => ⟨fun h => ⟨h, fun _ => le_rfl⟩, rfl, rfl, Or.inr rfl⟩))
      (fun _ => ?_)
    refine Always.bind_always (RootTo.trans_rootTo _)
      (rootTo_step _ (grows_read _ _) (members_callBuf _)) (fun pg => ?_)
    refine Always.bind_always (RootTo.trans_rootTo _)
      (always_getMeta (RootTo.refl_rootTo _) _) (fun m => ?_)
    refine Always.bind_always (RootTo.trans_rootTo _)
      (rootTo_step _ (grows_of_quiet (quiet_setMeta _ _))
        (members_of_quiet (quiet_setMeta _ _))) (fun _ => ?_)
    exact rootTo_step _ (grows_unpin _ _ _) (members_callBuf _)

/-- When `splitRoot` returns, `rootPageNum` is the page number the file handed out for
the new root. -/
theorem splitRoot_sets_root {key : Int} {left right : PageId} {t u : BTreeIndex} {a : Unit}
    (hI : t.bufMgr.Inv) (h : splitRoot key left right t = (.ok a, u)) :
    u.rootPageNum = t.bufMgr.disk.next t.file := by
  unfold splitRoot at h
  obtain ⟨a, t2, e1, h1⟩ := bind_ok h
  clear h
  have hid := allocNode_id hI e1
  obtain ⟨newId, fr⟩ := a
  dsimp only at h1 hid
  obtain ⟨n, t2c, e2, h2⟩ := bind_ok h1
  clear h1
  obtain ⟨-, rfl⟩ := getNonLeaf_inv e2
  obtain ⟨ts, t2d, e3, h3⟩ := bind_ok h2
  clear h2
  obtain ⟨rfl, rfl⟩ := readState_inv e3
  clear e2 e3
  split at h3
  · exact (raise_not_ok h3).elim
  · obtain ⟨_, t3, e4, h4⟩ := bind_ok h3
    clear h3
    obtain ⟨_, t4, e5, h5⟩ := bind_ok h4
    clear h4
    obtain ⟨_, t5, e6, h6⟩ := bind_ok h5
    clear h5
    obtain ⟨_, t6, e7, h7⟩ := bind_ok h6
    clear h6
    obtain rfl := modifyState_inv e7
    obtain ⟨hfr, t7, e8, h8⟩ := bind_ok h7
    clear h7
    have M7 := (members_callBuf _).ok e8
    obtain ⟨m, t7b, e9, h9⟩ := bind_ok h8
    clear h8
    obtain ⟨-, rfl⟩ := getMeta_inv e9
    obtain ⟨_, t8, e10, h10⟩ := bind_ok h9
    clear h9
    have M8 := (members_of_quiet (quiet_setMeta _ _)).ok e10
    have M9 := (members_callBuf _).ok h10
    rw [M9.2.2.2.2.1, M8.2.2.2.2.1, M7.2.2.2.2.1]
    exact hid

/-- One call of `insertEntry`, whatever its outcome, on an index whose initial root
page number has been handed out by the file: the pool invariant, the file handle and
`initialRootPageNum` are kept; `rootPageNum` is kept or becomes a page number the file
had not handed out before the call; it changes only in a call that reaches
`splitRoot`; and a call that reaches `splitRoot` and returns has changed it. -/
theorem insertEntry_root (fuel : Nat) (key : Int) (rid : RecordId) (t : BTreeIndex)
    (hI : t.bufMgr.Inv) (hfresh : t.initialRootPageNum < t.bufMgr.disk.next t.file) :
    (insertEntry fuel key rid t).2.bufMgr.Inv ∧
    (insertEntry fuel key rid t).2.file = t.file ∧
    (insertEntry fuel key rid t).2.initialRootPageNum = t.initialRootPageNum ∧
    (insertEntry fuel key rid t).2.initialRootPageNum
      < (insertEntry fuel key rid t).2.bufMgr.disk.next (insertEntry fuel key rid t).2.file ∧
    ((insertEntry fuel key rid t).2.rootPageNum = t.rootPageNum ∨
      t.bufMgr.disk.next t.file ≤ (insertEntry fuel key rid t).2.rootPageNum) ∧
    ((insertEntry fuel key rid t).2.rootPageNum ≠ t.rootPageNum →
      splitsRoot fuel key rid t = true) ∧
    ((insertEntry fuel key rid t).1 = .ok () → splitsRoot fuel key rid t = true →
      t.bufMgr.disk.next t.file ≤ (insertEntry fuel key rid t).2.rootPageNum) := by
  have G := grows_recursiveInsert fuel t.rootPageNum key rid
    (decide (t.rootPageNum = t.initialRootPageNum)) t
  have M := members_recursiveInsert fuel t.rootPageNum key rid
    (decide (t.rootPageNum = t.initialRootPageNum)) t
  rcases hR : recursiveInsert fuel t.rootPageNum key rid
    (decide (t.rootPageNum = t.initialRootPageNum)) t with ⟨res, s⟩
  rw [hR] at G M
  dsimp only at G M
  obtain ⟨Is, Ns⟩ := G hI
  have hsfresh : s.initialRootPageNum < s.bufMgr.disk.next s.file := by
    rw [M.2.2.2.2.2, M.1]
    exact lt_of_lt_of_le hfresh (Ns t.file)
  cases res with
  | error e =>
    have hrun : insertEntry fuel key rid t = (.error e, s) := by
      unfold insertEntry
      simp only [bind_eq, readState]
      rw [hR]
    have hsp : splitsRoot fuel key rid t = false := by
      unfold splitsRoot
      rw [hR]
    rw [hrun, hsp]
    refine ⟨Is, M.1, M.2.2.2.2.2, hsfresh, Or.inl M.2.2.2.2.1, ?_, ?_⟩
    · intro h
      exact absurd M.2.2.2.2.1 h
    · intro h
      exact Except.noConfusion h
  | ok r =>
    obtain ⟨pn, k⟩ := r
    have hrun := insertEntry_run fuel key rid t s pn k hR
    by_cases hpn : pn = 0
    · rw [if_neg (not_not.2 hpn)] at hrun
      have hsp : splitsRoot fuel key rid t = false := by
        unfold splitsRoot
        rw [hR]
        exact decide_eq_false (not_not.2 hpn)
      rw [hrun, hsp]
      refine ⟨Is, M.1, M.2.2.2.2.2, hsfresh, Or.inl M.2.2.2.2.1, ?_, ?_⟩
      · intro h
        exact absurd M.2.2.2.2.1 h
      · intro _ h
        exact Bool.noConfusion h
    · rw [if_pos hpn] at hrun
      have hsp : splitsRoot fuel key rid t = true := by
        unfold splitsRoot
        rw [hR]
        exact decide_eq_true hpn
      have R := splitRoot_rootTo k t.rootPageNum pn s Is
      have hge : t.bufMgr.disk.next t.file ≤ s.bufMgr.disk.next s.file := by
        rw [M.1]
        exact Ns t.file
      rw [hrun, hsp]
      obtain ⟨Iu, Nu⟩ := R.1 Is
      refine ⟨Iu, R.2.1.trans M.1, R.2.2.1.trans M.2.2.2.2.2, ?_, ?_, fun _ => rfl, ?_⟩
      · rw [R.2.2.1, R.2.1]
        exact lt_of_lt_of_le hsfresh (Nu s.file)
      · rcases R.2.2.2 with h | h
        · exact Or.inl (h.trans M.2.2.2.2.1)
        · right
          rw [h]
          exact hge
      · intro hok _
        rcases hS : splitRoot k t.rootPageNum pn s with ⟨r2, u⟩
        rw [hS] at hok
        dsimp only at hok
        rw [hok] at hS
        show t.bufMgr.disk.next t.file ≤ u.rootPageNum
        rw [splitRoot_sets_root Is hS]
        exact hge

/-- A run of `insertEntry` calls, whatever their outcomes, on an index whose initial
root page number has been handed out by the file. -/
theorem insertRun_root (fuel : Nat) (l : List (Int × RecordId)) : ∀ (t : BTreeIndex),
    t.bufMgr.Inv → t.initialRootPageNum < t.bufMgr.disk.next t.file →
    ((insertRun fuel l t).bufMgr.Inv ∧ (insertRun fuel l t).file = t.file ∧
      (insertRun fuel l t).initialRootPageNum = t.initialRootPageNum ∧
      (insertRun fuel l t).initialRootPageNum
        < (insertRun fuel l t).bufMgr.disk.next (insertRun fuel l t).file) ∧
    (t.rootPageNum ≠ t.initialRootPageNum →
      (insertRun fuel l t).rootPageNum ≠ (insertRun fuel l t).initialRootPageNum) ∧
    (t.rootPageNum = t.initialRootPageNum →
      (insertRun fuel l t).rootPageNum ≠ (insertRun fuel l t).initialRootPageNum →
      rootSplitIn fuel l t = true) ∧
    (t.rootPageNum = t.initialRootPageNum → allReturn fuel l t = true →
      rootSplitIn fuel l t = true →
      (insertRun fuel l t).rootPageNum ≠ (insertRun fuel l t).initialRootPageNum) := by
  induction l with
  | nil =>
    intro t hI hfresh
    refine ⟨⟨hI, rfl, rfl, hfresh⟩, fun h => h, fun h k => absurd h k, fun _ _ h => ?_⟩
    exact Bool.noConfusion h
  | cons x r ih =>
    intro t hI hfresh
    obtain ⟨key, rid⟩ := x
    obtain ⟨I1, F1, N1, J1, hroot, hch, hsplit⟩ := insertEntry_root fuel key rid t hI hfresh
    obtain ⟨⟨Iu, Fu, Nu, Ju⟩, B, C, D⟩ := ih (insertEntry fuel key rid t).2 I1 J1
    have hfar : t.bufMgr.disk.next t.file ≤ (insertEntry fuel key rid t).2.rootPageNum →
        (insertEntry fuel key rid t).2.rootPageNum
          ≠ (insertEntry fuel key rid t).2.initialRootPageNum := by
      intro hge heq
      rw [heq, N1] at hge
      exact absurd (lt_of_lt_of_le hfresh hge) (lt_irrefl _)
    have hun : insertRun fuel ((key, rid) :: r) t
        = insertRun fuel r (insertEntry fuel key rid t).2 := rfl
    have hsp : rootSplitIn fuel ((key, rid) :: r) t
        = (splitsRoot fuel key rid t || rootSplitIn fuel r (insertEntry fuel key rid t).2) := rfl
    have har : allReturn fuel ((key, rid) :: r) t
        = (decide ((insertEntry fuel key rid t).1 = .ok ()) &&
            allReturn fuel r (insertEntry fuel key rid t).2) := rfl
    rw [hun, hsp, har]
    refine ⟨⟨Iu, Fu.trans F1, Nu.trans N1, Ju⟩, ?_, ?_, ?_⟩
    · intro hne
      apply B
      rcases hroot with h | h
      · rw [h, N1]
        exact hne
      · exact hfar h
    · intro heq hne
      by_cases hs : splitsRoot fuel key rid t = true
      · rw [hs]
        rfl
      · have hsame : (insertEntry fuel key rid t).2.rootPageNum = t.rootPageNum := by
          by_contra hc
          exact hs (hch hc)
        rw [Bool.or_eq_true]
        exact Or.inr (C (by rw [hsame, N1]; exact heq) hne)
    · intro heq hall hany
      rw [Bool.and_eq_true] at hall
      rw [Bool.or_eq_true] at hany
      by_cases hs : splitsRoot fuel key rid t = true
      · exact B (hfar (hsplit (of_decide_eq_true hall.1) hs))
      · have hsame : (insertEntry fuel key rid t).2.rootPageNum = t.rootPageNum := by
          by_contra hc
          exact hs (hch hc)
        rcases hany with h | h
        · exact absurd h hs
        · exact D (by rw [hsame, N1]; exact heq) hall.2 h

/-- C31. The root-is-leaf predicate across calls of insertEntry.  The run starts from an
index whose root is the initial root (`rootPageNum = initialRootPageNum`), on a pool
that satisfies its invariant, where the initial root page number is one the file has
handed out; the file hands out increasing page numbers, so none twice.  After the
calls of `insertEntry` for the entries of `l`, whatever the outcome of each call:
`initialRootPageNum` is the one of the start; if the root differs from the initial root,
then some call of the run reached `splitRoot`; if every call returned normally, the
root is the initial root if and only if no call reached `splitRoot`; and once the root
differs from the initial root, it differs after every further run of calls. -/
theorem root_is_leaf_predicate (fuel : Nat) (l : List (Int × RecordId)) (t : BTreeIndex)
    (hI : t.bufMgr.Inv) (hroot : t.rootPageNum = t.initialRootPageNum)
    (hfresh : t.initialRootPageNum < t.bufMgr.disk.next t.file) :
    (insertRun fuel l t).initialRootPageNum = t.initialRootPageNum ∧
    ((insertRun fuel l t).rootPageNum ≠ (insertRun fuel l t).initialRootPageNum →
      rootSplitIn fuel l t = true) ∧
    (allReturn fuel l t = true →
      ((insertRun fuel l t).rootPageNum = (insertRun fuel l t).initialRootPageNum ↔
        rootSplitIn fuel l t = false)) ∧
    ((insertRun fuel l t).rootPageNum ≠ (insertRun fuel l t).initialRootPageNum →
      ∀ l2 : List (Int × RecordId),
        (insertRun fuel l2 (insertRun fuel l t)).rootPageNum
          ≠ (insertRun fuel l2 (insertRun fuel l t)).initialRootPageNum) := by
  obtain ⟨⟨Iu, Fu, Nu, Ju⟩, -, C, D⟩ := insertRun_root fuel l t hI hfresh
  refine ⟨Nu, C hroot, ?_, ?_⟩
  · intro hall
    constructor
    · intro heq
      cases hs : rootSplitIn fuel l t with
      | false => rfl
      | true => exact absurd heq (D hroot hall hs)
    · intro hno
      by_contra hne
      rw [C hroot hne] at hno
      exact Bool.noConfusion hno
  · intro hne l2
    exact (insertRun_root fuel l2 (insertRun fuel l t) Iu Ju).2.1 hne

theorem root_is_leaf_predicate_witness :
    (insertRun 10 ((keysUpTo 5).map (fun k => (k, ridOf k))) (builtIndex []).2).rootPageNum
        = (insertRun 10 ((keysUpTo 5).map (fun k => (k, ridOf k)))
            (builtIndex []).2).initialRootPageNum ↔
      rootSplitIn 10 ((keysUpTo 5).map (fun k => (k, ridOf k))) (builtIndex []).2 = false :=
  (root_is_leaf_predicate 10 ((keysUpTo 5).map (fun k => (k, ridOf k))) (builtIndex []).2
    (builtIndex_inv [] (by decide!)) (by decide!) (by decide!)).2.2.1 (by decide!)

end badgerdb
